import Mathlib

/-!
# Render-graph compiler passes (`src/src/IRPasses.cpp`)

A shallow embedding of the passes of the render-graph compiler (reachability,
link building, rewriting, reification, scheduling, queue inference,
partitioning, synchronisation and validation), and theorems about them.

Conventions of the embedding.

* A `Node*` is the position of the node in the working set `impl->nodes`
  (`RGCImpl::build_nodes` marks every node before it pushes it, so the
  pointers of the working set are pairwise distinct).  The null pointer is
  `none`; a position past the end of the list stands for a node outside the
  working set.  Where a pass walks the node arena of a module (`build_nodes`,
  the garbage collection, `rewrite`), a `Node*` is the position of the node in
  the arena, and `impl->nodes` is a list of such positions.
* A `ChainLink*` is the pair (node, result index) of the link
  `node->links[index]`.
* A `ScheduledItem*` is the position of the item in `scheduled_execables`.
* `size_t` counters are natural numbers: every counted edge is backed by a
  stored `Ref`, so a count never reaches `2^64`.  The adjacency matrix is a
  vector of `uint8_t`, and its cells are kept modulo `2^8`.
* The `assert(false)` of `schedule_intra_queue` is recorded in the outcome of
  the pass and does not stop it; so are the assertions of the link builder, of
  `collect_chains` and of `build_sync`.  Where the code has no defined value (a failed
  assertion whose variable is read afterwards, a null or dangling pointer that
  is dereferenced, a pointer loop that does not end within the given fuel) the
  model returns `none`.
* Constants, helpers and types that are declared outside `src/`
  (`DomainFlagBits`, the `Access` helpers, the equality of `Buffer`,
  `intersect_one`) are parameters of the definitions that use them.
* The vector `partitioned_execables`, into which `pass_partitioning` keeps
  spans, carries its capacity and the number of its allocation: a span is the
  allocation it points into, an index and a length.  `reserve(n)` on a smaller
  capacity allocates `n` elements, as the standard libraries do; the capacity
  after a reallocation in `push_back` is a parameter.
* The members of a node's union are kept in `args`: `slice.image` is
  argument 0 of a `SLICE` node, and `slice.base_level`, `slice.level_count`,
  `slice.base_layer`, `slice.layer_count` are its arguments 1 to 4.
-/

namespace Vuk

/-! ## Data model -/

/-- The `Node::Kind` tags that the passes switch on. -/
inductive NodeKind
  | PLACEHOLDER
  | CONSTANT
  | CONSTRUCT
  | SLICE
  | CONVERGE
  | CALL
  | CLEAR
  | MATH_BINARY
  | SPLICE
  | ACQUIRE_NEXT_IMAGE
  | EXTRACT
  | GARBAGE
  deriving DecidableEq, Repr

/-- An `Access` is a bit mask (`acc & (eMemoryRW | ...)` in `access_to_usage`). -/
abbrev Access := Nat

/-- The interned `Type` descriptors, as far as the passes inspect them. -/
inductive Ty
  | INTEGER_TY (width : Nat)
  | MEMORY_TY
  | IMAGE
  | BUFFER
  | SWAPCHAIN
  | ARRAY_TY (T : Ty) (count : Nat)
  | IMBUED_TY (T : Ty) (access : Access)
  | ALIASED_TY (T : Ty) (ref_idx : Nat)
  | OPAQUE_FN_TY (args : List Ty) (return_types : List Ty)
  | SHADER_FN_TY (args : List Ty) (return_types : List Ty)

/-- A `Ref`: one result of one node.  `node = none` is the null `Ref`. -/
structure Ref where
  node : Option Nat
  index : Nat
  deriving DecidableEq, Repr

/-- A `ChainLink*`: the link `node->links[index]`. -/
structure LinkPtr where
  node : Nat
  index : Nat
  deriving DecidableEq, Repr

/-- The `ImageLayout` values that `build_sync` assigns. -/
inductive ImageLayout
  | eUndefined
  | eGeneral
  | eReadOnlyOptimalKHR
  | eTransferSrcOptimal
  deriving DecidableEq, Repr

/-- A `ResourceUse`: pipeline stages and access flags (bit masks) and an image
layout.  The type is declared outside the sources at hand; a variable of it
that is declared without an initialiser has empty masks, which is the default
of the flag types. -/
structure ResourceUse where
  stages : Nat := 0
  access : Nat := 0
  layout : ImageLayout := ImageLayout.eUndefined
  deriving DecidableEq, Repr

/-- A `ChainLink`; `reads` is the span `reads.to_span(pass_reads)`,
`child_chains` the span `child_chains.to_span(child_chains)`, `undef_sync` and
`read_sync` are the two optional uses that `build_sync` fills. -/
structure ChainLink where
  def_ : Ref := ⟨none, 0⟩
  undef : Ref := ⟨none, 0⟩
  reads : List Ref := []
  prev : Option LinkPtr := none
  next : Option LinkPtr := none
  urdef : Ref := ⟨none, 0⟩
  child_chains : List LinkPtr := []
  undef_sync : Option ResourceUse := none
  read_sync : Option ResourceUse := none
  deriving DecidableEq, Repr

/-- An `Image`: the handle and its allocation.  Handle 0 is `VK_NULL_HANDLE`. -/
structure Image where
  image : Nat := 0
  allocation : Nat := 0
  deriving DecidableEq, Repr

/-- The member `extent` of an `ImageAttachment`. -/
structure Dimension3D where
  sizing : Nat := 0
  width : Nat := 0
  height : Nat := 0
  depth : Nat := 0
  deriving DecidableEq, Repr

/-- An `ImageAttachment` (`include/vuk/ImageAttachment.hpp`), member by member.
Its `operator==` is defaulted, so two attachments are equal when all members
are, which is the derived equality here. -/
structure ImageAttachment where
  image : Image := {}
  image_view : Nat := 0
  image_flags : Nat := 0
  image_type : Nat := 0
  tiling : Nat := 0
  usage : Nat := 0
  extent : Dimension3D := {}
  format : Nat := 0
  sample_count : Nat := 0
  allow_srgb_unorm_mutable : Bool := false
  image_view_flags : Nat := 0
  view_type : Nat := 0
  components : Nat := 0
  layout : Nat := 0
  base_level : Nat := 0
  level_count : Nat := 0
  base_layer : Nat := 0
  layer_count : Nat := 0
  deriving DecidableEq, Repr

/-- A `Buffer`: the handle `buffer` (0 is `VK_NULL_HANDLE`), `size`, and the
members that the passes do not read.  The type is declared outside the sources
at hand. -/
structure Buffer where
  buffer : Nat := 0
  size : Nat := 0
  members : Nat := 0
  deriving DecidableEq, Repr

/-- What `constant.value` or `splice.values[i]` points to. -/
inductive ConstantValue
  | unset
  | image (ia : ImageAttachment)
  | buffer (buf : Buffer)
  | swapchain (ptr : Nat)
  | bytes (data : Nat)
  deriving DecidableEq, Repr

/-- The enumeration `Signal::Status`. -/
inductive SignalStatus
  | eDisarmed
  | eSynchronizable
  | eHostAvailable
  deriving DecidableEq, Repr

/-- A `Node`.  `links` has one entry per result (`allocate_node_links`),
`args` are the generic arguments, `scheduled_item` points into
`scheduled_execables`, `scheduling_info` holds `required_domains`,
`constant_value` is `constant.value`, `rel_acq` is the status of
`splice.rel_acq` (`none` when the pointer is null), `values` is
`splice.values`, `index` is the creation index `node->index`, `flag` the mark
of `build_nodes`, `dst_access` and `dst_domain` are the members of a splice,
`write` is `converge.write`, `owned` is `constant.owned`. -/
structure Node where
  kind : NodeKind
  type : List Ty := []
  links : List ChainLink := []
  args : List Ref := []
  scheduled_item : Option Nat := none
  scheduling_info : Option Nat := none
  constant_value : ConstantValue := ConstantValue.unset
  rel_acq : Option SignalStatus := none
  values : List ConstantValue := []
  index : Nat := 0
  flag : Nat := 0
  dst_access : Access := 0
  dst_domain : Nat := 0
  write : List Bool := []
  owned : Bool := false

/-- The `DomainFlagBits` constants that the passes name.  The enumeration is
declared outside the sources at hand, so its values are parameters. -/
structure DomainFlagBits where
  eTransferQueue : Nat
  eComputeQueue : Nat
  eGraphicsQueue : Nat
  eDevice : Nat
  eAny : Nat

/-- A `ScheduledItem`. -/
structure ScheduledItem where
  execable : Nat
  scheduled_domain : Nat
  deriving DecidableEq, Repr

/-- The value or error carried by a `Result<void>`. -/
inductive Result
  | expected_value
  | expected_error (offender : Option Nat) (message : String)
  deriving DecidableEq, Repr

/-- The kind of the node behind a pointer, if the pointer is in the working set. -/
def kind_of (nodes : List Node) (p : Nat) : Option NodeKind :=
  (nodes[p]?).map Node.kind

/-! ## `RGCImpl::schedule_intra_queue` -/

/-- The kinds that the first `switch` of `schedule_intra_queue` enters into
`schedule_items`. -/
def is_schedulable : NodeKind → Bool
  | .CONSTRUCT => true
  | .CALL => true
  | .CLEAR => true
  | .MATH_BINARY => true
  | .SPLICE => true
  | .CONVERGE => true
  | _ => false

/-- The vector `schedule_items`: the schedulable nodes in working-set order. -/
def schedule_items (nodes : List Node) : List Nat :=
  (List.range nodes.length).filter
    (fun p => match kind_of nodes p with
      | some k => is_schedulable k
      | none => false)

/-- The map `node_to_schedule`: `none` when `count(node) == 0`. -/
def node_to_schedule (items : List Nat) (node : Option Nat) : Option Nat :=
  match node with
  | none => none
  | some n => if n ∈ items then some (items.indexOf n) else none

/-- The edges that the second loop enters for one link, in program order:
`def -> undef`, then for each schedulable read `def -> read` and
`read -> undef`. -/
def edges_of_link (items : List Nat) (link : ChainLink) : List (Nat × Nat) :=
  (match node_to_schedule items link.undef.node, node_to_schedule items link.def_.node with
    | some u, some d => [(d, u)]
    | _, _ => []) ++
  link.reads.flatMap (fun read =>
    match node_to_schedule items read.node with
    | none => []
    | some r =>
      (match node_to_schedule items link.def_.node with
        | some d => [(d, r)]
        | none => []) ++
      (match node_to_schedule items link.undef.node with
        | some u => [(r, u)]
        | none => []))

/-- All edges entered by the second loop, over every link of every node. -/
def edges_of_nodes (nodes : List Node) : List (Nat × Nat) :=
  nodes.flatMap (fun node => node.links.flatMap (edges_of_link (schedule_items nodes)))

/-- The vectors `indegrees` and `adjacency_matrix`. -/
structure Adjacency where
  indegrees : List Nat
  adjacency_matrix : List Nat

/-- Entering the edge `src -> dst`: `indegrees[dst]++` on a `size_t` and
`adjacency_matrix[src * size + dst]++` on a `uint8_t`. -/
def add_edge (size : Nat) (a : Adjacency) (e : Nat × Nat) : Adjacency :=
  { indegrees := a.indegrees.set e.2 (a.indegrees.getD e.2 0 + 1)
    adjacency_matrix :=
      a.adjacency_matrix.set (e.1 * size + e.2)
        ((a.adjacency_matrix.getD (e.1 * size + e.2) 0 + 1) % 256) }

/-- The state of both vectors after the second loop. -/
def build_adjacency (nodes : List Node) : Adjacency :=
  let size := (schedule_items nodes).length
  (edges_of_nodes nodes).foldl (add_edge size)
    { indegrees := List.replicate size 0
      adjacency_matrix := List.replicate (size * size) 0 }

/-- The mutable state of the Kahn loop.  `process_queue` is kept with the
back of the vector at the head of the list. -/
structure DrainState where
  nodes : List Node
  indegrees : List Nat
  process_queue : List Nat
  scheduled_execables : List ScheduledItem

/-- The cell `adjacency_matrix[src * size + dst]`. -/
def adj_value (size : Nat) (adjacency_matrix : List Nat) (src dst : Nat) : Nat :=
  adjacency_matrix.getD (src * size + dst) 0

/-- One round of the inner `for` loop, on the pair (`indegrees`,
`process_queue`): the edge from `pop_idx` to `i`. -/
def relax (size : Nat) (adjacency_matrix : List Nat) (pop_idx : Nat)
    (st : List Nat × List Nat) (i : Nat) : List Nat × List Nat :=
  if i = pop_idx then st
  else if adj_value size adjacency_matrix pop_idx i > 0 then
    if st.1.getD i 0 - adj_value size adjacency_matrix pop_idx i = 0
    then (st.1.set i (st.1.getD i 0 - adj_value size adjacency_matrix pop_idx i), i :: st.2)
    else (st.1.set i (st.1.getD i 0 - adj_value size adjacency_matrix pop_idx i), st.2)
  else st

/-- The statement `scheduled_execables.emplace(item)` with the back pointer
`it->execable->scheduled_item = &*it`. -/
def emplace_item (c : DomainFlagBits) (execable : Nat) (st : DrainState) : DrainState :=
  { st with
    scheduled_execables := st.scheduled_execables ++ [⟨execable, c.eAny⟩]
    nodes := match st.nodes[execable]? with
      | some n =>
        st.nodes.set execable { n with scheduled_item := some st.scheduled_execables.length }
      | none => st.nodes }

/-- One iteration of the `while (process_queue.size() > 0)` loop. -/
def drain_step (c : DomainFlagBits) (items : List Nat) (adjacency_matrix : List Nat)
    (st : DrainState) : DrainState :=
  match st.process_queue with
  | [] => st
  | pop_idx :: rest =>
    let execable := items.getD pop_idx 0
    let st1 := if kind_of st.nodes execable ≠ some NodeKind.CONSTRUCT
      then emplace_item c execable st else st
    let r := (List.range items.length).foldl (relax items.length adjacency_matrix pop_idx)
      (st1.indegrees, rest)
    { st1 with indegrees := r.1, process_queue := r.2 }

/-- The `while` loop, run for at most `fuel` iterations. -/
def drain (c : DomainFlagBits) (items : List Nat) (adjacency_matrix : List Nat) :
    Nat → DrainState → DrainState
  | 0, st => st
  | fuel + 1, st =>
    match st.process_queue with
    | [] => st
    | _ :: _ => drain c items adjacency_matrix fuel (drain_step c items adjacency_matrix st)

/-- The indices popped by the first `fuel` iterations of the `while` loop, in
the order of popping. -/
def pop_order (c : DomainFlagBits) (items : List Nat) (adjacency_matrix : List Nat) :
    Nat → DrainState → List Nat
  | 0, _ => []
  | fuel + 1, st =>
    match st.process_queue with
    | [] => []
    | pop_idx :: _ =>
      pop_idx :: pop_order c items adjacency_matrix fuel (drain_step c items adjacency_matrix st)

/-- The initial `process_queue`: every index of indegree zero, pushed in
increasing order. -/
def initial_queue (indegrees : List Nat) : List Nat :=
  ((List.range indegrees.length).filter (fun i => indegrees.getD i 0 = 0)).reverse

/-- What `schedule_intra_queue` leaves behind. -/
structure ScheduleOutcome where
  nodes : List Node
  scheduled_execables : List ScheduledItem
  indegrees : List Nat
  process_queue : List Nat
  assert_failed : Bool
  result : Result

/-- The pass `RGCImpl::schedule_intra_queue`, entered with
`scheduled_execables` as given.  The Kahn loop pops each index at most once,
so `size` iterations drain the queue (`drain_empties_queue`).  The final loop
reaches `assert(false)` when an indegree is still positive; the function has
one `return`, of `expected_value`. -/
def schedule_intra_queue (c : DomainFlagBits) (nodes : List Node)
    (scheduled_execables : List ScheduledItem) : ScheduleOutcome :=
  let items := schedule_items nodes
  let a := build_adjacency nodes
  let st := drain c items a.adjacency_matrix items.length
    { nodes := nodes
      indegrees := a.indegrees
      process_queue := initial_queue a.indegrees
      scheduled_execables := scheduled_execables }
  { nodes := st.nodes
    scheduled_execables := st.scheduled_execables
    indegrees := st.indegrees
    process_queue := st.process_queue
    assert_failed := st.indegrees.any (fun ind => decide (ind > 0))
    result := Result.expected_value }

/-- The nodes of the scheduled items, in the order of `scheduled_execables`. -/
def scheduled_order (c : DomainFlagBits) (nodes : List Node) : List Nat :=
  (schedule_intra_queue c nodes []).scheduled_execables.map ScheduledItem.execable

/-! ### Specification vocabulary for the scheduler -/

/-- The number of edges `p -> i` that the second loop enters. -/
def edge_count (nodes : List Node) (p i : Nat) : Nat :=
  (edges_of_nodes nodes).count (p, i)

/-- What the second loop establishes about both vectors, for an edge count `cnt`. -/
structure EdgeFacts (S : Nat) (m ind0 : List Nat) (cnt : Nat → Nat → Nat) : Prop where
  len0 : ind0.length = S
  adj_eq : ∀ p i, p < S → i < S → adj_value S m p i = cnt p i % 256
  ind_eq : ∀ i, i < S → ind0.getD i 0 = ∑ p in Finset.range S, cnt p i

/-- The invariant of the Kahn loop; `P` lists the indices popped so far. -/
structure KahnInv (S : Nat) (m ind0 : List Nat) (ind q P : List Nat) : Prop where
  nodupP : P.Nodup
  ltP : ∀ x ∈ P, x < S
  nodupQ : q.Nodup
  ltQ : ∀ x ∈ q, x < S
  disj : ∀ x ∈ q, x ∉ P
  len : ind.length = S
  bal : ∀ i, i < S → ind.getD i 0 + ∑ p in P.toFinset.erase i, adj_value S m p i = ind0.getD i 0
  zero : ∀ i, i < S → (ind.getD i 0 = 0 ↔ (i ∈ q ∨ i ∈ P))

/-- Every predecessor of a popped index was popped before it. -/
def PredsBefore (cnt : Nat → Nat → Nat) (P : List Nat) : Prop :=
  ∀ i ∈ P, ∀ p, 0 < cnt p i → p ∈ P ∧ P.indexOf p < P.indexOf i


/-- A dependency edge of the scheduler, between indices of `schedule_items`. -/
def Depends (nodes : List Node) (p i : Nat) : Prop :=
  0 < edge_count nodes p i

/-- Two calls that each write the result of the other: a cycle of two edges. -/
def two_cycle : List Node :=
  [ { kind := NodeKind.CALL
      links := [{ def_ := ⟨some 0, 0⟩, undef := ⟨some 1, 1⟩ }] },
    { kind := NodeKind.CALL
      links := [{ def_ := ⟨some 1, 0⟩, undef := ⟨some 0, 1⟩ }] } ]

/-- A call (node 0) whose result is read by 256 parameters of another call
(node 1): the only edges are 256 edges from node 0 to node 1. -/
def wide_read : List Node :=
  [ { kind := NodeKind.CALL
      links := [{ def_ := ⟨some 0, 0⟩
                  reads := (List.range 256).map (fun i => (⟨some 1, i + 1⟩ : Ref)) }] },
    { kind := NodeKind.CALL } ]


/-! ## `Compiler::queue_inference` -/

/-- The function `pick_first_domain`: it returns its mask unchanged. -/
def pick_first_domain (f : Nat) : Nat := f

/-- What the lambda `propagate_domain` reads and writes: the scheduled items
and the captured `last_domain`. -/
structure InferState where
  scheduled_execables : List ScheduledItem
  last_domain : Nat

/-- The assignment `sched_domain = d` through `node->scheduled_item`. -/
def set_domain (st : InferState) (item : Nat) (d : Nat) : InferState :=
  { st with
    scheduled_execables :=
      match st.scheduled_execables[item]? with
      | some it => st.scheduled_execables.set item { it with scheduled_domain := d }
      | none => st.scheduled_execables }

/-- The lambda `propagate_domain`.  A pointer that is null, outside the
working set, or without `scheduled_item` returns at once. -/
def propagate_domain (c : DomainFlagBits) (nodes : List Node) (st : InferState)
    (node : Option Nat) : InferState :=
  match node.bind (fun p => nodes[p]?) with
  | none => st
  | some n =>
    match n.scheduled_item with
    | none => st
    | some item =>
      match st.scheduled_execables[item]? with
      | none => st
      | some it =>
        if it.scheduled_domain = c.eAny then
          if (st.last_domain ≠ c.eDevice ∧ st.last_domain ≠ c.eAny) ∧
              n.scheduling_info = none then
            set_domain st item st.last_domain
          else if (st.last_domain = c.eDevice ∨ st.last_domain = c.eAny) ∧
              n.scheduling_info ≠ none then
            set_domain st item (pick_first_domain (n.scheduling_info.getD 0))
          else if (st.last_domain ≠ c.eDevice ∧ st.last_domain ≠ c.eAny) ∧
              n.scheduling_info ≠ none then
            if st.last_domain &&& n.scheduling_info.getD 0 = 0 then
              set_domain st item (pick_first_domain (n.scheduling_info.getD 0))
            else
              set_domain st item (st.last_domain &&& n.scheduling_info.getD 0)
          else st
        else { st with last_domain := it.scheduled_domain }

/-- The link behind a `ChainLink*`. -/
def link_at (nodes : List Node) (p : LinkPtr) : Option ChainLink :=
  (nodes[p.node]?).bind (fun n => n.links[p.index]?)

/-- The body of a forward loop: def, then the reads, then the undef. -/
def visit_forward (c : DomainFlagBits) (nodes : List Node) (st : InferState)
    (chain : ChainLink) : InferState :=
  let st1 := propagate_domain c nodes st chain.def_.node
  let st2 := chain.reads.foldl (fun s r => propagate_domain c nodes s r.node) st1
  if chain.undef.node.isSome then propagate_domain c nodes st2 chain.undef.node else st2

/-- The body of a backward loop: undef, then the reads, then the def. -/
def visit_backward (c : DomainFlagBits) (nodes : List Node) (st : InferState)
    (chain : ChainLink) : InferState :=
  let st1 := if chain.undef.node.isSome then propagate_domain c nodes st chain.undef.node else st
  let st2 := chain.reads.foldl (fun s r => propagate_domain c nodes s r.node) st1
  propagate_domain c nodes st2 chain.def_.node

/-- The loop `for (chain = head; chain != nullptr; chain = chain->next)`.
`none`: the loop has not ended after `fuel` links, or a link pointer dangles. -/
def forward_chain (c : DomainFlagBits) (nodes : List Node) :
    Nat → Option LinkPtr → InferState → Option InferState
  | _, none, st => some st
  | 0, some _, _ => none
  | fuel + 1, some p, st =>
    match link_at nodes p with
    | none => none
    | some chain => forward_chain c nodes fuel chain.next (visit_forward c nodes st chain)

/-- The loop `for (chain = head; chain->next != nullptr; chain = chain->next);`
that winds a chain to its end. -/
def wind_chain (nodes : List Node) : Nat → LinkPtr → Option LinkPtr
  | 0, _ => none
  | fuel + 1, p =>
    match link_at nodes p with
    | none => none
    | some chain =>
      match chain.next with
      | none => some p
      | some q => wind_chain nodes fuel q

/-- The loop `for (; chain != nullptr; chain = chain->prev)`. -/
def backward_chain (c : DomainFlagBits) (nodes : List Node) :
    Nat → Option LinkPtr → InferState → Option InferState
  | _, none, st => some st
  | 0, some _, _ => none
  | fuel + 1, some p, st =>
    match link_at nodes p with
    | none => none
    | some chain => backward_chain c nodes fuel chain.prev (visit_backward c nodes st chain)

/-- A forward sweep over all chain heads; `last_domain` is carried from one
chain to the next. -/
def forward_inference (c : DomainFlagBits) (nodes : List Node) (fuel : Nat) :
    List LinkPtr → InferState → Option InferState
  | [], st => some st
  | head :: rest, st =>
    match forward_chain c nodes fuel (some head) st with
    | none => none
    | some st1 => forward_inference c nodes fuel rest st1

/-- A backward sweep over all chain heads; `last_domain` is reset to `eDevice`
at every chain. -/
def backward_inference (c : DomainFlagBits) (nodes : List Node) (fuel : Nat) :
    List LinkPtr → InferState → Option InferState
  | [], st => some st
  | head :: rest, st =>
    match wind_chain nodes fuel head with
    | none => none
    | some tail =>
      match backward_chain c nodes fuel (some tail) { st with last_domain := c.eDevice } with
      | none => none
      | some st1 => backward_inference c nodes fuel rest st1

/-- The fix-up loop: an item still at `eDevice` or `eAny` is set to graphics. -/
def fixup_domains (c : DomainFlagBits) (items : List ScheduledItem) : List ScheduledItem :=
  items.map (fun p =>
    if p.scheduled_domain = c.eDevice ∨ p.scheduled_domain = c.eAny
    then { p with scheduled_domain := c.eGraphicsQueue } else p)

/-- The pass `Compiler::queue_inference`: forward and backward sweep, fix-up,
forward and backward sweep again.  The result is `scheduled_execables`;
`none` when one of the chain loops does not end within `fuel` links. -/
def queue_inference (c : DomainFlagBits) (fuel : Nat) (nodes : List Node)
    (chains : List LinkPtr) (scheduled_execables : List ScheduledItem) :
    Option (List ScheduledItem) :=
  match forward_inference c nodes fuel chains ⟨scheduled_execables, c.eDevice⟩ with
  | none => none
  | some s1 =>
    match backward_inference c nodes fuel chains s1 with
    | none => none
    | some s2 =>
      match forward_inference c nodes fuel chains
          { s2 with scheduled_execables := fixup_domains c s2.scheduled_execables } with
      | none => none
      | some s3 =>
        match backward_inference c nodes fuel chains s3 with
        | none => none
        | some s4 => some s4.scheduled_execables

/-- The vector `chains` that `RGCImpl::collect_chains` fills, the first branch
of its loop: the links without `prev`, in node order. -/
def collect_chains (nodes : List Node) : List LinkPtr :=
  (List.range nodes.length).flatMap (fun p =>
    match nodes[p]? with
    | none => []
    | some n =>
      (List.range n.links.length).filterMap (fun i =>
        match n.links[i]? with
        | some link => if link.prev.isNone then some ⟨p, i⟩ else none
        | none => none))

/-- The other branch of the loop of `RGCImpl::collect_chains`: every link that
has a `prev` is the `next` of that `prev` (`assert(link.prev->next == &link)`);
`false` when the assertion fails for some link. -/
def collect_chains_asserts (nodes : List Node) : Bool :=
  (List.range nodes.length).all (fun p =>
    match nodes[p]? with
    | none => true
    | some n =>
      (List.range n.links.length).all (fun i =>
        match n.links[i]? with
        | some link =>
          match link.prev with
          | none => true
          | some q => decide ((link_at nodes q).bind ChainLink.next = some ⟨p, i⟩)
        | none => true))

/-- What `RGCImpl::collect_chains` leaves behind: the vector `chains`, and
whether its assertion has held for every link with a `prev`. -/
structure ChainsOutcome where
  chains : List LinkPtr
  asserts_hold : Bool
  deriving DecidableEq, Repr

/-- The pass `RGCImpl::collect_chains`; its one `return` is of
`expected_value`. -/
def collect_chains_pass (nodes : List Node) : ChainsOutcome :=
  { chains := collect_chains nodes, asserts_hold := collect_chains_asserts nodes }

/-- The scheduled domain of a node: that of the item behind `scheduled_item`. -/
def domain_of (nodes : List Node) (items : List ScheduledItem) (p : Nat) : Option Nat :=
  ((nodes[p]?).bind Node.scheduled_item).bind (fun i => (items[i]?).map ScheduledItem.scheduled_domain)

/-- The sanity check of the `default` branch of `RGCImpl::build_sync` for one
node: every argument node has no `scheduled_item` or has the domain of the node. -/
def sanity_holds (nodes : List Node) (items : List ScheduledItem) (p : Nat) : Bool :=
  match domain_of nodes items p with
  | none => true
  | some d =>
    match nodes[p]? with
    | none => true
    | some n =>
      n.args.all (fun parm =>
        match parm.node with
        | none => true
        | some a =>
          match domain_of nodes items a with
          | none => true
          | some da => decide (da = d))

/-- No assertion of the `default` branch of `RGCImpl::build_sync` fires: the
branch is entered by every node that is neither `CALL` nor `SPLICE`. -/
def build_sync_sanity (nodes : List Node) (items : List ScheduledItem) : Bool :=
  (List.range nodes.length).all (fun p =>
    match kind_of nodes p with
    | some NodeKind.CALL => true
    | some NodeKind.SPLICE => true
    | _ => sanity_holds nodes items p)


/-- The chain of the test "queue inference": a `CONSTRUCT`, then three calls
`write`, `neutral`, `gfx`, each writing the value of the one before; `write`
requires the transfer queue, `gfx` the graphics queue, `neutral` nothing.
Argument 0 of a call is its function constant, which is not scheduled. -/
def inference_chain (c : DomainFlagBits) : List Node :=
  [ { kind := NodeKind.CONSTRUCT
      links := [{ def_ := ⟨some 0, 0⟩, undef := ⟨some 1, 1⟩, next := some ⟨1, 0⟩ }] },
    { kind := NodeKind.CALL
      args := [⟨none, 0⟩, ⟨some 0, 0⟩]
      scheduling_info := some c.eTransferQueue
      links := [{ def_ := ⟨some 1, 0⟩, undef := ⟨some 2, 1⟩,
                  prev := some ⟨0, 0⟩, next := some ⟨2, 0⟩ }] },
    { kind := NodeKind.CALL
      args := [⟨none, 0⟩, ⟨some 1, 0⟩]
      links := [{ def_ := ⟨some 2, 0⟩, undef := ⟨some 3, 1⟩,
                  prev := some ⟨1, 0⟩, next := some ⟨3, 0⟩ }] },
    { kind := NodeKind.CALL
      args := [⟨none, 0⟩, ⟨some 2, 0⟩]
      scheduling_info := some c.eGraphicsQueue
      links := [{ def_ := ⟨some 3, 0⟩, prev := some ⟨2, 0⟩ }] } ]

/-- One assignment of the `DomainFlagBits` constants, used for concrete runs:
three distinct queue bits, `eDevice` their union, `eAny` with further bits. -/
def sample_domains : DomainFlagBits :=
  { eTransferQueue := 16, eComputeQueue := 8, eGraphicsQueue := 4, eDevice := 28, eAny := 31 }


/-! ## `Compiler::pass_partitioning` -/

/-- The vector `partitioned_execables` as far as a span into it can tell: its
elements, its capacity, and the number of the allocation that holds the
elements at the moment.  A reallocation moves the elements into a fresh
allocation and frees the one before; `clear()` keeps capacity and allocation. -/
structure ItemVector where
  data : List Nat
  capacity : Nat
  allocation : Nat
  deriving DecidableEq, Repr

/-- The call `reserve(n)`: a reallocation to capacity `n` when `n` is above the
capacity, nothing otherwise. -/
def ItemVector.reserve (v : ItemVector) (n : Nat) : ItemVector :=
  if v.capacity < n then { v with capacity := n, allocation := v.allocation + 1 } else v

/-- The call `push_back(x)`: in place while the capacity lasts, otherwise into a
fresh allocation whose capacity `grow` is the library's choice. -/
def ItemVector.push_back (grow : Nat → Nat) (v : ItemVector) (x : Nat) : ItemVector :=
  if v.data.length < v.capacity then { v with data := v.data ++ [x] }
  else { data := v.data ++ [x], capacity := grow v.capacity, allocation := v.allocation + 1 }

/-- A `std::span` over `partitioned_execables`: the pointer to its first
element, as the allocation it points into and the index there, and its length. -/
structure PassSpan where
  allocation : Nat
  offset : Nat
  size : Nat
  deriving DecidableEq, Repr

/-- What `pass_partitioning` leaves behind. -/
structure Partitioning where
  partitioned_execables : ItemVector
  transfer_passes : PassSpan
  compute_passes : PassSpan
  graphics_passes : PassSpan

/-- One loop `for (auto& p : scheduled_execables) if (p.scheduled_domain & bit)
partitioned_execables.push_back(&p);`, with `i` the position of the next item. -/
def push_queue (grow : Nat → Nat) (bit : Nat) :
    List ScheduledItem → Nat → ItemVector → ItemVector
  | [], _, partitioned_execables => partitioned_execables
  | p :: rest, i, partitioned_execables =>
    push_queue grow bit rest (i + 1)
      (if p.scheduled_domain &&& bit ≠ 0 then partitioned_execables.push_back grow i
       else partitioned_execables)

/-- The pass `Compiler::pass_partitioning`, entered with `partitioned_execables`
as given.  Each span is taken from `begin()` and the sizes at the moment of its
assignment, so it points into the allocation of that moment; the loops that
follow push into the same vector. -/
def pass_partitioning (grow : Nat → Nat) (c : DomainFlagBits)
    (scheduled_execables : List ScheduledItem) (partitioned_execables : ItemVector) :
    Partitioning :=
  let pe0 := partitioned_execables.reserve scheduled_execables.length
  let pe1 := push_queue grow c.eTransferQueue scheduled_execables 0 pe0
  let transfer_passes : PassSpan := ⟨pe1.allocation, 0, pe1.data.length⟩
  let pe2 := push_queue grow c.eComputeQueue scheduled_execables 0 pe1
  let compute_passes : PassSpan :=
    ⟨pe2.allocation, transfer_passes.size, pe2.data.length - transfer_passes.size⟩
  let pe3 := push_queue grow c.eGraphicsQueue scheduled_execables 0 pe2
  let graphics_passes : PassSpan :=
    ⟨pe3.allocation, transfer_passes.size + compute_passes.size,
      pe3.data.length - transfer_passes.size - compute_passes.size⟩
  { partitioned_execables := pe3
    transfer_passes := transfer_passes
    compute_passes := compute_passes
    graphics_passes := graphics_passes }

/-- The elements a span shows when it is read after the pass: those of the
vector at its offset when the span still points into the allocation of the
vector, and nothing defined (`none`) when that allocation has been given up. -/
def PassSpan.elems (s : PassSpan) (partitioned_execables : ItemVector) : Option (List Nat) :=
  if s.allocation = partitioned_execables.allocation then
    some ((partitioned_execables.data.drop s.offset).take s.size)
  else none

/-- The growth of libstdc++: twice the capacity, at least one. -/
def double_capacity (capacity : Nat) : Nat := max 1 (2 * capacity)

/-- The vector of a compiler that has not compiled before. -/
def fresh_vector : ItemVector := ⟨[], 0, 0⟩

/-- The item at position `i` has the queue bit `bit` in its scheduled domain. -/
def has_queue_bit (scheduled_execables : List ScheduledItem) (bit : Nat) (i : Nat) : Bool :=
  match scheduled_execables[i]? with
  | some p => decide (p.scheduled_domain &&& bit ≠ 0)
  | none => false

/-- The items with the queue bit `bit`, in the order of `scheduled_execables`. -/
def on_queue (scheduled_execables : List ScheduledItem) (bit : Nat) : List Nat :=
  (List.range scheduled_execables.length).filter (has_queue_bit scheduled_execables bit)


/-! ## `RGCImpl::build_sync`: the merged read group -/

/-- The classifying helpers of `Access`.  They are declared outside the sources
at hand, so they are parameters. -/
structure AccessHelpers where
  is_write_access : Access → Bool
  is_transfer_access : Access → Bool
  is_storage_access : Access → Bool
  is_readonly_access : Access → Bool

/-- The method `Ref::type()`: the type `node->type[index]`. -/
def Ref.type (nodes : List Node) (r : Ref) : Option Ty :=
  (r.node.bind (fun p => nodes[p]?)).bind (fun n => n.type[r.index]?)

/-- What the loop over a read group finds for one read. -/
inductive ReadLookup
  | skipped
  | access (dst_access : Access)
  | assert_failed
  deriving DecidableEq, Repr

/-- The lookup `args[r.index - first_parm]` with the check
`assert(arg_ty->kind == Type::IMBUED_TY)`; an index outside `args` has no
defined value. -/
def imbued_access (args : List Ty) (first_parm : Nat) (index : Nat) : ReadLookup :=
  if index < first_parm then ReadLookup.assert_failed
  else
    match args[index - first_parm]? with
    | some (Ty.IMBUED_TY _ access) => ReadLookup.access access
    | _ => ReadLookup.assert_failed

/-- The head of the loop body over `reads`: a `CALL` read yields the imbued
access of its parameter, looked up with the `first_parm` of the node that
`build_sync` is visiting; a `CONVERGE` read is passed over (`continue`); any
other reader trips `assert(0)`. -/
def read_lookup (nodes : List Node) (first_parm : Nat) (r : Ref) : ReadLookup :=
  match r.node.bind (fun p => nodes[p]?) with
  | none => ReadLookup.assert_failed
  | some n =>
    match n.kind with
    | NodeKind.CALL =>
      match (n.args.head?).bind (Ref.type nodes) with
      | some (Ty.OPAQUE_FN_TY args _) => imbued_access args first_parm r.index
      | some (Ty.SHADER_FN_TY args _) => imbued_access args first_parm r.index
      | _ => ReadLookup.assert_failed
    | NodeKind.CONVERGE => ReadLookup.skipped
    | _ => ReadLookup.assert_failed

/-- The three flags of the merge. -/
structure ReadNeeds where
  need_read_only : Bool
  need_transfer : Bool
  need_general : Bool
  deriving DecidableEq, Repr

/-- The loop over the read group; `none` when an assertion fails. -/
def merge_reads (h : AccessHelpers) (nodes : List Node) (first_parm : Nat) :
    List Ref → ReadNeeds → Option ReadNeeds
  | [], needs => some needs
  | r :: rest, needs =>
    match read_lookup nodes first_parm r with
    | ReadLookup.skipped => merge_reads h nodes first_parm rest needs
    | ReadLookup.assert_failed => none
    | ReadLookup.access dst_access =>
      merge_reads h nodes first_parm rest
        { need_transfer := needs.need_transfer || h.is_transfer_access dst_access
          need_general := needs.need_general || h.is_storage_access dst_access
          need_read_only := needs.need_read_only || h.is_readonly_access dst_access }

/-- The layout chosen after the loop. -/
def merged_layout (needs : ReadNeeds) : ImageLayout :=
  let layout := ImageLayout.eReadOnlyOptimalKHR
  let layout := if needs.need_transfer && !needs.need_read_only
    then ImageLayout.eTransferSrcOptimal else layout
  if needs.need_general || (needs.need_transfer && needs.need_read_only)
  then ImageLayout.eGeneral else layout

/-- The layout of `link.read_sync` for the read group `reads`, merged while
`build_sync` visits a call whose first parameter is argument `first_parm`. -/
def read_sync_layout (h : AccessHelpers) (nodes : List Node) (first_parm : Nat)
    (reads : List Ref) : Option ImageLayout :=
  (merge_reads h nodes first_parm reads ⟨false, false, false⟩).map merged_layout

/-- Some read of the group is looked up with an access that satisfies `pred`. -/
def some_read (nodes : List Node) (first_parm : Nat) (reads : List Ref)
    (pred : Access → Bool) : Prop :=
  ∃ r ∈ reads, ∃ a, read_lookup nodes first_parm r = ReadLookup.access a ∧ pred a = true

/-- One assignment of the helper predicates, used for concrete runs: bit 0 of
an access marks a transfer, bit 1 a storage access, any higher bit a plain
read-only access. -/
def sample_helpers : AccessHelpers :=
  { is_write_access := fun _ => false
    is_transfer_access := fun a => decide (a &&& 1 ≠ 0)
    is_storage_access := fun a => decide (a &&& 2 ≠ 0)
    is_readonly_access := fun a => decide (a / 4 ≠ 0) }

/-- A read group with one transfer read by a call (node 1, parameter 1) and one
read by a `CONVERGE` (node 2).  Node 0 is the function constant of the call. -/
def converge_read_group : List Node :=
  [ { kind := NodeKind.CONSTANT
      type := [Ty.OPAQUE_FN_TY [Ty.IMBUED_TY Ty.BUFFER 1] [Ty.ALIASED_TY Ty.BUFFER 1]] },
    { kind := NodeKind.CALL
      args := [⟨some 0, 0⟩, ⟨some 3, 0⟩] },
    { kind := NodeKind.CONVERGE
      args := [⟨some 3, 0⟩] },
    { kind := NodeKind.CALL
      links := [{ def_ := ⟨some 3, 0⟩, reads := [⟨some 1, 1⟩, ⟨some 2, 0⟩] }] } ]


/-! ## `Compiler::validate_read_undefined` -/

/-- The text of the read-before-write error. -/
def read_undefined_message : String := "tried to read something that was never written."

/-- The link `*node->links`, the link of result 0. -/
def first_link (nodes : List Node) (p : Nat) : Option ChainLink :=
  (nodes[p]?).bind (fun n => n.links.head?)

/-- The test `node->type[0]->kind != Type::ARRAY_TY`. -/
def is_array_ty : Ty → Bool
  | Ty.ARRAY_TY _ _ => true
  | _ => false

/-- The loop `while (undef->links->reads.size() == 0 && undef->links->undef &&
undef->links->undef.node->kind == Node::SPLICE) undef = undef->links->undef.node;`
A pointer outside the working set is not taken for a `SPLICE`.
`none`: the loop has not ended after `fuel` steps, or `undef->links` is null. -/
def unravel_splices (nodes : List Node) : Nat → Nat → Option Nat
  | 0, _ => none
  | fuel + 1, undef =>
    match first_link nodes undef with
    | none => none
    | some link =>
      match link.undef.node with
      | none => some undef
      | some u =>
        if link.reads.length = 0 ∧ kind_of nodes u = some NodeKind.SPLICE
        then unravel_splices nodes fuel u
        else some undef

/-- The error returned for a link with reads: it names the node of `reads[0]`. -/
def read_undefined_error (link : ChainLink) : Result :=
  Result.expected_error (link.reads.head?.bind Ref.node) read_undefined_message

/-- The body of the loop of `validate_read_undefined` for the node at `p`.
`none`: no defined outcome (a loop without end, a null `links`, no `type[0]`). -/
def check_read_undefined (nodes : List Node) (fuel : Nat) (p : Nat) : Option Result :=
  match nodes[p]? with
  | none => none
  | some node =>
    match node.kind with
    | NodeKind.CONSTRUCT =>
      match node.type.head?, node.links.head? with
      | some ty, some link =>
        if is_array_ty ty = false ∧ link.reads.length > 0 then
          some (read_undefined_error link)
        else if link.undef.node = none then
          some Result.expected_value
        else
          match unravel_splices nodes fuel p with
          | none => none
          | some undef =>
            match first_link nodes undef with
            | none => none
            | some ulink =>
              if ulink.reads.length > 0 then some (read_undefined_error ulink)
              else some Result.expected_value
      | _, _ => none
    | _ => some Result.expected_value

/-- The loop `for (auto node : impl->nodes)` from the positions `ps` on: the
first error is returned. -/
def validate_read_undefined_from (nodes : List Node) (fuel : Nat) : List Nat → Option Result
  | [] => some Result.expected_value
  | p :: rest =>
    match check_read_undefined nodes fuel p with
    | none => none
    | some Result.expected_value => validate_read_undefined_from nodes fuel rest
    | some (Result.expected_error offender message) =>
      some (Result.expected_error offender message)

/-- The pass `Compiler::validate_read_undefined`. -/
def validate_read_undefined (nodes : List Node) (fuel : Nat) : Option Result :=
  validate_read_undefined_from nodes fuel (List.range nodes.length)

/-- From `p`, a run of links without reads, each with a `SPLICE` as undef, ends
at `q`, whose link has reads. -/
inductive SpliceRun (nodes : List Node) : Nat → Nat → Prop
  | stop (q : Nat) (link : ChainLink) :
      first_link nodes q = some link → link.reads ≠ [] → SpliceRun nodes q q
  | step (p u q : Nat) (link : ChainLink) :
      first_link nodes p = some link → link.reads = [] → link.undef.node = some u →
      kind_of nodes u = some NodeKind.SPLICE → SpliceRun nodes u q → SpliceRun nodes p q

/-- The node at `p` is a non-array `CONSTRUCT` whose result link has reads. -/
def DirectRead (nodes : List Node) (p : Nat) : Prop :=
  ∃ node ty link, nodes[p]? = some node ∧ node.kind = NodeKind.CONSTRUCT ∧
    node.type.head? = some ty ∧ is_array_ty ty = false ∧
    node.links.head? = some link ∧ link.reads ≠ []

/-- The node at `p` is a `CONSTRUCT` without reads, followed through a run of
`SPLICE` undefs to a `SPLICE` whose link has reads. -/
def SplicedRead (nodes : List Node) (p : Nat) : Prop :=
  ∃ node link q, nodes[p]? = some node ∧ node.kind = NodeKind.CONSTRUCT ∧
    node.links.head? = some link ∧ link.reads = [] ∧ SpliceRun nodes p q

/-- The result is the read-before-write error, naming the first reader of a link. -/
def IsReadUndefinedError (nodes : List Node) (r : Result) : Prop :=
  ∃ q link, first_link nodes q = some link ∧ link.reads ≠ [] ∧ r = read_undefined_error link

/-- The links that the splice loop can follow go up in `rank`, which stays
within `B`; every `CONSTRUCT` and `SPLICE` has a result, every `CONSTRUCT` a type. -/
structure SpliceRunsEnd (nodes : List Node) (rank : Nat → Nat) (B : Nat) : Prop where
  has_link : ∀ (p : Nat) (k : NodeKind), kind_of nodes p = some k →
    (k = NodeKind.CONSTRUCT ∨ k = NodeKind.SPLICE) → first_link nodes p ≠ none
  has_type : ∀ (p : Nat) (node : Node), nodes[p]? = some node →
    node.kind = NodeKind.CONSTRUCT → node.type ≠ []
  rank_lt : ∀ (p : Nat) (link : ChainLink) (u : Nat), first_link nodes p = some link →
    link.undef.node = some u → kind_of nodes u = some NodeKind.SPLICE →
    rank p < rank u ∧ rank u ≤ B


/-! ## `Compiler::validate_duplicated_resource_ref` -/

/-- The text of the duplicated-acquire error. -/
def duplicated_message : String := "tried to acquire something that was already known."

/-- The three sets `bufs`, `ias` and `swps`, in insertion order. -/
structure SeenResources where
  bufs : List Buffer := []
  ias : List ImageAttachment := []
  swps : List Nat := []

/-- The call `set.emplace(x)` on an `unordered_set` with key equality `eq`: the
new set and whether the insertion took place. -/
def emplace_by {α : Type} (eq : α → α → Bool) (set : List α) (x : α) : List α × Bool :=
  if set.any (fun y => eq y x) then (set, false) else (set ++ [x], true)

/-- The value `node->construct.args[0].node->constant.value`. -/
def prototype (nodes : List Node) (node : Node) : Option ConstantValue :=
  ((node.args.head?).bind (fun r => r.node.bind (fun p => nodes[p]?))).map Node.constant_value

/-- The `CONSTRUCT` case up to the flag `s`.  `buffer_eq` is the equality of
`Buffer`, declared outside the sources at hand; `if (ia->image)` tests the
image handle against `VK_NULL_HANDLE`.  `none`: the prototype is not of the
type that the cast assumes. -/
def check_construct (buffer_eq : Buffer → Buffer → Bool) (nodes : List Node) (node : Node)
    (seen : SeenResources) : Option (SeenResources × Bool) :=
  match node.type.head? with
  | none => none
  | some Ty.IMAGE =>
    match prototype nodes node with
    | some (ConstantValue.image ia) =>
      if ia.image.image ≠ 0 then
        some ({ seen with ias := (emplace_by (fun a b => decide (a = b)) seen.ias ia).1 },
          (emplace_by (fun a b => decide (a = b)) seen.ias ia).2)
      else some (seen, true)
    | _ => none
  | some Ty.BUFFER =>
    match prototype nodes node with
    | some (ConstantValue.buffer buf) =>
      if buf.buffer ≠ 0 then
        some ({ seen with bufs := (emplace_by buffer_eq seen.bufs buf).1 },
          (emplace_by buffer_eq seen.bufs buf).2)
      else some (seen, true)
    | _ => none
  | some Ty.SWAPCHAIN =>
    match prototype nodes node with
    | some (ConstantValue.swapchain ptr) =>
      some ({ seen with swps := (emplace_by (fun a b => decide (a = b)) seen.swps ptr).1 },
        (emplace_by (fun a b => decide (a = b)) seen.swps ptr).2)
    | _ => none
  | some _ => some (seen, true)

/-- One round of the loop over the results of an armed `SPLICE`: `none` in the
second component means `continue` with the flag unchanged. -/
def check_splice_value (buffer_eq : Buffer → Buffer → Bool) (node : Node) (i : Nat)
    (seen : SeenResources) : Option (SeenResources × Option Bool) :=
  match node.links[i]?, node.type[i]? with
  | some link, some ty =>
    if link.undef.node = none ∧ link.reads.length = 0 ∧ link.next = none then
      some (seen, none)
    else
      match ty with
      | Ty.IMAGE =>
        match node.values[i]? with
        | some (ConstantValue.image ia) =>
          some ({ seen with ias := (emplace_by (fun a b => decide (a = b)) seen.ias ia).1 },
            some (emplace_by (fun a b => decide (a = b)) seen.ias ia).2)
        | _ => none
      | Ty.BUFFER =>
        match node.values[i]? with
        | some (ConstantValue.buffer buf) =>
          some ({ seen with bufs := (emplace_by buffer_eq seen.bufs buf).1 },
            some (emplace_by buffer_eq seen.bufs buf).2)
        | _ => none
      | Ty.SWAPCHAIN =>
        match node.values[i]? with
        | some (ConstantValue.swapchain ptr) =>
          some ({ seen with swps := (emplace_by (fun a b => decide (a = b)) seen.swps ptr).1 },
            some (emplace_by (fun a b => decide (a = b)) seen.swps ptr).2)
        | _ => none
      | _ => some (seen, some true)
  | _, _ => none

/-- The loop over the results of an armed `SPLICE`, left at the first failed
insertion (`if (!s) break`). -/
def check_splice_values (buffer_eq : Buffer → Buffer → Bool) (node : Node) :
    List Nat → SeenResources → Bool → Option (SeenResources × Bool)
  | [], seen, s => some (seen, s)
  | i :: rest, seen, s =>
    match check_splice_value buffer_eq node i seen with
    | none => none
    | some (seen1, none) => check_splice_values buffer_eq node rest seen1 s
    | some (seen1, some true) => check_splice_values buffer_eq node rest seen1 true
    | some (seen1, some false) => some (seen1, false)

/-- The `SPLICE` case up to the flag `s`. -/
def check_splice (buffer_eq : Buffer → Buffer → Bool) (node : Node) (seen : SeenResources) :
    Option (SeenResources × Bool) :=
  if node.rel_acq = none ∨ node.rel_acq = some SignalStatus.eDisarmed then some (seen, true)
  else check_splice_values buffer_eq node (List.range node.type.length) seen true

/-- The body of the loop of `validate_duplicated_resource_ref` up to the flag. -/
def check_duplicated (buffer_eq : Buffer → Buffer → Bool) (nodes : List Node) (node : Node)
    (seen : SeenResources) : Option (SeenResources × Bool) :=
  match node.kind with
  | NodeKind.CONSTRUCT => check_construct buffer_eq nodes node seen
  | NodeKind.SPLICE => check_splice buffer_eq node seen
  | _ => some (seen, true)

/-- The loop `for (auto node : impl->nodes)` from the positions `ps` on. -/
def validate_duplicated_from (buffer_eq : Buffer → Buffer → Bool) (nodes : List Node) :
    List Nat → SeenResources → Option Result
  | [], _ => some Result.expected_value
  | p :: rest, seen =>
    match nodes[p]? with
    | none => none
    | some node =>
      match check_duplicated buffer_eq nodes node seen with
      | none => none
      | some (seen1, true) => validate_duplicated_from buffer_eq nodes rest seen1
      | some (_, false) => some (Result.expected_error (some p) duplicated_message)

/-- The pass `Compiler::validate_duplicated_resource_ref`. -/
def validate_duplicated_resource_ref (buffer_eq : Buffer → Buffer → Bool)
    (nodes : List Node) : Option Result :=
  validate_duplicated_from buffer_eq nodes (List.range nodes.length) {}

/-- The node at `p` is a `CONSTRUCT` of image type with prototype `ia`. -/
def ConstructsImage (nodes : List Node) (p : Nat) (ia : ImageAttachment) : Prop :=
  ∃ node, nodes[p]? = some node ∧ node.kind = NodeKind.CONSTRUCT ∧
    node.type.head? = some Ty.IMAGE ∧ prototype nodes node = some (ConstantValue.image ia)

/-- The node at `p` is a `CONSTRUCT` of buffer type with prototype `buf`. -/
def ConstructsBuffer (nodes : List Node) (p : Nat) (buf : Buffer) : Prop :=
  ∃ node, nodes[p]? = some node ∧ node.kind = NodeKind.CONSTRUCT ∧
    node.type.head? = some Ty.BUFFER ∧ prototype nodes node = some (ConstantValue.buffer buf)

/-- Every set of `t` holds the elements of the same set of `s`. -/
def SeenResources.le (s t : SeenResources) : Prop :=
  s.bufs ⊆ t.bufs ∧ s.ias ⊆ t.ias ∧ s.swps ⊆ t.swps

/-- The node at `q` fails its insertion in every state that holds `seen`. -/
def Blocks (buffer_eq : Buffer → Buffer → Bool) (nodes : List Node) (seen : SeenResources)
    (q : Nat) : Prop :=
  ∃ node, nodes[q]? = some node ∧
    ∀ seen1 : SeenResources, seen.le seen1 →
      ∀ r, check_duplicated buffer_eq nodes node seen1 = some r → r.2 = false

/-- The result is the duplicated-acquire error. -/
def IsDuplicatedError (r : Result) : Prop :=
  ∃ offender, r = Result.expected_error offender duplicated_message

/-- Two image constructs over the same image handle 7 whose prototypes differ
in `base_level`.  Nodes 0 and 1 are the prototype constants. -/
def two_views_of_one_image : List Node :=
  [ { kind := NodeKind.CONSTANT
      constant_value := ConstantValue.image { image := { image := 7 }, base_level := 0 } },
    { kind := NodeKind.CONSTANT
      constant_value := ConstantValue.image { image := { image := 7 }, base_level := 1 } },
    { kind := NodeKind.CONSTRUCT, type := [Ty.IMAGE], args := [⟨some 0, 0⟩],
      links := [{ def_ := ⟨some 2, 0⟩ }] },
    { kind := NodeKind.CONSTRUCT, type := [Ty.IMAGE], args := [⟨some 1, 0⟩],
      links := [{ def_ := ⟨some 3, 0⟩ }] } ]

/-- Two image constructs whose prototypes are equal member by member. -/
def one_image_twice : List Node :=
  [ { kind := NodeKind.CONSTANT
      constant_value := ConstantValue.image { image := { image := 7 }, base_level := 0 } },
    { kind := NodeKind.CONSTRUCT, type := [Ty.IMAGE], args := [⟨some 0, 0⟩],
      links := [{ def_ := ⟨some 1, 0⟩ }] },
    { kind := NodeKind.CONSTRUCT, type := [Ty.IMAGE], args := [⟨some 0, 0⟩],
      links := [{ def_ := ⟨some 2, 0⟩ }] } ]


/-- A chain `CONSTRUCT -> CALL -> CALL` without required domains, as
`schedule_intra_queue` leaves it: the calls hold items 0 and 1. -/
def plain_chain : List Node :=
  [ { kind := NodeKind.CONSTRUCT
      links := [{ def_ := ⟨some 0, 0⟩, undef := ⟨some 1, 1⟩, next := some ⟨1, 0⟩ }] },
    { kind := NodeKind.CALL
      args := [⟨none, 0⟩, ⟨some 0, 0⟩]
      scheduled_item := some 0
      links := [{ def_ := ⟨some 1, 0⟩, undef := ⟨some 2, 1⟩,
                  prev := some ⟨0, 0⟩, next := some ⟨2, 0⟩ }] },
    { kind := NodeKind.CALL
      args := [⟨none, 0⟩, ⟨some 1, 0⟩]
      scheduled_item := some 1
      links := [{ def_ := ⟨some 2, 0⟩, prev := some ⟨1, 0⟩ }] } ]

/-- A `CONSTRUCT` without reads whose undef is a `SPLICE` that is read by a
call before anything was written. -/
def spliced_read : List Node :=
  [ { kind := NodeKind.CONSTRUCT, type := [Ty.BUFFER]
      links := [{ def_ := ⟨some 0, 0⟩, undef := ⟨some 1, 0⟩, next := some ⟨1, 0⟩ }] },
    { kind := NodeKind.SPLICE, type := [Ty.BUFFER]
      links := [{ def_ := ⟨some 1, 0⟩, reads := [⟨some 2, 1⟩], prev := some ⟨0, 0⟩ }] },
    { kind := NodeKind.CALL } ]


/-! ## `Replacer::replace` -/

/-- The order of two node pointers; the null pointer is below every node. -/
def ptr_lt : Option Nat → Option Nat → Bool
  | none, some _ => true
  | some a, some b => decide (a < b)
  | _, none => false

/-- The order `operator<` of two `Ref`s: by pointer, then by index, the
predicate by which `Compiler::rewrite` sorts the arguments that it merges with
the replacement list. -/
def Ref.lt (a b : Ref) : Bool :=
  ptr_lt a.node b.node || (a.node == b.node && decide (a.index < b.index))

/-- The struct `Replace`. -/
structure Replace where
  needle : Ref
  value : Ref
  deriving DecidableEq, Repr

/-- The call `std::upper_bound(replaces.begin(), replaces.end(),
Replace{key, _}, by needle)`: the position of the first entry whose needle is
above `key`, or `replaces.size()`.  `Replacer` keeps the list sorted by needle,
so the binary search ends at this position. -/
def upper_bound (replaces : List Replace) (key : Ref) : Nat :=
  (replaces.takeWhile (fun a => !(Ref.lt key a.needle))).length

/-- The call `std::find_if(replaces.begin() + start, replaces.end(),
a.value == needle)`, as a position. -/
def find_value (replaces : List Replace) (start : Nat) (needle : Ref) : Nat :=
  start + ((replaces.drop start).takeWhile (fun a => !(a.value == needle))).length

/-- The loop `while (iit != replaces.end())` of `Replacer::replace`: the entry
at `iit` gets the value `value2`, and the search goes on from `iit` itself. -/
def extend_chains (needle value2 : Ref) : Nat → List Replace → Nat → Option (List Replace)
  | 0, _, _ => none
  | fuel + 1, replaces, iit =>
    match replaces[iit]? with
    | none => some replaces
    | some a =>
      let replaces1 := replaces.set iit { a with value := value2 }
      extend_chains needle value2 fuel replaces1 (find_value replaces1 iit needle)

/-- The end `value2` that `Replacer::replace` uses for `value`: the value of
the entry that `std::upper_bound` returns, if the needle of that entry is
`value`. -/
def chain_end (replaces : List Replace) (value : Ref) : Ref :=
  match replaces[upper_bound replaces value]? with
  | some a => if a.needle = value then a.value else value
  | none => value

/-- The method `Replacer::replace(needle, value)` on the list `replaces`. -/
def Replacer.replace (fuel : Nat) (replaces : List Replace) (needle value : Ref) :
    Option (List Replace) :=
  let value2 := chain_end replaces value
  (extend_chains needle value2 fuel replaces (find_value replaces 0 needle)).map
    (fun replaces1 =>
      let it := upper_bound replaces1 needle
      replaces1.take it ++ { needle := needle, value := value2 } :: replaces1.drop it)

/-- A sequence of `replace` calls, each given as (needle, value). -/
def replace_calls (fuel : Nat) : List Replace → List (Ref × Ref) → Option (List Replace)
  | replaces, [] => some replaces
  | replaces, (needle, value) :: calls =>
    (Replacer.replace fuel replaces needle value).bind (fun r => replace_calls fuel r calls)

/-- The normal form of a replacement list: no value is a needle. -/
def normal_form (replaces : List Replace) : Prop :=
  ∀ a ∈ replaces, ∀ b ∈ replaces, a.value ≠ b.needle

instance (replaces : List Replace) : Decidable (normal_form replaces) := by
  unfold normal_form; infer_instance

/-- Three results of three nodes, for concrete runs of `Replacer::replace`. -/
def ref_a : Ref := ⟨some 0, 0⟩

/-- The result 0 of node 1. -/
def ref_b : Ref := ⟨some 1, 0⟩

/-- The result 0 of node 2. -/
def ref_c : Ref := ⟨some 2, 0⟩

/-! ## `RGCImpl::build_nodes` -/

/-- The state of the marking loops of `build_nodes`: the node arena with its
`flag`s, and `work_queue`, whose back is the head of the list. -/
structure MarkState where
  arena : List Node
  work_queue : List Nat

/-- The step `if (arg->flag == 0) { arg->flag = 1; work_queue.push_back(arg); }`.
A null or dangling pointer has no flag to read. -/
def mark_push (st : MarkState) (arg : Option Nat) : Option MarkState :=
  match arg with
  | none => none
  | some p =>
    match st.arena[p]? with
    | none => none
    | some n =>
      if n.flag = 0 then
        some { arena := st.arena.set p { n with flag := 1 }, work_queue := p :: st.work_queue }
      else some st

/-- The loop over the arguments of a node (`fixed_node.args` up to `arg_count`,
or `variable_node.args`). -/
def push_args (st : MarkState) : List Ref → Option MarkState
  | [] => some st
  | r :: rs => (mark_push st r.node).bind (fun st1 => push_args st1 rs)

/-- The loop over `ref_nodes`. -/
def push_refs (st : MarkState) : List Nat → Option MarkState
  | [] => some st
  | p :: ps => (mark_push st (some p)).bind (fun st1 => push_refs st1 ps)

/-- The loop `while (!work_queue.empty())`; the third argument is `nodes`. -/
def build_nodes_loop : Nat → MarkState → List Nat → Option (MarkState × List Nat)
  | 0, _, _ => none
  | fuel + 1, st, nodes =>
    match st.work_queue with
    | [] => some (st, nodes)
    | p :: queue =>
      match st.arena[p]? with
      | none => none
      | some n =>
        (push_args { st with work_queue := queue } n.args).bind
          (fun st1 => build_nodes_loop fuel st1 (nodes ++ [p]))

/-- The loop `for (auto& node : nodes) node->flag = 0`. -/
def clear_flags (arena : List Node) (nodes : List Nat) : List Node :=
  nodes.foldl (fun a p => match a[p]? with
    | some n => a.set p { n with flag := 0 }
    | none => a) arena

/-- The function `RGCImpl::build_nodes` over the node `arena`: the arena with
the flags it leaves, and `nodes`. -/
def build_nodes (fuel : Nat) (arena : List Node) (ref_nodes : List Nat) :
    Option (List Node × List Nat) :=
  (push_refs { arena := arena, work_queue := [] } ref_nodes).bind (fun st =>
    (build_nodes_loop fuel st []).map (fun r => (clear_flags r.1.arena r.2, r.2)))

/-- An argument edge: `b` is the node of an argument of the node `a`. -/
def ArgEdge (arena : List Node) (a b : Nat) : Prop :=
  ∃ n, arena[a]? = some n ∧ ∃ r ∈ n.args, r.node = some b

/-- The nodes reachable from `ref_nodes` through argument edges. -/
def Reachable (arena : List Node) (ref_nodes : List Nat) (p : Nat) : Prop :=
  ∃ r ∈ ref_nodes, Relation.ReflTransGen (ArgEdge arena) r p

/-- A finite node graph: every `ref_nodes` pointer and every argument points to
a node of the arena. -/
def ClosedArena (arena : List Node) (ref_nodes : List Nat) : Prop :=
  (∀ p ∈ ref_nodes, p < arena.length) ∧
  ∀ n ∈ arena, ∀ r ∈ n.args, ∃ b, r.node = some b ∧ b < arena.length

/-- The node `p` is marked: `p->flag != 0`. -/
def Marked (arena : List Node) (p : Nat) : Prop :=
  ∃ n, arena[p]? = some n ∧ n.flag ≠ 0

/-- The invariant of the marking loops: the arena differs from the initial one
in its flags only, the marked nodes are those of `work_queue` and of `seen`,
none of them twice, and each is reachable. -/
structure MarkInv (A0 : List Node) (refs : List Nat) (st : MarkState) (seen : List Nat) :
    Prop where
  len : st.arena.length = A0.length
  args : ∀ (p : Nat) (n : Node), st.arena[p]? = some n →
    ∃ n0 : Node, A0[p]? = some n0 ∧ n.args = n0.args
  marked_iff : ∀ p, Marked st.arena p ↔ p ∈ st.work_queue ∨ p ∈ seen
  nodup : (st.work_queue ++ seen).Nodup
  reach : ∀ p, Marked st.arena p → Reachable A0 refs p

/-- Two calls that take each other as an argument, a third node that the
second call takes as well, and a node that nothing refers to. -/
def cyclic_arena : List Node :=
  [ { kind := NodeKind.CALL, args := [⟨some 1, 0⟩] },
    { kind := NodeKind.CALL, args := [⟨some 0, 0⟩, ⟨some 2, 0⟩] },
    { kind := NodeKind.CONSTRUCT },
    { kind := NodeKind.CONSTRUCT } ]

/-! ## The module garbage collection of `Compiler::compile` -/

/-- The call `potential_garbage.contains(p)`; the map is a list of
(node, count) entries. -/
def pg_contains (pg : List (Nat × Nat)) (p : Option Nat) : Bool :=
  pg.any (fun e => some e.1 == p)

/-- The statement `potential_garbage[p]++`. -/
def pg_increment (pg : List (Nat × Nat)) (p : Option Nat) : List (Nat × Nat) :=
  pg.map (fun e => if some e.1 = p then (e.1, e.2 + 1) else e)

/-- The callback given to `apply_generic_args`, applied to every argument of a
node. -/
def count_args (pg : List (Nat × Nat)) (args : List Ref) : List (Nat × Nat) :=
  args.foldl (fun m parm => if pg_contains m parm.node then pg_increment m parm.node else m) pg

/-- The state of the loop over `op_arena`: the positions that stay in the
arena, and the map `potential_garbage`. -/
structure GcScan where
  kept : List Nat
  potential_garbage : List (Nat × Nat)

/-- The body of the loop over `op_arena`, for the node at position `pn.1`. -/
def gc_scan_node (st : GcScan) (pn : Nat × Node) : GcScan :=
  if pg_contains st.potential_garbage (some pn.1) then
    { st with kept := st.kept ++ [pn.1] }
  else if pn.2.kind = NodeKind.GARBAGE then st
  else
    { kept := st.kept ++ [pn.1],
      potential_garbage := count_args st.potential_garbage pn.2.args }

/-- What the garbage collection of one module leaves: the positions that stay
in `op_arena`, the map `potential_garbage`, the nodes of `to_garbage`, and all
nodes handed to `destroy_node` (`to_garbage`, then `m->garbage`). -/
structure GcResult where
  op_arena : List Nat
  potential_garbage : List (Nat × Nat)
  to_garbage : List Nat
  destroyed : List Nat

/-- The garbage collection of one module in `Compiler::compile`; a node is the
position of its entry in `op_arena` before the step. -/
def module_gc (op_arena : List Node) (potential_garbage : List (Nat × Nat))
    (garbage : List Nat) : GcResult :=
  let st := op_arena.enum.foldl gc_scan_node { kept := [], potential_garbage := potential_garbage }
  let to_garbage := (st.potential_garbage.filter (fun e => e.2 = 0)).map Prod.fst
  { op_arena := st.kept,
    potential_garbage :=
      (st.potential_garbage.filter (fun e => !(to_garbage.contains e.1))).map (fun e => (e.1, 0)),
    to_garbage := to_garbage,
    destroyed := to_garbage ++ garbage }

/-- The counts of `m2` are those of `m1`, entry by entry, or above. -/
def CountsLe (m1 m2 : List (Nat × Nat)) : Prop :=
  List.Forall₂ (fun a b => a.1 = b.1 ∧ a.2 ≤ b.2) m1 m2

/-- Every entry of the node `q` has a positive count. -/
def Counted (q : Nat) (m : List (Nat × Nat)) : Prop :=
  ∀ e ∈ m, e.1 = q → 1 ≤ e.2

/-- A live call `0` takes the potential-garbage node `1` as its argument, and
node `1` takes the potential-garbage node `2`. -/
def garbage_chain : List Node :=
  [ { kind := NodeKind.CALL, args := [⟨some 1, 0⟩] },
    { kind := NodeKind.SPLICE, args := [⟨some 2, 0⟩] },
    { kind := NodeKind.CONSTRUCT } ]

/-! ## `build_urdef` -/

/-- The assignment `*p = link` through a `ChainLink*`. -/
def set_link (nodes : List Node) (p : LinkPtr) (link : ChainLink) : List Node :=
  match nodes[p.node]? with
  | some n => nodes.set p.node { n with links := n.links.set p.index link }
  | none => nodes

/-- The loop `do { l->urdef = link.def; l = l->next; } while (l)` of
`build_urdef`, started at the link `l`; `d` is `link.def`. -/
def stamp_urdef (d : Ref) : Nat → List Node → LinkPtr → Option (List Node)
  | 0, _, _ => none
  | fuel + 1, nodes, l =>
    match link_at nodes l with
    | none => none
    | some c =>
      let nodes1 := set_link nodes l { c with urdef := d }
      match c.next with
      | none => some nodes1
      | some nx => stamp_urdef d fuel nodes1 nx

/-- The body of the loop of `build_urdef` for the link `node->links[i]`. -/
def build_urdef_link (fuel : Nat) (nodes : List Node) (l : LinkPtr) : Option (List Node) :=
  match link_at nodes l with
  | none => none
  | some link =>
    if link.urdef.node.isSome then some nodes
    else if link.prev.isNone then stamp_urdef link.def_ fuel nodes l
    else some nodes

/-- The loop over the link pointers `ls`, in order. -/
def build_urdef_links (fuel : Nat) : List Node → List LinkPtr → Option (List Node)
  | nodes, [] => some nodes
  | nodes, l :: ls => (build_urdef_link fuel nodes l).bind (fun ns => build_urdef_links fuel ns ls)

/-- The function `build_urdef(node)`: the loop over the `type.size()` links of
the node. -/
def build_urdef (fuel : Nat) (nodes : List Node) (p : Nat) : Option (List Node) :=
  match nodes[p]? with
  | none => none
  | some n => build_urdef_links fuel nodes ((List.range n.type.length).map (fun i => ⟨p, i⟩))

/-- The loop `for (auto& node : working_set) build_urdef(node)`. -/
def build_urdef_nodes (fuel : Nat) : List Node → List Nat → Option (List Node)
  | nodes, [] => some nodes
  | nodes, p :: ps => (build_urdef fuel nodes p).bind (fun ns => build_urdef_nodes fuel ns ps)

/-- One chain of links of `nodes`: the first link has no `prev`, every link
but the last has the following link as its `next` and is the `prev` of that
link, and the last link has no `next`. -/
structure IsChain (nodes : List Node) (ch : List LinkPtr) : Prop where
  head_prev : ∀ (h : LinkPtr), ch.head? = some h → ∃ c, link_at nodes h = some c ∧ c.prev = none
  linked : List.Chain' (fun (a b : LinkPtr) =>
    (∃ ca, link_at nodes a = some ca ∧ ca.next = some b) ∧
    (∃ cb, link_at nodes b = some cb ∧ cb.prev = some a)) ch
  last_next : ∀ (t : LinkPtr), ch.getLast? = some t → ∃ c, link_at nodes t = some c ∧ c.next = none
  nonempty : ch ≠ []

/-- The links of `nodes` form the disjoint chains `chains`: every node has one
link per result, every link lies on one of the chains, and no link lies on two
chains. -/
structure ChainDecomposition (nodes : List Node) (chains : List (List LinkPtr)) : Prop where
  shape : ∀ n ∈ nodes, n.links.length = n.type.length
  chain : ∀ ch ∈ chains, IsChain nodes ch
  cover : ∀ (l : LinkPtr), (link_at nodes l).isSome → ∃ ch ∈ chains, l ∈ ch
  disjoint : ∀ ch1 ∈ chains, ∀ ch2 ∈ chains, ∀ (l : LinkPtr), l ∈ ch1 → l ∈ ch2 → ch1 = ch2

/-- A constant alone in the working set, after `process_node_links`: its link
has no `def`. -/
def lone_constant : List Node :=
  [ { kind := NodeKind.CONSTANT, type := [Ty.INTEGER_TY 32], links := [{}] } ]

/-- A buffer declared by node 0 and written by the call 1, whose result
aliases it: the two links form one chain. -/
def written_buffer : List Node :=
  [ { kind := NodeKind.CONSTRUCT, type := [Ty.BUFFER],
      links := [{ def_ := ⟨some 0, 0⟩, undef := ⟨some 1, 1⟩, next := some ⟨1, 0⟩ }] },
    { kind := NodeKind.CALL, type := [Ty.ALIASED_TY Ty.BUFFER 1],
      links := [{ def_ := ⟨some 1, 0⟩, prev := some ⟨0, 0⟩ }],
      args := [⟨none, 0⟩, ⟨some 0, 0⟩] } ]

/-- The chain of `written_buffer` when the head has an `urdef` from an earlier
run. -/
def stale_head : List Node :=
  [ { kind := NodeKind.CONSTRUCT, type := [Ty.BUFFER],
      links := [{ def_ := ⟨some 0, 0⟩, undef := ⟨some 1, 1⟩, next := some ⟨1, 0⟩,
                  urdef := ⟨some 7, 0⟩ }] },
    { kind := NodeKind.CALL, type := [Ty.ALIASED_TY Ty.BUFFER 1],
      links := [{ def_ := ⟨some 1, 0⟩, prev := some ⟨0, 0⟩ }],
      args := [⟨none, 0⟩, ⟨some 0, 0⟩] } ]

/-- No link of the chain has an `urdef` yet. -/
def AllNull (nodes : List Node) (ch : List LinkPtr) : Prop :=
  ∀ l ∈ ch, ∃ c, link_at nodes l = some c ∧ c.urdef.node = none

/-- Every link of the chain has the `def` of the head of the chain as its
`urdef`. -/
def Stamped (nodes0 nodes : List Node) (ch : List LinkPtr) : Prop :=
  ∀ (h : LinkPtr), ch.head? = some h →
    ∃ c0, link_at nodes0 h = some c0 ∧
      ∀ l ∈ ch, (link_at nodes l).map ChainLink.urdef = some c0.def_

/-- The links of `nodes` are those of `nodes0` up to their `urdef`. -/
structure SameLinks (nodes0 nodes : List Node) : Prop where
  links : ∀ (l : LinkPtr), (link_at nodes l).map (fun c => { c with urdef := ⟨none, 0⟩ }) =
    (link_at nodes0 l).map (fun c => { c with urdef := ⟨none, 0⟩ })
  types : ∀ (p : Nat), (nodes[p]?).map Node.type = (nodes0[p]?).map Node.type
  length : nodes.length = nodes0.length

/-- The invariant of the loops of `build_urdef`: only `urdef`s have changed,
and each chain is either untouched or stamped as a whole. -/
structure UrdefInv (nodes0 : List Node) (chains : List (List LinkPtr)) (nodes : List Node) :
    Prop where
  same : SameLinks nodes0 nodes
  state : ∀ ch ∈ chains, AllNull nodes ch ∨ Stamped nodes0 nodes ch

/-! ## `RGCImpl::reify_inference` -/

/-- What `eval<Swapchain*>(...)` yields, as far as the pass reads it: the
members of `swp.images[0]`. -/
structure SwapchainImage where
  width : Nat
  height : Nat
  layer_count : Nat

/-- The constants and helpers of `reify_inference` that are declared outside
the sources at hand: the enumerators `Format::eUndefined`, `Samples::eInfer`
and `Samples::e1`, the macros `VK_REMAINING_ARRAY_LAYERS` and
`VK_REMAINING_MIP_LEVELS`, the helper `is_framebuffer_attachment`, and the
constant evaluators `eval<uint32_t>` and `eval<Swapchain*>`, which read the
node graph. -/
structure ReifyHelpers where
  eUndefined : Nat
  eInfer : Nat
  e1 : Nat
  remaining_array_layers : Nat
  remaining_mip_levels : Nat
  is_framebuffer_attachment : Access → Bool
  eval : List Node → Ref → Option Nat
  eval_swapchain : List Node → Ref → Option SwapchainImage

/-- The state of `reify_inference`: the nodes, the flag `progress`, and the
locals `extent`, `samples` and `layer_count` of the `CALL` case. -/
structure Reify where
  nodes : List Node
  progress : Bool := false
  extent : Option (Nat × Nat) := none
  samples : Option Nat := none
  layer_count : Option Nat := none

/-- The node behind a `Ref`. -/
def node_of (nodes : List Node) (r : Ref) : Option Node :=
  r.node.bind (fun p => nodes[p]?)

/-- The helper `constant<T>(r)`: the value `r.node->constant.value` of a
`CONSTANT` node. -/
def constant_of (nodes : List Node) (r : Ref) : Option ConstantValue :=
  (node_of nodes r).bind (fun n =>
    if n.kind = NodeKind.CONSTANT then some n.constant_value else none)

/-- The lambda `is_placeholder`. -/
def is_placeholder (nodes : List Node) (r : Ref) : Option Bool :=
  (node_of nodes r).map (fun n => decide (n.kind = NodeKind.PLACEHOLDER))

/-- The common part of `placeholder_to_constant` and `placeholder_to_ptr`: a
`PLACEHOLDER` node becomes a `CONSTANT` that holds `value`, and
`constant.owned` is set to `owned`. -/
def fill_placeholder (nodes : List Node) (r : Ref) (value : Nat) (owned : Bool) :
    Option (List Node × Bool) :=
  match r.node with
  | none => none
  | some p =>
    match nodes[p]? with
    | none => none
    | some n =>
      if n.kind = NodeKind.PLACEHOLDER then
        some (nodes.set p { n with kind := NodeKind.CONSTANT,
                                   constant_value := ConstantValue.bytes value,
                                   owned := owned }, true)
      else some (nodes, false)

/-- The lambda `placeholder_to_constant`, which allocates the value (`owned =
true`) and sets `progress` when it fills the placeholder. -/
def placeholder_to_constant (r : Ref) (value : Nat) (st : Reify) : Option Reify :=
  (fill_placeholder st.nodes r value true).map (fun res =>
    { st with nodes := res.1, progress := res.2 || st.progress })

/-- The lambda `placeholder_to_ptr`: the constant points to a member of the
prototype (`owned = false`), whose value at that moment is `value`; the
prototype is a `CONSTANT` node, which the pass does not write. -/
def placeholder_to_ptr (r : Ref) (value : Nat) (st : Reify) : Option Reify :=
  (fill_placeholder st.nodes r value false).map (fun res => { st with nodes := res.1 })

/-- The statement `if (cond) placeholder_to_ptr(args_ptr[k], &ptr->member)`. -/
def ptr_if (cond : Bool) (args : List Ref) (k : Nat) (value : Nat) (st : Reify) : Option Reify :=
  if cond then (args[k]?).bind (fun r => placeholder_to_ptr r value st) else some st

/-- A sequence of statements. -/
def run_steps : List (Reify → Option Reify) → Reify → Option Reify
  | [], st => some st
  | f :: fs, st => (f st).bind (run_steps fs)

/-- The `CONSTRUCT` case of the first loop of `reify_inference`. -/
def reify_construct (c : ReifyHelpers) (node : Node) (st : Reify) : Option Reify :=
  match node.type.head? with
  | none => none
  | some Ty.IMAGE =>
    match (node.args[0]?).bind (constant_of st.nodes) with
    | some (ConstantValue.image value) =>
      run_steps
        [ ptr_if (decide (value.extent.width > 0)) node.args 1 value.extent.width,
          ptr_if (decide (value.extent.height > 0)) node.args 2 value.extent.height,
          ptr_if (decide (value.extent.depth > 0)) node.args 3 value.extent.depth,
          ptr_if (decide (value.format ≠ c.eUndefined)) node.args 4 value.format,
          ptr_if (decide (value.sample_count ≠ c.eInfer)) node.args 5 value.sample_count,
          ptr_if (decide (value.base_layer ≠ c.remaining_array_layers)) node.args 6
            value.base_layer,
          ptr_if (decide (value.layer_count ≠ c.remaining_array_layers)) node.args 7
            value.layer_count,
          ptr_if (decide (value.base_level ≠ c.remaining_mip_levels)) node.args 8
            value.base_level,
          ptr_if (decide (value.level_count ≠ c.remaining_mip_levels)) node.args 9
            value.level_count ] st
    | _ => none
  | some Ty.BUFFER =>
    match (node.args[0]?).bind (constant_of st.nodes) with
    | some (ConstantValue.buffer value) =>
      ptr_if (decide (value.size ≠ 4294967295)) node.args 1 value.size st
    | _ => none
  | some _ => some st

/-- The body of the first loop of `reify_inference` for the node at `p`. -/
def reify_node (c : ReifyHelpers) (p : Nat) (st : Reify) : Option Reify :=
  match st.nodes[p]? with
  | none => none
  | some node =>
    if node.kind = NodeKind.CONSTRUCT then reify_construct c node st else some st

/-- The statement `if (is_placeholder(args[k])) placeholder_to_constant(args[k], value)`. -/
def fill_arg (args : List Ref) (k : Nat) (value : Nat) (st : Reify) : Option Reify :=
  (args[k]?).bind (fun r => placeholder_to_constant r value st)

/-- The two branches on `samples` and `args[5]`. -/
def infer_samples (args : List Ref) (st : Reify) : Option Reify :=
  (args[5]?).bind (fun r =>
    (is_placeholder st.nodes r).bind (fun ph =>
      match st.samples, ph with
      | none, false =>
        match constant_of st.nodes r with
        | some (ConstantValue.bytes v) => some { st with samples := some v }
        | _ => none
      | some s, true => placeholder_to_constant r s st
      | _, _ => some st))

/-- The two branches on `extent`, `args[1]` and `args[2]`; the tests are
evaluated from left to right and stop at the first that fails. -/
def infer_extent (c : ReifyHelpers) (args : List Ref) (st : Reify) : Option Reify :=
  (args[1]?).bind (fun r1 =>
    (is_placeholder st.nodes r1).bind (fun ph1 =>
      match st.extent, ph1 with
      | none, true => some st
      | none, false =>
        (args[2]?).bind (fun r2 =>
          (is_placeholder st.nodes r2).bind (fun ph2 =>
            if ph2 then some st
            else
              match c.eval st.nodes r1, c.eval st.nodes r2 with
              | some e1, some e2 => some { st with extent := some (e1, e2) }
              | _, _ => some st))
      | some _, false => some st
      | some e, true =>
        (args[2]?).bind (fun r2 =>
          (is_placeholder st.nodes r2).bind (fun ph2 =>
            if ph2 then
              (placeholder_to_constant r1 e.1 st).bind (placeholder_to_constant r2 e.2)
            else some st))))

/-- The two branches on `layer_count` and `args[7]`. -/
def infer_layers (c : ReifyHelpers) (args : List Ref) (st : Reify) : Option Reify :=
  (args[7]?).bind (fun r =>
    (is_placeholder st.nodes r).bind (fun ph =>
      match st.layer_count, ph with
      | none, false =>
        match c.eval st.nodes r with
        | some e => some { st with layer_count := some e }
        | none => some st
      | some l, true => placeholder_to_constant r l st
      | _, _ => some st))

/-- The body of `if (is_framebuffer_attachment(access))`; `args` are the
arguments of the `CONSTRUCT` node that is the urdef of the parameter. -/
def infer_attachment (c : ReifyHelpers) (args : List Ref) (st : Reify) : Option Reify :=
  run_steps [fill_arg args 9 1, fill_arg args 3 1, infer_samples args, infer_extent c args,
    infer_layers c args] st

/-- The `ACQUIRE_NEXT_IMAGE` branch: the three locals are taken from the
swapchain if it evaluates. -/
def infer_swapchain (c : ReifyHelpers) (urdef : Node) (st : Reify) : Option Reify :=
  (urdef.args[0]?).bind (fun swapchain =>
    match c.eval_swapchain st.nodes swapchain with
    | some swp =>
      some { st with extent := some (swp.width, swp.height),
                     layer_count := some swp.layer_count, samples := some c.e1 }
    | none => some st)

/-- The body of the loop over the arguments of an opaque call, for the
parameter `parm` of type `arg_ty`; `assert(0)` in the last branch leaves the
state as it is. -/
def infer_parm (c : ReifyHelpers) (arg_ty : Ty) (parm : Ref) (st : Reify) : Option Reify :=
  match arg_ty with
  | Ty.IMBUED_TY _ access =>
    match (parm.node.bind (fun p => link_at st.nodes ⟨p, parm.index⟩)) with
    | none => none
    | some link =>
      match node_of st.nodes link.urdef with
      | none => none
      | some urdef =>
        if urdef.kind = NodeKind.CONSTRUCT then
          if c.is_framebuffer_attachment access then infer_attachment c urdef.args st
          else some st
        else if urdef.kind = NodeKind.ACQUIRE_NEXT_IMAGE then infer_swapchain c urdef st
        else some st
  | _ => some st

/-- The loop `for (size_t i = 1; i < node->call.args.size(); i++)`: `parms` are
the arguments from `i` on. -/
def infer_parms (c : ReifyHelpers) (fn_args : List Ty) : Nat → List Ref → Reify → Option Reify
  | _, [], st => some st
  | i, parm :: parms, st =>
    match fn_args[i - 1]? with
    | none => none
    | some arg_ty => (infer_parm c arg_ty parm st).bind (infer_parms c fn_args (i + 1) parms)

/-- The `CALL` case of the second loop; the locals start empty. -/
def infer_call (c : ReifyHelpers) (node : Node) (st : Reify) : Option Reify :=
  match (node.args[0]?).bind (Ref.type st.nodes) with
  | none => none
  | some (Ty.OPAQUE_FN_TY fn_args _) =>
    infer_parms c fn_args 1 node.args.tail
      { st with extent := none, samples := none, layer_count := none }
  | some _ => some st

/-- The `CONSTRUCT` case of the second loop. -/
def infer_construct (node : Node) (st : Reify) : Option Reify :=
  match node.type.head? with
  | none => none
  | some Ty.IMAGE =>
    match (node.args[0]?).bind (constant_of st.nodes) with
    | some (ConstantValue.image value) =>
      if value.image.image = 0 then
        run_steps [fill_arg node.args 6 0, fill_arg node.args 8 0] st
      else some st
    | _ => none
  | some _ => some st

/-- The body of the second loop for the node at `p`. -/
def infer_node (c : ReifyHelpers) (p : Nat) (st : Reify) : Option Reify :=
  match st.nodes[p]? with
  | none => none
  | some node =>
    if node.kind = NodeKind.CALL then infer_call c node st
    else if node.kind = NodeKind.CONSTRUCT then infer_construct node st
    else some st

/-- A loop `for (auto node : nodes)` with the body `body`. -/
def for_nodes (body : Nat → Reify → Option Reify) : List Nat → Reify → Option Reify
  | [], st => some st
  | p :: ps, st => (body p st).bind (for_nodes body ps)

/-- One round of the loop `do { ... } while (progress)`. -/
def infer_round (c : ReifyHelpers) (nodes : List Node) : Option Reify :=
  for_nodes (infer_node c) (List.range nodes.length) { nodes := nodes, progress := false }

/-- The loop `do { ... } while (progress)`. -/
def infer_loop (c : ReifyHelpers) : Nat → List Node → Option (List Node)
  | 0, _ => none
  | fuel + 1, nodes =>
    match infer_round c nodes with
    | none => none
    | some st => if st.progress then infer_loop c fuel st.nodes else some st.nodes

/-- The function `RGCImpl::reify_inference` on `nodes`. -/
def reify_inference (c : ReifyHelpers) (fuel : Nat) (nodes : List Node) : Option (List Node) :=
  (for_nodes (reify_node c) (List.range nodes.length) { nodes := nodes }).bind
    (fun st => infer_loop c fuel st.nodes)

/-- What `reify_inference` may do to the nodes: every node stays as it is, or
it was a `PLACEHOLDER` and has become a `CONSTANT` with a value. -/
def Frame (nodes nodes1 : List Node) : Prop :=
  nodes1.length = nodes.length ∧
  ∀ (p : Nat) (n : Node), nodes[p]? = some n →
    ∃ n1, nodes1[p]? = some n1 ∧
      (n1 = n ∨ (n.kind = NodeKind.PLACEHOLDER ∧
        ∃ v o, n1 = { n with kind := NodeKind.CONSTANT, constant_value := ConstantValue.bytes v,
                             owned := o }))

/-- A statement of the pass that keeps to `Frame`. -/
def Framed (f : Reify → Option Reify) : Prop :=
  ∀ (st st1 : Reify), f st = some st1 → Frame st.nodes st1.nodes

/-- The number of `PLACEHOLDER` nodes. -/
def count_placeholders (nodes : List Node) : Nat :=
  nodes.countP (fun n => n.kind == NodeKind.PLACEHOLDER)

/-- A statement of the second loop: it keeps to `Frame`, and either it sets
`progress`, with fewer placeholders left if `progress` was not set before, or
it leaves the nodes and `progress` as they are. -/
def Sound (f : Reify → Option Reify) : Prop :=
  ∀ (st st1 : Reify), f st = some st1 → Frame st.nodes st1.nodes ∧
    ((st1.progress = true ∧
        (st.progress = false → count_placeholders st1.nodes < count_placeholders st.nodes)) ∨
      (st1.nodes = st.nodes ∧ st1.progress = st.progress))

/-- A statement of the first loop that has nothing left to do once it has run:
on every later state of the nodes it changes nothing. -/
def Settles (f : Reify → Option Reify) : Prop :=
  ∀ (st st1 : Reify), f st = some st1 →
    ∀ (st2 : Reify), Frame st1.nodes st2.nodes → f st2 = some st2

/-- The node behind `args[k]`. -/
def arg_node (nodes : List Node) (args : List Ref) (k : Nat) : Option Node :=
  (args[k]?).bind (node_of nodes)

/-- A field of a declared image: a placeholder or a constant number. -/
def Fillable (n : Node) : Prop :=
  n.kind = NodeKind.PLACEHOLDER ∨
  (n.kind = NodeKind.CONSTANT ∧ ∃ v, n.constant_value = ConstantValue.bytes v)

/-- The arguments 1 to 9 of the `CONSTRUCT` node of an image are placeholders
or constant numbers, and no placeholder is two of the arguments. -/
structure AttachmentArgs (nodes : List Node) (args : List Ref) : Prop where
  fields : ∀ (k : Nat), 1 ≤ k → k < 10 → ∃ n, arg_node nodes args k = some n ∧ Fillable n
  distinct : ∀ (k1 k2 : Nat) (r1 r2 : Ref) (n : Node), args[k1]? = some r1 →
    args[k2]? = some r2 → r1.node = r2.node → node_of nodes r1 = some n →
    n.kind = NodeKind.PLACEHOLDER → k1 = k2

/-- The argument `args[k]` is a placeholder. -/
def ArgIsPlaceholder (nodes : List Node) (args : List Ref) (k : Nat) : Prop :=
  ∃ n, arg_node nodes args k = some n ∧ n.kind = NodeKind.PLACEHOLDER

/-- The argument `args[k]` is the constant `value`. -/
def ArgIsConstant (nodes : List Node) (args : List Ref) (k : Nat) (value : Nat) : Prop :=
  ∃ n, arg_node nodes args k = some n ∧ n.kind = NodeKind.CONSTANT ∧
    n.constant_value = ConstantValue.bytes value

/-- No placeholder is an argument of both `CONSTRUCT` nodes. -/
def Apart (nodes : List Node) (args1 args2 : List Ref) : Prop :=
  ∀ (k1 k2 : Nat) (r1 r2 : Ref) (n : Node), args1[k1]? = some r1 → args2[k2]? = some r2 →
    r1.node = r2.node → node_of nodes r1 = some n → n.kind ≠ NodeKind.PLACEHOLDER

/-- From `nodes` to `nodes1` no node has been written but placeholders that
are arguments in `args`. -/
def WritesOnly (args : List Ref) (nodes nodes1 : List Node) : Prop :=
  ∀ (q : Nat), nodes1[q]? ≠ nodes[q]? →
    ∃ (k : Nat) (r : Ref) (n : Node), args[k]? = some r ∧ r.node = some q ∧
      nodes[q]? = some n ∧ n.kind = NodeKind.PLACEHOLDER

/-- The evaluator `eval<uint32_t>` holds the value of a constant number. -/
def EvalReads (c : ReifyHelpers) : Prop :=
  ∀ (nodes : List Node) (r : Ref) (v : Nat),
    constant_of nodes r = some (ConstantValue.bytes v) → c.eval nodes r = some v

/-- The branch that the body of the loop over the arguments of an opaque call
takes for a parameter: the body of a framebuffer attachment on the arguments of
the `CONSTRUCT` urdef, the `ACQUIRE_NEXT_IMAGE` branch, no statement at all, or
a pointer that dangles. -/
inductive ParmCase
  | attachment (args : List Ref)
  | swapchain (urdef : Node)
  | skipped
  | dangling

/-- The branch of `infer_parm` for the parameter `parm` of type `arg_ty`. -/
def parm_case (c : ReifyHelpers) (nodes : List Node) (arg_ty : Ty) (parm : Ref) : ParmCase :=
  match arg_ty with
  | Ty.IMBUED_TY _ access =>
    match (parm.node.bind (fun p => link_at nodes ⟨p, parm.index⟩)) with
    | none => ParmCase.dangling
    | some link =>
      match node_of nodes link.urdef with
      | none => ParmCase.dangling
      | some urdef =>
        if urdef.kind = NodeKind.CONSTRUCT then
          if c.is_framebuffer_attachment access then ParmCase.attachment urdef.args
          else ParmCase.skipped
        else if urdef.kind = NodeKind.ACQUIRE_NEXT_IMAGE then ParmCase.swapchain urdef
        else ParmCase.skipped
  | _ => ParmCase.skipped

/-- The arguments of the `CONSTRUCT` urdef of the parameter at position `i` of
`parms` (the argument `i + 1` of the call), when the scan takes the parameter
for a framebuffer attachment. -/
def attachment_at (c : ReifyHelpers) (nodes : List Node) (fn_args : List Ty) (parms : List Ref)
    (i : Nat) : Option (List Ref) :=
  match fn_args[i]?, parms[i]? with
  | some arg_ty, some parm =>
    match parm_case c nodes arg_ty parm with
    | ParmCase.attachment args => some args
    | _ => none
  | _, _ => none

/-- The scan makes no statement for the parameter at position `i` of `parms`. -/
def skipped_at (c : ReifyHelpers) (nodes : List Node) (fn_args : List Ty) (parms : List Ref)
    (i : Nat) : Prop :=
  ∃ arg_ty parm, fn_args[i]? = some arg_ty ∧ parms[i]? = some parm ∧
    parm_case c nodes arg_ty parm = ParmCase.skipped

/-- The parameters of an opaque call up to position `b`, in the state `nodes`
in which the scan starts: each is skipped or is a framebuffer attachment whose
`CONSTRUCT` urdef has placeholders or constant numbers as its fields, and no
placeholder is a field of two of the attachments or two fields of one. -/
structure Scanned (c : ReifyHelpers) (nodes : List Node) (fn_args : List Ty)
    (parms : List Ref) (b : Nat) : Prop where
  cases : ∀ (i : Nat), i ≤ b → skipped_at c nodes fn_args parms i ∨
    ∃ args, attachment_at c nodes fn_args parms i = some args ∧ AttachmentArgs nodes args
  apart : ∀ (i j : Nat) (args1 args2 : List Ref), i ≤ b → j ≤ b → i ≠ j →
    attachment_at c nodes fn_args parms i = some args1 →
    attachment_at c nodes fn_args parms j = some args2 → Apart nodes args1 args2

/-- Helpers for concrete runs of `reify_inference`: access 1 is a framebuffer
attachment, `eval` reads a constant number, no swapchain evaluates. -/
def sample_reify : ReifyHelpers :=
  { eUndefined := 0, eInfer := 0, e1 := 1,
    remaining_array_layers := 4294967295, remaining_mip_levels := 4294967295,
    is_framebuffer_attachment := fun a => a == 1,
    eval := fun nodes r =>
      match constant_of nodes r with
      | some (ConstantValue.bytes v) => some v
      | _ => none,
    eval_swapchain := fun _ _ => none }

/-- The arguments of the `CONSTRUCT` node of the declared depth image: the
prototype at 6 and the nine fields at 7 to 15. -/
def depth_args : List Ref :=
  [⟨some 6, 0⟩, ⟨some 7, 0⟩, ⟨some 8, 0⟩, ⟨some 9, 0⟩, ⟨some 10, 0⟩, ⟨some 11, 0⟩,
   ⟨some 12, 0⟩, ⟨some 13, 0⟩, ⟨some 14, 0⟩, ⟨some 15, 0⟩]

/-- The nodes of a render pass with two attachments (the test "renderpass
framebuffer inference"): a colour image of 2 x 2 texels with one sample and
one layer, constructed at 5 from constants, and a declared depth image at 16 of
which only the format is set; `call_args` are the arguments of the call at 17,
which has the opaque function type of node 0. -/
def renderpass (call_args : List Ref) : List Node :=
  [ { kind := NodeKind.CONSTANT,
      type := [Ty.OPAQUE_FN_TY [Ty.IMBUED_TY Ty.IMAGE 1, Ty.IMBUED_TY Ty.IMAGE 1] []] },
    { kind := NodeKind.CONSTANT, constant_value := ConstantValue.bytes 0 },
    { kind := NodeKind.CONSTANT, constant_value := ConstantValue.bytes 1 },
    { kind := NodeKind.CONSTANT, constant_value := ConstantValue.bytes 2 },
    { kind := NodeKind.CONSTANT,
      constant_value := ConstantValue.image
        { extent := { width := 2, height := 2, depth := 1 }, format := 1, sample_count := 1,
          base_layer := 0, layer_count := 1, base_level := 0, level_count := 1 } },
    { kind := NodeKind.CONSTRUCT, type := [Ty.IMAGE],
      links := [{ def_ := ⟨some 5, 0⟩, urdef := ⟨some 5, 0⟩ }],
      args := [⟨some 4, 0⟩, ⟨some 3, 0⟩, ⟨some 3, 0⟩, ⟨some 2, 0⟩, ⟨some 2, 0⟩, ⟨some 2, 0⟩,
               ⟨some 1, 0⟩, ⟨some 2, 0⟩, ⟨some 1, 0⟩, ⟨some 2, 0⟩] },
    { kind := NodeKind.CONSTANT,
      constant_value := ConstantValue.image
        { format := 2, sample_count := 0, base_layer := 4294967295, layer_count := 4294967295,
          base_level := 4294967295, level_count := 4294967295 } },
    { kind := NodeKind.PLACEHOLDER }, { kind := NodeKind.PLACEHOLDER },
    { kind := NodeKind.PLACEHOLDER }, { kind := NodeKind.PLACEHOLDER },
    { kind := NodeKind.PLACEHOLDER }, { kind := NodeKind.PLACEHOLDER },
    { kind := NodeKind.PLACEHOLDER }, { kind := NodeKind.PLACEHOLDER },
    { kind := NodeKind.PLACEHOLDER },
    { kind := NodeKind.CONSTRUCT, type := [Ty.IMAGE],
      links := [{ def_ := ⟨some 16, 0⟩, urdef := ⟨some 16, 0⟩ }],
      args := depth_args },
    { kind := NodeKind.CALL, type := [Ty.ALIASED_TY Ty.IMAGE 1], args := call_args } ]

/-- The colour image is the first attachment of the call. -/
def colour_first : List Node := renderpass [⟨some 0, 0⟩, ⟨some 5, 0⟩, ⟨some 16, 0⟩]

/-- The depth image is the first attachment of the call. -/
def depth_first : List Node := renderpass [⟨some 0, 0⟩, ⟨some 16, 0⟩, ⟨some 5, 0⟩]

/-- The arguments of the `CONSTRUCT` node of the colour image of `renderpass`:
the prototype at 4 and nine fields on the constants 1, 2 and 3. -/
def colour_args : List Ref :=
  [⟨some 4, 0⟩, ⟨some 3, 0⟩, ⟨some 3, 0⟩, ⟨some 2, 0⟩, ⟨some 2, 0⟩, ⟨some 2, 0⟩,
   ⟨some 1, 0⟩, ⟨some 2, 0⟩, ⟨some 1, 0⟩, ⟨some 2, 0⟩]

/-- The nodes of `colour_first` after the first loop of `reify_inference`: the
format of the depth image (node 10) is the constant of its prototype. -/
def colour_first_declared : List Node :=
  colour_first.set 10 { kind := NodeKind.CONSTANT, constant_value := ConstantValue.bytes 2 }

/-- The nodes of `colour_first` when the first round of the framebuffer
inference reaches the call at 17: the `CONSTRUCT` case has set the base layer
(node 12) and the base level (node 14) of the depth image to 0. -/
def colour_first_reached : List Node :=
  (colour_first_declared.set 12
    { kind := NodeKind.CONSTANT, constant_value := ConstantValue.bytes 0, owned := true }).set 14
    { kind := NodeKind.CONSTANT, constant_value := ConstantValue.bytes 0, owned := true }

/-- The call of `renderpass` with the colour image first. -/
def colour_first_call : Node :=
  { kind := NodeKind.CALL, type := [Ty.ALIASED_TY Ty.IMAGE 1],
    args := [⟨some 0, 0⟩, ⟨some 5, 0⟩, ⟨some 16, 0⟩] }

/-- The kinds and constants of the nodes, for comparing two node lists. -/
def kinds_and_values (nodes : List Node) : List (NodeKind × ConstantValue) :=
  nodes.map (fun n => (n.kind, n.constant_value))

/-! ## `process_node_links` and `RGCImpl::build_links`

The model covers chains without slices: where `walk_writes` comes to a link
whose undef is a `SLICE`, the branch that the code enters works on
`MultiSubrange` and calls `make_converge`, both declared outside the sources at
hand, and the model has no value (`none`).  A failed `assert` is recorded in
`asserts_hold` and does not stop the pass. -/

/-- The helpers of `process_node_links` that are declared outside the sources
at hand: `is_write_access` and the enumerator `Access::eConsume`. -/
structure LinkHelpers where
  is_write_access : Access → Bool
  eConsume : Access

/-- The state of the link builder: the nodes with their links and arguments,
and whether every `assert` so far has held. -/
structure LinkState where
  nodes : List Node
  asserts_hold : Bool := true

/-- The statement `assert(b)`. -/
def LinkState.check (st : LinkState) (b : Bool) : LinkState :=
  { st with asserts_hold := st.asserts_hold && b }

/-- The method `Ref::link()`, as a pointer: `&node->links[index]`. -/
def ref_link (r : Ref) : Option LinkPtr :=
  r.node.map (fun p => ⟨p, r.index⟩)

/-- The assignment `node->args[i] = r` through the reference `parm`. -/
def set_arg (nodes : List Node) (node i : Nat) (r : Ref) : List Node :=
  match nodes[node]? with
  | some n => nodes.set node { n with args := n.args.set i r }
  | none => nodes

/-- The test `link->undef && link->undef.node->kind == Node::SLICE`. -/
def undef_is_slice (nodes : List Node) (link : ChainLink) : Option Bool :=
  match link.undef.node with
  | none => some false
  | some u => (nodes[u]?).map (fun n => decide (n.kind = NodeKind.SLICE))

/-- The loop of the lambda `walk_writes` on a chain without slices: the link at
which the loop ends. -/
def walk_writes : Nat → List Node → LinkPtr → Option LinkPtr
  | 0, _, _ => none
  | fuel + 1, nodes, l =>
    (link_at nodes l).bind (fun link =>
      (undef_is_slice nodes link).bind (fun s =>
        if s then none
        else
          (link_at nodes (link.next.getD l)).bind (fun link1 =>
            if link1.next.isSome || !link1.child_chains.isEmpty then
              walk_writes fuel nodes (link.next.getD l)
            else some (link.next.getD l))))

/-- The end of `walk_writes` and the assignment `parm = last_write`, for the
argument `i` of `node`: `assert(!link->undef)`, then `last_write = link->def`. -/
def rewrite_parm (fuel : Nat) (node i : Nat) (l : LinkPtr) (st : LinkState) :
    Option (LinkState × Ref) :=
  (walk_writes fuel st.nodes l).bind (fun last =>
    (link_at st.nodes last).map (fun lastlink =>
      ({ nodes := set_arg st.nodes node i lastlink.def_,
         asserts_hold := st.asserts_hold && lastlink.undef.node.isNone }, lastlink.def_)))

/-- The value of `node->index >= old_ref.node->index` in `add_write`. -/
def after_write (nodes : List Node) (node old : Nat) : Bool :=
  match nodes[node]?, nodes[old]? with
  | some n, some o => decide (o.index ≤ n.index)
  | _, _ => false

/-- The statement `parm.link().undef = { node, index }` at the end of
`add_write`; `res.2` is `parm`. -/
def write_undef (node i : Nat) (res : LinkState × Ref) : Option LinkState :=
  (ref_link res.2).bind (fun l =>
    (link_at res.1.nodes l).map (fun (link : ChainLink) =>
      { nodes := set_link res.1.nodes l { link with undef := ⟨some node, i⟩ },
        asserts_hold := res.1.asserts_hold }))

/-- The lambda `add_write(node, parm, index)`, where `parm` is the argument
`index` of `node` (`call.args[i]`, `splice.src[i]`, `converge.diverged[i]`,
`slice.image`). -/
def add_write (do_ssa : Bool) (fuel : Nat) (node i : Nat) (st : LinkState) :
    Option LinkState :=
  ((st.nodes[node]?).bind (fun n => n.args[i]?)).bind (fun parm =>
    (node_of st.nodes parm).bind (fun pn =>
      if pn.links.isEmpty then some ((st.check (pn.kind != NodeKind.GARBAGE)).check do_ssa)
      else
        (ref_link parm).bind (fun l =>
          (link_at st.nodes l).bind (fun link =>
            match link.undef.node with
            | none => write_undef node i (st.check (pn.kind != NodeKind.GARBAGE), parm)
            | some old =>
              (rewrite_parm fuel node i l
                (((st.check (pn.kind != NodeKind.GARBAGE)).check do_ssa).check
                  (after_write st.nodes node old))).bind (write_undef node i)))))

/-- The value of `node->index > parm.link().undef.node->index` in `add_read`. -/
def before_read (nodes : List Node) (node old : Nat) : Option Bool :=
  match nodes[node]?, nodes[old]? with
  | some n, some o => some (decide (o.index < n.index))
  | _, _ => none

/-- The statement `parm.link().reads.append(pass_reads, { node, index })` at
the end of `add_read`; `res.2` is `parm`. -/
def append_read (node i : Nat) (res : LinkState × Ref) : Option LinkState :=
  (ref_link res.2).bind (fun l =>
    (link_at res.1.nodes l).map (fun (link : ChainLink) =>
      { nodes := set_link res.1.nodes l { link with reads := link.reads ++ [(⟨some node, i⟩ : Ref)] },
        asserts_hold := res.1.asserts_hold }))

/-- The test of `add_read` for an earlier write, and the rewrite of `parm`. -/
def read_parm (do_ssa : Bool) (fuel : Nat) (node i : Nat) (l : LinkPtr) (link : ChainLink)
    (parm : Ref) (st : LinkState) : Option (LinkState × Ref) :=
  match link.undef.node with
  | none => some (st, parm)
  | some old =>
    (before_read st.nodes node old).bind (fun b =>
      if b then rewrite_parm fuel node i l (st.check do_ssa) else some (st, parm))

/-- The lambda `add_read(node, parm, index)`. -/
def add_read (do_ssa : Bool) (fuel : Nat) (node i : Nat) (st : LinkState) :
    Option LinkState :=
  ((st.nodes[node]?).bind (fun n => n.args[i]?)).bind (fun parm =>
    (node_of st.nodes parm).bind (fun pn =>
      if pn.links.isEmpty then some ((st.check (pn.kind != NodeKind.GARBAGE)).check do_ssa)
      else
        (ref_link parm).bind (fun l =>
          (link_at st.nodes l).bind (fun link =>
            (read_parm do_ssa fuel node i l link parm
              (st.check (pn.kind != NodeKind.GARBAGE))).bind (append_read node i)))))

/-- The statement `Ref{node, i}.link().def = {node, i}`. -/
def set_def (node i : Nat) (st : LinkState) : Option LinkState :=
  (link_at st.nodes ⟨node, i⟩).map (fun link =>
    { st with nodes := set_link st.nodes ⟨node, i⟩ { link with def_ := ⟨some node, i⟩ } })

/-- The statements `a->next = b; b->prev = a`. -/
def link_next_prev (a b : LinkPtr) (nodes : List Node) : Option (List Node) :=
  (link_at nodes a).bind (fun la =>
    (link_at (set_link nodes a { la with next := some b }) b).map (fun lb =>
      set_link (set_link nodes a { la with next := some b }) b { lb with prev := some a }))

/-- The lambda `add_result(node, output_idx, src)`, where `src` is the argument
`ref_idx` of `node` as it is when the lambda is called. -/
def add_result (do_ssa : Bool) (node output_idx ref_idx : Nat) (st : LinkState) :
    Option LinkState :=
  (set_def node output_idx st).bind (fun st1 =>
    ((st1.nodes[node]?).bind (fun n => n.args[ref_idx]?)).bind (fun src =>
      (node_of st1.nodes src).bind (fun sn =>
        if sn.links.isEmpty then some (st1.check do_ssa)
        else
          (ref_link src).bind (fun s =>
            (link_next_prev s ⟨node, output_idx⟩ st1.nodes).map (fun nodes2 =>
              { st1 with nodes := nodes2 })))))

/-- A loop over the indices `is` with the body `body`. -/
def for_each {σ : Type} (body : Nat → σ → Option σ) : List Nat → σ → Option σ
  | [], st => some st
  | i :: is, st => (body i st).bind (for_each body is)

/-- The statement `parm.link().undef = { node, i }` of the `CONSTRUCT` case. -/
def construct_undef (node i : Nat) (st : LinkState) : Option LinkState :=
  ((st.nodes[node]?).bind (fun n => n.args[i]?)).bind (fun parm =>
    (ref_link parm).bind (fun l =>
      (link_at st.nodes l).map (fun (link : ChainLink) =>
        { st with nodes := set_link st.nodes l { link with undef := ⟨some node, i⟩ } })))

/-- The statement `parm.link().next = &first(node).link()` of the `CONSTRUCT`
case for an array. -/
def construct_next (node i : Nat) (st : LinkState) : Option LinkState :=
  ((st.nodes[node]?).bind (fun n => n.args[i]?)).bind (fun parm =>
    (ref_link parm).bind (fun l =>
      (link_at st.nodes l).map (fun (link : ChainLink) =>
        { st with nodes := set_link st.nodes l { link with next := some ⟨node, 0⟩ } })))

/-- The `CONSTRUCT` case of `process_node_links`. -/
def link_construct (node : Nat) (n : Node) (st : LinkState) : Option LinkState :=
  (set_def node 0 st).bind (fun st1 =>
    (for_each (construct_undef node) (List.range n.args.length) st1).bind (fun st2 =>
      match n.type.head? with
      | none => none
      | some t =>
        if is_array_ty t then
          for_each (construct_next node) (List.range' 1 (n.args.length - 1)) st2
        else some st2))

/-- The body of the loop of the `SPLICE` case. -/
def link_splice_result (do_ssa : Bool) (fuel : Nat) (node : Nat) (n : Node) (i : Nat)
    (st : LinkState) : Option LinkState :=
  if n.rel_acq = none ∨ n.rel_acq = some SignalStatus.eDisarmed then
    (add_write do_ssa fuel node i st).bind (add_result do_ssa node i i)
  else set_def node i st

/-- The body of the loop over the parameters of the `CALL` case. -/
def link_call_parm (h : LinkHelpers) (do_ssa : Bool) (fuel : Nat) (node : Nat)
    (fn_args : List Ty) (first_parm : Nat) (i : Nat) (st : LinkState) : Option LinkState :=
  match fn_args[i - first_parm]? with
  | none => none
  | some (Ty.IMBUED_TY _ access) =>
    (if h.is_write_access access || access == h.eConsume then add_write do_ssa fuel node i st
     else some st).bind (fun st1 =>
      if !(h.is_write_access access) && access != h.eConsume then add_read do_ssa fuel node i st1
      else some st1)
  | some _ => some (st.check false)

/-- The body of the loop over the results of the `CALL` case; a result type
that is not `ALIASED_TY` has no `ref_idx`. -/
def link_call_result (do_ssa : Bool) (node : Nat) (types : List Ty) (index : Nat)
    (st : LinkState) : Option LinkState :=
  match types[index]? with
  | some (Ty.ALIASED_TY _ ref_idx) => add_result do_ssa node index ref_idx st
  | _ => none

/-- The `CALL` case of `process_node_links`. -/
def link_call (h : LinkHelpers) (do_ssa : Bool) (fuel : Nat) (node : Nat) (n : Node)
    (st : LinkState) : Option LinkState :=
  match (n.args[0]?).bind (Ref.type st.nodes) with
  | some (Ty.OPAQUE_FN_TY fn_args _) =>
    (for_each (link_call_parm h do_ssa fuel node fn_args 1)
      (List.range' 1 (n.args.length - 1)) st).bind
      (for_each (link_call_result do_ssa node n.type) (List.range n.type.length))
  | some (Ty.SHADER_FN_TY fn_args _) =>
    (for_each (link_call_parm h do_ssa fuel node fn_args 4)
      (List.range' 4 (n.args.length - 4)) st).bind
      (for_each (link_call_result do_ssa node n.type) (List.range n.type.length))
  | _ => none

/-- The end of the `SLICE` case: the child chain of the sliced image. -/
def slice_child (do_ssa : Bool) (node : Nat) (st : LinkState) : Option LinkState :=
  ((st.nodes[node]?).bind (fun n => n.args[0]?)).bind (fun image =>
    (node_of st.nodes image).bind (fun inode =>
      if inode.links.isEmpty then some (st.check do_ssa)
      else
        (ref_link image).bind (fun l =>
          (link_at st.nodes l).map (fun (link : ChainLink) =>
            { st with nodes := (set_link st.nodes l
                { link with child_chains := link.child_chains ++ [(⟨node, 0⟩ : LinkPtr)] }) }))))

/-- The `SLICE` case of `process_node_links`; the subrange of the slice is read
by the slice branch of `walk_writes` only. -/
def link_slice (do_ssa : Bool) (fuel : Nat) (node : Nat) (st : LinkState) : Option LinkState :=
  (add_write do_ssa fuel node 0 st).bind (fun st1 =>
    (set_def node 0 st1).bind (fun st2 =>
      (set_def node 1 st2).bind (slice_child do_ssa node)))

/-- The head of the `CONVERGE` case: `diverged[0]` is linked to the result. -/
def converge_head (node : Nat) (st : LinkState) : Option LinkState :=
  ((st.nodes[node]?).bind (fun n => n.args[0]?)).bind (fun parm =>
    (ref_link parm).bind (fun l =>
      (link_next_prev l ⟨node, 0⟩ st.nodes).map (fun nodes1 => { st with nodes := nodes1 })))

/-- The body of the loop of the `CONVERGE` case. -/
def link_diverged (do_ssa : Bool) (fuel : Nat) (node : Nat) (n : Node) (i : Nat)
    (st : LinkState) : Option LinkState :=
  match n.write[i]? with
  | none => none
  | some true => add_write do_ssa fuel node i st
  | some false => add_read do_ssa fuel node i st

/-- The function `process_node_links` for the node at `node`. -/
def process_node_links (h : LinkHelpers) (do_ssa : Bool) (fuel : Nat) (node : Nat)
    (st : LinkState) : Option LinkState :=
  match st.nodes[node]? with
  | none => none
  | some n =>
    match n.kind with
    | NodeKind.CONSTANT => some st
    | NodeKind.PLACEHOLDER => some st
    | NodeKind.MATH_BINARY => some st
    | NodeKind.CONSTRUCT => link_construct node n st
    | NodeKind.SPLICE =>
      for_each (link_splice_result do_ssa fuel node n) (List.range n.type.length) st
    | NodeKind.CALL => link_call h do_ssa fuel node n st
    | NodeKind.EXTRACT => set_def node 0 st
    | NodeKind.SLICE => link_slice do_ssa fuel node st
    | NodeKind.CONVERGE =>
      (set_def node 0 st).bind (fun st1 =>
        (converge_head node st1).bind
          (for_each (link_diverged do_ssa fuel node n) (List.range n.args.length)))
    | NodeKind.ACQUIRE_NEXT_IMAGE => set_def node 0 st
    | NodeKind.GARBAGE => some st
    | NodeKind.CLEAR => some (st.check false)

/-- The function `allocate_node_links` for every node: one fresh link per
result. -/
def allocate_links (nodes : List Node) : List Node :=
  nodes.map (fun n => { n with links := List.replicate n.type.length ({} : ChainLink) })

/-- The function `RGCImpl::build_links` on the working set `nodes`. -/
def build_links (h : LinkHelpers) (fuel : Nat) (nodes : List Node) : Option LinkState :=
  (for_each (process_node_links h false fuel) (List.range nodes.length)
      { nodes := allocate_links nodes }).bind (fun st =>
    (build_urdef_nodes fuel st.nodes (List.range nodes.length)).map (fun ns =>
      { st with nodes := ns }))

/-- The template `build_links(start, end, ...)` of `implicit_linking`, which
links in SSA mode; `order` is the range, sorted by `index`. -/
def build_links_ssa (h : LinkHelpers) (fuel : Nat) (nodes : List Node) (order : List Nat) :
    Option LinkState :=
  (for_each (process_node_links h true fuel) order { nodes := allocate_links nodes }).bind
    (fun st =>
      (build_urdef_nodes fuel st.nodes order).map (fun ns => { st with nodes := ns }))


/-- The `next` pointer of the link behind `l`. -/
def next_of (nodes : List Node) (l : LinkPtr) : Option LinkPtr :=
  (link_at nodes l).bind ChainLink.next

/-- The `prev` pointer of the link behind `l`. -/
def prev_of (nodes : List Node) (l : LinkPtr) : Option LinkPtr :=
  (link_at nodes l).bind ChainLink.prev

/-- The link `n` is the link of an array that the `CONSTRUCT` node `n.node`
builds, and `l` is the link of one of its elements (an argument from 1 on). -/
def ArrayElement (nodes : List Node) (l n : LinkPtr) : Prop :=
  n.index = 0 ∧
  ∃ c, nodes[n.node]? = some c ∧ c.kind = NodeKind.CONSTRUCT ∧
    (∃ t, c.type.head? = some t ∧ is_array_ty t = true) ∧
    ∃ i r, 1 ≤ i ∧ c.args[i]? = some r ∧ ref_link r = some l

/-- What the link builder keeps of every node: the kind, the type, and the
number of arguments; the arguments themselves of every node but `p`. -/
def Shaped (p : Nat) (nodes nodes1 : List Node) : Prop :=
  nodes1.length = nodes.length ∧
  ∀ (q : Nat) (n : Node), nodes[q]? = some n →
    ∃ n1, nodes1[q]? = some n1 ∧ n1.kind = n.kind ∧ n1.type = n.type ∧
      n1.args.length = n.args.length ∧ (q ≠ p → n1.args = n.args)

/-- The two node lists have the same `next` and `prev` pointers. -/
def SameTopo (nodes nodes1 : List Node) : Prop :=
  ∀ (l : LinkPtr), next_of nodes1 l = next_of nodes l ∧ prev_of nodes1 l = prev_of nodes l

/-- The invariant of the link builder on `next`: every `next` pointer goes to
a link of `done`, and it is answered by the `prev` pointer of that link unless
it goes from an element of an array to the array. -/
def NextInv (nodes0 : List Node) (done : LinkPtr → Prop) (nodes : List Node) : Prop :=
  ∀ (l n : LinkPtr), next_of nodes l = some n →
    done n ∧ (prev_of nodes n = some l ∨ ArrayElement nodes0 l n)

/-- The invariant of the link builder on `prev`: the link that a `prev` pointer
goes to has a `next` pointer. -/
def BackInv (nodes : List Node) : Prop :=
  ∀ (l p : LinkPtr), prev_of nodes l = some p → ∃ n, next_of nodes p = some n

/-- The nodes agree with the working set `nodes0` in kind and type, and a
`CONSTRUCT` node in its arguments. -/
def SameShape (nodes0 nodes : List Node) : Prop :=
  nodes.length = nodes0.length ∧
  ∀ (q : Nat) (n : Node), nodes[q]? = some n →
    ∃ n0, nodes0[q]? = some n0 ∧ n.kind = n0.kind ∧ n.type = n0.type ∧
      (n0.kind = NodeKind.CONSTRUCT → n.args = n0.args)

/-- A step of the link builder that leaves `next` and `prev` alone and writes
the arguments of the node `p` only. -/
def Steady (p : Nat) (nodes nodes1 : List Node) : Prop :=
  Shaped p nodes nodes1 ∧ SameTopo nodes nodes1

/-- A statement of the link builder all of whose runs are `Steady`. -/
def SteadyOp (p : Nat) (f : LinkState → Option LinkState) : Prop :=
  ∀ (st st1 : LinkState), f st = some st1 → Steady p st.nodes st1.nodes

/-- The invariant of the loop of `build_links` over the working set `nodes0`. -/
structure LinkInv (nodes0 : List Node) (done : LinkPtr → Prop) (nodes : List Node) : Prop where
  next : NextInv nodes0 done nodes
  shape : SameShape nodes0 nodes
  back : BackInv nodes

/-- The links that a `next` pointer may go to while the result `j` of the node
`p` is linked: those of the nodes already processed, and the results of `p`
before `j`. -/
def DoneUpTo (processed : Nat → Prop) (p j : Nat) (n : LinkPtr) : Prop :=
  processed n.node ∨ (n.node = p ∧ n.index < j)

/-- A chain of links without slices: each link has the following one as its
`next`, the last has none, no link has a `SLICE` as its undef or a child
chain. -/
structure SliceFreeChain (nodes : List Node) (ch : List LinkPtr) : Prop where
  linked : List.Chain' (fun (a b : LinkPtr) => next_of nodes a = some b) ch
  plain : ∀ l ∈ ch, ∃ c, link_at nodes l = some c ∧ undef_is_slice nodes c = some false ∧
    c.child_chains = []
  last_next : ∀ (t : LinkPtr), ch.getLast? = some t → next_of nodes t = none


/-- Helpers for concrete runs of the link builder: the accesses 2 and 3 write,
access 4 is `eConsume`. -/
def sample_link_helpers : LinkHelpers :=
  { is_write_access := fun a => a == 2 || a == 3, eConsume := 4 }

/-- Two buffers, constructed at 3 and 4 from the constants 0 and 1, are the
elements of the array that node 5 constructs from the constant 2. -/
def array_of_two : List Node :=
  [ { kind := NodeKind.CONSTANT, type := [Ty.MEMORY_TY] },
    { kind := NodeKind.CONSTANT, type := [Ty.MEMORY_TY] },
    { kind := NodeKind.CONSTANT, type := [Ty.MEMORY_TY] },
    { kind := NodeKind.CONSTRUCT, type := [Ty.BUFFER], args := [⟨some 0, 0⟩], index := 3 },
    { kind := NodeKind.CONSTRUCT, type := [Ty.BUFFER], args := [⟨some 1, 0⟩], index := 4 },
    { kind := NodeKind.CONSTRUCT, type := [Ty.ARRAY_TY Ty.BUFFER 2],
      args := [⟨some 2, 0⟩, ⟨some 3, 0⟩, ⟨some 4, 0⟩], index := 5 } ]

/-- The test "conversion to SSA": the buffer declared at 1 is written by the
calls 3 and 4, each of which returns it, and read by the call 5; all three
calls take the declaration itself as their argument. -/
def ssa_conversion : List Node :=
  [ { kind := NodeKind.CONSTANT, type := [Ty.MEMORY_TY], index := 0 },
    { kind := NodeKind.CONSTRUCT, type := [Ty.BUFFER], args := [⟨some 0, 0⟩], index := 1 },
    { kind := NodeKind.CONSTANT, index := 2,
      type := [Ty.OPAQUE_FN_TY [Ty.IMBUED_TY Ty.BUFFER 2] [Ty.ALIASED_TY Ty.BUFFER 1]] },
    { kind := NodeKind.CALL, type := [Ty.ALIASED_TY Ty.BUFFER 1],
      args := [⟨some 2, 0⟩, ⟨some 1, 0⟩], index := 3 },
    { kind := NodeKind.CALL, type := [Ty.ALIASED_TY Ty.BUFFER 1],
      args := [⟨some 2, 0⟩, ⟨some 1, 0⟩], index := 4 },
    { kind := NodeKind.CONSTANT, index := 5,
      type := [Ty.OPAQUE_FN_TY [Ty.IMBUED_TY Ty.BUFFER 1] [Ty.ALIASED_TY Ty.BUFFER 1]] },
    { kind := NodeKind.CALL, type := [Ty.ALIASED_TY Ty.BUFFER 1],
      args := [⟨some 5, 0⟩, ⟨some 1, 0⟩], index := 6 } ]

/-- The buffer declared at 1 is consumed by the call 3 and by the call 4;
neither call has a result. -/
def consumed_twice : List Node :=
  [ { kind := NodeKind.CONSTANT, type := [Ty.MEMORY_TY], index := 0 },
    { kind := NodeKind.CONSTRUCT, type := [Ty.BUFFER], args := [⟨some 0, 0⟩], index := 1 },
    { kind := NodeKind.CONSTANT, index := 2,
      type := [Ty.OPAQUE_FN_TY [Ty.IMBUED_TY Ty.BUFFER 4] []] },
    { kind := NodeKind.CALL, args := [⟨some 2, 0⟩, ⟨some 1, 0⟩], index := 3 },
    { kind := NodeKind.CALL, args := [⟨some 2, 0⟩, ⟨some 1, 0⟩], index := 4 } ]

/-- The links of the nodes, for comparing two node lists. -/
def links_of (nodes : List Node) : List (List ChainLink) :=
  nodes.map Node.links

/-- The arguments of the nodes, for comparing two node lists. -/
def args_of (nodes : List Node) : List (List Ref) :=
  nodes.map Node.args

/-- The link of the declared buffer of `ssa_conversion` after the first call
has been linked: the call 3 is its undef, the result of the call its `next`. -/
def declared_link : ChainLink :=
  { def_ := ⟨some 1, 0⟩, undef := ⟨some 3, 1⟩, next := some ⟨3, 0⟩ }

/-- The link of the result of the first call of `ssa_conversion`. -/
def first_result_link : ChainLink :=
  { def_ := ⟨some 3, 0⟩, prev := some ⟨1, 0⟩ }

/-- The nodes of `ssa_conversion` when the nodes 0 to 3 have been linked in SSA
mode. -/
def ssa_after_first : List Node :=
  [ { kind := NodeKind.CONSTANT, type := [Ty.MEMORY_TY], index := 0,
      links := [{ undef := ⟨some 1, 0⟩ }] },
    { kind := NodeKind.CONSTRUCT, type := [Ty.BUFFER], args := [⟨some 0, 0⟩], index := 1,
      links := [declared_link] },
    { kind := NodeKind.CONSTANT, index := 2, links := [{}],
      type := [Ty.OPAQUE_FN_TY [Ty.IMBUED_TY Ty.BUFFER 2] [Ty.ALIASED_TY Ty.BUFFER 1]] },
    { kind := NodeKind.CALL, type := [Ty.ALIASED_TY Ty.BUFFER 1],
      args := [⟨some 2, 0⟩, ⟨some 1, 0⟩], index := 3, links := [first_result_link] },
    { kind := NodeKind.CALL, type := [Ty.ALIASED_TY Ty.BUFFER 1],
      args := [⟨some 2, 0⟩, ⟨some 1, 0⟩], index := 4, links := [{}] },
    { kind := NodeKind.CONSTANT, index := 5, links := [{}],
      type := [Ty.OPAQUE_FN_TY [Ty.IMBUED_TY Ty.BUFFER 1] [Ty.ALIASED_TY Ty.BUFFER 1]] },
    { kind := NodeKind.CALL, type := [Ty.ALIASED_TY Ty.BUFFER 1],
      args := [⟨some 5, 0⟩, ⟨some 1, 0⟩], index := 6, links := [{}] } ]

/-- The buffer declared at 1 is read by the calls 3 and 4, each of which
returns it. -/
def read_twice : List Node :=
  [ { kind := NodeKind.CONSTANT, type := [Ty.MEMORY_TY], index := 0 },
    { kind := NodeKind.CONSTRUCT, type := [Ty.BUFFER], args := [⟨some 0, 0⟩], index := 1 },
    { kind := NodeKind.CONSTANT, index := 2,
      type := [Ty.OPAQUE_FN_TY [Ty.IMBUED_TY Ty.BUFFER 1] [Ty.ALIASED_TY Ty.BUFFER 1]] },
    { kind := NodeKind.CALL, type := [Ty.ALIASED_TY Ty.BUFFER 1],
      args := [⟨some 2, 0⟩, ⟨some 1, 0⟩], index := 3 },
    { kind := NodeKind.CALL, type := [Ty.ALIASED_TY Ty.BUFFER 1],
      args := [⟨some 2, 0⟩, ⟨some 1, 0⟩], index := 4 } ]

/-! ## `Compiler::rewrite` and the elimination of splices -/

/-- What the predicate of `compile` needs from outside the sources at hand:
the enumerator `Access::eNone`, and the `replace` calls of its `SLICE` case
(which compares subranges with `intersect_one`), given for the node at a
position as (needle, value) pairs in the order of the calls. -/
structure RewriteHelpers where
  eNone : Access
  slice_case : List Node → Nat → List (Ref × Ref)

/-- The `SPLICE` case of the predicate: the `replace` calls for the results of
a splice that is neither a release nor an acquire.  The bookkeeping of a splice
that is deferred (`values`, `deferred_splices`, `pending_splice_sigs`) is not
part of the model. -/
def splice_case (h : RewriteHelpers) (c : DomainFlagBits) (p : Nat) (n : Node) :
    List (Ref × Ref) :=
  if !(n.dst_access == h.eNone && n.dst_domain == c.eAny) then []
  else if n.rel_acq ≠ none ∧ n.rel_acq ≠ some SignalStatus.eDisarmed then []
  else n.args.enum.map (fun ir => (⟨some p, ir.1⟩, ir.2))

/-- The predicate that `compile` gives to `rewrite`, for the node at `p`. -/
def rewrite_pred (h : RewriteHelpers) (c : DomainFlagBits) (fuel : Nat) (arena : List Node)
    (p : Nat) (replaces : List Replace) : Option (List Replace) :=
  match arena[p]? with
  | none => none
  | some n =>
    match n.kind with
    | NodeKind.SPLICE => replace_calls fuel replaces (splice_case h c p n)
    | NodeKind.SLICE => replace_calls fuel replaces (h.slice_case arena p)
    | _ => some replaces

/-- The loop `for (auto node : impl->nodes) pred(node, rr)`. -/
def collect_replaces (h : RewriteHelpers) (c : DomainFlagBits) (fuel : Nat) (arena : List Node) :
    List Nat → List Replace → Option (List Replace)
  | [], replaces => some replaces
  | p :: ps, replaces =>
    (rewrite_pred h c fuel arena p replaces).bind (collect_replaces h c fuel arena ps)

/-- A `Ref*` into the arguments of a node, with the `Ref` it points to. -/
structure ArgSlot where
  node : Nat
  pos : Nat
  value : Ref
  deriving DecidableEq, Repr

/-- The loop of `rewrite` that collects the arguments of the nodes. -/
def collect_args (arena : List Node) (nodes : List Nat) : List ArgSlot :=
  nodes.flatMap (fun p =>
    match arena[p]? with
    | some n => n.args.enum.map (fun ir => { node := p, pos := ir.1, value := ir.2 })
    | none => [])

/-- Insertion of a slot into a list that is sorted by the `Ref`s. -/
def insert_sorted (a : ArgSlot) : List ArgSlot → List ArgSlot
  | [] => [a]
  | b :: bs => if Ref.lt b.value a.value then b :: insert_sorted a bs else a :: b :: bs

/-- The call `std::sort(args.begin(), args.end(), ...)` by pointer and index;
slots with equal `Ref`s are treated alike by the loop that follows. -/
def sort_args (args : List ArgSlot) : List ArgSlot :=
  args.foldr insert_sorted []

/-- The loop `for (auto replace_it ...)` of `rewrite` over the sorted
arguments: the assignments `**arg_it = replace.value` that it makes. -/
def substitutions : List Replace → List ArgSlot → List (ArgSlot × Ref)
  | [], _ => []
  | r :: rs, args =>
    ((args.dropWhile (fun a => Ref.lt a.value r.needle)).takeWhile
        (fun a => a.value == r.needle)).map (fun a => (a, r.value)) ++
      substitutions rs ((args.dropWhile (fun a => Ref.lt a.value r.needle)).dropWhile
        (fun a => a.value == r.needle))

/-- The function `Compiler::rewrite` with the predicate of `compile`, on the
node arena and `impl->nodes`. -/
def rewrite (h : RewriteHelpers) (c : DomainFlagBits) (fuel : Nat) (arena : List Node)
    (nodes : List Nat) : Option (List Node) :=
  (collect_replaces h c fuel arena nodes []).map (fun replaces =>
    (substitutions replaces (sort_args (collect_args arena nodes))).foldl
      (fun a w => set_arg a w.1.node w.1.pos w.2) arena)

/-- The steps of `compile` from the first `build_nodes` to the second:
`build_nodes`, `rewrite`, `build_nodes` (`build_links` in between writes the
links, which the `SPLICE` case reads for a deferred splice only). -/
def rewrite_and_build_nodes (h : RewriteHelpers) (c : DomainFlagBits) (fuel : Nat)
    (arena : List Node) (ref_nodes : List Nat) : Option (List Node × List Nat) :=
  (build_nodes fuel arena ref_nodes).bind (fun r1 =>
    (rewrite h c fuel r1.1 r1.2).bind (fun arena2 => build_nodes fuel arena2 ref_nodes))

/-- A splice that the rewrite is to eliminate: `dst_access == Access::eNone`,
`dst_domain == DomainFlagBits::eAny` and `rel_acq == nullptr`. -/
def inert_splice (h : RewriteHelpers) (c : DomainFlagBits) (n : Node) : Bool :=
  n.kind == NodeKind.SPLICE && n.dst_access == h.eNone && n.dst_domain == c.eAny &&
    n.rel_acq.isNone

/-- Helpers for concrete runs of `rewrite`: `Access::eNone` is 0, and no slice
is bridged. -/
def sample_rewrite : RewriteHelpers :=
  { eNone := 0, slice_case := fun _ _ => [] }

/-- The buffer 0 is spliced by node 1, the result of node 1 by node 2; both
splices have no access, domain `eAny` and no signal; the call 3 takes the
function 4 and `call_args`. -/
def splice_of_splice (call_args : List Ref) : List Node :=
  [ { kind := NodeKind.CONSTRUCT, type := [Ty.BUFFER] },
    { kind := NodeKind.SPLICE, type := [Ty.BUFFER], args := [⟨some 0, 0⟩], dst_domain := 31 },
    { kind := NodeKind.SPLICE, type := [Ty.BUFFER], args := [⟨some 1, 0⟩], dst_domain := 31 },
    { kind := NodeKind.CALL, args := ⟨some 4, 0⟩ :: call_args },
    { kind := NodeKind.CONSTANT,
      type := [Ty.OPAQUE_FN_TY [Ty.IMBUED_TY Ty.BUFFER 1, Ty.IMBUED_TY Ty.BUFFER 1] []] } ]

/-! ## `collect_dependents` and the order of `build_nodes` -/

/-- The function template `collect_dependents` over the range `[start, end)`:
the same three loops as `build_nodes` (mark and push the nodes of the range,
drain the work queue, clear the flags of the collected nodes); it returns the
collected nodes. -/
def collect_dependents (fuel : Nat) (arena : List Node) (range : List Nat) :
    Option (List Node × List Nat) :=
  (push_refs { arena := arena, work_queue := [] } range).bind (fun st =>
    (build_nodes_loop fuel st []).map (fun r => (clear_flags r.1.arena r.2, r.2)))

/-- The arena differs from `A0` in the flags of its nodes only. -/
def FlagsOnly (A0 arena : List Node) : Prop :=
  arena.length = A0.length ∧
  ∀ (p : Nat) (n : Node), arena[p]? = some n →
    ∃ n0 : Node, A0[p]? = some n0 ∧ { n with flag := n0.flag } = n0

/-- The order in which the nodes are discovered: every node of the work queue
and of `out` is one of `refs` or an argument of a node that stands before it
in `out`. -/
structure OrderInv (A0 : List Node) (refs : List Nat) (st : MarkState) (out : List Nat) :
    Prop where
  frame : FlagsOnly A0 st.arena
  queue : ∀ p ∈ st.work_queue, p ∈ refs ∨ ∃ q ∈ out, ArgEdge A0 q p
  order : ∀ (i p : Nat), out[i]? = some p →
    p ∈ refs ∨ ∃ j q, j < i ∧ out[j]? = some q ∧ ArgEdge A0 q p

/-- A call that takes a construct as its only argument. -/
def call_of_construct : List Node :=
  [ { kind := NodeKind.CALL, args := [⟨some 1, 0⟩] },
    { kind := NodeKind.CONSTRUCT } ]

/-! ## `propagate_domain`: the rule table -/

/-- The test `last_domain != eDevice && last_domain != eAny` of
`propagate_domain`: propagation information is at hand. -/
def is_concrete (c : DomainFlagBits) (last_domain : Nat) : Prop :=
  last_domain ≠ c.eDevice ∧ last_domain ≠ c.eAny

instance (c : DomainFlagBits) (last_domain : Nat) : Decidable (is_concrete c last_domain) := by
  unfold is_concrete; infer_instance

/-- A buffer that one call writes; the call carries scheduling information
that requires the transfer queue or the compute queue (two bits), and is not
scheduled on a domain yet (`scheduled_item` 0). -/
def two_queue_pass : List Node :=
  [ { kind := NodeKind.CONSTRUCT
      links := [{ def_ := ⟨some 0, 0⟩, undef := ⟨some 1, 1⟩, next := some ⟨1, 0⟩ }] },
    { kind := NodeKind.CALL
      args := [⟨none, 0⟩, ⟨some 0, 0⟩]
      scheduled_item := some 0
      scheduling_info := some (sample_domains.eTransferQueue ||| sample_domains.eComputeQueue)
      links := [{ def_ := ⟨some 1, 0⟩, prev := some ⟨0, 0⟩ }] } ]

/-! ## `RGCImpl::build_sync` -/

/-- What `build_sync` takes from outside the sources at hand: the classifying
helpers of `Access`, the function `to_use`, and the enumerators `Access::eNone`
and `Access::eMemoryRW`. -/
structure SyncHelpers where
  access : AccessHelpers
  to_use : Access → ResourceUse
  eNone : Access
  eMemoryRW : Access

/-- The locals `first_parm` and `args` of the `CALL` case, from the type of
argument 0: 1 and `opaque_fn.args` for an opaque function, 4 and
`shader_fn.args` otherwise; a type that is no function type has no
`shader_fn.args`. -/
def fn_signature : Ty → Option (Nat × List Ty)
  | Ty.OPAQUE_FN_TY args _ => some (1, args)
  | Ty.SHADER_FN_TY args _ => some (4, args)
  | _ => none

/-- The state of the loop over a read group: the nodes (the loop assigns to
the argument `parm` of the call that is being synchronised), the local
`dst_use` and the three flags. -/
structure MergedUse where
  nodes : List Node
  dst_use : ResourceUse
  needs : ReadNeeds

/-- One round of the loop over `reads` for the argument `i` of the call `node`:
the access of the read is looked up with `first_parm`, the `first_parm` of the
call `node`; `parm = r.node->call.args[r.index]` assigns to the argument of
`node`; access and stages of `to_use(dst_access)` are or-ed into `dst_use`.
A `CONVERGE` read is passed over; `none` when an assertion fails. -/
def merge_read (h : SyncHelpers) (node i first_parm : Nat) (s : MergedUse) (r : Ref) :
    Option MergedUse :=
  match read_lookup s.nodes first_parm r with
  | ReadLookup.skipped => some s
  | ReadLookup.assert_failed => none
  | ReadLookup.access dst_access =>
    match (r.node.bind (fun q => s.nodes[q]?)).bind (fun (n : Node) => n.args[r.index]?) with
    | none => none
    | some parm =>
      some { nodes := set_arg s.nodes node i parm
             dst_use :=
              { stages := s.dst_use.stages ||| (h.to_use dst_access).stages
                access := s.dst_use.access ||| (h.to_use dst_access).access
                layout := s.dst_use.layout }
             needs :=
              { need_transfer := s.needs.need_transfer || h.access.is_transfer_access dst_access
                need_general := s.needs.need_general || h.access.is_storage_access dst_access
                need_read_only :=
                  s.needs.need_read_only || h.access.is_readonly_access dst_access } }

/-- The loop `for (int read_idx = 0; read_idx < reads.size(); read_idx++)`. -/
def merge_read_group (h : SyncHelpers) (node i first_parm : Nat) :
    List Ref → MergedUse → Option MergedUse
  | [], s => some s
  | r :: rest, s =>
    (merge_read h node i first_parm s r).bind (merge_read_group h node i first_parm rest)

/-- The value of `dst_use` after the two `if`s that follow the loop. -/
def merged_use (s : MergedUse) : ResourceUse :=
  { stages := s.dst_use.stages, access := s.dst_use.access, layout := merged_layout s.needs }

/-- The body of the loop over the arguments of a call, for the argument `i`
with the declared type `args[i - first_parm]`: a write access sets
`undef_sync` (after `assert(!link.undef_sync)`), any other access sets
`read_sync`, if it is not set, to the merged use of the read group of the
link. -/
def sync_call_parm (h : SyncHelpers) (node first_parm : Nat) (args : List Ty) (i : Nat)
    (st : LinkState) : Option LinkState :=
  match args[i - first_parm]? with
  | none => none
  | some (Ty.IMBUED_TY _ access) =>
    match ((st.nodes[node]?).bind (fun (n : Node) => n.args[i]?)).bind ref_link with
    | none => none
    | some l =>
      match link_at st.nodes l with
      | none => none
      | some link =>
        if h.access.is_write_access access then
          some { nodes := set_link st.nodes l { link with undef_sync := some (h.to_use access) }
                 asserts_hold := st.asserts_hold && link.undef_sync.isNone }
        else if link.read_sync.isNone then
          (merge_read_group h node i first_parm link.reads
              { nodes := st.nodes
                dst_use := { layout := ImageLayout.eReadOnlyOptimalKHR }
                needs := ⟨false, false, false⟩ }).bind (fun s =>
            (link_at s.nodes l).map (fun (link1 : ChainLink) =>
              { nodes := set_link s.nodes l { link1 with read_sync := some (merged_use s) }
                asserts_hold := st.asserts_hold }))
        else some st
  | some _ => some st

/-- The `CALL` case of `build_sync`. -/
def sync_call (h : SyncHelpers) (node : Nat) (st : LinkState) : Option LinkState :=
  match st.nodes[node]? with
  | none => none
  | some n =>
    match ((n.args.head?).bind (Ref.type st.nodes)).bind fn_signature with
    | none => none
    | some (first_parm, args) =>
      for_each (sync_call_parm h node first_parm args)
        (List.range' first_parm (n.args.length - first_parm)) st

/-- The body of the loop over `splice.src`, for the source `i` of the splice
`node`; `items` is `scheduled_execables`. -/
def sync_splice_src (h : SyncHelpers) (items : List ScheduledItem) (node i : Nat)
    (st : LinkState) : Option LinkState :=
  match st.nodes[node]? with
  | none => none
  | some n =>
    match (n.args[i]?).bind ref_link with
    | none => none
    | some l =>
      if n.dst_access ≠ h.eNone then
        (link_at st.nodes l).map (fun (link : ChainLink) =>
          { nodes := set_link st.nodes l { link with undef_sync := some (h.to_use n.dst_access) }
            asserts_hold := st.asserts_hold })
      else
        match st.nodes[l.node]? with
        | none => none
        | some parm_node =>
          match parm_node.scheduled_item with
          | none => some st
          | some parm_item =>
            match items[parm_item]?, n.scheduled_item.bind (fun k => items[k]?) with
            | some parm_si, some node_si =>
              if parm_si.scheduled_domain ≠ node_si.scheduled_domain then
                (link_at st.nodes l).map (fun (link : ChainLink) =>
                  { nodes := set_link st.nodes l
                      { link with undef_sync := some (h.to_use h.eMemoryRW) }
                    asserts_hold := st.asserts_hold })
              else some st
            | _, _ => none

/-- The `SPLICE` case of `build_sync`. -/
def sync_splice (h : SyncHelpers) (items : List ScheduledItem) (node : Nat) (st : LinkState) :
    Option LinkState :=
  match st.nodes[node]? with
  | none => none
  | some n => for_each (sync_splice_src h items node) (List.range n.args.length) st

/-- The body of the loop `for (auto node : nodes)` of `build_sync`; the
`default` case asserts that the arguments are on the domain of the node. -/
def sync_node (h : SyncHelpers) (items : List ScheduledItem) (node : Nat) (st : LinkState) :
    Option LinkState :=
  match kind_of st.nodes node with
  | none => none
  | some NodeKind.CALL => sync_call h node st
  | some NodeKind.SPLICE => sync_splice h items node st
  | some _ => some (st.check (sanity_holds st.nodes items node))

/-- The loop of `build_sync` over the nodes in the order `order`. -/
def build_sync_from (h : SyncHelpers) (items : List ScheduledItem) (order : List Nat)
    (st : LinkState) : Option LinkState :=
  for_each (sync_node h items) order st

/-- The pass `RGCImpl::build_sync` on the working set `nodes`. -/
def build_sync (h : SyncHelpers) (items : List ScheduledItem) (nodes : List Node) :
    Option LinkState :=
  build_sync_from h items (List.range nodes.length) { nodes := nodes }

/-- The `first_parm` of the call that a read belongs to, and the declared
types of its parameters. -/
def reader_signature (nodes : List Node) (r : Ref) : Option (Nat × List Ty) :=
  (((r.node.bind (fun q => nodes[q]?)).bind (fun (n : Node) => n.args.head?)).bind
    (Ref.type nodes)).bind fn_signature

/-- The access that the signature of the reader's own function declares for
the argument `r.index` through which it reads. -/
def declared_access (nodes : List Node) (r : Ref) : Option Access :=
  (reader_signature nodes r).bind (fun sig =>
    if r.index < sig.1 then none
    else
      match sig.2[r.index - sig.1]? with
      | some (Ty.IMBUED_TY _ access) => some access
      | _ => none)

/-- The reads of a group that are made by a `CALL`. -/
def call_readers (nodes : List Node) (reads : List Ref) : List Ref :=
  reads.filter (fun r => r.node.bind (kind_of nodes) == some NodeKind.CALL)

/-- The use of a read group as the specification has it: access and stages
are the bitwise or of `to_use(a).access` and `to_use(a).stages` over the `CALL`
readers, `a` being the access that the reader's own signature declares. -/
def group_use (h : SyncHelpers) (nodes : List Node) (reads : List Ref) : Nat × Nat :=
  (call_readers nodes reads).foldl (fun acc r =>
    match declared_access nodes r with
    | some a => (acc.1 ||| (h.to_use a).access, acc.2 ||| (h.to_use a).stages)
    | none => acc) (0, 0)

/-- Helpers for concrete runs of `build_sync`: the predicates of
`sample_helpers` with bit 6 of an access marking a write, `to_use` with the
access as access mask and 256 times the access as stage mask, `eNone` 0 and
`eMemoryRW` 192. -/
def sample_sync : SyncHelpers :=
  { access := { sample_helpers with is_write_access := fun a => decide (a &&& 64 ≠ 0) }
    to_use := fun a => { stages := 256 * a, access := a }
    eNone := 0
    eMemoryRW := 192 }

/-- A buffer (node 4) that is read by a call of an opaque function (node 2,
argument 4, the fourth parameter, declared access 4) and by a call of a shader
function (node 3, argument 4, the first parameter, declared access 8).  The
first parameter of the opaque function has the access 16, the fourth parameter
of the shader function the access 1; the other parameters of the two calls read
the buffers 5 and 6, the arguments 1 to 3 of the shader call are the
integer 7. -/
def mixed_read_group : List Node :=
  [ { kind := NodeKind.CONSTANT
      type := [Ty.OPAQUE_FN_TY [Ty.IMBUED_TY Ty.BUFFER 16, Ty.IMBUED_TY Ty.BUFFER 32,
        Ty.IMBUED_TY Ty.BUFFER 32, Ty.IMBUED_TY Ty.BUFFER 4] []], links := [{}] },
    { kind := NodeKind.CONSTANT
      type := [Ty.SHADER_FN_TY [Ty.IMBUED_TY Ty.BUFFER 8, Ty.IMBUED_TY Ty.BUFFER 32,
        Ty.IMBUED_TY Ty.BUFFER 32, Ty.IMBUED_TY Ty.BUFFER 1] []], links := [{}] },
    { kind := NodeKind.CALL
      args := [⟨some 0, 0⟩, ⟨some 5, 0⟩, ⟨some 5, 0⟩, ⟨some 5, 0⟩, ⟨some 4, 0⟩] },
    { kind := NodeKind.CALL
      args := [⟨some 1, 0⟩, ⟨some 7, 0⟩, ⟨some 7, 0⟩, ⟨some 7, 0⟩, ⟨some 4, 0⟩, ⟨some 6, 0⟩,
        ⟨some 6, 0⟩, ⟨some 6, 0⟩] },
    { kind := NodeKind.CONSTRUCT, type := [Ty.BUFFER]
      links := [{ def_ := ⟨some 4, 0⟩, reads := [⟨some 2, 4⟩, ⟨some 3, 4⟩] }] },
    { kind := NodeKind.CONSTRUCT, type := [Ty.BUFFER]
      links := [{ def_ := ⟨some 5, 0⟩, reads := [⟨some 2, 1⟩, ⟨some 2, 2⟩, ⟨some 2, 3⟩] }] },
    { kind := NodeKind.CONSTRUCT, type := [Ty.BUFFER]
      links := [{ def_ := ⟨some 6, 0⟩, reads := [⟨some 3, 5⟩, ⟨some 3, 6⟩, ⟨some 3, 7⟩] }] },
    { kind := NodeKind.CONSTANT, type := [Ty.INTEGER_TY 32], links := [{}] } ]

/-- The `read_sync` of a link after a run. -/
def read_sync_of (st : Option LinkState) (l : LinkPtr) : Option ResourceUse :=
  (st.bind (fun s => link_at s.nodes l)).bind ChainLink.read_sync

/-- The value that the `SPLICE` case is to leave in the `undef_sync` of the
link `l` of a source: `to_use(dst_access)` if the splice has a destination
access; otherwise `to_use(eMemoryRW)` if the node of the source has a scheduled
item whose domain is not that of the splice; otherwise the value `old` that the
link had. -/
def splice_undef_sync (h : SyncHelpers) (items : List ScheduledItem) (nodes : List Node)
    (n : Node) (l : LinkPtr) (old : Option ResourceUse) : Option ResourceUse :=
  if n.dst_access ≠ h.eNone then some (h.to_use n.dst_access)
  else
    match domain_of nodes items l.node,
        n.scheduled_item.bind (fun k => (items[k]?).map ScheduledItem.scheduled_domain) with
    | some d, some dn => if d ≠ dn then some (h.to_use h.eMemoryRW) else old
    | _, _ => old

/-- A node without its links. -/
def strip_links (n : Node) : Node := { n with links := [] }

/-- The links of the sources `src[0..k)` of a splice. -/
def source_links (n : Node) (k : Nat) (l : LinkPtr) : Bool :=
  (n.args.take k).any (fun parm => ref_link parm == some l)

/-- A buffer (node 0) that a call (node 1, scheduled on the transfer queue,
item 0) has written, spliced by node 2 (scheduled on the graphics queue,
item 1) without a destination access; `src` of the splice is the result of the
call. -/
def cross_queue_splice : List Node :=
  [ { kind := NodeKind.CONSTRUCT, type := [Ty.BUFFER]
      links := [{ def_ := ⟨some 0, 0⟩, undef := ⟨some 1, 1⟩, next := some ⟨1, 0⟩ }] },
    { kind := NodeKind.CALL, type := [Ty.ALIASED_TY Ty.BUFFER 1]
      args := [⟨some 3, 0⟩, ⟨some 0, 0⟩]
      scheduled_item := some 0
      links := [{ def_ := ⟨some 1, 0⟩, undef := ⟨some 2, 0⟩, prev := some ⟨0, 0⟩,
                  next := some ⟨2, 0⟩ }] },
    { kind := NodeKind.SPLICE, type := [Ty.BUFFER]
      args := [⟨some 1, 0⟩]
      scheduled_item := some 1
      links := [{ def_ := ⟨some 2, 0⟩, prev := some ⟨1, 0⟩ }] },
    { kind := NodeKind.CONSTANT
      type := [Ty.OPAQUE_FN_TY [Ty.IMBUED_TY Ty.BUFFER 64] [Ty.ALIASED_TY Ty.BUFFER 1]]
      links := [{}] } ]


/-- Two node lists that differ at most in arguments other than argument 0:
kinds, types and the function argument of every node are the same. -/
def SameSignatures (a b : List Node) : Prop :=
  ∀ q : Nat, (a[q]?).map (fun (n : Node) => (n.kind, n.type, n.args.head?)) =
    (b[q]?).map (fun (n : Node) => (n.kind, n.type, n.args.head?))

/-- One step of the fold of `group_use`. -/
def group_use_step (h : SyncHelpers) (nodes : List Node) (acc : Nat × Nat) (r : Ref) :
    Nat × Nat :=
  match declared_access nodes r with
  | some a => (acc.1 ||| (h.to_use a).access, acc.2 ||| (h.to_use a).stages)
  | none => acc

/-! ## `validate_read_undefined` on an array -/

/-- The array of `array_of_two` (node 5), read by the call 7 (function 6,
access 1) and, if `written`, written by the call 9 (function 8, access 2),
which returns it. -/
def array_read (written : Bool) : List Node :=
  array_of_two ++
  [ { kind := NodeKind.CONSTANT, type := [Ty.OPAQUE_FN_TY
        [Ty.IMBUED_TY (Ty.ARRAY_TY Ty.BUFFER 2) 1] []], index := 6 },
    { kind := NodeKind.CALL, args := [⟨some 6, 0⟩, ⟨some 5, 0⟩], index := 7 } ] ++
  (if written then
    [ { kind := NodeKind.CONSTANT, type := [Ty.OPAQUE_FN_TY
          [Ty.IMBUED_TY (Ty.ARRAY_TY Ty.BUFFER 2) 2]
          [Ty.ALIASED_TY (Ty.ARRAY_TY Ty.BUFFER 2) 1]], index := 8 },
      { kind := NodeKind.CALL, type := [Ty.ALIASED_TY (Ty.ARRAY_TY Ty.BUFFER 2) 1]
        args := [⟨some 8, 0⟩, ⟨some 5, 0⟩], index := 9 } ]
  else [])

/-- The links of the array after `build_links`, and what
`validate_read_undefined` returns on the linked nodes. -/
def link_and_validate (nodes : List Node) : Option (List ChainLink × Result) :=
  (build_links sample_link_helpers 4 nodes).bind (fun st =>
    (validate_read_undefined st.nodes 1).map (fun r =>
      (((st.nodes[5]?).map Node.links).getD [], r)))

/-- The outcome of the loop body of `validate_read_undefined` for every node,
after `build_links`. -/
def link_and_check (nodes : List Node) : Option (List (Option Result)) :=
  (build_links sample_link_helpers 4 nodes).map (fun st =>
    (List.range st.nodes.length).map (check_read_undefined st.nodes 1))

/-! ## `Replacer::replace`: the search of the needle among the values -/

/-- What `replace(needle, value)` is to do to an entry that is in the list: an
entry whose value is `needle` gets `value`, any other entry stays. -/
def retarget (needle value : Ref) (e : Replace) : Replace :=
  if e.value = needle then { e with value := value } else e

/-- The list is sorted by needle: no entry has a needle below the needle of an
entry before it. -/
def SortedByNeedle (replaces : List Replace) : Prop :=
  replaces.Pairwise (fun x y => Ref.lt y.needle x.needle = false)

/-! ## The substitution pass of `Compiler::rewrite` -/

/-- The part of `rewrite` after the predicate has run: the arguments of the
nodes are collected and sorted, and the loop over `replaces` assigns through
them.  The nodes of `impl->nodes` are pairwise distinct, so no argument is
collected twice; an argument is assigned at most once, and the loop has passed
it by then, so the loop reads the arguments as they were collected. -/
def substitute_args (replaces : List Replace) (arena : List Node) (nodes : List Nat) :
    List Node :=
  (substitutions replaces (sort_args (collect_args arena nodes))).foldl
    (fun a w => set_arg a w.1.node w.1.pos w.2) arena

/-- What the substitution is to make of an argument `r`: the value of the
replacement whose needle is `r` (of the first one in the list, if there are
several), and `r` itself if there is none. -/
def replaced (replaces : List Replace) (r : Ref) : Ref :=
  match replaces.find? (fun e => e.needle == r) with
  | some e => e.value
  | none => r

/-- The argument slots are sorted by the `Ref`s they hold. -/
def SortedArgs (args : List ArgSlot) : Prop :=
  args.Pairwise (fun x y => Ref.lt y.value x.value = false)

/-! ## `Subrange::Image` and the `SLICE` case of the rewrite predicate -/

/-- The struct `Subrange::Image` (`include/vuk/ImageAttachment.hpp`), its
members in the order of their declaration.  Its comparison is defaulted, which
is the derived equality here. -/
structure SubrangeImage where
  base_layer : Nat
  base_level : Nat
  layer_count : Nat
  level_count : Nat
  deriving DecidableEq, Repr

/-- The initialiser `{ constant<uint32_t>(slice.base_level),
constant<uint32_t>(slice.level_count), constant<uint32_t>(slice.base_layer),
constant<uint32_t>(slice.layer_count) }` of a `Subrange::Image`, written at
three places of the passes.  The braces initialise an aggregate: the values
go to the members in the order of their declaration, as the values of the
anonymous constructor do here. -/
def slice_range (base_level level_count base_layer layer_count : Nat) : SubrangeImage :=
  ⟨base_level, level_count, base_layer, layer_count⟩

/-- The helper `constant<uint32_t>(r)` on a `Ref`. -/
def constant_u32 (arena : List Node) (r : Ref) : Option Nat :=
  match constant_of arena r with
  | some (ConstantValue.bytes v) => some v
  | _ => none

/-- The range that the passes build for the `SLICE` node `n`.  The members
`base_level`, `level_count`, `base_layer` and `layer_count` of `node->slice`
are kept as the arguments 1 to 4 of the node; argument 0 is `slice.image`. -/
def range_of_slice (arena : List Node) (n : Node) : Option SubrangeImage :=
  ((n.args[1]?).bind (constant_u32 arena)).bind (fun base_level =>
    ((n.args[2]?).bind (constant_u32 arena)).bind (fun level_count =>
      ((n.args[3]?).bind (constant_u32 arena)).bind (fun base_layer =>
        ((n.args[4]?).bind (constant_u32 arena)).map (fun layer_count =>
          slice_range base_level level_count base_layer layer_count))))

/-- The test that the `SLICE` case makes at a link: `link->def.node` is a
`SLICE`, and `intersect_one(our_slice_range, their_slice_range)` is
`our_slice_range`.  The branches on `link->def.index` hold the same
statements.  The function `intersect_one` is declared outside the sources at
hand and is a parameter; a null `link->def` has no value. -/
def slice_covers (intersect_one : SubrangeImage → SubrangeImage → Option SubrangeImage)
    (arena : List Node) (our : SubrangeImage) (link : ChainLink) : Option Bool :=
  (node_of arena link.def_).bind (fun d =>
    if d.kind = NodeKind.SLICE then
      (range_of_slice arena d).map (fun their =>
        if link.def_.index = 0 then decide (intersect_one our their = some our)
        else decide (intersect_one our their = some our))
    else some false)

/-- The loop `do { ... } while (link->prev)` of the `SLICE` case from the link
`l`: whether the loop has made the two `replace` calls, and the link at which
it ends. -/
def bridge_walk (intersect_one : SubrangeImage → SubrangeImage → Option SubrangeImage)
    (arena : List Node) (our : SubrangeImage) : Nat → LinkPtr → Option (Bool × LinkPtr)
  | 0, _ => none
  | fuel + 1, l =>
    (link_at arena l).bind (fun link =>
      (slice_covers intersect_one arena our link).bind (fun covered =>
        if covered then some (true, l)
        else
          match link.prev with
          | none => some (false, l)
          | some q =>
            (link_at arena q).bind (fun linkq =>
              if linkq.prev.isSome then bridge_walk intersect_one arena our fuel q
              else some (false, q))))

/-- The `SLICE` case of the predicate that `compile` gives to `rewrite`, for
the node at `p`: the `replace` calls that it makes, as (needle, value) pairs.
The test after the loop is made at the link at which the loop ended, also when
the loop ended by its `break` after the two calls. -/
def slice_bridge (intersect_one : SubrangeImage → SubrangeImage → Option SubrangeImage)
    (fuel : Nat) (arena : List Node) (p : Nat) : Option (List (Ref × Ref)) :=
  (arena[p]?).bind (fun n =>
    (range_of_slice arena n).bind (fun our =>
      (n.args[0]?).bind (fun image =>
        (ref_link image).bind (fun l =>
          (bridge_walk intersect_one arena our fuel l).bind (fun res =>
            (link_at arena res.2).bind (fun link =>
              (slice_covers intersect_one arena our link).map (fun covered =>
                (if res.1 then [((⟨some p, 0⟩ : Ref), image), (⟨some p, 1⟩, image)] else []) ++
                (if covered then [((⟨some p, 0⟩ : Ref), image), (⟨some p, 1⟩, image)]
                 else []))))))))

/-- The helpers of the rewrite predicate with the `SLICE` case of the source;
`fuel` bounds the walk over the chain, and a walk without value makes no
call. -/
def bridging_helpers (eNone : Access)
    (intersect_one : SubrangeImage → SubrangeImage → Option SubrangeImage) (fuel : Nat) :
    RewriteHelpers :=
  { eNone := eNone
    slice_case := fun arena p => (slice_bridge intersect_one fuel arena p).getD [] }

/-- The links from `l` to the head of its chain are `ch`: each link has the
following one as its `prev`, the last has none, and the test of the `SLICE`
case has a value at every one of them. -/
structure PrevChain (intersect_one : SubrangeImage → SubrangeImage → Option SubrangeImage)
    (arena : List Node) (our : SubrangeImage) (ch : List LinkPtr) : Prop where
  linked : List.Chain' (fun (a b : LinkPtr) => prev_of arena a = some b) ch
  tested : ∀ l ∈ ch, ∃ link covered, link_at arena l = some link ∧
    slice_covers intersect_one arena our link = some covered
  head : ∀ (t : LinkPtr), ch.getLast? = some t → prev_of arena t = none

/-- The test of the `SLICE` case holds at the link behind `l`. -/
def covered_at (intersect_one : SubrangeImage → SubrangeImage → Option SubrangeImage)
    (arena : List Node) (our : SubrangeImage) (l : LinkPtr) : Prop :=
  ∃ link, link_at arena l = some link ∧ slice_covers intersect_one arena our link = some true

/-- An intersection of two ranges for concrete runs: levels and layers are
intersected as intervals, an empty intersection is no range. -/
def sample_intersect (a b : SubrangeImage) : Option SubrangeImage :=
  let level_lo := max a.base_level b.base_level
  let level_hi := min (a.base_level + a.level_count) (b.base_level + b.level_count)
  let layer_lo := max a.base_layer b.base_layer
  let layer_hi := min (a.base_layer + a.layer_count) (b.base_layer + b.layer_count)
  if level_lo < level_hi ∧ layer_lo < layer_hi then
    some { base_layer := layer_lo, base_level := level_lo,
           layer_count := layer_hi - layer_lo, level_count := level_hi - level_lo }
  else none

/-- An image (node 0) is sliced by node 2; the slice is written by the call 3,
and the result of the call is sliced again by node 4.  Every member of both
slices is the constant 1 (node 1). -/
def nested_slices : List Node :=
  [ { kind := NodeKind.CONSTRUCT, type := [Ty.IMAGE],
      links := [{ def_ := ⟨some 0, 0⟩, undef := ⟨some 2, 0⟩, child_chains := [⟨2, 0⟩] }] },
    { kind := NodeKind.CONSTANT, constant_value := ConstantValue.bytes 1 },
    { kind := NodeKind.SLICE, type := [Ty.IMAGE, Ty.IMAGE],
      args := [⟨some 0, 0⟩, ⟨some 1, 0⟩, ⟨some 1, 0⟩, ⟨some 1, 0⟩, ⟨some 1, 0⟩],
      links := [{ def_ := ⟨some 2, 0⟩, undef := ⟨some 3, 1⟩, next := some ⟨3, 0⟩ },
                { def_ := ⟨some 2, 1⟩ }] },
    { kind := NodeKind.CALL, type := [Ty.ALIASED_TY Ty.IMAGE 1],
      args := [⟨none, 0⟩, ⟨some 2, 0⟩],
      links := [{ def_ := ⟨some 3, 0⟩, undef := ⟨some 4, 0⟩, prev := some ⟨2, 0⟩,
                  child_chains := [⟨4, 0⟩] }] },
    { kind := NodeKind.SLICE, type := [Ty.IMAGE, Ty.IMAGE],
      args := [⟨some 3, 0⟩, ⟨some 1, 0⟩, ⟨some 1, 0⟩, ⟨some 1, 0⟩, ⟨some 1, 0⟩],
      links := [{ def_ := ⟨some 4, 0⟩ }, { def_ := ⟨some 4, 1⟩ }] } ]

/-- An image (node 0) is sliced by node 2, and the slice itself is sliced by
node 3.  Every member of both slices is the constant 1 (node 1). -/
def slice_of_slice : List Node :=
  [ { kind := NodeKind.CONSTRUCT, type := [Ty.IMAGE],
      links := [{ def_ := ⟨some 0, 0⟩, undef := ⟨some 2, 0⟩, child_chains := [⟨2, 0⟩] }] },
    { kind := NodeKind.CONSTANT, constant_value := ConstantValue.bytes 1 },
    { kind := NodeKind.SLICE, type := [Ty.IMAGE, Ty.IMAGE],
      args := [⟨some 0, 0⟩, ⟨some 1, 0⟩, ⟨some 1, 0⟩, ⟨some 1, 0⟩, ⟨some 1, 0⟩],
      links := [{ def_ := ⟨some 2, 0⟩, undef := ⟨some 3, 0⟩, child_chains := [⟨3, 0⟩] },
                { def_ := ⟨some 2, 1⟩ }] },
    { kind := NodeKind.SLICE, type := [Ty.IMAGE, Ty.IMAGE],
      args := [⟨some 2, 0⟩, ⟨some 1, 0⟩, ⟨some 1, 0⟩, ⟨some 1, 0⟩, ⟨some 1, 0⟩],
      links := [{ def_ := ⟨some 3, 0⟩ }, { def_ := ⟨some 3, 1⟩ }] } ]

/-- An image (node 0) and a `SLICE` of it (node 5) whose members are the
constants `base_level = 1`, `level_count = 2`, `base_layer = 3` and
`layer_count = 4` (nodes 1 to 4). -/
def sliced_image : List Node :=
  [ { kind := NodeKind.CONSTRUCT, type := [Ty.IMAGE] },
    { kind := NodeKind.CONSTANT, constant_value := ConstantValue.bytes 1 },
    { kind := NodeKind.CONSTANT, constant_value := ConstantValue.bytes 2 },
    { kind := NodeKind.CONSTANT, constant_value := ConstantValue.bytes 3 },
    { kind := NodeKind.CONSTANT, constant_value := ConstantValue.bytes 4 },
    { kind := NodeKind.SLICE, type := [Ty.IMAGE, Ty.IMAGE],
      args := [⟨some 0, 0⟩, ⟨some 1, 0⟩, ⟨some 2, 0⟩, ⟨some 3, 0⟩, ⟨some 4, 0⟩] } ]

/-! ## The first loop of `reify_inference` -/

/-- The statements of the image case of the first loop, in their order, each
as the test on the member of the prototype, the position of the argument, and
the value of the member: width, height and depth of the extent, format, sample
count, base layer, layer count, base level and level count. -/
def image_fields (c : ReifyHelpers) (value : ImageAttachment) : List (Bool × Nat × Nat) :=
  [ (decide (value.extent.width > 0), 1, value.extent.width),
    (decide (value.extent.height > 0), 2, value.extent.height),
    (decide (value.extent.depth > 0), 3, value.extent.depth),
    (decide (value.format ≠ c.eUndefined), 4, value.format),
    (decide (value.sample_count ≠ c.eInfer), 5, value.sample_count),
    (decide (value.base_layer ≠ c.remaining_array_layers), 6, value.base_layer),
    (decide (value.layer_count ≠ c.remaining_array_layers), 7, value.layer_count),
    (decide (value.base_level ≠ c.remaining_mip_levels), 8, value.base_level),
    (decide (value.level_count ≠ c.remaining_mip_levels), 9, value.level_count) ]

/-- The statement of the buffer case of the first loop: the size. -/
def buffer_fields (value : Buffer) : List (Bool × Nat × Nat) :=
  [ (decide (value.size ≠ 4294967295), 1, value.size) ]

/-- The statements that the first loop makes for the `CONSTRUCT` node `node`:
those of the image case or of the buffer case, with the prototype read from
argument 0; none for a construct of another type. -/
def construct_fields (c : ReifyHelpers) (nodes : List Node) (node : Node) :
    Option (List (Bool × Nat × Nat)) :=
  match node.type.head? with
  | none => none
  | some Ty.IMAGE =>
    match (node.args[0]?).bind (constant_of nodes) with
    | some (ConstantValue.image value) => some (image_fields c value)
    | _ => none
  | some Ty.BUFFER =>
    match (node.args[0]?).bind (constant_of nodes) with
    | some (ConstantValue.buffer value) => some (buffer_fields value)
    | _ => none
  | some _ => some []

/-- The statement `if (test) placeholder_to_ptr(args_ptr[k], &ptr->member)`
for an entry of the table. -/
def field_step (args : List Ref) (f : Bool × Nat × Nat) : Reify → Option Reify :=
  ptr_if f.1 args f.2.1 f.2.2

/-- The node that `placeholder_to_ptr` leaves of the placeholder `n`: a
constant that is not owned and holds `value`. -/
def pointed_constant (n : Node) (value : Nat) : Node :=
  { n with kind := NodeKind.CONSTANT, constant_value := ConstantValue.bytes value,
           owned := false }

/-- Two declared images share the placeholder of their width (node 2): the
prototype of the image at 3 has the width 5, the prototype of the image at 4
has no width.  Node 5 is the placeholder of every other member. -/
def shared_width : List Node :=
  [ { kind := NodeKind.CONSTANT,
      constant_value := ConstantValue.image
        { extent := { width := 5 }, format := 0, sample_count := 0,
          base_layer := 4294967295, layer_count := 4294967295,
          base_level := 4294967295, level_count := 4294967295 } },
    { kind := NodeKind.CONSTANT,
      constant_value := ConstantValue.image
        { format := 0, sample_count := 0,
          base_layer := 4294967295, layer_count := 4294967295,
          base_level := 4294967295, level_count := 4294967295 } },
    { kind := NodeKind.PLACEHOLDER },
    { kind := NodeKind.CONSTRUCT, type := [Ty.IMAGE],
      args := [⟨some 0, 0⟩, ⟨some 2, 0⟩, ⟨some 5, 0⟩, ⟨some 5, 0⟩, ⟨some 5, 0⟩, ⟨some 5, 0⟩,
               ⟨some 5, 0⟩, ⟨some 5, 0⟩, ⟨some 5, 0⟩, ⟨some 5, 0⟩] },
    { kind := NodeKind.CONSTRUCT, type := [Ty.IMAGE],
      args := [⟨some 1, 0⟩, ⟨some 2, 0⟩, ⟨some 5, 0⟩, ⟨some 5, 0⟩, ⟨some 5, 0⟩, ⟨some 5, 0⟩,
               ⟨some 5, 0⟩, ⟨some 5, 0⟩, ⟨some 5, 0⟩, ⟨some 5, 0⟩] },
    { kind := NodeKind.PLACEHOLDER } ]

/-- The arguments from 1 on of the `CONSTRUCT` nodes that refer to the node
`q`, each as the position of the construct and the position of the argument. -/
def field_users (nodes : List Node) (q : Nat) : List (Nat × Nat) :=
  (List.range nodes.length).flatMap (fun p =>
    match nodes[p]? with
    | some node =>
      if node.kind = NodeKind.CONSTRUCT then
        ((List.range node.args.length).filter (fun k =>
          decide (1 ≤ k) && ((node.args[k]?).bind Ref.node == some q))).map (fun k => (p, k))
      else []
    | none => [])

/-! ## `add_read` and `add_write`: the link that registers the argument -/

/-- The test `parm.link().undef.node != nullptr && node->index >
parm.link().undef.node->index` of `add_read`, for the link of `parm`. -/
def read_moves (nodes : List Node) (node : Nat) (link : ChainLink) : Option Bool :=
  match link.undef.node with
  | none => some false
  | some old => before_read nodes node old

/-- The argument `i` of the node at `node`. -/
def arg_at (nodes : List Node) (node i : Nat) : Option Ref :=
  (nodes[node]?).bind (fun n => n.args[i]?)

/-! ## The `CALL` case of `process_node_links` -/

/-- The declared buffer at 1 has no links (it lies outside the range that is
linked), and the call 3 writes it. -/
def unlinked_argument : List Node :=
  [ { kind := NodeKind.CONSTANT, type := [Ty.MEMORY_TY], index := 0, links := [{}] },
    { kind := NodeKind.CONSTRUCT, type := [Ty.BUFFER], args := [⟨some 0, 0⟩], index := 1 },
    { kind := NodeKind.CONSTANT, index := 2, links := [{}],
      type := [Ty.OPAQUE_FN_TY [Ty.IMBUED_TY Ty.BUFFER 2] [Ty.ALIASED_TY Ty.BUFFER 1]] },
    { kind := NodeKind.CALL, type := [Ty.ALIASED_TY Ty.BUFFER 1],
      args := [⟨some 2, 0⟩, ⟨some 1, 0⟩], index := 3, links := [{}] } ]

/-- The link of the argument that the result `k` of the call `n` aliases:
`node->call.args[ref_idx].link()`. -/
def aliased_link (n : Node) (k : Nat) : Option LinkPtr :=
  match n.type[k]? with
  | some (Ty.ALIASED_TY _ ref_idx) => (n.args[ref_idx]?).bind ref_link
  | _ => none

/-- The call 3 takes the declared buffer at 1 and returns it twice: both of
its results alias the argument 1. -/
def returned_twice : List Node :=
  [ { kind := NodeKind.CONSTANT, type := [Ty.MEMORY_TY], index := 0 },
    { kind := NodeKind.CONSTRUCT, type := [Ty.BUFFER], args := [⟨some 0, 0⟩], index := 1 },
    { kind := NodeKind.CONSTANT, index := 2,
      type := [Ty.OPAQUE_FN_TY [Ty.IMBUED_TY Ty.BUFFER 2]
        [Ty.ALIASED_TY Ty.BUFFER 1, Ty.ALIASED_TY Ty.BUFFER 1]] },
    { kind := NodeKind.CALL, type := [Ty.ALIASED_TY Ty.BUFFER 1, Ty.ALIASED_TY Ty.BUFFER 1],
      args := [⟨some 2, 0⟩, ⟨some 1, 0⟩], index := 3 } ]

/-- The invariant of the loop over the results of a `CALL`, after `j`
results. -/
def ResultsInv (node : Nat) (n : Node) (asserts : Bool) (j : Nat) (s : LinkState) : Prop :=
  s.asserts_hold = asserts ∧
  (∃ n1, s.nodes[node]? = some n1 ∧ n1.args = n.args ∧ n1.type = n.type ∧
    n1.links.length = n.links.length) ∧
  (∀ (k : Nat) (t : LinkPtr), k < n.type.length → aliased_link n k = some t →
    ∃ c, link_at s.nodes t = some c) ∧
  (∀ (k : Nat) (t : LinkPtr), k < j → aliased_link n k = some t →
    (∃ c, link_at s.nodes ⟨node, k⟩ = some c ∧ c.def_ = ⟨some node, k⟩ ∧ c.prev = some t) ∧
    ((∀ (k1 : Nat), k < k1 → k1 < j → aliased_link n k1 ≠ some t) →
      next_of s.nodes t = some ⟨node, k⟩))

/-- The call 3 of `returned_twice` with its two links allocated. -/
def double_result_call : Node :=
  { kind := NodeKind.CALL, type := [Ty.ALIASED_TY Ty.BUFFER 1, Ty.ALIASED_TY Ty.BUFFER 1],
    args := [⟨some 2, 0⟩, ⟨some 1, 0⟩], index := 3, links := [{}, {}] }

/-! ## `Compiler::queue_inference`: two chains -/

/-- Two chains without a common node: buffer `a` (node 0) is written by the
call `wa` (node 1), which requires the transfer queue; buffer `b` (node 2) is
written by the call `wb` (node 3), which requires nothing. -/
def two_chains (c : DomainFlagBits) : List Node :=
  [ { kind := NodeKind.CONSTRUCT
      links := [{ def_ := ⟨some 0, 0⟩, undef := ⟨some 1, 1⟩, next := some ⟨1, 0⟩ }] },
    { kind := NodeKind.CALL
      args := [⟨none, 0⟩, ⟨some 0, 0⟩]
      scheduling_info := some c.eTransferQueue
      links := [{ def_ := ⟨some 1, 0⟩, prev := some ⟨0, 0⟩ }] },
    { kind := NodeKind.CONSTRUCT
      links := [{ def_ := ⟨some 2, 0⟩, undef := ⟨some 3, 1⟩, next := some ⟨3, 0⟩ }] },
    { kind := NodeKind.CALL
      args := [⟨none, 0⟩, ⟨some 2, 0⟩]
      links := [{ def_ := ⟨some 3, 0⟩, prev := some ⟨2, 0⟩ }] } ]

/-- The nodes that the links of a chain name, from the link `p` on: the def,
the reads and the undef of every link. -/
def chain_nodes (nodes : List Node) : Nat → Option LinkPtr → List Nat
  | 0, _ => []
  | _, none => []
  | fuel + 1, some p =>
    match link_at nodes p with
    | none => []
    | some chain =>
      (chain.def_.node.toList ++ chain.reads.filterMap Ref.node ++ chain.undef.node.toList) ++
        chain_nodes nodes fuel chain.next

/-! ## `walk_writes`: the assertion on the last link -/

/-- Two declared buffers, `a` at 2 and `b` at 3.  The call 5 writes both
(access 2 is a write access of `sample_link_helpers`) and returns `a` only:
its one result aliases the argument 1, none aliases the argument 2.  The call
7 writes `b` again. -/
def written_twice : List Node :=
  [ { kind := NodeKind.CONSTANT, type := [Ty.MEMORY_TY], index := 0 },
    { kind := NodeKind.CONSTANT, type := [Ty.MEMORY_TY], index := 1 },
    { kind := NodeKind.CONSTRUCT, type := [Ty.BUFFER], args := [⟨some 0, 0⟩], index := 2 },
    { kind := NodeKind.CONSTRUCT, type := [Ty.BUFFER], args := [⟨some 1, 0⟩], index := 3 },
    { kind := NodeKind.CONSTANT, index := 4,
      type := [Ty.OPAQUE_FN_TY [Ty.IMBUED_TY Ty.BUFFER 2, Ty.IMBUED_TY Ty.BUFFER 2]
        [Ty.ALIASED_TY Ty.BUFFER 1]] },
    { kind := NodeKind.CALL, type := [Ty.ALIASED_TY Ty.BUFFER 1],
      args := [⟨some 4, 0⟩, ⟨some 2, 0⟩, ⟨some 3, 0⟩], index := 5 },
    { kind := NodeKind.CONSTANT, index := 6,
      type := [Ty.OPAQUE_FN_TY [Ty.IMBUED_TY Ty.BUFFER 2] [Ty.ALIASED_TY Ty.BUFFER 1]] },
    { kind := NodeKind.CALL, type := [Ty.ALIASED_TY Ty.BUFFER 1],
      args := [⟨some 6, 0⟩, ⟨some 3, 0⟩], index := 7 } ]

/-! ## Working sets for the pointers of the links and for `build_sync` -/

/-- The buffer declared at 1 is written by the call 3, which returns it. -/
def written_once : List Node :=
  [ { kind := NodeKind.CONSTANT, type := [Ty.MEMORY_TY], index := 0 },
    { kind := NodeKind.CONSTRUCT, type := [Ty.BUFFER], args := [⟨some 0, 0⟩], index := 1 },
    { kind := NodeKind.CONSTANT, index := 2,
      type := [Ty.OPAQUE_FN_TY [Ty.IMBUED_TY Ty.BUFFER 2] [Ty.ALIASED_TY Ty.BUFFER 1]] },
    { kind := NodeKind.CALL, type := [Ty.ALIASED_TY Ty.BUFFER 1],
      args := [⟨some 2, 0⟩, ⟨some 1, 0⟩], index := 3 } ]

/-- The call 3 of `written_once` with its link allocated. -/
def single_result_call : Node :=
  { kind := NodeKind.CALL, type := [Ty.ALIASED_TY Ty.BUFFER 1],
    args := [⟨some 2, 0⟩, ⟨some 1, 0⟩], index := 3, links := [{}] }

/-- An image (node 0) is cut by the `SLICE` 3 into the slice `(3, 0)` and the
rest `(3, 1)`.  The call 5 writes the slice and requires the transfer queue
(16), the call 6 writes the rest and requires the compute queue (8); each
returns what it wrote.  The `CONVERGE` 7 joins the two results; it carries no
required domain. -/
def diverged_writes : List Node :=
  [ { kind := NodeKind.CONSTRUCT, type := [Ty.IMAGE], index := 0 },
    { kind := NodeKind.CONSTANT, type := [Ty.INTEGER_TY 32],
      constant_value := ConstantValue.bytes 0, index := 1 },
    { kind := NodeKind.CONSTANT, type := [Ty.INTEGER_TY 32],
      constant_value := ConstantValue.bytes 1, index := 2 },
    { kind := NodeKind.SLICE, type := [Ty.IMAGE, Ty.IMAGE],
      args := [⟨some 0, 0⟩, ⟨some 1, 0⟩, ⟨some 2, 0⟩, ⟨some 1, 0⟩, ⟨some 2, 0⟩], index := 3 },
    { kind := NodeKind.CONSTANT, index := 4,
      type := [Ty.OPAQUE_FN_TY [Ty.IMBUED_TY Ty.IMAGE 2] [Ty.ALIASED_TY Ty.IMAGE 1]] },
    { kind := NodeKind.CALL, type := [Ty.ALIASED_TY Ty.IMAGE 1],
      args := [⟨some 4, 0⟩, ⟨some 3, 0⟩], scheduling_info := some 16, index := 5 },
    { kind := NodeKind.CALL, type := [Ty.ALIASED_TY Ty.IMAGE 1],
      args := [⟨some 4, 0⟩, ⟨some 3, 1⟩], scheduling_info := some 8, index := 6 },
    { kind := NodeKind.CONVERGE, type := [Ty.IMAGE],
      args := [⟨some 5, 0⟩, ⟨some 6, 0⟩], write := [true, true], index := 7 } ]

/-- The passes from `build_links` to `queue_inference` on a working set, and
what `build_sync` then checks: whether every assertion of the link builder
and of `collect_chains` held, whether the scheduler asserted, the scheduled items, and for each node
its scheduled domain and the outcome of the sanity check of the `default`
branch of `build_sync` on it. -/
structure InferenceRun where
  links_hold : Bool
  chains_hold : Bool
  schedule_asserted : Bool
  scheduled_execables : List ScheduledItem
  domains : List (Option Nat)
  sanity : List Bool
  build_sync_holds : Bool
  deriving DecidableEq, Repr

/-- The run of `build_links`, `schedule_intra_queue`, `collect_chains` and
`queue_inference`, in the order of `Compiler::compile`. -/
def run_inference (h : LinkHelpers) (c : DomainFlagBits) (fuel : Nat) (nodes : List Node) :
    Option InferenceRun :=
  (build_links h fuel nodes).bind (fun st =>
    let s := schedule_intra_queue c st.nodes []
    let ch := collect_chains_pass s.nodes
    (queue_inference c fuel s.nodes ch.chains s.scheduled_execables).map
      (fun out =>
        { links_hold := st.asserts_hold
          chains_hold := ch.asserts_hold
          schedule_asserted := s.assert_failed
          scheduled_execables := out
          domains := (List.range s.nodes.length).map (domain_of s.nodes out)
          sanity := (List.range s.nodes.length).map (sanity_holds s.nodes out)
          build_sync_holds := build_sync_sanity s.nodes out }))

/-! # Theorems -/

/-! ## The Kahn loop of `schedule_intra_queue` -/

theorem getD_set_nat (l : List Nat) (i j v : Nat) :
    (l.set i v).getD j 0 = if i = j ∧ i < l.length then v else l.getD j 0 := by
  simp only [List.getD_eq_getElem?_getD, List.getElem?_set]
  by_cases h : i = j
  · subst h
    by_cases h2 : i < l.length
    · simp [h2]
    · simp [h2, List.getElem?_eq_none (Nat.le_of_not_lt h2)]
  · simp [h]

theorem relax_fst_length (S : Nat) (m : List Nat) (x : Nat) (st : List Nat × List Nat) (i : Nat) :
    (relax S m x st i).1.length = st.1.length := by
  unfold relax
  split_ifs <;> simp

theorem relax_fold_length (S : Nat) (m : List Nat) (x : Nat) (l : List Nat)
    (st : List Nat × List Nat) :
    (l.foldl (relax S m x) st).1.length = st.1.length := by
  induction l generalizing st with
  | nil => rfl
  | cons a l ih => rw [List.foldl_cons, ih, relax_fst_length]

theorem relax_fst_other (S : Nat) (m : List Nat) (x : Nat) (st : List Nat × List Nat)
    (a i : Nat) (h : i ≠ a) : (relax S m x st a).1.getD i 0 = st.1.getD i 0 := by
  unfold relax
  split_ifs <;> simp [getD_set_nat, Ne.symm h]

theorem relax_fst_self (S : Nat) (m : List Nat) (x : Nat) (st : List Nat × List Nat)
    (a : Nat) (ha : a < st.1.length) :
    (relax S m x st a).1.getD a 0 =
      if a ≠ x ∧ 0 < adj_value S m x a then st.1.getD a 0 - adj_value S m x a
      else st.1.getD a 0 := by
  unfold relax
  split_ifs <;> simp_all [getD_set_nat]

theorem relax_fold_fst (S : Nat) (m : List Nat) (x : Nat) (l : List Nat) (hl : l.Nodup)
    (st : List Nat × List Nat) (hlen : ∀ i ∈ l, i < st.1.length) (i : Nat) :
    (l.foldl (relax S m x) st).1.getD i 0 =
      if i ∈ l ∧ i ≠ x ∧ 0 < adj_value S m x i then st.1.getD i 0 - adj_value S m x i
      else st.1.getD i 0 := by
  induction l generalizing st with
  | nil => simp
  | cons a l ih =>
    rw [List.foldl_cons]
    have hnd := List.nodup_cons.mp hl
    rw [ih hnd.2 _ (fun j hj => by
      rw [relax_fst_length]; exact hlen j (List.mem_cons_of_mem _ hj))]
    by_cases hia : i = a
    · subst hia
      have : i ∉ l := hnd.1
      simp only [this, false_and, if_false, List.mem_cons, true_or, true_and]
      exact relax_fst_self S m x st i (hlen i (List.mem_cons_self _ _))
    · rw [relax_fst_other S m x st a i hia]
      simp [hia]

theorem relax_fold_snd (S : Nat) (m : List Nat) (x : Nat) (l : List Nat) (hl : l.Nodup)
    (st : List Nat × List Nat) :
    (l.foldl (relax S m x) st).2 =
      (l.filter (fun i => decide (i ≠ x ∧ 0 < adj_value S m x i ∧
        st.1.getD i 0 - adj_value S m x i = 0))).reverse ++ st.2 := by
  induction l generalizing st with
  | nil => simp
  | cons a l ih =>
    rw [List.foldl_cons]
    have hnd := List.nodup_cons.mp hl
    rw [ih hnd.2]
    have hcongr : l.filter (fun i => decide (i ≠ x ∧ 0 < adj_value S m x i ∧
        (relax S m x st a).1.getD i 0 - adj_value S m x i = 0)) =
        l.filter (fun i => decide (i ≠ x ∧ 0 < adj_value S m x i ∧
        st.1.getD i 0 - adj_value S m x i = 0)) := by
      apply List.filter_congr
      intro j hj
      have hja : j ≠ a := fun h => hnd.1 (h ▸ hj)
      rw [relax_fst_other S m x st a j hja]
    rw [hcongr, List.filter_cons]
    unfold relax
    split_ifs <;> simp_all

theorem edge_facts_sum_adj_le {S : Nat} {m ind0 : List Nat} {cnt : Nat → Nat → Nat}
    (hF : EdgeFacts S m ind0 cnt) (i : Nat) (hi : i < S) (T : Finset Nat)
    (hT : T ⊆ Finset.range S) :
    ∑ p in T, adj_value S m p i ≤ ind0.getD i 0 := by
  rw [hF.ind_eq i hi]
  calc ∑ p in T, adj_value S m p i ≤ ∑ p in T, cnt p i := by
        apply Finset.sum_le_sum
        intro p hp
        rw [hF.adj_eq p i (Finset.mem_range.mp (hT hp)) hi]
        exact Nat.mod_le _ _
    _ ≤ ∑ p in Finset.range S, cnt p i := Finset.sum_le_sum_of_subset hT

theorem edge_facts_preds_mem {S : Nat} {m ind0 : List Nat} {cnt : Nat → Nat → Nat}
    (hF : EdgeFacts S m ind0 cnt) (i : Nat) (hi : i < S) (T : Finset Nat)
    (hT : T ⊆ Finset.range S)
    (hsum : ∑ p in T, adj_value S m p i = ind0.getD i 0)
    (p : Nat) (hp : p < S) (hc : 0 < cnt p i) : p ∈ T := by
  by_contra hpT
  have h1 : ∑ q in T, adj_value S m q i ≤ ∑ q in T, cnt q i := by
    apply Finset.sum_le_sum
    intro q hq
    rw [hF.adj_eq q i (Finset.mem_range.mp (hT hq)) hi]
    exact Nat.mod_le _ _
  have h2 : ∑ q in T, cnt q i < ∑ q in Finset.range S, cnt q i :=
    Finset.sum_lt_sum_of_subset hT (Finset.mem_range.mpr hp) hpT hc (fun _ _ _ => Nat.zero_le _)
  rw [hF.ind_eq i hi] at hsum
  omega

theorem kahn_inv_adj_le_ind {S : Nat} {m ind0 ind q P : List Nat} {cnt : Nat → Nat → Nat}
    (hF : EdgeFacts S m ind0 cnt) (h : KahnInv S m ind0 ind q P)
    (x : Nat) (hx : x ∈ q) (j : Nat) (hj : j < S) (hjx : j ≠ x) :
    adj_value S m x j ≤ ind.getD j 0 := by
  have hxP : x ∉ P := h.disj x hx
  have hxS : x < S := h.ltQ x hx
  have hnot : x ∉ P.toFinset.erase j := by
    simp [hxP]
  have hsub : insert x (P.toFinset.erase j) ⊆ Finset.range S := by
    intro y hy
    rw [Finset.mem_insert] at hy
    rcases hy with rfl | hy
    · exact Finset.mem_range.mpr hxS
    · exact Finset.mem_range.mpr (h.ltP y (List.mem_toFinset.mp (Finset.mem_of_mem_erase hy)))
  have h1 := edge_facts_sum_adj_le hF j hj _ hsub
  rw [Finset.sum_insert hnot] at h1
  have h2 := h.bal j hj
  omega

theorem kahn_inv_pos_of_adj {S : Nat} {m ind0 ind q P : List Nat} {cnt : Nat → Nat → Nat}
    (hF : EdgeFacts S m ind0 cnt) (h : KahnInv S m ind0 ind q P)
    (x : Nat) (hx : x ∈ q) (j : Nat) (hj : j < S) (hjx : j ≠ x)
    (hadj : 0 < adj_value S m x j) : j ∉ q ∧ j ∉ P := by
  have h1 := kahn_inv_adj_le_ind hF h x hx j hj hjx
  have h2 : ind.getD j 0 ≠ 0 := by omega
  have h3 := (h.zero j hj).not.mp h2
  exact ⟨fun a => h3 (Or.inl a), fun a => h3 (Or.inr a)⟩

theorem kahn_inv_step {S : Nat} {m ind0 ind rest P : List Nat} {cnt : Nat → Nat → Nat}
    (hF : EdgeFacts S m ind0 cnt) (x : Nat) (h : KahnInv S m ind0 ind (x :: rest) P) :
    KahnInv S m ind0 ((List.range S).foldl (relax S m x) (ind, rest)).1
      ((List.range S).foldl (relax S m x) (ind, rest)).2 (P ++ [x]) := by
  have hxq : x ∈ x :: rest := List.mem_cons_self _ _
  have hxP : x ∉ P := h.disj x hxq
  have hxS : x < S := h.ltQ x hxq
  have hq := List.nodup_cons.mp h.nodupQ
  have hlen : ∀ i ∈ List.range S, i < (ind, rest).1.length := by
    intro i hi
    simpa [h.len] using hi
  have hfst : ∀ i, i < S → ((List.range S).foldl (relax S m x) (ind, rest)).1.getD i 0 =
      if i ≠ x ∧ 0 < adj_value S m x i then ind.getD i 0 - adj_value S m x i
      else ind.getD i 0 := by
    intro i hi
    rw [relax_fold_fst S m x _ (List.nodup_range S) _ hlen i]
    simp [hi]
  have hsnd : ∀ j, j ∈ ((List.range S).foldl (relax S m x) (ind, rest)).2 ↔
      (j ∈ rest ∨ (j < S ∧ j ≠ x ∧ 0 < adj_value S m x j ∧
        ind.getD j 0 - adj_value S m x j = 0)) := by
    intro j
    rw [relax_fold_snd S m x _ (List.nodup_range S)]
    simp only [List.mem_append, List.mem_reverse, List.mem_filter, List.mem_range,
      decide_eq_true_eq]
    tauto
  refine ⟨?_, ?_, ?_, ?_, ?_, ?_, ?_, ?_⟩
  · -- nodupP
    rw [List.nodup_append]
    refine ⟨h.nodupP, List.nodup_singleton x, ?_⟩
    intro a ha hb
    simp only [List.mem_singleton] at hb
    subst hb
    exact hxP ha
  · intro y hy
    rcases List.mem_append.mp hy with hy | hy
    · exact h.ltP y hy
    · simp only [List.mem_singleton] at hy
      exact hy ▸ hxS
  · -- nodupQ
    rw [relax_fold_snd S m x _ (List.nodup_range S)]
    rw [List.nodup_append]
    refine ⟨List.nodup_reverse.mpr ((List.nodup_range S).filter _), hq.2, ?_⟩
    intro a ha hb
    simp only [List.mem_reverse, List.mem_filter, List.mem_range, decide_eq_true_eq] at ha
    have := kahn_inv_pos_of_adj hF h x hxq a ha.1 ha.2.1 ha.2.2.1
    exact this.1 (List.mem_cons_of_mem _ hb)
  · intro y hy
    rcases (hsnd y).mp hy with hy | hy
    · exact h.ltQ y (List.mem_cons_of_mem _ hy)
    · exact hy.1
  · -- disj
    intro y hy hyP
    rcases List.mem_append.mp hyP with hyP | hyP
    · rcases (hsnd y).mp hy with hy | hy
      · exact h.disj y (List.mem_cons_of_mem _ hy) hyP
      · exact (kahn_inv_pos_of_adj hF h x hxq y hy.1 hy.2.1 hy.2.2.1).2 hyP
    · simp only [List.mem_singleton] at hyP
      subst hyP
      rcases (hsnd y).mp hy with hy | hy
      · exact hq.1 hy
      · exact hy.2.1 rfl
  · rw [relax_fold_length]; exact h.len
  · -- bal
    intro i hi
    rw [hfst i hi]
    have hPF : (P ++ [x]).toFinset = insert x P.toFinset := by
      ext y; simp [or_comm]
    rw [hPF]
    by_cases hix : i = x
    · subst hix
      have : (insert i P.toFinset).erase i = P.toFinset.erase i := by
        ext y; simp
      rw [this]
      simpa using h.bal i hi
    · have hne : x ≠ i := Ne.symm hix
      rw [Finset.erase_insert_of_ne hne]
      have hnot : x ∉ P.toFinset.erase i := by simp [hxP]
      rw [Finset.sum_insert hnot]
      have h1 := kahn_inv_adj_le_ind hF h x hxq i hi hix
      have h2 := h.bal i hi
      split_ifs with hc
      · omega
      · have : adj_value S m x i = 0 := by
          by_contra h0
          exact hc ⟨hix, Nat.pos_of_ne_zero h0⟩
        omega
  · -- zero
    intro i hi
    rw [hfst i hi, hsnd i]
    by_cases hix : i = x
    · subst hix
      simp only [ne_eq, not_true_eq_false, false_and, if_false, List.mem_append,
        List.mem_singleton, or_true, iff_true]
      exact (h.zero i hi).mpr (Or.inl hxq)
    · by_cases hadj : 0 < adj_value S m x i
      · have hpos := kahn_inv_pos_of_adj hF h x hxq i hi hix hadj
        have hir : i ∉ rest := fun a => hpos.1 (List.mem_cons_of_mem _ a)
        simp only [ne_eq, hix, not_false_eq_true, hadj, and_self, if_true, hir, hi, true_and,
          false_or, List.mem_append, hpos.2, List.mem_singleton, or_false]
      · have hz := h.zero i hi
        simp only [List.mem_cons, hix, false_or] at hz
        simp only [ne_eq, hix, not_false_eq_true, hadj, and_false, if_false, false_and,
          or_false, List.mem_append, List.mem_singleton]
        exact hz


theorem kind_of_emplace_item (c : DomainFlagBits) (e : Nat) (st : DrainState) (p : Nat) :
    kind_of (emplace_item c e st).nodes p = kind_of st.nodes p := by
  unfold emplace_item kind_of
  simp only
  cases hn : st.nodes[e]? with
  | none => rfl
  | some n =>
    simp only [List.getElem?_set]
    by_cases hep : e = p
    · subst hep
      have hlt : e < st.nodes.length := by
        by_contra hge
        rw [List.getElem?_eq_none (Nat.le_of_not_lt hge)] at hn
        cases hn
      simp [hlt, hn]
    · simp [hep]

theorem drain_step_cons (c : DomainFlagBits) (items m : List Nat) (st : DrainState)
    (x : Nat) (rest : List Nat) (hq : st.process_queue = x :: rest) :
    (drain_step c items m st).indegrees =
        ((List.range items.length).foldl (relax items.length m x) (st.indegrees, rest)).1 ∧
    (drain_step c items m st).process_queue =
        ((List.range items.length).foldl (relax items.length m x) (st.indegrees, rest)).2 ∧
    (∀ p, kind_of (drain_step c items m st).nodes p = kind_of st.nodes p) ∧
    (drain_step c items m st).scheduled_execables =
        st.scheduled_execables ++
          (if kind_of st.nodes (items.getD x 0) ≠ some NodeKind.CONSTRUCT
           then [⟨items.getD x 0, c.eAny⟩] else []) := by
  unfold drain_step
  rw [hq]
  simp only
  by_cases hk : kind_of st.nodes (items.getD x 0) ≠ some NodeKind.CONSTRUCT
  · rw [if_pos hk, if_pos hk]
    refine ⟨rfl, rfl, ?_, rfl⟩
    intro p
    exact kind_of_emplace_item c _ st p
  · rw [if_neg hk, if_neg hk]
    refine ⟨rfl, rfl, fun _ => rfl, by simp⟩

theorem preds_before_step {S : Nat} {m ind0 ind rest P : List Nat} {cnt : Nat → Nat → Nat}
    (hF : EdgeFacts S m ind0 cnt) (hsrc : ∀ p i, 0 < cnt p i → p < S)
    (x : Nat) (h : KahnInv S m ind0 ind (x :: rest) P)
    (hP : PredsBefore cnt P) : PredsBefore cnt (P ++ [x]) := by
  have hxq : x ∈ x :: rest := List.mem_cons_self _ _
  have hxP : x ∉ P := h.disj x hxq
  have hxS : x < S := h.ltQ x hxq
  intro i hi p hc
  rcases List.mem_append.mp hi with hi | hi
  · have := hP i hi p hc
    refine ⟨List.mem_append_left _ this.1, ?_⟩
    rw [List.indexOf_append_of_mem this.1, List.indexOf_append_of_mem hi]
    exact this.2
  · simp only [List.mem_singleton] at hi
    subst hi
    have hz : ind.getD i 0 = 0 := (h.zero i hxS).mpr (Or.inl hxq)
    have hb := h.bal i hxS
    rw [hz, Nat.zero_add] at hb
    have hsub : P.toFinset.erase i ⊆ Finset.range S := by
      intro y hy
      exact Finset.mem_range.mpr (h.ltP y (List.mem_toFinset.mp (Finset.mem_of_mem_erase hy)))
    have hpm := edge_facts_preds_mem hF i hxS _ hsub hb p (hsrc p i hc) hc
    have hpP : p ∈ P := List.mem_toFinset.mp (Finset.mem_of_mem_erase hpm)
    refine ⟨List.mem_append_left _ hpP, ?_⟩
    rw [List.indexOf_append_of_mem hpP, List.indexOf_append_of_not_mem hxP]
    have := List.indexOf_lt_length.mpr hpP
    omega

theorem drain_invariant (c : DomainFlagBits) (items m ind0 : List Nat) (cnt : Nat → Nat → Nat)
    (nodes0 : List Node)
    (hF : EdgeFacts items.length m ind0 cnt) (hsrc : ∀ p i, 0 < cnt p i → p < items.length)
    (fuel : Nat) (st : DrainState) (P : List Nat)
    (hI : KahnInv items.length m ind0 st.indegrees st.process_queue P)
    (hP : PredsBefore cnt P)
    (hk : ∀ p, kind_of st.nodes p = kind_of nodes0 p) :
    KahnInv items.length m ind0 (drain c items m fuel st).indegrees
        (drain c items m fuel st).process_queue (P ++ pop_order c items m fuel st) ∧
    PredsBefore cnt (P ++ pop_order c items m fuel st) ∧
    (∀ p, kind_of (drain c items m fuel st).nodes p = kind_of nodes0 p) ∧
    (drain c items m fuel st).scheduled_execables =
      st.scheduled_execables ++
        ((pop_order c items m fuel st).filter
          (fun p => decide (kind_of nodes0 (items.getD p 0) ≠ some NodeKind.CONSTRUCT))).map
          (fun p => (⟨items.getD p 0, c.eAny⟩ : ScheduledItem)) ∧
    (items.length ≤ fuel + P.length → (drain c items m fuel st).process_queue = []) := by
  induction fuel generalizing st P with
  | zero =>
    simp only [drain, pop_order, List.append_nil, List.filter_nil, List.map_nil]
    refine ⟨hI, hP, hk, trivial, ?_⟩
    intro hle
    simp only [Nat.zero_add] at hle
    -- P is a duplicate-free list of `items.length` indices below `items.length`
    have hsub : P.toFinset ⊆ Finset.range items.length := by
      intro y hy
      exact Finset.mem_range.mpr (hI.ltP y (List.mem_toFinset.mp hy))
    have hcard : (Finset.range items.length).card ≤ P.toFinset.card := by
      rw [List.toFinset_card_of_nodup hI.nodupP, Finset.card_range]
      exact hle
    have heq := Finset.eq_of_subset_of_card_le hsub hcard
    cases hq : st.process_queue with
    | nil => rfl
    | cons y t =>
      exfalso
      have hy : y ∈ st.process_queue := by rw [hq]; exact List.mem_cons_self _ _
      have h1 : y ∈ P.toFinset := by
        rw [heq]; exact Finset.mem_range.mpr (hI.ltQ y hy)
      exact hI.disj y hy (List.mem_toFinset.mp h1)
  | succ fuel ih =>
    cases hq : st.process_queue with
    | nil =>
      simp only [drain, pop_order, hq, List.append_nil, List.filter_nil, List.map_nil]
      rw [hq] at hI
      exact ⟨hI, hP, hk, trivial, fun _ => trivial⟩
    | cons x rest =>
      have hstep := drain_step_cons c items m st x rest hq
      rw [hq] at hI
      have hI2 := kahn_inv_step hF x hI
      rw [← hstep.1, ← hstep.2.1] at hI2
      have hP2 := preds_before_step hF hsrc x hI hP
      have hk2 : ∀ p, kind_of (drain_step c items m st).nodes p = kind_of nodes0 p := by
        intro p; rw [hstep.2.2.1 p, hk p]
      have := ih (drain_step c items m st) (P ++ [x]) hI2 hP2 hk2
      simp only [drain, pop_order, hq]
      simp only [List.append_assoc, List.singleton_append] at this
      refine ⟨this.1, this.2.1, this.2.2.1, ?_, ?_⟩
      · rw [this.2.2.2.1, hstep.2.2.2, hk, List.append_assoc]
        congr 1
        by_cases hkx : kind_of nodes0 (items.getD x 0) ≠ some NodeKind.CONSTRUCT
        · rw [if_pos hkx, List.filter_cons, if_pos (decide_eq_true hkx)]
          rfl
        · rw [if_neg hkx, List.filter_cons,
            if_neg (by simp only [decide_eq_true_eq]; exact hkx)]
          rfl
      · intro hle
        apply this.2.2.2.2
        simp only [List.length_append, List.length_singleton]
        omega


theorem node_to_schedule_some (items : List Nat) (node : Option Nat) (k : Nat)
    (h : node_to_schedule items node = some k) :
    ∃ n, node = some n ∧ n ∈ items ∧ k = items.indexOf n ∧ k < items.length := by
  unfold node_to_schedule at h
  cases node with
  | none => cases h
  | some n =>
    simp only at h
    split_ifs at h with hm
    cases h
    exact ⟨n, rfl, hm, rfl, List.indexOf_lt_length.mpr hm⟩

theorem node_to_schedule_of_mem (items : List Nat) (n : Nat) (h : n ∈ items) :
    node_to_schedule items (some n) = some (items.indexOf n) := by
  simp [node_to_schedule, h]

theorem edges_of_link_lt (items : List Nat) (link : ChainLink) (e : Nat × Nat)
    (he : e ∈ edges_of_link items link) : e.1 < items.length ∧ e.2 < items.length := by
  unfold edges_of_link at he
  rcases List.mem_append.mp he with he | he
  · cases hu : node_to_schedule items link.undef.node with
    | none => rw [hu] at he; cases he
    | some u =>
      cases hd : node_to_schedule items link.def_.node with
      | none => rw [hu, hd] at he; cases he
      | some d =>
        rw [hu, hd] at he
        simp only [List.mem_singleton] at he
        subst he
        obtain ⟨_, _, _, _, h1⟩ := node_to_schedule_some _ _ _ hd
        obtain ⟨_, _, _, _, h2⟩ := node_to_schedule_some _ _ _ hu
        exact ⟨h1, h2⟩
  · rw [List.mem_flatMap] at he
    obtain ⟨read, _, he⟩ := he
    cases hr : node_to_schedule items read.node with
    | none => rw [hr] at he; cases he
    | some r =>
      rw [hr] at he
      obtain ⟨_, _, _, _, h0⟩ := node_to_schedule_some _ _ _ hr
      simp only at he
      rcases List.mem_append.mp he with he | he
      · cases hd : node_to_schedule items link.def_.node with
        | none => rw [hd] at he; cases he
        | some d =>
          rw [hd] at he
          simp only [List.mem_singleton] at he
          subst he
          obtain ⟨_, _, _, _, h1⟩ := node_to_schedule_some _ _ _ hd
          exact ⟨h1, h0⟩
      · cases hu : node_to_schedule items link.undef.node with
        | none => rw [hu] at he; cases he
        | some u =>
          rw [hu] at he
          simp only [List.mem_singleton] at he
          subst he
          obtain ⟨_, _, _, _, h2⟩ := node_to_schedule_some _ _ _ hu
          exact ⟨h0, h2⟩

theorem edges_of_nodes_lt (nodes : List Node) (e : Nat × Nat)
    (he : e ∈ edges_of_nodes nodes) :
    e.1 < (schedule_items nodes).length ∧ e.2 < (schedule_items nodes).length := by
  unfold edges_of_nodes at he
  simp only [List.mem_flatMap] at he
  obtain ⟨_, _, link, _, he⟩ := he
  exact edges_of_link_lt _ link e he

theorem add_edge_lengths (S : Nat) (a : Adjacency) (e : Nat × Nat) :
    (add_edge S a e).indegrees.length = a.indegrees.length ∧
    (add_edge S a e).adjacency_matrix.length = a.adjacency_matrix.length := by
  simp [add_edge]

theorem flat_index_lt (S p i : Nat) (hp : p < S) (hi : i < S) : p * S + i < S * S := by
  calc p * S + i < p * S + S := by omega
    _ = (p + 1) * S := by ring
    _ ≤ S * S := Nat.mul_le_mul_right S hp

theorem flat_index_inj (S p i q j : Nat) (hi : i < S) (hj : j < S)
    (h : p * S + i = q * S + j) : p = q ∧ i = j := by
  have hS : 0 < S := by omega
  have h1 : (p * S + i) / S = p := by
    rw [Nat.add_comm, Nat.add_mul_div_right _ _ hS, Nat.div_eq_of_lt hi, Nat.zero_add]
  have h2 : (q * S + j) / S = q := by
    rw [Nat.add_comm, Nat.add_mul_div_right _ _ hS, Nat.div_eq_of_lt hj, Nat.zero_add]
  have hpq : p = q := by rw [← h1, ← h2, h]
  subst hpq
  exact ⟨rfl, by omega⟩

theorem fold_add_edge_lengths (S : Nat) (es : List (Nat × Nat)) (a : Adjacency) :
    (es.foldl (add_edge S) a).indegrees.length = a.indegrees.length ∧
    (es.foldl (add_edge S) a).adjacency_matrix.length = a.adjacency_matrix.length := by
  induction es generalizing a with
  | nil => exact ⟨rfl, rfl⟩
  | cons e es ih =>
    rw [List.foldl_cons]
    have h1 := ih (add_edge S a e)
    have h2 := add_edge_lengths S a e
    exact ⟨h1.1.trans h2.1, h1.2.trans h2.2⟩

theorem fold_add_edge_indegrees (S : Nat) (es : List (Nat × Nat)) (a : Adjacency)
    (hes : ∀ e ∈ es, e.2 < a.indegrees.length) (i : Nat) :
    (es.foldl (add_edge S) a).indegrees.getD i 0 =
      a.indegrees.getD i 0 + es.countP (fun e => decide (e.2 = i)) := by
  induction es generalizing a with
  | nil => simp
  | cons e es ih =>
    rw [List.foldl_cons, ih]
    · have he := hes e (List.mem_cons_self _ _)
      rw [List.countP_cons]
      simp only [add_edge, getD_set_nat]
      by_cases h : e.2 = i
      · subst h
        simp [he]
        omega
      · simp [h]
    · intro e2 he2
      rw [(add_edge_lengths S a e).1]
      exact hes e2 (List.mem_cons_of_mem _ he2)

theorem adj_value_add_edge (S : Nat) (a : Adjacency) (e : Nat × Nat)
    (he : e.1 < S ∧ e.2 < S) (hlen : a.adjacency_matrix.length = S * S)
    (p i : Nat) (hi : i < S) :
    adj_value S (add_edge S a e).adjacency_matrix p i =
      if e = (p, i) then (adj_value S a.adjacency_matrix p i + 1) % 256
      else adj_value S a.adjacency_matrix p i := by
  have hidx := flat_index_lt S e.1 e.2 he.1 he.2
  unfold adj_value add_edge
  rw [getD_set_nat]
  by_cases h : e = (p, i)
  · subst h
    rw [if_pos ⟨rfl, by rw [hlen]; exact hidx⟩, if_pos rfl]
  · have hne : ¬ (e.1 * S + e.2 = p * S + i) := by
      intro heq
      have := flat_index_inj S e.1 e.2 p i he.2 hi heq
      exact h (Prod.ext this.1 this.2)
    rw [if_neg (fun hc => hne hc.1), if_neg h]

theorem add_edge_small (S : Nat) (a : Adjacency) (e : Nat × Nat)
    (hsmall : ∀ k, a.adjacency_matrix.getD k 0 < 256) (k : Nat) :
    (add_edge S a e).adjacency_matrix.getD k 0 < 256 := by
  unfold add_edge
  rw [getD_set_nat]
  split_ifs
  · exact Nat.mod_lt _ (by norm_num)
  · exact hsmall k

theorem fold_add_edge_adjacency (S : Nat) (es : List (Nat × Nat)) (a : Adjacency)
    (hes : ∀ e ∈ es, e.1 < S ∧ e.2 < S) (hlen : a.adjacency_matrix.length = S * S)
    (hsmall : ∀ k, a.adjacency_matrix.getD k 0 < 256)
    (p i : Nat) (hi : i < S) :
    adj_value S (es.foldl (add_edge S) a).adjacency_matrix p i =
      (adj_value S a.adjacency_matrix p i + es.count (p, i)) % 256 := by
  induction es generalizing a with
  | nil =>
    rw [List.foldl_nil, List.count_nil, Nat.add_zero]
    exact (Nat.mod_eq_of_lt (hsmall _)).symm
  | cons e es ih =>
    rw [List.foldl_cons, ih (add_edge S a e)
      (fun e2 he2 => hes e2 (List.mem_cons_of_mem _ he2))
      (by rw [(add_edge_lengths S a e).2]; exact hlen)
      (add_edge_small S a e hsmall)]
    have he := hes e (List.mem_cons_self _ _)
    rw [adj_value_add_edge S a e he hlen p i hi, List.count_cons]
    by_cases h : e = (p, i)
    · have hb : (e == (p, i)) = true := by rw [h]; exact beq_self_eq_true _
      rw [if_pos h, if_pos hb]
      omega
    · have hb : ¬ ((e == (p, i)) = true) := by
        intro hc; exact h (eq_of_beq hc)
      rw [if_neg h, if_neg hb]
      rfl

theorem countP_snd_eq_sum (S : Nat) (es : List (Nat × Nat)) (hes : ∀ e ∈ es, e.1 < S)
    (i : Nat) :
    es.countP (fun e => decide (e.2 = i)) = ∑ p in Finset.range S, es.count (p, i) := by
  induction es with
  | nil => simp
  | cons e es ih =>
    have he := hes e (List.mem_cons_self _ _)
    rw [List.countP_cons, ih (fun e2 h2 => hes e2 (List.mem_cons_of_mem _ h2))]
    simp only [List.count_cons, Finset.sum_add_distrib]
    congr 1
    by_cases h : e.2 = i
    · have : ∀ p, (if (e == (p, i)) = true then 1 else 0) = if e.1 = p then 1 else 0 := by
        intro p
        by_cases hp : e.1 = p
        · have : e = (p, i) := Prod.ext hp h
          simp [this]
        · have : e ≠ (p, i) := fun heq => hp (by rw [heq])
          simp [this, hp]
      rw [Finset.sum_congr rfl (fun p _ => this p), Finset.sum_ite_eq]
      simp [he, h]
    · have : ∀ p, (if (e == (p, i)) = true then 1 else 0) = 0 := by
        intro p
        have : e ≠ (p, i) := fun heq => h (by rw [heq])
        simp [this]
      rw [Finset.sum_eq_zero (fun p _ => this p)]
      simp [h]

theorem edge_count_pos_lt (nodes : List Node) (p i : Nat) (h : 0 < edge_count nodes p i) :
    p < (schedule_items nodes).length ∧ i < (schedule_items nodes).length := by
  unfold edge_count at h
  exact edges_of_nodes_lt nodes (p, i) (List.count_pos_iff.mp h)

theorem build_adjacency_facts (nodes : List Node) :
    EdgeFacts (schedule_items nodes).length (build_adjacency nodes).adjacency_matrix
      (build_adjacency nodes).indegrees (edge_count nodes) := by
  refine ⟨?_, ?_, ?_⟩
  · unfold build_adjacency
    simp only
    rw [(fold_add_edge_lengths _ _ _).1]
    simp
  · intro p i _ hi
    unfold build_adjacency edge_count
    simp only
    rw [fold_add_edge_adjacency _ _ _ (edges_of_nodes_lt nodes) (by simp) (by simp) p i hi]
    simp [adj_value]
  · intro i _
    unfold build_adjacency edge_count
    simp only
    rw [fold_add_edge_indegrees _ _ _ (by
      intro e he; simpa using (edges_of_nodes_lt nodes e he).2)]
    rw [countP_snd_eq_sum _ _ (fun e he => (edges_of_nodes_lt nodes e he).1)]
    simp

theorem initial_inv (S : Nat) (m ind0 : List Nat) (hlen : ind0.length = S) :
    KahnInv S m ind0 ind0 (initial_queue ind0) [] := by
  unfold initial_queue
  refine ⟨List.nodup_nil, ?_, ?_, ?_, ?_, hlen, ?_, ?_⟩
  · intro x hx; cases hx
  · exact List.nodup_reverse.mpr ((List.nodup_range _).filter _)
  · intro x hx
    simp only [List.mem_reverse, List.mem_filter, List.mem_range] at hx
    omega
  · intro x _ h; cases h
  · intro i _; simp
  · intro i hi
    simp only [List.mem_reverse, List.mem_filter, List.mem_range, decide_eq_true_eq,
      List.not_mem_nil, or_false]
    constructor
    · intro h; exact ⟨by omega, h⟩
    · intro h; exact h.2


theorem schedule_items_nodup (nodes : List Node) : (schedule_items nodes).Nodup :=
  (List.nodup_range _).filter _

theorem schedule_spec (c : DomainFlagBits) (nodes : List Node) (init : List ScheduledItem) :
    ∃ P : List Nat,
      KahnInv (schedule_items nodes).length (build_adjacency nodes).adjacency_matrix
        (build_adjacency nodes).indegrees (schedule_intra_queue c nodes init).indegrees [] P ∧
      PredsBefore (edge_count nodes) P ∧
      (schedule_intra_queue c nodes init).process_queue = [] ∧
      (∀ p, kind_of (schedule_intra_queue c nodes init).nodes p = kind_of nodes p) ∧
      (schedule_intra_queue c nodes init).scheduled_execables =
        init ++ (P.filter (fun p => decide (kind_of nodes ((schedule_items nodes).getD p 0) ≠
            some NodeKind.CONSTRUCT))).map
          (fun p => (⟨(schedule_items nodes).getD p 0, c.eAny⟩ : ScheduledItem)) := by
  have hF := build_adjacency_facts nodes
  have h0 := initial_inv (schedule_items nodes).length (build_adjacency nodes).adjacency_matrix
    (build_adjacency nodes).indegrees hF.len0
  have hP0 : PredsBefore (edge_count nodes) [] := by
    intro i hi; cases hi
  have := drain_invariant c (schedule_items nodes) (build_adjacency nodes).adjacency_matrix
    (build_adjacency nodes).indegrees (edge_count nodes) nodes hF
    (fun p i h => (edge_count_pos_lt nodes p i h).1) (schedule_items nodes).length
    { nodes := nodes
      indegrees := (build_adjacency nodes).indegrees
      process_queue := initial_queue (build_adjacency nodes).indegrees
      scheduled_execables := init } [] h0 hP0 (fun _ => rfl)
  simp only [List.nil_append, List.length_nil, Nat.add_zero, le_refl, true_implies] at this
  obtain ⟨h1, h2, h3, h4, h5⟩ := this
  refine ⟨_, ?_, h2, h5, h3, h4⟩
  have h1b := h1
  rw [h5] at h1b
  exact h1b

theorem indexOf_filter_map_lt (f : Nat → Nat) (keep : Nat → Bool) (P : List Nat)
    (hinj : ∀ x ∈ P, ∀ y ∈ P, f x = f y → x = y) (a b : Nat)
    (ha : a ∈ P) (hb : b ∈ P) (hka : keep a = true) (hkb : keep b = true)
    (hlt : P.indexOf a < P.indexOf b) :
    ((P.filter keep).map f).indexOf (f a) < ((P.filter keep).map f).indexOf (f b) := by
  induction P with
  | nil => cases ha
  | cons h t ih =>
    by_cases hha : h = a
    · subst hha
      have hne : h ≠ b := by
        intro hc
        subst hc
        exact Nat.lt_irrefl _ hlt
      have hfne : f h ≠ f b := fun hc =>
        hne (hinj h (List.mem_cons_self _ _) b hb hc)
      rw [List.filter_cons, if_pos hka, List.map_cons, List.indexOf_cons_self,
        List.indexOf_cons_ne _ hfne]
      exact Nat.succ_pos _
    · have hhb : h ≠ b := by
        intro hc
        subst hc
        rw [List.indexOf_cons_self] at hlt
        exact Nat.not_lt_zero _ hlt
      have ha2 : a ∈ t := (List.mem_cons.mp ha).resolve_left (fun hc => hha hc.symm)
      have hb2 : b ∈ t := (List.mem_cons.mp hb).resolve_left (fun hc => hhb hc.symm)
      rw [List.indexOf_cons_ne _ hha, List.indexOf_cons_ne _ hhb] at hlt
      have hrec := ih (fun x hx y hy => hinj x (List.mem_cons_of_mem _ hx) y
        (List.mem_cons_of_mem _ hy)) ha2 hb2 (Nat.lt_of_succ_lt_succ hlt)
      rw [List.filter_cons]
      by_cases hkh : keep h = true
      · rw [if_pos hkh, List.map_cons]
        have h1 : f h ≠ f a := fun hc =>
          hha (hinj h (List.mem_cons_self _ _) a ha hc)
        have h2 : f h ≠ f b := fun hc =>
          hhb (hinj h (List.mem_cons_self _ _) b hb hc)
        rw [List.indexOf_cons_ne _ h1, List.indexOf_cons_ne _ h2]
        exact Nat.succ_lt_succ hrec
      · rw [if_neg hkh]
        exact hrec

theorem getD_indexOf (items : List Nat) (n : Nat) (h : n ∈ items) :
    items.getD (items.indexOf n) 0 = n := by
  have hlt := List.indexOf_lt_length.mpr h
  rw [List.getD_eq_getElem _ _ hlt]
  exact List.getElem_indexOf hlt

theorem indexOf_getD (items : List Nat) (hnd : items.Nodup) (p : Nat) (hp : p < items.length) :
    items.indexOf (items.getD p 0) = p := by
  rw [List.getD_eq_getElem _ _ hp]
  exact List.indexOf_getElem hnd p hp

theorem getD_mem (items : List Nat) (p : Nat) (hp : p < items.length) :
    items.getD p 0 ∈ items := by
  rw [List.getD_eq_getElem _ _ hp]
  exact List.getElem_mem _

/-- The node list of the scheduled items is the filtered pop order. -/
theorem scheduled_order_eq (c : DomainFlagBits) (nodes : List Node) :
    ∃ P : List Nat,
      KahnInv (schedule_items nodes).length (build_adjacency nodes).adjacency_matrix
        (build_adjacency nodes).indegrees (schedule_intra_queue c nodes []).indegrees [] P ∧
      PredsBefore (edge_count nodes) P ∧
      scheduled_order c nodes =
        (P.filter (fun p => decide (kind_of nodes ((schedule_items nodes).getD p 0) ≠
            some NodeKind.CONSTRUCT))).map (fun p => (schedule_items nodes).getD p 0) := by
  obtain ⟨P, h1, h2, _, _, h5⟩ := schedule_spec c nodes []
  refine ⟨P, h1, h2, ?_⟩
  unfold scheduled_order
  rw [h5, List.nil_append, List.map_map]
  rfl

theorem mem_scheduled_order (nodes : List Node) (P : List Nat)
    (hI : ∀ x ∈ P, x < (schedule_items nodes).length)
    (n : Nat)
    (hn : n ∈ (P.filter (fun p => decide (kind_of nodes ((schedule_items nodes).getD p 0) ≠
            some NodeKind.CONSTRUCT))).map (fun p => (schedule_items nodes).getD p 0)) :
    n ∈ schedule_items nodes ∧ (schedule_items nodes).indexOf n ∈ P ∧
      kind_of nodes n ≠ some NodeKind.CONSTRUCT := by
  rw [List.mem_map] at hn
  obtain ⟨p, hp, rfl⟩ := hn
  rw [List.mem_filter] at hp
  have hlt := hI p hp.1
  refine ⟨getD_mem _ p hlt, ?_, of_decide_eq_true hp.2⟩
  rw [indexOf_getD _ (schedule_items_nodup nodes) p hlt]
  exact hp.1

/-- An edge between two scheduled nodes orders them in `scheduled_execables`. -/
theorem order_of_edge (c : DomainFlagBits) (nodes : List Node) (s t : Nat)
    (hedge : 0 < edge_count nodes ((schedule_items nodes).indexOf s)
      ((schedule_items nodes).indexOf t))
    (hs : s ∈ scheduled_order c nodes) (ht : t ∈ scheduled_order c nodes) :
    (scheduled_order c nodes).indexOf s < (scheduled_order c nodes).indexOf t := by
  obtain ⟨P, hI, hP, heq⟩ := scheduled_order_eq c nodes
  rw [heq] at hs ht ⊢
  obtain ⟨hs1, hs2, hs3⟩ := mem_scheduled_order nodes P hI.ltP s hs
  obtain ⟨ht1, ht2, ht3⟩ := mem_scheduled_order nodes P hI.ltP t ht
  have hord := hP _ ht2 _ hedge
  have hinj : ∀ x ∈ P, ∀ y ∈ P, (schedule_items nodes).getD x 0 =
      (schedule_items nodes).getD y 0 → x = y := by
    intro x hx y hy hxy
    rw [← indexOf_getD _ (schedule_items_nodup nodes) x (hI.ltP x hx),
      ← indexOf_getD _ (schedule_items_nodup nodes) y (hI.ltP y hy), hxy]
  have := indexOf_filter_map_lt (fun p => (schedule_items nodes).getD p 0)
    (fun p => decide (kind_of nodes ((schedule_items nodes).getD p 0) ≠
            some NodeKind.CONSTRUCT)) P hinj _ _ hs2 ht2
    (by simp only [getD_indexOf _ _ hs1]; exact decide_eq_true hs3)
    (by simp only [getD_indexOf _ _ ht1]; exact decide_eq_true ht3) hord.2
  simp only [getD_indexOf _ _ hs1, getD_indexOf _ _ ht1] at this
  exact this

theorem edge_count_pos_of_mem (nodes : List Node) (node : Node) (hn : node ∈ nodes)
    (link : ChainLink) (hl : link ∈ node.links) (e : Nat × Nat)
    (he : e ∈ edges_of_link (schedule_items nodes) link) :
    0 < edge_count nodes e.1 e.2 := by
  unfold edge_count
  apply List.count_pos_iff.mpr
  unfold edges_of_nodes
  simp only [List.mem_flatMap]
  exact ⟨node, hn, link, hl, he⟩

theorem edge_def_undef (items : List Nat) (link : ChainLink) (d u : Nat)
    (hd : link.def_.node = some d) (hu : link.undef.node = some u)
    (hdi : d ∈ items) (hui : u ∈ items) :
    (items.indexOf d, items.indexOf u) ∈ edges_of_link items link := by
  unfold edges_of_link
  apply List.mem_append_left
  rw [hd, hu, node_to_schedule_of_mem _ _ hdi, node_to_schedule_of_mem _ _ hui]
  exact List.mem_singleton_self _

theorem edge_def_read (items : List Nat) (link : ChainLink) (r : Ref) (hr : r ∈ link.reads)
    (d rn : Nat) (hd : link.def_.node = some d) (hrn : r.node = some rn)
    (hdi : d ∈ items) (hri : rn ∈ items) :
    (items.indexOf d, items.indexOf rn) ∈ edges_of_link items link := by
  unfold edges_of_link
  apply List.mem_append_right
  rw [List.mem_flatMap]
  refine ⟨r, hr, ?_⟩
  rw [hrn, hd, node_to_schedule_of_mem _ _ hdi, node_to_schedule_of_mem _ _ hri]
  exact List.mem_append_left _ (List.mem_singleton_self _)

theorem edge_read_undef (items : List Nat) (link : ChainLink) (r : Ref) (hr : r ∈ link.reads)
    (rn u : Nat) (hrn : r.node = some rn) (hu : link.undef.node = some u)
    (hri : rn ∈ items) (hui : u ∈ items) :
    (items.indexOf rn, items.indexOf u) ∈ edges_of_link items link := by
  unfold edges_of_link
  apply List.mem_append_right
  rw [List.mem_flatMap]
  refine ⟨r, hr, ?_⟩
  rw [hrn, hu, node_to_schedule_of_mem _ _ hui, node_to_schedule_of_mem _ _ hri]
  exact List.mem_append_right _ (List.mem_singleton_self _)

theorem scheduled_order_mem_items (c : DomainFlagBits) (nodes : List Node) (n : Nat)
    (hn : n ∈ scheduled_order c nodes) : n ∈ schedule_items nodes := by
  obtain ⟨P, hI, _, heq⟩ := scheduled_order_eq c nodes
  rw [heq] at hn
  exact (mem_scheduled_order nodes P hI.ltP n hn).1

/-- C1: the order in which `schedule_intra_queue` appends items respects every
link: the node of the def comes before the node of every read and before the
node of the undef, and the node of every read comes before the node of the
undef, whenever both nodes are scheduled items.  It holds for every node list,
cyclic or not. -/
theorem schedule_respects_links (c : DomainFlagBits) (nodes : List Node)
    (node : Node) (hn : node ∈ nodes) (link : ChainLink) (hl : link ∈ node.links) :
    (∀ d u, link.def_.node = some d → link.undef.node = some u →
      d ∈ scheduled_order c nodes → u ∈ scheduled_order c nodes →
      (scheduled_order c nodes).indexOf d < (scheduled_order c nodes).indexOf u) ∧
    (∀ r ∈ link.reads, ∀ d rn, link.def_.node = some d → r.node = some rn →
      d ∈ scheduled_order c nodes → rn ∈ scheduled_order c nodes →
      (scheduled_order c nodes).indexOf d < (scheduled_order c nodes).indexOf rn) ∧
    (∀ r ∈ link.reads, ∀ rn u, r.node = some rn → link.undef.node = some u →
      rn ∈ scheduled_order c nodes → u ∈ scheduled_order c nodes →
      (scheduled_order c nodes).indexOf rn < (scheduled_order c nodes).indexOf u) := by
  refine ⟨?_, ?_, ?_⟩
  · intro d u hd hu hds hus
    exact order_of_edge c nodes d u
      (edge_count_pos_of_mem nodes node hn link hl _
        (edge_def_undef _ link d u hd hu (scheduled_order_mem_items c nodes d hds)
          (scheduled_order_mem_items c nodes u hus))) hds hus
  · intro r hr d rn hd hrn hds hrs
    exact order_of_edge c nodes d rn
      (edge_count_pos_of_mem nodes node hn link hl _
        (edge_def_read _ link r hr d rn hd hrn (scheduled_order_mem_items c nodes d hds)
          (scheduled_order_mem_items c nodes rn hrs))) hds hrs
  · intro r hr rn u hrn hu hrs hus
    exact order_of_edge c nodes rn u
      (edge_count_pos_of_mem nodes node hn link hl _
        (edge_read_undef _ link r hr rn u hrn hu (scheduled_order_mem_items c nodes rn hrs)
          (scheduled_order_mem_items c nodes u hus))) hrs hus

/-! ## `Compiler::queue_inference` -/

theorem propagate_domain_of_settled (c : DomainFlagBits) (nodes : List Node) (st : InferState)
    (node : Option Nat) (h : ∀ it ∈ st.scheduled_execables, it.scheduled_domain ≠ c.eAny) :
    (propagate_domain c nodes st node).scheduled_execables = st.scheduled_execables := by
  unfold propagate_domain
  cases node.bind (fun p => nodes[p]?) with
  | none => rfl
  | some n =>
    simp only
    cases n.scheduled_item with
    | none => rfl
    | some item =>
      simp only
      cases hit : st.scheduled_execables[item]? with
      | none => rfl
      | some it =>
        simp only
        have hmem : it ∈ st.scheduled_execables := List.getElem?_mem hit
        rw [if_neg (h it hmem)]

theorem fold_propagate_of_settled (c : DomainFlagBits) (nodes : List Node) (reads : List Ref)
    (st : InferState) (h : ∀ it ∈ st.scheduled_execables, it.scheduled_domain ≠ c.eAny) :
    (reads.foldl (fun s r => propagate_domain c nodes s r.node) st).scheduled_execables =
      st.scheduled_execables := by
  induction reads generalizing st with
  | nil => rfl
  | cons r rest ih =>
    rw [List.foldl_cons, ih, propagate_domain_of_settled c nodes st r.node h]
    rw [propagate_domain_of_settled c nodes st r.node h]
    exact h

theorem visit_forward_of_settled (c : DomainFlagBits) (nodes : List Node) (st : InferState)
    (chain : ChainLink) (h : ∀ it ∈ st.scheduled_execables, it.scheduled_domain ≠ c.eAny) :
    (visit_forward c nodes st chain).scheduled_execables = st.scheduled_execables := by
  have h1 := propagate_domain_of_settled c nodes st chain.def_.node h
  have h2 := fold_propagate_of_settled c nodes chain.reads
    (propagate_domain c nodes st chain.def_.node) (by rw [h1]; exact h)
  unfold visit_forward
  simp only
  split_ifs
  · rw [propagate_domain_of_settled c nodes _ _ (by rw [h2, h1]; exact h), h2, h1]
  · rw [h2, h1]

theorem visit_backward_of_settled (c : DomainFlagBits) (nodes : List Node) (st : InferState)
    (chain : ChainLink) (h : ∀ it ∈ st.scheduled_execables, it.scheduled_domain ≠ c.eAny) :
    (visit_backward c nodes st chain).scheduled_execables = st.scheduled_execables := by
  have h1 : (if chain.undef.node.isSome then propagate_domain c nodes st chain.undef.node
      else st).scheduled_execables = st.scheduled_execables := by
    split_ifs
    · exact propagate_domain_of_settled c nodes st _ h
    · rfl
  have h2 := fold_propagate_of_settled c nodes chain.reads
    (if chain.undef.node.isSome then propagate_domain c nodes st chain.undef.node else st)
    (by rw [h1]; exact h)
  unfold visit_backward
  simp only
  rw [propagate_domain_of_settled c nodes _ _ (by rw [h2, h1]; exact h), h2, h1]

theorem forward_chain_of_settled (c : DomainFlagBits) (nodes : List Node) (fuel : Nat)
    (p : Option LinkPtr) (st st1 : InferState)
    (h : ∀ it ∈ st.scheduled_execables, it.scheduled_domain ≠ c.eAny)
    (hr : forward_chain c nodes fuel p st = some st1) :
    st1.scheduled_execables = st.scheduled_execables := by
  induction fuel generalizing p st with
  | zero =>
    cases p with
    | none => simp only [forward_chain, Option.some.injEq] at hr; rw [← hr]
    | some q => simp [forward_chain] at hr
  | succ fuel ih =>
    cases p with
    | none => simp only [forward_chain, Option.some.injEq] at hr; rw [← hr]
    | some q =>
      simp only [forward_chain] at hr
      cases hl : link_at nodes q with
      | none => rw [hl] at hr; cases hr
      | some chain =>
        rw [hl] at hr
        simp only at hr
        have hv := visit_forward_of_settled c nodes st chain h
        rw [ih chain.next _ (by rw [hv]; exact h) hr, hv]

theorem backward_chain_of_settled (c : DomainFlagBits) (nodes : List Node) (fuel : Nat)
    (p : Option LinkPtr) (st st1 : InferState)
    (h : ∀ it ∈ st.scheduled_execables, it.scheduled_domain ≠ c.eAny)
    (hr : backward_chain c nodes fuel p st = some st1) :
    st1.scheduled_execables = st.scheduled_execables := by
  induction fuel generalizing p st with
  | zero =>
    cases p with
    | none => simp only [backward_chain, Option.some.injEq] at hr; rw [← hr]
    | some q => simp [backward_chain] at hr
  | succ fuel ih =>
    cases p with
    | none => simp only [backward_chain, Option.some.injEq] at hr; rw [← hr]
    | some q =>
      simp only [backward_chain] at hr
      cases hl : link_at nodes q with
      | none => rw [hl] at hr; cases hr
      | some chain =>
        rw [hl] at hr
        simp only at hr
        have hv := visit_backward_of_settled c nodes st chain h
        rw [ih chain.prev _ (by rw [hv]; exact h) hr, hv]

theorem forward_inference_of_settled (c : DomainFlagBits) (nodes : List Node) (fuel : Nat)
    (chains : List LinkPtr) (st st1 : InferState)
    (h : ∀ it ∈ st.scheduled_execables, it.scheduled_domain ≠ c.eAny)
    (hr : forward_inference c nodes fuel chains st = some st1) :
    st1.scheduled_execables = st.scheduled_execables := by
  induction chains generalizing st with
  | nil => simp only [forward_inference, Option.some.injEq] at hr; rw [← hr]
  | cons head rest ih =>
    simp only [forward_inference] at hr
    cases hf : forward_chain c nodes fuel (some head) st with
    | none => rw [hf] at hr; cases hr
    | some s =>
      rw [hf] at hr
      simp only at hr
      have hs := forward_chain_of_settled c nodes fuel _ st s h hf
      rw [ih s (by rw [hs]; exact h) hr, hs]

theorem backward_inference_of_settled (c : DomainFlagBits) (nodes : List Node) (fuel : Nat)
    (chains : List LinkPtr) (st st1 : InferState)
    (h : ∀ it ∈ st.scheduled_execables, it.scheduled_domain ≠ c.eAny)
    (hr : backward_inference c nodes fuel chains st = some st1) :
    st1.scheduled_execables = st.scheduled_execables := by
  induction chains generalizing st with
  | nil => simp only [backward_inference, Option.some.injEq] at hr; rw [← hr]
  | cons head rest ih =>
    simp only [backward_inference] at hr
    cases hw : wind_chain nodes fuel head with
    | none => rw [hw] at hr; cases hr
    | some tail =>
      rw [hw] at hr
      simp only at hr
      cases hb : backward_chain c nodes fuel (some tail) { st with last_domain := c.eDevice } with
      | none => rw [hb] at hr; cases hr
      | some s =>
        rw [hb] at hr
        simp only at hr
        have hs := backward_chain_of_settled c nodes fuel _
          { st with last_domain := c.eDevice } s h hb
        rw [ih s (by rw [hs]; exact h) hr, hs]

theorem fixup_domains_settled (c : DomainFlagBits) (items : List ScheduledItem)
    (hG1 : c.eGraphicsQueue ≠ c.eAny) (hG2 : c.eGraphicsQueue ≠ c.eDevice) :
    ∀ it ∈ fixup_domains c items,
      it.scheduled_domain ≠ c.eAny ∧ it.scheduled_domain ≠ c.eDevice := by
  intro it hit
  unfold fixup_domains at hit
  rw [List.mem_map] at hit
  obtain ⟨p, _, rfl⟩ := hit
  split_ifs with h
  · exact ⟨hG1, hG2⟩
  · exact ⟨fun a => h (Or.inr a), fun a => h (Or.inl a)⟩

/-- What `queue_inference` returns is what the fix-up loop produced: the second
pair of sweeps finds every item already scheduled. -/
theorem queue_inference_eq_fixup (c : DomainFlagBits) (fuel : Nat) (nodes : List Node)
    (chains : List LinkPtr) (items out : List ScheduledItem)
    (hG1 : c.eGraphicsQueue ≠ c.eAny)
    (hr : queue_inference c fuel nodes chains items = some out) :
    ∃ s1 s2, forward_inference c nodes fuel chains ⟨items, c.eDevice⟩ = some s1 ∧
      backward_inference c nodes fuel chains s1 = some s2 ∧
      out = fixup_domains c s2.scheduled_execables := by
  unfold queue_inference at hr
  cases h1 : forward_inference c nodes fuel chains ⟨items, c.eDevice⟩ with
  | none => rw [h1] at hr; cases hr
  | some s1 =>
    rw [h1] at hr
    simp only at hr
    cases h2 : backward_inference c nodes fuel chains s1 with
    | none => rw [h2] at hr; cases hr
    | some s2 =>
      rw [h2] at hr
      simp only at hr
      have hset : ∀ it ∈ fixup_domains c s2.scheduled_execables,
          it.scheduled_domain ≠ c.eAny := by
        intro it hit
        unfold fixup_domains at hit
        rw [List.mem_map] at hit
        obtain ⟨p, _, rfl⟩ := hit
        split_ifs with h
        · exact hG1
        · exact fun a => h (Or.inr a)
      cases h3 : forward_inference c nodes fuel chains
          { s2 with scheduled_execables := fixup_domains c s2.scheduled_execables } with
      | none => rw [h3] at hr; cases hr
      | some s3 =>
        rw [h3] at hr
        simp only at hr
        have e3 := forward_inference_of_settled c nodes fuel chains _ s3 hset h3
        cases h4 : backward_inference c nodes fuel chains s3 with
        | none => rw [h4] at hr; cases hr
        | some s4 =>
          rw [h4] at hr
          simp only [Option.some.injEq] at hr
          have e4 := backward_inference_of_settled c nodes fuel chains s3 s4
            (by rw [e3]; exact hset) h4
          refine ⟨s1, s2, rfl, h2, ?_⟩
          rw [← hr, e4, e3]

/-- C4: after `queue_inference` returns, no item of `scheduled_execables` has
scheduled domain `eAny` or `eDevice`, whatever the chains and the required
domains are (the graphics queue bit being neither `eAny` nor `eDevice`). -/
theorem queue_inference_complete (c : DomainFlagBits) (fuel : Nat) (nodes : List Node)
    (chains : List LinkPtr) (items out : List ScheduledItem)
    (hG1 : c.eGraphicsQueue ≠ c.eAny) (hG2 : c.eGraphicsQueue ≠ c.eDevice)
    (hr : queue_inference c fuel nodes chains items = some out) :
    ∀ it ∈ out, it.scheduled_domain ≠ c.eAny ∧ it.scheduled_domain ≠ c.eDevice := by
  obtain ⟨_, s2, _, _, rfl⟩ := queue_inference_eq_fixup c fuel nodes chains items out hG1 hr
  exact fixup_domains_settled c s2.scheduled_execables hG1 hG2

theorem inference_chain_schedule_items (c : DomainFlagBits) :
    schedule_items (inference_chain c) = [0, 1, 2, 3] := by rfl

theorem inference_chain_adjacency (c : DomainFlagBits) :
    build_adjacency (inference_chain c) =
      ⟨[0, 1, 1, 1], [0, 1, 0, 0, 0, 0, 1, 0, 0, 0, 0, 1, 0, 0, 0, 0]⟩ := by rfl

/-- The state in which `queue_inference` finds the chain: the three calls are
the scheduled items, in chain order, each at `eAny`. -/
theorem inference_chain_scheduled (c : DomainFlagBits) :
    (schedule_intra_queue c (inference_chain c) []).scheduled_execables =
      [⟨1, c.eAny⟩, ⟨2, c.eAny⟩, ⟨3, c.eAny⟩] ∧
    (schedule_intra_queue c (inference_chain c) []).nodes =
      [ { kind := NodeKind.CONSTRUCT
          links := [{ def_ := ⟨some 0, 0⟩, undef := ⟨some 1, 1⟩, next := some ⟨1, 0⟩ }] },
        { kind := NodeKind.CALL
          args := [⟨none, 0⟩, ⟨some 0, 0⟩]
          scheduled_item := some 0
          scheduling_info := some c.eTransferQueue
          links := [{ def_ := ⟨some 1, 0⟩, undef := ⟨some 2, 1⟩,
                      prev := some ⟨0, 0⟩, next := some ⟨2, 0⟩ }] },
        { kind := NodeKind.CALL
          args := [⟨none, 0⟩, ⟨some 1, 0⟩]
          scheduled_item := some 1
          links := [{ def_ := ⟨some 2, 0⟩, undef := ⟨some 3, 1⟩,
                      prev := some ⟨1, 0⟩, next := some ⟨3, 0⟩ }] },
        { kind := NodeKind.CALL
          args := [⟨none, 0⟩, ⟨some 2, 0⟩]
          scheduled_item := some 2
          scheduling_info := some c.eGraphicsQueue
          links := [{ def_ := ⟨some 3, 0⟩, prev := some ⟨2, 0⟩ }] } ] := by
  simp only [schedule_intra_queue, inference_chain_schedule_items, inference_chain_adjacency]
  constructor <;>
  simp [drain, drain_step, initial_queue, relax, adj_value, emplace_item, kind_of,
    inference_chain, List.range, List.range.loop]

/-- The run of `queue_inference` on the chain of the test. -/
theorem inference_chain_inferred (c : DomainFlagBits)
    (hT1 : c.eTransferQueue ≠ c.eAny) (hT2 : c.eTransferQueue ≠ c.eDevice)
    (hG1 : c.eGraphicsQueue ≠ c.eAny) (hG2 : c.eGraphicsQueue ≠ c.eDevice)
    (hTG : c.eTransferQueue &&& c.eGraphicsQueue = 0) :
    queue_inference c 4 (schedule_intra_queue c (inference_chain c) []).nodes
        (collect_chains (schedule_intra_queue c (inference_chain c) []).nodes)
        (schedule_intra_queue c (inference_chain c) []).scheduled_execables =
      some [⟨1, c.eTransferQueue⟩, ⟨2, c.eTransferQueue⟩, ⟨3, c.eGraphicsQueue⟩] := by
  rw [(inference_chain_scheduled c).1, (inference_chain_scheduled c).2]
  have hc : collect_chains
      [ { kind := NodeKind.CONSTRUCT
          links := [{ def_ := ⟨some 0, 0⟩, undef := ⟨some 1, 1⟩, next := some ⟨1, 0⟩ }] },
        { kind := NodeKind.CALL
          args := [⟨none, 0⟩, ⟨some 0, 0⟩]
          scheduled_item := some 0
          scheduling_info := some c.eTransferQueue
          links := [{ def_ := ⟨some 1, 0⟩, undef := ⟨some 2, 1⟩,
                      prev := some ⟨0, 0⟩, next := some ⟨2, 0⟩ }] },
        { kind := NodeKind.CALL
          args := [⟨none, 0⟩, ⟨some 1, 0⟩]
          scheduled_item := some 1
          links := [{ def_ := ⟨some 2, 0⟩, undef := ⟨some 3, 1⟩,
                      prev := some ⟨1, 0⟩, next := some ⟨3, 0⟩ }] },
        { kind := NodeKind.CALL
          args := [⟨none, 0⟩, ⟨some 2, 0⟩]
          scheduled_item := some 2
          scheduling_info := some c.eGraphicsQueue
          links := [{ def_ := ⟨some 3, 0⟩, prev := some ⟨2, 0⟩ }] } ] = [⟨0, 0⟩] := by
    rfl
  rw [hc]
  have hA : ¬ (c.eAny = c.eTransferQueue) := fun h => hT1 h.symm
  have hA2 : ¬ (c.eDevice = c.eTransferQueue) := fun h => hT2 h.symm
  simp [queue_inference, forward_inference, backward_inference, forward_chain, backward_chain,
    wind_chain, link_at, visit_forward, visit_backward, propagate_domain, set_domain,
    pick_first_domain, fixup_domains, hT1, hT2, hG1, hG2, hTG, hA, hA2]

/-- C5: on the chain `CONSTRUCT -> write -> neutral -> gfx` of the test, queue
inference schedules `write` and `neutral` on the transfer queue and `gfx` on
the graphics queue. -/
theorem queue_inference_on_chain (c : DomainFlagBits)
    (hT1 : c.eTransferQueue ≠ c.eAny) (hT2 : c.eTransferQueue ≠ c.eDevice)
    (hG1 : c.eGraphicsQueue ≠ c.eAny) (hG2 : c.eGraphicsQueue ≠ c.eDevice)
    (hTG : c.eTransferQueue &&& c.eGraphicsQueue = 0) :
    queue_inference c 4 (schedule_intra_queue c (inference_chain c) []).nodes
        (collect_chains (schedule_intra_queue c (inference_chain c) []).nodes)
        (schedule_intra_queue c (inference_chain c) []).scheduled_execables =
      some [⟨1, c.eTransferQueue⟩, ⟨2, c.eTransferQueue⟩, ⟨3, c.eGraphicsQueue⟩] :=
  inference_chain_inferred c hT1 hT2 hG1 hG2 hTG

/-- Witness of C5 (`queue_inference_on_chain`) at `sample_domains`. -/
theorem queue_inference_on_chain_witness :
    queue_inference sample_domains 4
        (schedule_intra_queue sample_domains (inference_chain sample_domains) []).nodes
        (collect_chains
          (schedule_intra_queue sample_domains (inference_chain sample_domains) []).nodes)
        (schedule_intra_queue sample_domains (inference_chain sample_domains) []).scheduled_execables =
      some [⟨1, 16⟩, ⟨2, 16⟩, ⟨3, 4⟩] :=
  queue_inference_on_chain sample_domains (by decide) (by decide) (by decide) (by decide)
    (by decide)

/-- Witness of C4 (`queue_inference_complete`) on the chain of the test: the
item of `gfx` is neither at `eAny` nor at `eDevice`. -/
theorem queue_inference_complete_witness :
    (⟨3, 4⟩ : ScheduledItem).scheduled_domain ≠ sample_domains.eAny ∧
      (⟨3, 4⟩ : ScheduledItem).scheduled_domain ≠ sample_domains.eDevice :=
  queue_inference_complete sample_domains 4
    (schedule_intra_queue sample_domains (inference_chain sample_domains) []).nodes
    (collect_chains
      (schedule_intra_queue sample_domains (inference_chain sample_domains) []).nodes)
    (schedule_intra_queue sample_domains (inference_chain sample_domains) []).scheduled_execables
    [⟨1, 16⟩, ⟨2, 16⟩, ⟨3, 4⟩] (by decide) (by decide)
    (inference_chain_inferred sample_domains (by decide) (by decide) (by decide) (by decide)
      (by decide))
    ⟨3, 4⟩ (by decide)

/-- After queue inference on the chain of the test, the
call `gfx` (node 3) is scheduled on the graphics queue while its argument node
`neutral` (node 2) has a scheduling record on the transfer queue. -/
theorem call_argument_on_other_queue :
    (⟨some 2, 0⟩ : Ref) ∈
        ((schedule_intra_queue sample_domains (inference_chain sample_domains) []).nodes.getD 3
          { kind := NodeKind.GARBAGE }).args ∧
      domain_of (schedule_intra_queue sample_domains (inference_chain sample_domains) []).nodes
        [⟨1, 16⟩, ⟨2, 16⟩, ⟨3, 4⟩] 3 = some sample_domains.eGraphicsQueue ∧
      domain_of (schedule_intra_queue sample_domains (inference_chain sample_domains) []).nodes
        [⟨1, 16⟩, ⟨2, 16⟩, ⟨3, 4⟩] 2 = some sample_domains.eTransferQueue ∧
      sanity_holds (schedule_intra_queue sample_domains (inference_chain sample_domains) []).nodes
        [⟨1, 16⟩, ⟨2, 16⟩, ⟨3, 4⟩] 3 = false := by
  rw [(inference_chain_scheduled sample_domains).2]
  decide

theorem propagate_domain_idle (c : DomainFlagBits) (nodes : List Node) (st : InferState)
    (node : Option Nat)
    (hinfo : ∀ n ∈ nodes, n.scheduling_info = none)
    (hany : ∀ it ∈ st.scheduled_execables, it.scheduled_domain = c.eAny)
    (hlast : st.last_domain = c.eDevice) :
    propagate_domain c nodes st node = st := by
  unfold propagate_domain
  cases hn : node.bind (fun p => nodes[p]?) with
  | none => rfl
  | some n =>
    have hmem : n ∈ nodes := by
      cases node with
      | none => cases hn
      | some p => exact List.getElem?_mem hn
    simp only
    cases n.scheduled_item with
    | none => rfl
    | some item =>
      simp only
      cases hit : st.scheduled_execables[item]? with
      | none => rfl
      | some it =>
        simp only
        rw [if_pos (hany it (List.getElem?_mem hit))]
        simp [hinfo n hmem, hlast]

theorem fold_propagate_idle (c : DomainFlagBits) (nodes : List Node) (reads : List Ref)
    (st : InferState)
    (hinfo : ∀ n ∈ nodes, n.scheduling_info = none)
    (hany : ∀ it ∈ st.scheduled_execables, it.scheduled_domain = c.eAny)
    (hlast : st.last_domain = c.eDevice) :
    reads.foldl (fun s r => propagate_domain c nodes s r.node) st = st := by
  induction reads with
  | nil => rfl
  | cons r rest ih =>
    rw [List.foldl_cons, propagate_domain_idle c nodes st r.node hinfo hany hlast]
    exact ih

theorem visit_forward_idle (c : DomainFlagBits) (nodes : List Node) (st : InferState)
    (chain : ChainLink)
    (hinfo : ∀ n ∈ nodes, n.scheduling_info = none)
    (hany : ∀ it ∈ st.scheduled_execables, it.scheduled_domain = c.eAny)
    (hlast : st.last_domain = c.eDevice) :
    visit_forward c nodes st chain = st := by
  unfold visit_forward
  simp only [propagate_domain_idle c nodes st _ hinfo hany hlast,
    fold_propagate_idle c nodes _ st hinfo hany hlast, ite_self]

theorem visit_backward_idle (c : DomainFlagBits) (nodes : List Node) (st : InferState)
    (chain : ChainLink)
    (hinfo : ∀ n ∈ nodes, n.scheduling_info = none)
    (hany : ∀ it ∈ st.scheduled_execables, it.scheduled_domain = c.eAny)
    (hlast : st.last_domain = c.eDevice) :
    visit_backward c nodes st chain = st := by
  unfold visit_backward
  simp only [propagate_domain_idle c nodes st _ hinfo hany hlast,
    fold_propagate_idle c nodes _ st hinfo hany hlast, ite_self]

theorem forward_chain_idle (c : DomainFlagBits) (nodes : List Node) (fuel : Nat)
    (p : Option LinkPtr) (st st1 : InferState)
    (hinfo : ∀ n ∈ nodes, n.scheduling_info = none)
    (hany : ∀ it ∈ st.scheduled_execables, it.scheduled_domain = c.eAny)
    (hlast : st.last_domain = c.eDevice)
    (hr : forward_chain c nodes fuel p st = some st1) : st1 = st := by
  induction fuel generalizing p with
  | zero =>
    cases p with
    | none => simp only [forward_chain, Option.some.injEq] at hr; exact hr.symm
    | some q => simp [forward_chain] at hr
  | succ fuel ih =>
    cases p with
    | none => simp only [forward_chain, Option.some.injEq] at hr; exact hr.symm
    | some q =>
      simp only [forward_chain] at hr
      cases hl : link_at nodes q with
      | none => rw [hl] at hr; cases hr
      | some chain =>
        rw [hl] at hr
        simp only [visit_forward_idle c nodes st chain hinfo hany hlast] at hr
        exact ih chain.next hr

theorem backward_chain_idle (c : DomainFlagBits) (nodes : List Node) (fuel : Nat)
    (p : Option LinkPtr) (st st1 : InferState)
    (hinfo : ∀ n ∈ nodes, n.scheduling_info = none)
    (hany : ∀ it ∈ st.scheduled_execables, it.scheduled_domain = c.eAny)
    (hlast : st.last_domain = c.eDevice)
    (hr : backward_chain c nodes fuel p st = some st1) : st1 = st := by
  induction fuel generalizing p with
  | zero =>
    cases p with
    | none => simp only [backward_chain, Option.some.injEq] at hr; exact hr.symm
    | some q => simp [backward_chain] at hr
  | succ fuel ih =>
    cases p with
    | none => simp only [backward_chain, Option.some.injEq] at hr; exact hr.symm
    | some q =>
      simp only [backward_chain] at hr
      cases hl : link_at nodes q with
      | none => rw [hl] at hr; cases hr
      | some chain =>
        rw [hl] at hr
        simp only [visit_backward_idle c nodes st chain hinfo hany hlast] at hr
        exact ih chain.prev hr

theorem forward_inference_idle (c : DomainFlagBits) (nodes : List Node) (fuel : Nat)
    (chains : List LinkPtr) (st st1 : InferState)
    (hinfo : ∀ n ∈ nodes, n.scheduling_info = none)
    (hany : ∀ it ∈ st.scheduled_execables, it.scheduled_domain = c.eAny)
    (hlast : st.last_domain = c.eDevice)
    (hr : forward_inference c nodes fuel chains st = some st1) : st1 = st := by
  induction chains with
  | nil => simp only [forward_inference, Option.some.injEq] at hr; exact hr.symm
  | cons head rest ih =>
    simp only [forward_inference] at hr
    cases hf : forward_chain c nodes fuel (some head) st with
    | none => rw [hf] at hr; cases hr
    | some s =>
      rw [hf] at hr
      simp only at hr
      have hs := forward_chain_idle c nodes fuel _ st s hinfo hany hlast hf
      subst hs
      exact ih hr

theorem backward_inference_idle (c : DomainFlagBits) (nodes : List Node) (fuel : Nat)
    (chains : List LinkPtr) (st st1 : InferState)
    (hinfo : ∀ n ∈ nodes, n.scheduling_info = none)
    (hany : ∀ it ∈ st.scheduled_execables, it.scheduled_domain = c.eAny)
    (hlast : st.last_domain = c.eDevice)
    (hr : backward_inference c nodes fuel chains st = some st1) : st1 = st := by
  induction chains with
  | nil => simp only [backward_inference, Option.some.injEq] at hr; exact hr.symm
  | cons head rest ih =>
    simp only [backward_inference] at hr
    cases hw : wind_chain nodes fuel head with
    | none => rw [hw] at hr; cases hr
    | some tail =>
      rw [hw] at hr
      simp only at hr
      have hst : ({ st with last_domain := c.eDevice } : InferState) = st := by
        cases st
        simp only at hlast
        simp [hlast]
      rw [hst] at hr
      cases hb : backward_chain c nodes fuel (some tail) st with
      | none => rw [hb] at hr; cases hr
      | some s =>
        rw [hb] at hr
        simp only at hr
        have hs := backward_chain_idle c nodes fuel _ st s hinfo hany hlast hb
        subst hs
        exact ih hr

/-- Without required domains every scheduled item ends on the graphics queue. -/
theorem queue_inference_all_graphics (c : DomainFlagBits) (fuel : Nat) (nodes : List Node)
    (chains : List LinkPtr) (items out : List ScheduledItem)
    (hG1 : c.eGraphicsQueue ≠ c.eAny)
    (hinfo : ∀ n ∈ nodes, n.scheduling_info = none)
    (hany : ∀ it ∈ items, it.scheduled_domain = c.eAny)
    (hr : queue_inference c fuel nodes chains items = some out) :
    out.length = items.length ∧ ∀ it ∈ out, it.scheduled_domain = c.eGraphicsQueue := by
  obtain ⟨s1, s2, h1, h2, rfl⟩ := queue_inference_eq_fixup c fuel nodes chains items out hG1 hr
  have e1 := forward_inference_idle c nodes fuel chains _ s1 hinfo hany rfl h1
  subst e1
  have e2 := backward_inference_idle c nodes fuel chains _ s2 hinfo hany rfl h2
  subst e2
  refine ⟨by simp [fixup_domains], ?_⟩
  intro it hit
  unfold fixup_domains at hit
  rw [List.mem_map] at hit
  obtain ⟨p, hp, rfl⟩ := hit
  simp [hany p hp]

theorem domain_of_mem (nodes : List Node) (out0 : List ScheduledItem) (p d : Nat)
    (h : domain_of nodes out0 p = some d) : ∃ it ∈ out0, it.scheduled_domain = d := by
  unfold domain_of at h
  cases h1 : (nodes[p]?).bind Node.scheduled_item with
  | none => rw [h1] at h; cases h
  | some i =>
    rw [h1] at h
    cases h2 : out0[i]? with
    | none => simp [h2] at h
    | some it =>
      simp only [Option.bind, h2, Option.map, Option.some.injEq] at h
      exact ⟨it, List.getElem?_mem h2, h⟩

/-- When no node carries required domains and every item starts
at `eAny`, queue inference leaves every scheduled item on the graphics queue;
so every scheduled node, of any kind, has only argument nodes that have no
scheduling record or share its domain, and no sanity assertion of the default
branch of `build_sync` fires. -/
theorem sanity_without_required_domains (c : DomainFlagBits) (fuel : Nat) (nodes : List Node)
    (chains : List LinkPtr) (items out : List ScheduledItem)
    (hG1 : c.eGraphicsQueue ≠ c.eAny)
    (hinfo : ∀ n ∈ nodes, n.scheduling_info = none)
    (hany : ∀ it ∈ items, it.scheduled_domain = c.eAny)
    (hr : queue_inference c fuel nodes chains items = some out) :
    (∀ p d, domain_of nodes out p = some d → d = c.eGraphicsQueue) ∧
    (∀ p, sanity_holds nodes out p = true) ∧
    build_sync_sanity nodes out = true := by
  have hall := (queue_inference_all_graphics c fuel nodes chains items out hG1 hinfo hany hr).2
  have hdom : ∀ p d, domain_of nodes out p = some d → d = c.eGraphicsQueue := by
    intro p d h
    obtain ⟨it, hit, hd⟩ := domain_of_mem nodes out p d h
    rw [← hd]
    exact hall it hit
  have hs : ∀ p, sanity_holds nodes out p = true := by
    intro p
    unfold sanity_holds
    cases h1 : domain_of nodes out p with
    | none => rfl
    | some d =>
      simp only
      cases nodes[p]? with
      | none => rfl
      | some n =>
        simp only
        rw [List.all_eq_true]
        intro parm _
        cases parm.node with
        | none => rfl
        | some a =>
          simp only
          cases h2 : domain_of nodes out a with
          | none => rfl
          | some da =>
            simp only [decide_eq_true_eq]
            rw [hdom p d h1, hdom a da h2]
  refine ⟨hdom, hs, ?_⟩
  unfold build_sync_sanity
  rw [List.all_eq_true]
  intro p _
  split
  · rfl
  · rfl
  · exact hs p

/-! ## `RGCImpl::build_sync`: the sanity assertion on a `CONVERGE` -/

/-- C6: on `diverged_writes` every assertion of the link builder, of the
scheduler and of `collect_chains` holds, and queue inference puts the call 5 on the transfer queue
(16), the call 6 on the compute queue (8) and the `CONVERGE` 7, which follows
the call 5 on its chain, on the transfer queue.  The call 6 is the node of the
second argument of the `CONVERGE` and has a scheduling record on another
queue, so the sanity assertion of the `default` branch of `build_sync`, which
the `CONVERGE` enters, is false. -/
theorem converge_argument_on_other_queue :
    kind_of diverged_writes 7 = some NodeKind.CONVERGE ∧
    (diverged_writes.getD 7 { kind := NodeKind.GARBAGE }).args = [⟨some 5, 0⟩, ⟨some 6, 0⟩] ∧
    run_inference sample_link_helpers sample_domains 8 diverged_writes =
      some { links_hold := true
             chains_hold := true
             schedule_asserted := false
             scheduled_execables := [⟨6, 8⟩, ⟨5, 16⟩, ⟨7, 16⟩]
             domains := [none, none, none, none, none, some 16, some 8, some 16]
             sanity := [true, true, true, true, true, true, true, false]
             build_sync_holds := false } := by
  refine ⟨rfl, rfl, ?_⟩
  set_option maxRecDepth 100000 in decide

/-! ## `Compiler::pass_partitioning` -/

theorem on_queue_count (items : List ScheduledItem) (bit i : Nat) :
    (on_queue items bit).count i = if has_queue_bit items bit i = true then 1 else 0 := by
  unfold on_queue
  by_cases hb : has_queue_bit items bit i = true
  · rw [if_pos hb]
    have hi : i < items.length := by
      unfold has_queue_bit at hb
      cases hg : items[i]? with
      | none => rw [hg] at hb; cases hb
      | some p =>
        by_contra hlt
        rw [List.getElem?_eq_none (Nat.le_of_not_lt hlt)] at hg
        cases hg
    apply List.count_eq_one_of_mem ((List.nodup_range _).filter _)
    rw [List.mem_filter]
    exact ⟨List.mem_range.mpr hi, hb⟩
  · rw [if_neg hb]
    apply List.count_eq_zero_of_not_mem
    intro hm
    rw [List.mem_filter] at hm
    exact hb hm.2

theorem on_queue_cons (p : ScheduledItem) (rest : List ScheduledItem) (bit : Nat) :
    on_queue (p :: rest) bit =
      (if p.scheduled_domain &&& bit ≠ 0 then [0] else []) ++
        (on_queue rest bit).map (· + 1) := by
  unfold on_queue
  rw [List.length_cons, List.range_succ_eq_map, List.filter_cons, List.filter_map]
  have h0 : has_queue_bit (p :: rest) bit 0 = decide (p.scheduled_domain &&& bit ≠ 0) := by
    simp [has_queue_bit]
  have hs : (has_queue_bit (p :: rest) bit ∘ Nat.succ) = has_queue_bit rest bit := by
    funext i
    simp [has_queue_bit]
  rw [h0, hs]
  by_cases hb : p.scheduled_domain &&& bit ≠ 0
  · simp [hb]
  · simp [hb]

theorem push_back_data (grow : Nat → Nat) (v : ItemVector) (x : Nat) :
    (v.push_back grow x).data = v.data ++ [x] := by
  unfold ItemVector.push_back
  split <;> rfl

theorem push_back_allocation (grow : Nat → Nat) (v : ItemVector) (x : Nat) :
    (v.push_back grow x).allocation =
      if v.data.length < v.capacity then v.allocation else v.allocation + 1 := by
  unfold ItemVector.push_back
  split <;> rfl

theorem push_back_capacity (grow : Nat → Nat) (v : ItemVector) (x : Nat)
    (h : v.data.length < v.capacity) : (v.push_back grow x).capacity = v.capacity := by
  unfold ItemVector.push_back
  rw [if_pos h]

theorem push_queue_eq (grow : Nat → Nat) (bit : Nat) (items : List ScheduledItem) (k : Nat)
    (pe : ItemVector) :
    (push_queue grow bit items k pe).data = pe.data ++ (on_queue items bit).map (· + k) := by
  induction items generalizing k pe with
  | nil => simp [push_queue, on_queue]
  | cons p rest ih =>
    rw [push_queue, ih, on_queue_cons]
    by_cases hb : p.scheduled_domain &&& bit ≠ 0
    · simp only [if_pos hb, push_back_data, List.map_append, List.map_map, List.append_assoc,
        List.map_cons, List.map_nil, Nat.zero_add, List.singleton_append]
      congr 2
      apply List.map_congr_left
      intro a _
      simp only [Function.comp_apply]
      omega
    · simp only [if_neg hb, List.map_append, List.map_map, List.nil_append, List.map_nil]
      congr 1
      apply List.map_congr_left
      intro a _
      simp only [Function.comp_apply]
      omega

theorem push_queue_zero (grow : Nat → Nat) (bit : Nat) (items : List ScheduledItem)
    (pe : ItemVector) :
    (push_queue grow bit items 0 pe).data = pe.data ++ on_queue items bit := by
  rw [push_queue_eq]
  simp

/-- A loop whose pushes fit into the capacity leaves the allocation alone. -/
theorem push_queue_fits (grow : Nat → Nat) (bit : Nat) (items : List ScheduledItem) (k : Nat)
    (pe : ItemVector) (h : pe.data.length + (on_queue items bit).length ≤ pe.capacity) :
    (push_queue grow bit items k pe).allocation = pe.allocation ∧
      (push_queue grow bit items k pe).capacity = pe.capacity := by
  induction items generalizing k pe with
  | nil => exact ⟨rfl, rfl⟩
  | cons p rest ih =>
    rw [push_queue]
    rw [on_queue_cons] at h
    by_cases hb : p.scheduled_domain &&& bit ≠ 0
    · rw [if_pos hb] at h ⊢
      simp only [List.length_append, List.length_singleton, List.length_map] at h
      have hlt : pe.data.length < pe.capacity := by omega
      have := ih (k + 1) (pe.push_back grow k) (by
        rw [push_back_data, push_back_capacity grow pe k hlt]
        simp only [List.length_append, List.length_singleton]
        omega)
      rw [this.1, this.2, push_back_allocation, if_pos hlt, push_back_capacity grow pe k hlt]
      exact ⟨rfl, rfl⟩
    · rw [if_neg hb] at h ⊢
      simp only [List.nil_append, List.length_map] at h
      exact ih (k + 1) pe h

/-- The allocation number never goes down in a loop. -/
theorem push_queue_allocation_le (grow : Nat → Nat) (bit : Nat) (items : List ScheduledItem)
    (k : Nat) (pe : ItemVector) :
    pe.allocation ≤ (push_queue grow bit items k pe).allocation := by
  induction items generalizing k pe with
  | nil => exact le_refl _
  | cons p rest ih =>
    rw [push_queue]
    by_cases hb : p.scheduled_domain &&& bit ≠ 0
    · rw [if_pos hb]
      refine le_trans ?_ (ih (k + 1) _)
      rw [push_back_allocation]
      split <;> omega
    · rw [if_neg hb]
      exact ih (k + 1) pe

/-- A loop that leaves more elements than the capacity it started with has
reallocated. -/
theorem push_queue_reallocates (grow : Nat → Nat) (bit : Nat) (items : List ScheduledItem)
    (k : Nat) (pe : ItemVector)
    (h : pe.capacity < (push_queue grow bit items k pe).data.length)
    (hfit : pe.data.length ≤ pe.capacity) :
    pe.allocation < (push_queue grow bit items k pe).allocation := by
  induction items generalizing k pe with
  | nil =>
    rw [push_queue] at h
    omega
  | cons p rest ih =>
    rw [push_queue] at h ⊢
    by_cases hb : p.scheduled_domain &&& bit ≠ 0
    · rw [if_pos hb] at h ⊢
      by_cases hlt : pe.data.length < pe.capacity
      · have hcap := push_back_capacity grow pe k hlt
        have := ih (k + 1) (pe.push_back grow k) (by rw [hcap]; exact h) (by
          rw [hcap, push_back_data]
          simp only [List.length_append, List.length_singleton]
          omega)
        rw [push_back_allocation, if_pos hlt] at this
        exact this
      · have := push_queue_allocation_le grow bit rest (k + 1) (pe.push_back grow k)
        rw [push_back_allocation, if_neg hlt] at this
        omega
    · rw [if_neg hb] at h ⊢
      exact ih (k + 1) pe h hfit

theorem reserve_spec (v : ItemVector) (n : Nat) :
    (v.reserve n).data = v.data ∧ n ≤ (v.reserve n).capacity ∧
      (v.capacity ≤ n → (v.reserve n).capacity = n) := by
  unfold ItemVector.reserve
  split
  · exact ⟨rfl, le_refl _, fun _ => rfl⟩
  · exact ⟨rfl, by omega, fun h => by omega⟩

/-- The layout of `pass_partitioning`, whatever the domains: entered with an
empty `partitioned_execables`, the vector ends as the transfer items, then the
compute items, then the graphics items, each in `scheduled_execables` order,
and the three spans have the offsets and lengths of these three parts. -/
theorem pass_partitioning_layout (grow : Nat → Nat) (c : DomainFlagBits)
    (scheduled_execables : List ScheduledItem) (partitioned_execables : ItemVector)
    (hempty : partitioned_execables.data = []) :
    let r := pass_partitioning grow c scheduled_execables partitioned_execables
    r.partitioned_execables.data =
        on_queue scheduled_execables c.eTransferQueue ++
          on_queue scheduled_execables c.eComputeQueue ++
          on_queue scheduled_execables c.eGraphicsQueue ∧
      (r.transfer_passes.offset = 0 ∧
        r.transfer_passes.size = (on_queue scheduled_execables c.eTransferQueue).length) ∧
      (r.compute_passes.offset = r.transfer_passes.offset + r.transfer_passes.size ∧
        r.compute_passes.size = (on_queue scheduled_execables c.eComputeQueue).length) ∧
      (r.graphics_passes.offset = r.compute_passes.offset + r.compute_passes.size ∧
        r.graphics_passes.size = (on_queue scheduled_execables c.eGraphicsQueue).length) ∧
      r.graphics_passes.allocation = r.partitioned_execables.allocation := by
  have h0 := (reserve_spec partitioned_execables scheduled_execables.length).1
  simp only [pass_partitioning, push_queue_zero, h0, hempty, List.nil_append,
    List.length_append]
  refine ⟨trivial, ⟨trivial, trivial⟩, ⟨by omega, by omega⟩, ⟨trivial, by omega⟩, trivial⟩

theorem on_queue_length_le (items : List ScheduledItem) (bit : Nat) :
    (on_queue items bit).length ≤ items.length := by
  unfold on_queue
  exact le_trans (List.length_filter_le _ _) (by simp)

/-- When the three loops push no more than `scheduled_execables.size()` items,
the reserved capacity lasts and every span still points into the vector. -/
theorem pass_partitioning_in_place (grow : Nat → Nat) (c : DomainFlagBits)
    (scheduled_execables : List ScheduledItem) (partitioned_execables : ItemVector)
    (hempty : partitioned_execables.data = [])
    (hsum : (on_queue scheduled_execables c.eTransferQueue).length +
        (on_queue scheduled_execables c.eComputeQueue).length +
        (on_queue scheduled_execables c.eGraphicsQueue).length ≤ scheduled_execables.length) :
    let r := pass_partitioning grow c scheduled_execables partitioned_execables
    r.transfer_passes.allocation = r.partitioned_execables.allocation ∧
      r.compute_passes.allocation = r.partitioned_execables.allocation ∧
      r.graphics_passes.allocation = r.partitioned_execables.allocation := by
  obtain ⟨h0, hcap, -⟩ := reserve_spec partitioned_execables scheduled_execables.length
  simp only [pass_partitioning]
  generalize partitioned_execables.reserve scheduled_execables.length = pe0 at h0 hcap
  have h1 := push_queue_fits grow c.eTransferQueue scheduled_execables 0 pe0 (by
    rw [h0, hempty]; simp only [List.length_nil]; omega)
  have d1 := push_queue_zero grow c.eTransferQueue scheduled_execables pe0
  generalize push_queue grow c.eTransferQueue scheduled_execables 0 pe0 = pe1 at h1 d1
  rw [h0, hempty, List.nil_append] at d1
  have h2 := push_queue_fits grow c.eComputeQueue scheduled_execables 0 pe1 (by
    rw [d1, h1.2]; omega)
  have d2 := push_queue_zero grow c.eComputeQueue scheduled_execables pe1
  generalize push_queue grow c.eComputeQueue scheduled_execables 0 pe1 = pe2 at h2 d2
  rw [d1] at d2
  have h3 := push_queue_fits grow c.eGraphicsQueue scheduled_execables 0 pe2 (by
    rw [d2, h2.2, h1.2]; simp only [List.length_append]; omega)
  exact ⟨by rw [h3.1, h2.1], by rw [h3.1], trivial⟩

/-- When the three loops push more than `scheduled_execables.size()` items into
a vector whose capacity was not above that size, a loop after the first
reallocates, and the transfer span is left pointing into the allocation that
was given up. -/
theorem pass_partitioning_overflow (grow : Nat → Nat) (c : DomainFlagBits)
    (scheduled_execables : List ScheduledItem) (partitioned_execables : ItemVector)
    (hempty : partitioned_execables.data = [])
    (hcap : partitioned_execables.capacity ≤ scheduled_execables.length)
    (hsum : scheduled_execables.length <
      (on_queue scheduled_execables c.eTransferQueue).length +
        (on_queue scheduled_execables c.eComputeQueue).length +
        (on_queue scheduled_execables c.eGraphicsQueue).length) :
    let r := pass_partitioning grow c scheduled_execables partitioned_execables
    r.transfer_passes.elems r.partitioned_execables = none := by
  obtain ⟨h0, -, hcap0⟩ := reserve_spec partitioned_execables scheduled_execables.length
  have hcap0 := hcap0 hcap
  simp only [pass_partitioning, PassSpan.elems]
  generalize partitioned_execables.reserve scheduled_execables.length = pe0 at h0 hcap0
  have hT := on_queue_length_le scheduled_execables c.eTransferQueue
  have h1 := push_queue_fits grow c.eTransferQueue scheduled_execables 0 pe0 (by
    rw [h0, hempty]; simp only [List.length_nil]; omega)
  have d1 := push_queue_zero grow c.eTransferQueue scheduled_execables pe0
  generalize push_queue grow c.eTransferQueue scheduled_execables 0 pe0 = pe1 at h1 d1
  rw [h0, hempty, List.nil_append] at d1
  have d2 := push_queue_zero grow c.eComputeQueue scheduled_execables pe1
  have a2 := push_queue_allocation_le grow c.eComputeQueue scheduled_execables 0 pe1
  have r2 := push_queue_reallocates grow c.eComputeQueue scheduled_execables 0 pe1
  have f2 := push_queue_fits grow c.eComputeQueue scheduled_execables 0 pe1
  generalize push_queue grow c.eComputeQueue scheduled_execables 0 pe1 = pe2 at d2 a2 r2 f2
  have d3 := push_queue_zero grow c.eGraphicsQueue scheduled_execables pe2
  have a3 := push_queue_allocation_le grow c.eGraphicsQueue scheduled_execables 0 pe2
  have r3 := push_queue_reallocates grow c.eGraphicsQueue scheduled_execables 0 pe2
  generalize push_queue grow c.eGraphicsQueue scheduled_execables 0 pe2 = pe3 at d3 a3 r3
  rw [d1] at d2 f2
  rw [d2] at d3
  rw [if_neg]
  intro heq
  by_cases h2 : (on_queue scheduled_execables c.eTransferQueue).length +
      (on_queue scheduled_execables c.eComputeQueue).length ≤ scheduled_execables.length
  · have f2 := f2 (by rw [h1.2, hcap0]; exact h2)
    have := r3 (by
      rw [d3, f2.2, h1.2, hcap0]
      simp only [List.length_append]
      omega) (by
      rw [d2, f2.2, h1.2, hcap0]
      simp only [List.length_append]
      omega)
    rw [f2.1] at this
    omega
  · have := r2 (by
      rw [d2, h1.2, hcap0]
      simp only [List.length_append]
      omega) (by rw [d1, h1.2, hcap0]; exact hT)
    omega

/-- With exactly one of the three queue bits in the domain of every item and an
empty `partitioned_execables` on entry, `pass_partitioning` lays out the
transfer, compute and graphics spans one after the other, without gap or
overlap, over the whole vector; no push reallocates, each span holds exactly
the items whose domain has its queue bit, in `scheduled_execables` order; the
vector is as long as `scheduled_execables` and every item is in exactly one
span. -/
theorem pass_partitioning_spans (grow : Nat → Nat) (c : DomainFlagBits)
    (scheduled_execables : List ScheduledItem)
    (partitioned_execables : ItemVector) (hempty : partitioned_execables.data = [])
    (hone : ∀ i, i < scheduled_execables.length →
        ([c.eTransferQueue, c.eComputeQueue, c.eGraphicsQueue].filter
          (fun bit => has_queue_bit scheduled_execables bit i)).length = 1) :
    let r := pass_partitioning grow c scheduled_execables partitioned_execables
    (r.transfer_passes.offset = 0 ∧
      r.compute_passes.offset = r.transfer_passes.offset + r.transfer_passes.size ∧
      r.graphics_passes.offset = r.compute_passes.offset + r.compute_passes.size ∧
      r.graphics_passes.offset + r.graphics_passes.size =
        r.partitioned_execables.data.length) ∧
    (r.transfer_passes.elems r.partitioned_execables =
        some (on_queue scheduled_execables c.eTransferQueue) ∧
      r.compute_passes.elems r.partitioned_execables =
        some (on_queue scheduled_execables c.eComputeQueue) ∧
      r.graphics_passes.elems r.partitioned_execables =
        some (on_queue scheduled_execables c.eGraphicsQueue)) ∧
    r.partitioned_execables.data.length = scheduled_execables.length ∧
    ∀ i, i < scheduled_execables.length →
      (on_queue scheduled_execables c.eTransferQueue).count i +
      (on_queue scheduled_execables c.eComputeQueue).count i +
      (on_queue scheduled_execables c.eGraphicsQueue).count i = 1 := by
  have hcount : ∀ i, i < scheduled_execables.length →
      (on_queue scheduled_execables c.eTransferQueue).count i +
      (on_queue scheduled_execables c.eComputeQueue).count i +
      (on_queue scheduled_execables c.eGraphicsQueue).count i = 1 := by
    intro i hi
    have h1 := hone i hi
    rw [on_queue_count, on_queue_count, on_queue_count]
    simp only [List.filter_cons, List.filter_nil] at h1
    split_ifs at h1 ⊢ <;> simp_all
  -- the three spans together hold every position exactly once
  have hsum : ∀ n, n ≤ scheduled_execables.length →
      ((on_queue scheduled_execables c.eTransferQueue).filter (· < n)).length +
      ((on_queue scheduled_execables c.eComputeQueue).filter (· < n)).length +
      ((on_queue scheduled_execables c.eGraphicsQueue).filter (· < n)).length = n := by
    intro n
    induction n with
    | zero => intro _; simp
    | succ n ih =>
      intro hn
      have hstep : ∀ l : List Nat, (l.filter (· < n + 1)).length =
          (l.filter (· < n)).length + l.count n := by
        intro l
        induction l with
        | nil => simp
        | cons a t iht =>
          simp only [List.filter_cons, List.count_cons, decide_eq_true_eq, beq_iff_eq]
          split_ifs <;> (try simp only [List.length_cons]) <;> omega
      rw [hstep, hstep, hstep]
      have := ih (by omega)
      have := hcount n (by omega)
      omega
  have hall : ∀ bit, (on_queue scheduled_execables bit).filter
      (· < scheduled_execables.length) = on_queue scheduled_execables bit := by
    intro bit
    rw [List.filter_eq_self]
    intro a ha
    unfold on_queue at ha
    rw [List.mem_filter, List.mem_range] at ha
    simpa using ha.1
  have hlen := hsum scheduled_execables.length (le_refl _)
  rw [hall, hall, hall] at hlen
  obtain ⟨hd, ⟨hto, hts⟩, ⟨hco, hcs⟩, ⟨hgo, hgs⟩, -⟩ :=
    pass_partitioning_layout grow c scheduled_execables partitioned_execables hempty
  obtain ⟨hta, hca, hga⟩ :=
    pass_partitioning_in_place grow c scheduled_execables partitioned_execables hempty
      (le_of_eq hlen)
  intro r
  have hdl : r.partitioned_execables.data.length = scheduled_execables.length := by
    rw [hd]
    simp only [List.length_append]
    exact hlen
  refine ⟨⟨hto, hco, hgo, ?_⟩, ⟨?_, ?_, ?_⟩, hdl, hcount⟩
  · rw [hgo, hco, hto, hts, hcs, hgs, hdl]
    omega
  · unfold PassSpan.elems
    rw [if_pos hta, hto, hts, hd, List.drop_zero, List.append_assoc, List.take_left']
    rfl
  · unfold PassSpan.elems
    rw [if_pos hca, hco, hto, hts, hcs, hd, Nat.zero_add, List.append_assoc,
      List.drop_left' rfl, List.take_left' rfl]
  · unfold PassSpan.elems
    rw [if_pos hga, hgo, hco, hto, hts, hcs, hgs, hd, Nat.zero_add,
      List.drop_left' (by simp), List.take_of_length_le (le_refl _)]

/-- C7: the pass that requires the transfer or the compute queue leaves
`queue_inference` with both queue bits in its domain (24 = 16 | 8).  On this one
item `pass_partitioning` reserves room for one element, pushes the item in the
transfer loop and takes `transfer_passes` from `begin()`; the compute loop
pushes the item again, the vector is full and reallocates, and
`transfer_passes` is left pointing into the allocation that was given up: it is
not a span of `partitioned_execables`.  The item is pushed twice, so neither
does each item lie in one span only. -/
theorem transfer_span_dangles (grow : Nat → Nat) :
    queue_inference sample_domains 2 two_queue_pass [⟨0, 0⟩] [⟨1, 31⟩] = some [⟨1, 24⟩] ∧
    (pass_partitioning grow sample_domains [⟨1, 24⟩] fresh_vector).partitioned_execables.data
      = [0, 0] ∧
    (pass_partitioning grow sample_domains [⟨1, 24⟩] fresh_vector).transfer_passes
      = ⟨1, 0, 1⟩ ∧
    (pass_partitioning grow sample_domains [⟨1, 24⟩] fresh_vector).compute_passes
      = ⟨2, 1, 1⟩ ∧
    (pass_partitioning grow sample_domains [⟨1, 24⟩] fresh_vector).partitioned_execables.allocation
      = 2 ∧
    (pass_partitioning grow sample_domains [⟨1, 24⟩] fresh_vector).transfer_passes.elems
      (pass_partitioning grow sample_domains [⟨1, 24⟩] fresh_vector).partitioned_execables
      = none := by
  refine ⟨by decide, rfl, rfl, rfl, rfl, rfl⟩

/-! ## `RGCImpl::build_sync`: the merged read group -/

theorem merge_reads_spec (h : AccessHelpers) (nodes : List Node) (first_parm : Nat)
    (reads : List Ref) (needs out : ReadNeeds)
    (hr : merge_reads h nodes first_parm reads needs = some out) :
    (out.need_transfer = true ↔
      needs.need_transfer = true ∨ some_read nodes first_parm reads h.is_transfer_access) ∧
    (out.need_general = true ↔
      needs.need_general = true ∨ some_read nodes first_parm reads h.is_storage_access) ∧
    (out.need_read_only = true ↔
      needs.need_read_only = true ∨ some_read nodes first_parm reads h.is_readonly_access) := by
  induction reads generalizing needs with
  | nil =>
    simp only [merge_reads, Option.some.injEq] at hr
    subst hr
    simp [some_read]
  | cons r rest ih =>
    have hcons : ∀ pred : Access → Bool, some_read nodes first_parm (r :: rest) pred ↔
        ((∃ a, read_lookup nodes first_parm r = ReadLookup.access a ∧ pred a = true) ∨
          some_read nodes first_parm rest pred) := by
      intro pred
      simp [some_read]
    simp only [merge_reads] at hr
    cases hl : read_lookup nodes first_parm r with
    | skipped =>
      rw [hl] at hr
      have := ih needs hr
      simp only [hcons, hl, reduceCtorEq, false_and, exists_false, false_or]
      exact this
    | assert_failed => rw [hl] at hr; cases hr
    | access a =>
      rw [hl] at hr
      have := ih _ hr
      simp only [Bool.or_eq_true] at this
      simp only [hcons, hl, ReadLookup.access.injEq, exists_eq_left']
      refine ⟨?_, ?_, ?_⟩
      · rw [this.1, or_assoc]
      · rw [this.2.1, or_assoc]
      · rw [this.2.2, or_assoc]

/-- C8 (amended): whenever `build_sync` merges a read group, the layout of the
resulting `read_sync` is `ReadOnlyOptimal`, `TransferSrcOptimal` or `General`;
it is `General` exactly when some `CALL` read of the group is looked up with a
storage access, or one with a transfer access and one with a read-only access
(`is_readonly_access`); reads by `CONVERGE` nodes are passed over. -/
theorem read_sync_layout_spec (h : AccessHelpers) (nodes : List Node) (first_parm : Nat)
    (reads : List Ref) (layout : ImageLayout)
    (hr : read_sync_layout h nodes first_parm reads = some layout) :
    (layout = ImageLayout.eReadOnlyOptimalKHR ∨ layout = ImageLayout.eTransferSrcOptimal ∨
      layout = ImageLayout.eGeneral) ∧
    (layout = ImageLayout.eGeneral ↔
      some_read nodes first_parm reads h.is_storage_access ∨
      (some_read nodes first_parm reads h.is_transfer_access ∧
        some_read nodes first_parm reads h.is_readonly_access)) ∧
    (layout = ImageLayout.eTransferSrcOptimal ↔
      ¬ some_read nodes first_parm reads h.is_storage_access ∧
      some_read nodes first_parm reads h.is_transfer_access ∧
        ¬ some_read nodes first_parm reads h.is_readonly_access) := by
  unfold read_sync_layout at hr
  cases hm : merge_reads h nodes first_parm reads ⟨false, false, false⟩ with
  | none => rw [hm] at hr; cases hr
  | some out =>
    rw [hm] at hr
    simp only [Option.map_some', Option.some.injEq] at hr
    obtain ⟨h1, h2, h3⟩ := merge_reads_spec h nodes first_parm reads _ out hm
    simp only [Bool.false_eq_true, false_or] at h1 h2 h3
    rw [← h1, ← h2, ← h3, ← hr]
    unfold merged_layout
    cases out.need_transfer <;> cases out.need_general <;> cases out.need_read_only <;> simp

/-- Counterexample to C8: the group holds a transfer read and a read by a
`CONVERGE`, which is not a transfer read; no read is a storage access; the
merged layout is `TransferSrcOptimal`, not `General`. -/
theorem converge_read_not_general :
    read_sync_layout sample_helpers converge_read_group 1 [⟨some 1, 1⟩, ⟨some 2, 0⟩] =
        some ImageLayout.eTransferSrcOptimal ∧
      read_lookup converge_read_group 1 ⟨some 1, 1⟩ = ReadLookup.access 1 ∧
      sample_helpers.is_transfer_access 1 = true ∧
      sample_helpers.is_storage_access 1 = false ∧
      kind_of converge_read_group 2 = some NodeKind.CONVERGE ∧
      read_lookup converge_read_group 1 ⟨some 2, 0⟩ = ReadLookup.skipped := by
  decide

/-- Witness of C8 (amended): the group of `converge_read_group`. -/
theorem read_sync_layout_spec_witness :
    (ImageLayout.eTransferSrcOptimal = ImageLayout.eGeneral ↔
      some_read converge_read_group 1 [⟨some 1, 1⟩, ⟨some 2, 0⟩]
          sample_helpers.is_storage_access ∨
      (some_read converge_read_group 1 [⟨some 1, 1⟩, ⟨some 2, 0⟩]
          sample_helpers.is_transfer_access ∧
        some_read converge_read_group 1 [⟨some 1, 1⟩, ⟨some 2, 0⟩]
          sample_helpers.is_readonly_access)) :=
  (read_sync_layout_spec sample_helpers converge_read_group 1 [⟨some 1, 1⟩, ⟨some 2, 0⟩]
    ImageLayout.eTransferSrcOptimal (by decide)).2.1

/-! ## `Compiler::validate_read_undefined` -/

theorem unravel_splices_run (nodes : List Node) (p q : Nat) (hrun : SpliceRun nodes p q)
    (fuel u : Nat) (hu : unravel_splices nodes fuel p = some u) : u = q := by
  induction hrun generalizing fuel with
  | stop q link hl hreads =>
    cases fuel with
    | zero => simp [unravel_splices] at hu
    | succ fuel =>
      simp only [unravel_splices, hl] at hu
      have hlen : ¬ link.reads.length = 0 := by
        intro h0
        exact hreads (List.length_eq_zero.mp h0)
      cases hn : link.undef.node with
      | none => rw [hn] at hu; simp only [Option.some.injEq] at hu; exact hu.symm
      | some w =>
        rw [hn] at hu
        simp only [hlen, false_and, if_false, Option.some.injEq] at hu
        exact hu.symm
  | step p w q link hl hreads hundef hkind _ ih =>
    cases fuel with
    | zero => simp [unravel_splices] at hu
    | succ fuel =>
      simp only [unravel_splices, hl, hundef, hreads, List.length_nil, hkind, and_self,
        if_true] at hu
      exact ih fuel hu

theorem splice_run_end (nodes : List Node) (p q : Nat) (hrun : SpliceRun nodes p q) :
    ∃ link, first_link nodes q = some link ∧ link.reads ≠ [] := by
  induction hrun with
  | stop q link hl hreads => exact ⟨link, hl, hreads⟩
  | step _ _ _ _ _ _ _ _ _ ih => exact ih

theorem first_link_of_node (nodes : List Node) (p : Nat) (node : Node) (link : ChainLink)
    (hn : nodes[p]? = some node) (hl : node.links.head? = some link) :
    first_link nodes p = some link := by
  simp [first_link, hn, hl]

/-- At an offending `CONSTRUCT` the loop body does not pass. -/
theorem check_read_undefined_offender (nodes : List Node) (fuel p : Nat)
    (hoff : DirectRead nodes p ∨ SplicedRead nodes p) (r : Result)
    (hr : check_read_undefined nodes fuel p = some r) : IsReadUndefinedError nodes r := by
  rcases hoff with ⟨node, ty, link, hn, hk, hty, harr, hl, hreads⟩ |
    ⟨node, link, q, hn, hk, hl, hreads, hrun⟩
  · have hlen : link.reads.length > 0 := List.length_pos.mpr hreads
    simp only [check_read_undefined, hn, hk, hty, hl, harr, hlen, and_self, if_true,
      Option.some.injEq] at hr
    exact ⟨p, link, first_link_of_node nodes p node link hn hl, hreads, hr.symm⟩
  · have hfl := first_link_of_node nodes p node link hn hl
    -- the run starts with a step, as the link of `p` has no reads
    have hundef : link.undef.node ≠ none := by
      cases hrun with
      | stop _ l2 hl2 hr2 =>
        rw [hfl] at hl2
        cases hl2
        exact absurd hreads hr2
      | step _ u _ l2 hl2 _ hu2 _ _ =>
        rw [hfl] at hl2
        cases hl2
        rw [hu2]
        exact Option.some_ne_none u
    obtain ⟨qlink, hql, hqreads⟩ := splice_run_end nodes p q hrun
    simp only [check_read_undefined, hn, hk, hl] at hr
    cases hty : node.type.head? with
    | none => rw [hty] at hr; cases hr
    | some ty =>
      rw [hty] at hr
      simp only [hreads, List.length_nil, gt_iff_lt, Nat.lt_irrefl, and_false, if_false,
        hundef] at hr
      cases hu : unravel_splices nodes fuel p with
      | none => rw [hu] at hr; cases hr
      | some u =>
        rw [hu] at hr
        have huq := unravel_splices_run nodes p q hrun fuel u hu
        subst huq
        have hlen : qlink.reads.length > 0 := List.length_pos.mpr hqreads
        simp only [hql, hlen, if_true, Option.some.injEq] at hr
        exact ⟨u, qlink, hql, hqreads, hr.symm⟩

theorem check_read_undefined_error (nodes : List Node) (fuel p : Nat)
    (offender : Option Nat) (message : String)
    (hr : check_read_undefined nodes fuel p = some (Result.expected_error offender message)) :
    IsReadUndefinedError nodes (Result.expected_error offender message) := by
  unfold check_read_undefined at hr
  cases hn : nodes[p]? with
  | none => rw [hn] at hr; cases hr
  | some node =>
    rw [hn] at hr
    simp only at hr
    cases hk : node.kind <;> rw [hk] at hr <;> simp only [Option.some.injEq, reduceCtorEq] at hr
    cases hty : node.type.head? with
    | none => rw [hty] at hr; simp at hr
    | some ty =>
      cases hl : node.links.head? with
      | none => rw [hty, hl] at hr; simp at hr
      | some link =>
        rw [hty, hl] at hr
        simp only at hr
        split_ifs at hr with h1 h2
        · simp only [Option.some.injEq] at hr
          exact ⟨p, link, first_link_of_node nodes p node link hn hl,
            List.length_pos.mp h1.2, hr.symm⟩
        · simp at hr
        · cases hu : unravel_splices nodes fuel p with
          | none => rw [hu] at hr; cases hr
          | some u =>
            rw [hu] at hr
            simp only at hr
            cases hul : first_link nodes u with
            | none => rw [hul] at hr; cases hr
            | some ulink =>
              rw [hul] at hr
              simp only at hr
              split_ifs at hr with h3
              · simp only [Option.some.injEq] at hr
                exact ⟨u, ulink, hul, List.length_pos.mp h3, hr.symm⟩
              · simp at hr

theorem validate_from_reports (nodes : List Node) (fuel : Nat) (ps : List Nat) (p : Nat)
    (hp : p ∈ ps) (hoff : DirectRead nodes p ∨ SplicedRead nodes p) (r : Result)
    (hr : validate_read_undefined_from nodes fuel ps = some r) :
    IsReadUndefinedError nodes r := by
  induction ps with
  | nil => cases hp
  | cons a rest ih =>
    simp only [validate_read_undefined_from] at hr
    cases hc : check_read_undefined nodes fuel a with
    | none => rw [hc] at hr; cases hr
    | some ra =>
      rw [hc] at hr
      cases ra with
      | expected_error offender message =>
        simp only [Option.some.injEq] at hr
        rw [← hr]
        exact check_read_undefined_error nodes fuel a offender message hc
      | expected_value =>
        simp only at hr
        rcases List.mem_cons.mp hp with hpa | hpr
        · subst hpa
          obtain ⟨_, _, _, _, habs⟩ := check_read_undefined_offender nodes fuel p hoff _ hc
          cases habs
        · exact ih hpr hr

theorem unravel_splices_total (nodes : List Node) (rank : Nat → Nat) (B : Nat)
    (hwf : SpliceRunsEnd nodes rank B) (fuel p : Nat) (hfuel : B - rank p < fuel)
    (hp : first_link nodes p ≠ none) :
    ∃ u, unravel_splices nodes fuel p = some u ∧ first_link nodes u ≠ none := by
  induction fuel generalizing p with
  | zero => omega
  | succ fuel ih =>
    cases hl : first_link nodes p with
    | none => exact absurd hl hp
    | some link =>
      simp only [unravel_splices, hl]
      cases hu : link.undef.node with
      | none => exact ⟨p, rfl, hp⟩
      | some u =>
        simp only
        split_ifs with hc
        · have hr := hwf.rank_lt p link u hl hu hc.2
          exact ih u (by omega) (hwf.has_link u _ hc.2 (Or.inr rfl))
        · exact ⟨p, rfl, hp⟩

theorem check_read_undefined_total (nodes : List Node) (rank : Nat → Nat) (B : Nat)
    (hwf : SpliceRunsEnd nodes rank B) (fuel p : Nat) (hfuel : B < fuel)
    (hp : p < nodes.length) : check_read_undefined nodes fuel p ≠ none := by
  unfold check_read_undefined
  have hn : nodes[p]? = some nodes[p] := List.getElem?_eq_getElem hp
  rw [hn]
  simp only
  cases hk : nodes[p].kind <;> simp only [ne_eq, reduceCtorEq, not_false_eq_true]
  have hko : kind_of nodes p = some NodeKind.CONSTRUCT := by
    simp [kind_of, hn, hk]
  have hfl := hwf.has_link p _ hko (Or.inl rfl)
  have hty := hwf.has_type p _ hn hk
  cases hth : nodes[p].type.head? with
  | none => exact absurd (List.head?_eq_none_iff.mp hth) hty
  | some ty =>
    cases hlh : nodes[p].links.head? with
    | none =>
      exfalso
      apply hfl
      simp [first_link, hn, hlh]
    | some link =>
      simp only
      split_ifs
      · simp
      · simp
      · obtain ⟨u, hu, hul⟩ := unravel_splices_total nodes rank B hwf fuel p (by omega) hfl
        rw [hu]
        simp only
        cases hul2 : first_link nodes u with
        | none => exact absurd hul2 hul
        | some ulink =>
          simp only
          split_ifs <;> simp

theorem validate_from_total (nodes : List Node) (rank : Nat → Nat) (B : Nat)
    (hwf : SpliceRunsEnd nodes rank B) (fuel : Nat) (hfuel : B < fuel) (ps : List Nat)
    (hps : ∀ p ∈ ps, p < nodes.length) :
    validate_read_undefined_from nodes fuel ps ≠ none := by
  induction ps with
  | nil => simp [validate_read_undefined_from]
  | cons a rest ih =>
    simp only [validate_read_undefined_from]
    have ha := check_read_undefined_total nodes rank B hwf fuel a hfuel
      (hps a (List.mem_cons_self _ _))
    cases hc : check_read_undefined nodes fuel a with
    | none => exact absurd hc ha
    | some ra =>
      cases ra with
      | expected_error offender message => simp
      | expected_value =>
        simp only
        exact ih (fun p hp => hps p (List.mem_cons_of_mem _ hp))

/-- C9: when some non-array `CONSTRUCT` has reads on its result link, or some
`CONSTRUCT` without reads is followed through a run of `SPLICE` undefs to a
`SPLICE` whose link has reads, every result of `validate_read_undefined` is
the error "tried to read something that was never written." naming the first
reader of a link; and the pass does return once the fuel exceeds the length of
the longest run of splices. -/
theorem validate_read_undefined_reports (nodes : List Node) (p : Nat)
    (hoff : DirectRead nodes p ∨ SplicedRead nodes p) :
    (∀ fuel r, validate_read_undefined nodes fuel = some r → IsReadUndefinedError nodes r) ∧
    (∀ rank B, SpliceRunsEnd nodes rank B → ∀ fuel, B < fuel →
      ∃ r, validate_read_undefined nodes fuel = some r ∧ IsReadUndefinedError nodes r) := by
  have hp : p < nodes.length := by
    have hsome : ∃ node, nodes[p]? = some node := by
      rcases hoff with ⟨node, _, _, hn, _⟩ | ⟨node, _, _, hn, _⟩ <;> exact ⟨node, hn⟩
    obtain ⟨node, hn⟩ := hsome
    by_contra hlt
    rw [List.getElem?_eq_none (Nat.le_of_not_lt hlt)] at hn
    cases hn
  have hfirst : ∀ fuel r, validate_read_undefined nodes fuel = some r →
      IsReadUndefinedError nodes r := by
    intro fuel r hr
    exact validate_from_reports nodes fuel _ p (List.mem_range.mpr hp) hoff r hr
  refine ⟨hfirst, ?_⟩
  intro rank B hwf fuel hfuel
  have ht := validate_from_total nodes rank B hwf fuel hfuel (List.range nodes.length)
    (fun q hq => List.mem_range.mp hq)
  cases hv : validate_read_undefined_from nodes fuel (List.range nodes.length) with
  | none => exact absurd hv ht
  | some r => exact ⟨r, hv, hfirst fuel r hv⟩

/-! ## `Compiler::validate_duplicated_resource_ref` -/

theorem emplace_by_subset {α : Type} (eq : α → α → Bool) (set : List α) (x : α) :
    set ⊆ (emplace_by eq set x).1 := by
  unfold emplace_by
  split_ifs
  · exact List.Subset.refl _
  · exact List.subset_append_left _ _

theorem emplace_by_mem {α : Type} (eq : α → α → Bool) (set : List α) (x : α)
    (h : (emplace_by eq set x).2 = true) : x ∈ (emplace_by eq set x).1 := by
  unfold emplace_by at h ⊢
  by_cases hc : (set.any fun y => eq y x) = true
  · simp [hc] at h
  · simp [hc]

theorem emplace_by_found {α : Type} (eq : α → α → Bool) (set : List α) (x y : α)
    (hy : y ∈ set) (hxy : eq y x = true) : emplace_by eq set x = (set, false) := by
  unfold emplace_by
  rw [if_pos]
  rw [List.any_eq_true]
  exact ⟨y, hy, hxy⟩

theorem seen_le_refl (s : SeenResources) : s.le s :=
  ⟨List.Subset.refl _, List.Subset.refl _, List.Subset.refl _⟩

theorem seen_le_trans {s t u : SeenResources} (h1 : s.le t) (h2 : t.le u) : s.le u :=
  ⟨h1.1.trans h2.1, h1.2.1.trans h2.2.1, h1.2.2.trans h2.2.2⟩

theorem check_construct_le (buffer_eq : Buffer → Buffer → Bool) (nodes : List Node)
    (node : Node) (seen seen1 : SeenResources) (s : Bool)
    (h : check_construct buffer_eq nodes node seen = some (seen1, s)) : seen.le seen1 := by
  unfold check_construct at h
  split at h
  · cases h
  · split at h
    · split_ifs at h
      · simp only [Option.some.injEq, Prod.mk.injEq] at h
        rw [← h.1]
        exact ⟨List.Subset.refl _, emplace_by_subset _ _ _, List.Subset.refl _⟩
      · simp only [Option.some.injEq, Prod.mk.injEq] at h
        rw [← h.1]
        exact seen_le_refl _
    · cases h
  · split at h
    · split_ifs at h
      · simp only [Option.some.injEq, Prod.mk.injEq] at h
        rw [← h.1]
        exact ⟨emplace_by_subset _ _ _, List.Subset.refl _, List.Subset.refl _⟩
      · simp only [Option.some.injEq, Prod.mk.injEq] at h
        rw [← h.1]
        exact seen_le_refl _
    · cases h
  · split at h
    · simp only [Option.some.injEq, Prod.mk.injEq] at h
      rw [← h.1]
      exact ⟨List.Subset.refl _, List.Subset.refl _, emplace_by_subset _ _ _⟩
    · cases h
  · simp only [Option.some.injEq, Prod.mk.injEq] at h
    rw [← h.1]
    exact seen_le_refl _

theorem check_splice_value_le (buffer_eq : Buffer → Buffer → Bool) (node : Node) (i : Nat)
    (seen seen1 : SeenResources) (s : Option Bool)
    (h : check_splice_value buffer_eq node i seen = some (seen1, s)) : seen.le seen1 := by
  unfold check_splice_value at h
  split at h
  · split_ifs at h
    · simp only [Option.some.injEq, Prod.mk.injEq] at h
      rw [← h.1]
      exact seen_le_refl _
    · split at h
      · split at h
        · simp only [Option.some.injEq, Prod.mk.injEq] at h
          rw [← h.1]
          exact ⟨List.Subset.refl _, emplace_by_subset _ _ _, List.Subset.refl _⟩
        · cases h
      · split at h
        · simp only [Option.some.injEq, Prod.mk.injEq] at h
          rw [← h.1]
          exact ⟨emplace_by_subset _ _ _, List.Subset.refl _, List.Subset.refl _⟩
        · cases h
      · split at h
        · simp only [Option.some.injEq, Prod.mk.injEq] at h
          rw [← h.1]
          exact ⟨List.Subset.refl _, List.Subset.refl _, emplace_by_subset _ _ _⟩
        · cases h
      · simp only [Option.some.injEq, Prod.mk.injEq] at h
        rw [← h.1]
        exact seen_le_refl _
  · cases h

theorem check_splice_values_le (buffer_eq : Buffer → Buffer → Bool) (node : Node)
    (is : List Nat) (seen seen1 : SeenResources) (s0 s : Bool)
    (h : check_splice_values buffer_eq node is seen s0 = some (seen1, s)) : seen.le seen1 := by
  induction is generalizing seen s0 with
  | nil =>
    simp only [check_splice_values, Option.some.injEq, Prod.mk.injEq] at h
    rw [← h.1]
    exact seen_le_refl _
  | cons i rest ih =>
    simp only [check_splice_values] at h
    cases hv : check_splice_value buffer_eq node i seen with
    | none => rw [hv] at h; cases h
    | some r =>
      obtain ⟨seen2, flag⟩ := r
      have hle := check_splice_value_le buffer_eq node i seen seen2 flag hv
      rw [hv] at h
      cases flag with
      | none => exact seen_le_trans hle (ih _ _ h)
      | some b =>
        cases b with
        | true => exact seen_le_trans hle (ih _ _ h)
        | false =>
          simp only [Option.some.injEq, Prod.mk.injEq] at h
          rw [← h.1]
          exact hle

theorem check_duplicated_le (buffer_eq : Buffer → Buffer → Bool) (nodes : List Node)
    (node : Node) (seen seen1 : SeenResources) (s : Bool)
    (h : check_duplicated buffer_eq nodes node seen = some (seen1, s)) : seen.le seen1 := by
  unfold check_duplicated at h
  split at h
  · exact check_construct_le buffer_eq nodes node seen seen1 s h
  · unfold check_splice at h
    split_ifs at h
    · simp only [Option.some.injEq, Prod.mk.injEq] at h
      rw [← h.1]
      exact seen_le_refl _
    · exact check_splice_values_le buffer_eq node _ seen seen1 true s h
  · simp only [Option.some.injEq, Prod.mk.injEq] at h
    rw [← h.1]
    exact seen_le_refl _

theorem validate_duplicated_blocked (buffer_eq : Buffer → Buffer → Bool) (nodes : List Node)
    (ps : List Nat) (seen : SeenResources) (q : Nat) (hq : q ∈ ps)
    (hb : Blocks buffer_eq nodes seen q) (r : Result)
    (hr : validate_duplicated_from buffer_eq nodes ps seen = some r) :
    IsDuplicatedError r := by
  induction ps generalizing seen with
  | nil => cases hq
  | cons a rest ih =>
    simp only [validate_duplicated_from] at hr
    cases hn : nodes[a]? with
    | none => rw [hn] at hr; cases hr
    | some node =>
      rw [hn] at hr
      simp only at hr
      cases hc : check_duplicated buffer_eq nodes node seen with
      | none => rw [hc] at hr; cases hr
      | some res =>
        obtain ⟨seen1, s⟩ := res
        rw [hc] at hr
        cases s with
        | false =>
          simp only [Option.some.injEq] at hr
          exact ⟨some a, hr.symm⟩
        | true =>
          simp only at hr
          have hle := check_duplicated_le buffer_eq nodes node seen seen1 true hc
          rcases List.mem_cons.mp hq with hqa | hqr
          · subst hqa
            obtain ⟨node2, hn2, hall⟩ := hb
            rw [hn] at hn2
            cases hn2
            have := hall seen (seen_le_refl _) _ hc
            cases this
          · obtain ⟨node2, hn2, hall⟩ := hb
            exact ih seen1 hqr ⟨node2, hn2, fun s2 hs2 => hall s2 (seen_le_trans hle hs2)⟩ hr

theorem validate_duplicated_pair (buffer_eq : Buffer → Buffer → Bool) (nodes : List Node)
    (l1 l2 : List Nat) (p q : Nat) (hq : q ∈ l2) (nodep : Node) (hnp : nodes[p]? = some nodep)
    (hstep : ∀ seen seen1, check_duplicated buffer_eq nodes nodep seen = some (seen1, true) →
      Blocks buffer_eq nodes seen1 q)
    (seen : SeenResources) (r : Result)
    (hr : validate_duplicated_from buffer_eq nodes (l1 ++ p :: l2) seen = some r) :
    IsDuplicatedError r := by
  induction l1 generalizing seen with
  | nil =>
    simp only [List.nil_append, validate_duplicated_from, hnp] at hr
    cases hc : check_duplicated buffer_eq nodes nodep seen with
    | none => rw [hc] at hr; cases hr
    | some res =>
      obtain ⟨seen1, s⟩ := res
      rw [hc] at hr
      cases s with
      | false =>
        simp only [Option.some.injEq] at hr
        exact ⟨some p, hr.symm⟩
      | true =>
        simp only at hr
        exact validate_duplicated_blocked buffer_eq nodes l2 seen1 q hq (hstep seen seen1 hc) r hr
  | cons a rest ih =>
    simp only [List.cons_append, validate_duplicated_from] at hr
    cases hn : nodes[a]? with
    | none => rw [hn] at hr; cases hr
    | some node =>
      rw [hn] at hr
      simp only at hr
      cases hc : check_duplicated buffer_eq nodes node seen with
      | none => rw [hc] at hr; cases hr
      | some res =>
        obtain ⟨seen1, s⟩ := res
        rw [hc] at hr
        cases s with
        | false =>
          simp only [Option.some.injEq] at hr
          exact ⟨some a, hr.symm⟩
        | true =>
          simp only at hr
          exact ih seen1 hr

theorem range_split (n p q : Nat) (hpq : p < q) (hq : q < n) :
    ∃ l1 l2, List.range n = l1 ++ p :: l2 ∧ q ∈ l2 := by
  have hp : p < (List.range n).length := by
    rw [List.length_range]; omega
  refine ⟨(List.range n).take p, (List.range n).drop (p + 1), ?_, ?_⟩
  · have h1 := List.take_append_drop p (List.range n)
    rw [List.drop_eq_getElem_cons hp, List.getElem_range] at h1
    exact h1.symm
  · rw [List.mem_iff_getElem]
    have hlen : q - (p + 1) < ((List.range n).drop (p + 1)).length := by
      rw [List.length_drop, List.length_range]; omega
    refine ⟨q - (p + 1), hlen, ?_⟩
    rw [List.getElem_drop, List.getElem_range]
    omega

theorem image_blocks (buffer_eq : Buffer → Buffer → Bool) (nodes : List Node) (q : Nat)
    (ia : ImageAttachment) (hq : ConstructsImage nodes q ia) (hnull : ia.image.image ≠ 0)
    (seen : SeenResources) (hmem : ia ∈ seen.ias) : Blocks buffer_eq nodes seen q := by
  obtain ⟨node, hn, hk, hty, hproto⟩ := hq
  refine ⟨node, hn, ?_⟩
  intro seen1 hle r hr
  have hmem1 : ia ∈ seen1.ias := hle.2.1 hmem
  simp only [check_duplicated, hk, check_construct, hty, hproto, hnull, ne_eq,
    not_false_eq_true, if_true, Option.some.injEq] at hr
  rw [← hr]
  simp only
  rw [emplace_by_found _ _ ia ia hmem1 (by simp)]

theorem buffer_blocks (buffer_eq : Buffer → Buffer → Bool) (nodes : List Node) (q : Nat)
    (b1 b2 : Buffer) (hq : ConstructsBuffer nodes q b2) (hnull : b2.buffer ≠ 0)
    (heq : buffer_eq b1 b2 = true)
    (seen : SeenResources) (hmem : b1 ∈ seen.bufs) : Blocks buffer_eq nodes seen q := by
  obtain ⟨node, hn, hk, hty, hproto⟩ := hq
  refine ⟨node, hn, ?_⟩
  intro seen1 hle r hr
  have hmem1 : b1 ∈ seen1.bufs := hle.1 hmem
  simp only [check_duplicated, hk, check_construct, hty, hproto, hnull, ne_eq,
    not_false_eq_true, if_true, Option.some.injEq] at hr
  rw [← hr]
  simp only
  rw [emplace_by_found _ _ b2 b1 hmem1 heq]

/-- C10 (amended): when the node list holds two `CONSTRUCT` nodes of image type
whose prototypes are equal in every member and carry a non-null image handle,
or two of buffer type whose prototypes carry non-null handles and are equal
under the equality of `Buffer`, every result of
`validate_duplicated_resource_ref` is the error "tried to acquire something
that was already known.". -/
theorem validate_duplicated_reports (buffer_eq : Buffer → Buffer → Bool) (nodes : List Node)
    (p q : Nat) (hpq : p < q)
    (hdup : (∃ ia, ConstructsImage nodes p ia ∧ ConstructsImage nodes q ia ∧
        ia.image.image ≠ 0) ∨
      (∃ b1 b2, ConstructsBuffer nodes p b1 ∧ ConstructsBuffer nodes q b2 ∧
        b1.buffer ≠ 0 ∧ b2.buffer ≠ 0 ∧ buffer_eq b1 b2 = true))
    (r : Result) (hr : validate_duplicated_resource_ref buffer_eq nodes = some r) :
    ∃ offender, r = Result.expected_error offender duplicated_message := by
  have hqlt : q < nodes.length := by
    have hsome : ∃ node, nodes[q]? = some node := by
      rcases hdup with ⟨_, _, ⟨node, hn, _⟩, _⟩ | ⟨_, _, _, ⟨node, hn, _⟩, _⟩ <;>
        exact ⟨node, hn⟩
    obtain ⟨node, hn⟩ := hsome
    by_contra hlt
    rw [List.getElem?_eq_none (Nat.le_of_not_lt hlt)] at hn
    cases hn
  obtain ⟨l1, l2, hsplit, hql2⟩ := range_split nodes.length p q hpq hqlt
  unfold validate_duplicated_resource_ref at hr
  rw [hsplit] at hr
  rcases hdup with ⟨ia, hp, hq, hnull⟩ | ⟨b1, b2, hp, hq, hn1, hn2, heq⟩
  · obtain ⟨nodep, hnp, hk, hty, hproto⟩ := hp
    apply validate_duplicated_pair buffer_eq nodes l1 l2 p q hql2 nodep hnp _ _ r hr
    intro seen seen1 hc
    apply image_blocks buffer_eq nodes q ia hq hnull
    simp only [check_duplicated, hk, check_construct, hty, hproto, hnull, ne_eq,
      not_false_eq_true, if_true, Option.some.injEq, Prod.mk.injEq] at hc
    rw [← hc.1]
    exact emplace_by_mem _ _ _ hc.2
  · obtain ⟨nodep, hnp, hk, hty, hproto⟩ := hp
    apply validate_duplicated_pair buffer_eq nodes l1 l2 p q hql2 nodep hnp _ _ r hr
    intro seen seen1 hc
    apply buffer_blocks buffer_eq nodes q b1 b2 hq hn2 heq
    simp only [check_duplicated, hk, check_construct, hty, hproto, hn1, ne_eq,
      not_false_eq_true, if_true, Option.some.injEq, Prod.mk.injEq] at hc
    rw [← hc.1]
    exact emplace_by_mem _ _ _ hc.2

/-- Counterexample to C10: two image constructs over the same non-null image
handle, with prototypes that differ in `base_level`, pass the validation. -/
theorem same_handle_not_reported :
    ConstructsImage two_views_of_one_image 2 { image := { image := 7 }, base_level := 0 } ∧
      ConstructsImage two_views_of_one_image 3 { image := { image := 7 }, base_level := 1 } ∧
      validate_duplicated_resource_ref (fun a b => decide (a = b)) two_views_of_one_image =
        some Result.expected_value := by
  refine ⟨⟨_, rfl, rfl, rfl, rfl⟩, ⟨_, rfl, rfl, rfl, rfl⟩, ?_⟩
  decide

/-- Witness of C10 (amended): one prototype constructed twice. -/
theorem validate_duplicated_reports_witness :
    ∃ offender, Result.expected_error (some 2) duplicated_message =
      Result.expected_error offender duplicated_message :=
  validate_duplicated_reports (fun a b => decide (a = b)) one_image_twice 1 2 (by decide)
    (Or.inl ⟨{ image := { image := 7 }, base_level := 0 },
      ⟨_, rfl, rfl, rfl, rfl⟩, ⟨_, rfl, rfl, rfl, rfl⟩, by decide⟩)
    (Result.expected_error (some 2) duplicated_message) (by decide)

/-! ## `schedule_intra_queue`: cycles and completeness -/

theorem preds_before_trans (cnt : Nat → Nat → Nat) (P : List Nat) (hP : PredsBefore cnt P)
    (u w : Nat) (h : Relation.TransGen (fun p i => 0 < cnt p i) u w) (hw : w ∈ P) :
    u ∈ P ∧ P.indexOf u < P.indexOf w := by
  induction h with
  | single h1 => exact hP _ hw _ h1
  | tail _ hbc ih =>
    have h1 := hP _ hw _ hbc
    have h2 := ih h1.1
    exact ⟨h2.1, Nat.lt_trans h2.2 h1.2⟩

theorem trans_gen_target_lt (nodes : List Node) (u w : Nat)
    (h : Relation.TransGen (Depends nodes) u w) : w < (schedule_items nodes).length := by
  cases h with
  | single h1 => exact (edge_count_pos_lt nodes _ _ h1).2
  | tail _ hbc => exact (edge_count_pos_lt nodes _ _ hbc).2

theorem any_pos_of_getD (l : List Nat) (i : Nat) (h : l.getD i 0 ≠ 0) :
    l.any (fun ind => decide (ind > 0)) = true := by
  rw [List.any_eq_true]
  have hi : i < l.length := by
    by_contra hlt
    apply h
    rw [List.getD_eq_getElem?_getD, List.getElem?_eq_none (Nat.le_of_not_lt hlt)]
    rfl
  refine ⟨l[i], List.getElem_mem _, ?_⟩
  rw [List.getD_eq_getElem _ _ hi] at h
  simp only [gt_iff_lt, decide_eq_true_eq]
  omega

/-- C3 (amended): when the dependency edges contain a cycle through `v`, the
Kahn loop drains its queue with the indegree of `v` still positive, so the
final loop reaches `assert(false)`; the `Result` that `schedule_intra_queue`
returns is `expected_value`, not an error. -/
theorem schedule_cycle_asserts (c : DomainFlagBits) (nodes : List Node)
    (scheduled_execables : List ScheduledItem) (v : Nat)
    (hcycle : Relation.TransGen (Depends nodes) v v) :
    (schedule_intra_queue c nodes scheduled_execables).process_queue = [] ∧
    (schedule_intra_queue c nodes scheduled_execables).indegrees.getD v 0 > 0 ∧
    (schedule_intra_queue c nodes scheduled_execables).assert_failed = true ∧
    (schedule_intra_queue c nodes scheduled_execables).result = Result.expected_value := by
  obtain ⟨P, hI, hP, hq, _, _⟩ := schedule_spec c nodes scheduled_execables
  have hv : v < (schedule_items nodes).length := trans_gen_target_lt nodes v v hcycle
  have hvP : v ∉ P := by
    intro hmem
    have := preds_before_trans (edge_count nodes) P hP v v hcycle hmem
    exact Nat.lt_irrefl _ this.2
  have hne : (schedule_intra_queue c nodes scheduled_execables).indegrees.getD v 0 ≠ 0 := by
    intro h0
    rcases (hI.zero v hv).mp h0 with h | h
    · cases h
    · exact hvP h
  refine ⟨hq, Nat.pos_of_ne_zero hne, ?_, rfl⟩
  exact any_pos_of_getD _ v hne

/-- Counterexample to C3: on a cycle of two calls the indegrees stay positive
and `assert(false)` is reached, yet the `Result` is `expected_value`. -/
theorem cycle_returns_value :
    Depends two_cycle 0 1 ∧ Depends two_cycle 1 0 ∧
      (schedule_intra_queue sample_domains two_cycle []).indegrees = [1, 1] ∧
      (schedule_intra_queue sample_domains two_cycle []).assert_failed = true ∧
      (schedule_intra_queue sample_domains two_cycle []).result = Result.expected_value := by
  unfold Depends
  decide

/-- Witness of C3 (amended) on the cycle of two calls. -/
theorem schedule_cycle_asserts_witness :
    (schedule_intra_queue sample_domains two_cycle []).process_queue = [] ∧
    (schedule_intra_queue sample_domains two_cycle []).indegrees.getD 0 0 > 0 ∧
    (schedule_intra_queue sample_domains two_cycle []).assert_failed = true ∧
    (schedule_intra_queue sample_domains two_cycle []).result = Result.expected_value :=
  schedule_cycle_asserts sample_domains two_cycle [] 0
    (Relation.TransGen.tail
      (Relation.TransGen.single (show Depends two_cycle 0 1 by unfold Depends; decide))
      (show Depends two_cycle 1 0 by unfold Depends; decide))

/-- Witness of C1 on the chain of the queue-inference test: `write` (node 1)
comes before `neutral` (node 2), the undef of its result. -/
theorem schedule_respects_links_witness :
    (scheduled_order sample_domains (inference_chain sample_domains)).indexOf 1 <
      (scheduled_order sample_domains (inference_chain sample_domains)).indexOf 2 :=
  (schedule_respects_links sample_domains (inference_chain sample_domains)
    { kind := NodeKind.CALL
      args := [⟨none, 0⟩, ⟨some 0, 0⟩]
      scheduling_info := some 16
      links := [{ def_ := ⟨some 1, 0⟩, undef := ⟨some 2, 1⟩,
                  prev := some ⟨0, 0⟩, next := some ⟨2, 0⟩ }] }
    (by simp [inference_chain, sample_domains])
    { def_ := ⟨some 1, 0⟩, undef := ⟨some 2, 1⟩, prev := some ⟨0, 0⟩, next := some ⟨2, 0⟩ }
    (by simp)).1 1 2 rfl rfl (by decide) (by decide)

theorem mem_schedule_items (nodes : List Node) (n : Nat) :
    n ∈ schedule_items nodes ↔ ∃ k, kind_of nodes n = some k ∧ is_schedulable k = true := by
  unfold schedule_items
  rw [List.mem_filter, List.mem_range]
  constructor
  · rintro ⟨_, h⟩
    cases hk : kind_of nodes n with
    | none => rw [hk] at h; cases h
    | some k => rw [hk] at h; exact ⟨k, rfl, h⟩
  · rintro ⟨k, hk, hs⟩
    refine ⟨?_, by rw [hk]; exact hs⟩
    by_contra hlt
    unfold kind_of at hk
    rw [List.getElem?_eq_none (Nat.le_of_not_lt hlt)] at hk
    cases hk

theorem is_schedulable_iff (k : NodeKind) :
    (is_schedulable k = true ∧ k ≠ NodeKind.CONSTRUCT) ↔
      (k = NodeKind.CALL ∨ k = NodeKind.CLEAR ∨ k = NodeKind.MATH_BINARY ∨
        k = NodeKind.SPLICE ∨ k = NodeKind.CONVERGE) := by
  cases k <;> simp [is_schedulable]

/-- What holds of `scheduled_execables` for every node list: no node twice, only
nodes of the five executable kinds, every item at `eAny`. -/
theorem schedule_sound (c : DomainFlagBits) (nodes : List Node) :
    (scheduled_order c nodes).Nodup ∧
    (∀ n, n ∈ scheduled_order c nodes → ∃ k, kind_of nodes n = some k ∧
      (k = NodeKind.CALL ∨ k = NodeKind.CLEAR ∨ k = NodeKind.MATH_BINARY ∨
        k = NodeKind.SPLICE ∨ k = NodeKind.CONVERGE)) ∧
    (∀ it ∈ (schedule_intra_queue c nodes []).scheduled_execables,
      it.scheduled_domain = c.eAny) := by
  obtain ⟨P, hI, _, heq⟩ := scheduled_order_eq c nodes
  refine ⟨?_, ?_, ?_⟩
  · rw [heq]
    apply List.Nodup.map_on
    · intro x hx y hy hxy
      have hx1 := hI.ltP x (List.mem_filter.mp hx).1
      have hy1 := hI.ltP y (List.mem_filter.mp hy).1
      rw [← indexOf_getD _ (schedule_items_nodup nodes) x hx1,
        ← indexOf_getD _ (schedule_items_nodup nodes) y hy1, hxy]
    · exact hI.nodupP.filter _
  · intro n hn
    rw [heq] at hn
    obtain ⟨h1, _, h3⟩ := mem_scheduled_order nodes P hI.ltP n hn
    obtain ⟨k, hk, hs⟩ := (mem_schedule_items nodes n).mp h1
    refine ⟨k, hk, (is_schedulable_iff k).mp ⟨hs, ?_⟩⟩
    intro hc
    exact h3 (by rw [hk, hc])
  · obtain ⟨P2, _, _, _, _, h5⟩ := schedule_spec c nodes []
    intro it hit
    rw [h5, List.nil_append, List.mem_map] at hit
    obtain ⟨_, _, rfl⟩ := hit
    rfl

/-- On an acyclic graph without 256 parallel edges the Kahn loop pops every index. -/
theorem kahn_pops_all (S : Nat) (m ind0 ind P : List Nat) (cnt : Nat → Nat → Nat)
    (hF : EdgeFacts S m ind0 cnt) (hI : KahnInv S m ind0 ind [] P)
    (hacyclic : ∀ v, ¬ Relation.TransGen (fun p i => 0 < cnt p i) v v)
    (hsmall : ∀ p i, cnt p i < 256) (i : Nat) (hi : i < S) : i ∈ P := by
  by_contra hiP
  have htrans : IsTrans (Fin S)
      (fun a b => Relation.TransGen (fun p i => 0 < cnt p i) a.val b.val) :=
    ⟨fun _ _ _ h1 h2 => Relation.TransGen.trans h1 h2⟩
  have hirr : IsIrrefl (Fin S)
      (fun a b => Relation.TransGen (fun p i => 0 < cnt p i) a.val b.val) :=
    ⟨fun a h => hacyclic a.val h⟩
  have hwf : WellFounded
      (fun a b : Fin S => Relation.TransGen (fun p i => 0 < cnt p i) a.val b.val) :=
    @Finite.wellFounded_of_trans_of_irrefl _ _ _ htrans hirr
  obtain ⟨mn, hmU, hmin⟩ := hwf.has_min {a : Fin S | a.val ∉ P} ⟨⟨i, hi⟩, hiP⟩
  have hmP : mn.val ∉ P := hmU
  have hzero : ∀ p, p < S → p ∉ P → cnt p mn.val = 0 := by
    intro p hp hpP
    by_contra hne
    exact hmin ⟨p, hp⟩ hpP (Relation.TransGen.single (Nat.pos_of_ne_zero hne))
  have hbal := hI.bal mn.val mn.isLt
  have hsum : ∑ p in P.toFinset.erase mn.val, adj_value S m p mn.val = ind0.getD mn.val 0 := by
    rw [hF.ind_eq mn.val mn.isLt]
    have hsub : P.toFinset.erase mn.val ⊆ Finset.range S := by
      intro y hy
      exact Finset.mem_range.mpr (hI.ltP y (List.mem_toFinset.mp (Finset.mem_of_mem_erase hy)))
    rw [← Finset.sum_subset hsub]
    · apply Finset.sum_congr rfl
      intro p hp
      rw [hF.adj_eq p mn.val (Finset.mem_range.mp (hsub hp)) mn.isLt]
      exact Nat.mod_eq_of_lt (hsmall p mn.val)
    · intro x hx hxn
      apply hzero x (Finset.mem_range.mp hx)
      intro hxP
      apply hxn
      rw [Finset.mem_erase]
      refine ⟨?_, List.mem_toFinset.mpr hxP⟩
      intro hxm
      exact hmP (hxm ▸ hxP)
  have hind : ind.getD mn.val 0 = 0 := by omega
  rcases (hI.zero mn.val mn.isLt).mp hind with h | h
  · cases h
  · exact hmP h

/-- C2 for graphs without 256 parallel edges: on an acyclic dependency graph in
which no pair of nodes is joined by 256 or more edges, `scheduled_execables`
holds each `CALL`, `CLEAR`, `MATH_BINARY`, `SPLICE` and `CONVERGE` node of
`nodes` exactly once and no other node, every item at `eAny`. -/
theorem schedule_complete_of_small_counts (c : DomainFlagBits) (nodes : List Node)
    (hacyclic : ∀ v, ¬ Relation.TransGen (Depends nodes) v v)
    (hsmall : ∀ p i, edge_count nodes p i < 256) :
    (scheduled_order c nodes).Nodup ∧
    (∀ n, n ∈ scheduled_order c nodes ↔ ∃ k, kind_of nodes n = some k ∧
      (k = NodeKind.CALL ∨ k = NodeKind.CLEAR ∨ k = NodeKind.MATH_BINARY ∨
        k = NodeKind.SPLICE ∨ k = NodeKind.CONVERGE)) ∧
    (∀ it ∈ (schedule_intra_queue c nodes []).scheduled_execables,
      it.scheduled_domain = c.eAny) := by
  obtain ⟨h1, h2, h3⟩ := schedule_sound c nodes
  refine ⟨h1, fun n => ⟨h2 n, ?_⟩, h3⟩
  rintro ⟨k, hk, hkind⟩
  obtain ⟨P, hI, _, heq⟩ := scheduled_order_eq c nodes
  have hks := (is_schedulable_iff k).mpr hkind
  have hmem : n ∈ schedule_items nodes := (mem_schedule_items nodes n).mpr ⟨k, hk, hks.1⟩
  have hlt := List.indexOf_lt_length.mpr hmem
  have hP := kahn_pops_all _ _ _ _ P (edge_count nodes) (build_adjacency_facts nodes) hI
    hacyclic hsmall _ hlt
  rw [heq, List.mem_map]
  refine ⟨(schedule_items nodes).indexOf n, ?_, getD_indexOf _ _ hmem⟩
  rw [List.mem_filter]
  refine ⟨hP, ?_⟩
  rw [getD_indexOf _ _ hmem, hk]
  simp only [ne_eq, Option.some.injEq, decide_eq_true_eq]
  exact hks.2

/-- The dependency edges of `wide_read`: 256 edges from index 0 to index 1. -/
theorem wide_read_edges : edges_of_nodes wide_read = List.replicate 256 (0, 1) := by
  set_option maxRecDepth 100000 in decide

/-- C2 at its failing input: `wide_read` has two `CALL` nodes and 256 edges, all
from node 0 to node 1, so its dependency graph is acyclic; the `uint8_t` cell
of the adjacency matrix wraps to 0 while the indegree of node 1 is 256, node 1
is never pushed, and `scheduled_execables` holds node 0 only. -/
theorem wide_read_drops_call :
    kind_of wide_read 0 = some NodeKind.CALL ∧
      kind_of wide_read 1 = some NodeKind.CALL ∧
      edges_of_nodes wide_read = List.replicate 256 (0, 1) ∧
      adj_value 2 (build_adjacency wide_read).adjacency_matrix 0 1 = 0 ∧
      (schedule_intra_queue sample_domains wide_read []).scheduled_execables =
        [⟨0, sample_domains.eAny⟩] ∧
      (schedule_intra_queue sample_domains wide_read []).indegrees = [0, 256] ∧
      (schedule_intra_queue sample_domains wide_read []).assert_failed = true := by
  set_option maxRecDepth 100000 in decide

/-! ## Witnesses -/

/-- A chain without required domains: every sanity check holds. -/
theorem sanity_without_required_domains_witness :
    (∀ p d, domain_of plain_chain [⟨1, 4⟩, ⟨2, 4⟩] p = some d →
        d = sample_domains.eGraphicsQueue) ∧
      (∀ p, sanity_holds plain_chain [⟨1, 4⟩, ⟨2, 4⟩] p = true) ∧
      build_sync_sanity plain_chain [⟨1, 4⟩, ⟨2, 4⟩] = true :=
  sanity_without_required_domains sample_domains 3 plain_chain [⟨0, 0⟩]
    [⟨1, 31⟩, ⟨2, 31⟩] [⟨1, 4⟩, ⟨2, 4⟩] (by decide)
    (by
      intro n hn
      simp only [plain_chain, List.mem_cons, List.mem_singleton, List.not_mem_nil,
        or_false] at hn
      rcases hn with rfl | rfl | rfl <;> rfl)
    (by decide) (by decide)

/-- The spans of the three items of the queue-inference test. -/
theorem pass_partitioning_spans_witness :
    (pass_partitioning double_capacity sample_domains [⟨1, 16⟩, ⟨2, 16⟩, ⟨3, 4⟩]
        fresh_vector).partitioned_execables.data.length = 3 ∧
      (pass_partitioning double_capacity sample_domains [⟨1, 16⟩, ⟨2, 16⟩, ⟨3, 4⟩]
        fresh_vector).transfer_passes.elems
        (pass_partitioning double_capacity sample_domains [⟨1, 16⟩, ⟨2, 16⟩, ⟨3, 4⟩]
          fresh_vector).partitioned_execables = some [0, 1] :=
  ⟨(pass_partitioning_spans double_capacity sample_domains [⟨1, 16⟩, ⟨2, 16⟩, ⟨3, 4⟩]
      fresh_vector rfl (by decide)).2.2.1,
   (pass_partitioning_spans double_capacity sample_domains [⟨1, 16⟩, ⟨2, 16⟩, ⟨3, 4⟩]
      fresh_vector rfl (by decide)).2.1.1⟩

theorem pass_partitioning_overflow_witness :
    (pass_partitioning double_capacity sample_domains [⟨1, 16⟩, ⟨2, 24⟩, ⟨3, 4⟩]
        fresh_vector).transfer_passes.elems
      (pass_partitioning double_capacity sample_domains [⟨1, 16⟩, ⟨2, 24⟩, ⟨3, 4⟩]
        fresh_vector).partitioned_execables = none :=
  pass_partitioning_overflow double_capacity sample_domains [⟨1, 16⟩, ⟨2, 24⟩, ⟨3, 4⟩]
    fresh_vector rfl (by decide) (by decide)

theorem spliced_read_ends : SpliceRunsEnd spliced_read (fun p => p) 2 := by
  refine ⟨?_, ?_, ?_⟩
  · intro p k hk hkind
    match p with
    | 0 => simp [first_link, spliced_read]
    | 1 => simp [first_link, spliced_read]
    | 2 =>
      simp only [kind_of, spliced_read] at hk
      simp only [List.getElem?_cons_succ, List.getElem?_cons_zero, Option.map_some',
        Option.some.injEq] at hk
      subst hk
      rcases hkind with h | h <;> cases h
    | n + 3 => simp [kind_of, spliced_read] at hk
  · intro p node hn _
    match p with
    | 0 =>
      simp only [spliced_read, List.getElem?_cons_zero, Option.some.injEq] at hn
      subst hn
      simp
    | 1 =>
      simp only [spliced_read, List.getElem?_cons_succ, List.getElem?_cons_zero,
        Option.some.injEq] at hn
      subst hn
      simp
    | 2 =>
      simp only [spliced_read, List.getElem?_cons_succ, List.getElem?_cons_zero,
        Option.some.injEq] at hn
      subst hn
      rename_i hk
      cases hk
    | n + 3 => simp [spliced_read] at hn
  · intro p link u hl hu hk
    match p with
    | 0 =>
      have h0 : first_link spliced_read 0 =
          some { def_ := ⟨some 0, 0⟩, undef := ⟨some 1, 0⟩, next := some ⟨1, 0⟩ } := rfl
      rw [h0] at hl
      cases hl
      cases hu
      exact ⟨by omega, by omega⟩
    | 1 =>
      have h1 : first_link spliced_read 1 =
          some { def_ := ⟨some 1, 0⟩, reads := [⟨some 2, 1⟩], prev := some ⟨0, 0⟩ } := rfl
      rw [h1] at hl
      cases hl
      cases hu
    | 2 =>
      have h2 : first_link spliced_read 2 = none := rfl
      rw [h2] at hl
      cases hl
    | n + 3 =>
      have h3 : first_link spliced_read (n + 3) = none := rfl
      rw [h3] at hl
      cases hl

/-- Witness of C9: the `CONSTRUCT` of `spliced_read` is followed through one
`SPLICE` to a link with a read, and the pass returns the error. -/
theorem validate_read_undefined_reports_witness :
    ∃ r, validate_read_undefined spliced_read 3 = some r ∧
      IsReadUndefinedError spliced_read r :=
  (validate_read_undefined_reports spliced_read 0
    (Or.inr ⟨_, _, 1, rfl, rfl, rfl, rfl,
      SpliceRun.step 0 1 1 _ rfl rfl rfl rfl
        (SpliceRun.stop 1 _ rfl (by simp))⟩)).2
    (fun p => p) 2 spliced_read_ends 3 (by decide)

/-! ## `Replacer::replace` -/

theorem ptr_lt_irrefl (a : Option Nat) : ptr_lt a a = false := by
  cases a <;> simp [ptr_lt]

theorem ref_lt_irrefl (a : Ref) : Ref.lt a a = false := by
  simp [Ref.lt, ptr_lt_irrefl]

/-- The entry that `std::upper_bound` returns has a needle above the key. -/
theorem upper_bound_above (replaces : List Replace) (key : Ref) (a : Replace)
    (h : replaces[upper_bound replaces key]? = some a) : Ref.lt key a.needle = true := by
  induction replaces with
  | nil => simp at h
  | cons x xs ih =>
    unfold upper_bound at h
    by_cases hx : Ref.lt key x.needle = true
    · simp [List.takeWhile, hx] at h
      rw [← h]; exact hx
    · simp only [Bool.not_eq_true] at hx
      simp only [List.takeWhile_cons, hx, Bool.not_false, if_true, List.length_cons,
        List.getElem?_cons_succ] at h
      exact ih h

/-- The search for `value` among the needles never hits: `value2` is `value`. -/
theorem chain_end_eq (replaces : List Replace) (value : Ref) :
    chain_end replaces value = value := by
  unfold chain_end
  cases h : replaces[upper_bound replaces value]? with
  | none => rfl
  | some a =>
    have hlt := upper_bound_above replaces value a h
    have hne : a.needle ≠ value := by
      intro he; rw [he, ref_lt_irrefl] at hlt; cases hlt
    simp [hne]

/-- In the other order of the two calls the chain is extended: `replace(a, b)`
and then `replace(b, c)` give `a -> c, b -> c`. -/
theorem replace_extends_chain :
    replace_calls 4 [] [(ref_a, ref_b), (ref_b, ref_c)]
      = some [⟨ref_a, ref_c⟩, ⟨ref_b, ref_c⟩] ∧
    normal_form [⟨ref_a, ref_c⟩, ⟨ref_b, ref_c⟩] := by
  constructor
  · decide
  · decide

/-- C14: after `replace(b, c)` and then `replace(a, b)` on an empty list, two
calls with distinct needles, the list is `a -> b, b -> c`: the value `b` of the
first entry is the needle of the second, so the list is not in normal form. -/
theorem replace_keeps_intermediate :
    replace_calls 4 [] [(ref_b, ref_c), (ref_a, ref_b)]
      = some [⟨ref_a, ref_b⟩, ⟨ref_b, ref_c⟩] ∧
    ¬ normal_form [⟨ref_a, ref_b⟩, ⟨ref_b, ref_c⟩] := by
  constructor
  · decide
  · decide

/-! ## `RGCImpl::build_nodes` -/

theorem marked_set (arena : List Node) (p : Nat) (n : Node) (h : arena[p]? = some n) (q : Nat) :
    Marked (arena.set p { n with flag := 1 }) q ↔ q = p ∨ Marked arena q := by
  have hp : p < arena.length := by
    by_contra hc
    rw [List.getElem?_eq_none (by omega)] at h; cases h
  unfold Marked
  by_cases hq : p = q
  · subst hq
    simp [List.getElem?_set, hp]
  · simp only [List.getElem?_set, hq, if_false]
    constructor
    · intro h1; exact Or.inr h1
    · intro h1
      rcases h1 with h1 | h1
      · exact absurd h1.symm hq
      · exact h1

theorem mark_push_inv {A0 : List Node} {refs : List Nat} {st : MarkState} {seen : List Nat}
    (inv : MarkInv A0 refs st seen) (p : Nat) (hp : p < A0.length)
    (hr : Reachable A0 refs p) :
    ∃ st1, mark_push st (some p) = some st1 ∧ MarkInv A0 refs st1 seen ∧
      Marked st1.arena p ∧ ∀ q, Marked st.arena q → Marked st1.arena q := by
  have hlt : p < st.arena.length := by rw [inv.len]; exact hp
  have hn : st.arena[p]? = some st.arena[p] := List.getElem?_eq_getElem hlt
  by_cases hf : (st.arena[p]).flag = 0
  · refine ⟨{ arena := st.arena.set p { st.arena[p] with flag := 1 },
              work_queue := p :: st.work_queue }, ?_, ?_, ?_, ?_⟩
    · simp [mark_push, hn, hf]
    · have hnm : ¬ Marked st.arena p := by
        rintro ⟨n, h1, h2⟩
        rw [hn] at h1; cases h1; exact h2 hf
      refine ⟨?_, ?_, ?_, ?_, ?_⟩
      · simp [inv.len]
      · intro q n hq
        by_cases hpq : p = q
        · subst hpq
          simp only [List.getElem?_set, if_true, hlt] at hq
          cases hq
          exact inv.args p (st.arena[p]) hn
        · simp only [List.getElem?_set, hpq, if_false] at hq
          exact inv.args q n hq
      · intro q
        rw [marked_set _ _ _ hn, inv.marked_iff]
        simp only [List.mem_cons]
        tauto
      · show (p :: (st.work_queue ++ seen)).Nodup
        refine List.nodup_cons.mpr ⟨?_, inv.nodup⟩
        intro hmem
        exact hnm ((inv.marked_iff p).mpr (List.mem_append.mp hmem))
      · intro q hq
        rcases (marked_set _ _ _ hn q).mp hq with h1 | h1
        · rw [h1]; exact hr
        · exact inv.reach q h1
    · exact (marked_set _ _ _ hn p).mpr (Or.inl rfl)
    · intro q hq
      exact (marked_set _ _ _ hn q).mpr (Or.inr hq)
  · refine ⟨st, ?_, inv, ⟨_, hn, hf⟩, fun q hq => hq⟩
    simp [mark_push, hn, hf]

theorem push_args_inv {A0 : List Node} {refs : List Nat} {seen : List Nat} (rs : List Ref) :
    ∀ (st : MarkState), MarkInv A0 refs st seen →
    (∀ r ∈ rs, ∃ b, r.node = some b ∧ b < A0.length ∧ Reachable A0 refs b) →
    ∃ st1, push_args st rs = some st1 ∧ MarkInv A0 refs st1 seen ∧
      (∀ r ∈ rs, ∀ b, r.node = some b → Marked st1.arena b) ∧
      ∀ q, Marked st.arena q → Marked st1.arena q := by
  induction rs with
  | nil =>
    intro st inv _
    exact ⟨st, rfl, inv, by simp, fun q hq => hq⟩
  | cons r rs ih =>
    intro st inv hrs
    obtain ⟨b, hb, hlt, hreach⟩ := hrs r (List.mem_cons_self _ _)
    obtain ⟨st1, h1, inv1, hm1, mono1⟩ := mark_push_inv inv b hlt hreach
    obtain ⟨st2, h2, inv2, hm2, mono2⟩ :=
      ih st1 inv1 (fun x hx => hrs x (List.mem_cons_of_mem _ hx))
    refine ⟨st2, ?_, inv2, ?_, fun q hq => mono2 q (mono1 q hq)⟩
    · simp [push_args, hb, h1, h2]
    · intro x hx c hc
      rcases List.mem_cons.mp hx with h | h
      · subst h
        rw [hb] at hc; cases hc
        exact mono2 _ hm1
      · exact hm2 x h c hc

theorem push_refs_inv {A0 : List Node} {refs : List Nat} (ps : List Nat) :
    ∀ (st : MarkState), MarkInv A0 refs st [] →
    (∀ p ∈ ps, p < A0.length ∧ Reachable A0 refs p) →
    ∃ st1, push_refs st ps = some st1 ∧ MarkInv A0 refs st1 [] ∧
      (∀ p ∈ ps, Marked st1.arena p) ∧
      ∀ q, Marked st.arena q → Marked st1.arena q := by
  induction ps with
  | nil =>
    intro st inv _
    exact ⟨st, rfl, inv, by simp, fun q hq => hq⟩
  | cons p ps ih =>
    intro st inv hps
    obtain ⟨hlt, hreach⟩ := hps p (List.mem_cons_self _ _)
    obtain ⟨st1, h1, inv1, hm1, mono1⟩ := mark_push_inv inv p hlt hreach
    obtain ⟨st2, h2, inv2, hm2, mono2⟩ :=
      ih st1 inv1 (fun x hx => hps x (List.mem_cons_of_mem _ hx))
    refine ⟨st2, ?_, inv2, ?_, fun q hq => mono2 q (mono1 q hq)⟩
    · simp [push_refs, h1, h2]
    · intro x hx
      rcases List.mem_cons.mp hx with h | h
      · subst h; exact mono2 _ hm1
      · exact hm2 x h

theorem mark_inv_length_le {A0 : List Node} {refs : List Nat} {st : MarkState}
    {seen : List Nat} (inv : MarkInv A0 refs st seen) :
    (st.work_queue ++ seen).length ≤ A0.length := by
  have hsub : (st.work_queue ++ seen) ⊆ List.range A0.length := by
    intro p hp
    obtain ⟨n, hn, _⟩ := (inv.marked_iff p).mpr (List.mem_append.mp hp)
    rw [List.mem_range, ← inv.len]
    by_contra hc
    rw [List.getElem?_eq_none (by omega)] at hn; cases hn
  have := (List.subperm_of_subset inv.nodup hsub).length_le
  simpa using this

/-- The loop of `build_nodes` ends with an empty queue; every node it has
stored has all its arguments marked. -/
theorem build_nodes_loop_inv {A0 : List Node} {refs : List Nat}
    (hclosed : ClosedArena A0 refs) (fuel : Nat) :
    ∀ (st : MarkState) (out : List Nat), MarkInv A0 refs st out →
    (∀ p ∈ out, ∀ b, ArgEdge A0 p b → Marked st.arena b) →
    A0.length < fuel + out.length →
    ∃ st1 nodes, build_nodes_loop fuel st out = some (st1, nodes) ∧
      MarkInv A0 refs st1 nodes ∧ st1.work_queue = [] ∧
      (∀ p ∈ nodes, ∀ b, ArgEdge A0 p b → Marked st1.arena b) ∧
      ∀ q, Marked st.arena q → Marked st1.arena q := by
  induction fuel with
  | zero =>
    intro st out inv _ hfuel
    have := mark_inv_length_le inv
    simp only [List.length_append] at this
    omega
  | succ fuel ih =>
    intro st out inv hout hfuel
    cases hq : st.work_queue with
    | nil =>
      exact ⟨st, out, by simp [build_nodes_loop, hq], inv, hq, hout, fun q h => h⟩
    | cons p queue =>
      have hpm : Marked st.arena p := (inv.marked_iff p).mpr (Or.inl (by simp [hq]))
      obtain ⟨n, hn, _⟩ := hpm
      obtain ⟨n0, hn0, hargs⟩ := inv.args p n hn
      have hnd : (p :: (queue ++ out)).Nodup := by
        have := inv.nodup; rw [hq] at this; exact this
      have inv0 : MarkInv A0 refs { st with work_queue := queue } (out ++ [p]) := by
        refine ⟨inv.len, inv.args, ?_, ?_, inv.reach⟩
        · intro x
          rw [inv.marked_iff, hq]
          simp only [List.mem_cons, List.mem_append, List.mem_singleton]
          tauto
        · show (queue ++ (out ++ [p])).Nodup
          rw [← List.append_assoc]
          exact List.nodup_append_comm.mp (by simpa using hnd)
      have hpr : Reachable A0 refs p := inv.reach p ⟨n, hn, ‹_›⟩
      have hvalid : ∀ r ∈ n.args, ∃ b, r.node = some b ∧ b < A0.length ∧ Reachable A0 refs b := by
        intro r hr
        rw [hargs] at hr
        obtain ⟨b, hb, hlt⟩ := hclosed.2 n0 (List.getElem?_mem hn0) r hr
        refine ⟨b, hb, hlt, ?_⟩
        obtain ⟨x, hx, hpath⟩ := hpr
        exact ⟨x, hx, hpath.tail ⟨n0, hn0, r, hr, hb⟩⟩
      obtain ⟨st1, h1, inv1, hm1, mono1⟩ := push_args_inv n.args _ inv0 hvalid
      have hout1 : ∀ x ∈ out ++ [p], ∀ b, ArgEdge A0 x b → Marked st1.arena b := by
        intro x hx b hb
        rcases List.mem_append.mp hx with h | h
        · exact mono1 b (hout x h b hb)
        · rw [List.mem_singleton] at h
          subst h
          obtain ⟨m, hm, r, hr, hrb⟩ := hb
          rw [hn0] at hm; cases hm
          rw [← hargs] at hr
          exact hm1 r hr b hrb
      obtain ⟨st2, nodes, h2, inv2, hq2, hout2, mono2⟩ :=
        ih st1 (out ++ [p]) inv1 hout1 (by simp only [List.length_append, List.length_singleton]; omega)
      refine ⟨st2, nodes, ?_, inv2, hq2, hout2, fun q h => mono2 q (mono1 q h)⟩
      simp [build_nodes_loop, hq, hn, h1, h2]

theorem build_nodes_spec (arena : List Node) (ref_nodes : List Nat)
    (hflags : ∀ n ∈ arena, n.flag = 0) (hclosed : ClosedArena arena ref_nodes)
    (fuel : Nat) (hfuel : arena.length < fuel) :
    ∃ arena1 nodes, build_nodes fuel arena ref_nodes = some (arena1, nodes) ∧
      nodes.Nodup ∧ ∀ p, p ∈ nodes ↔ Reachable arena ref_nodes p := by
  have inv0 : MarkInv arena ref_nodes { arena := arena, work_queue := [] } [] := by
    refine ⟨rfl, fun p n h => ⟨n, h, rfl⟩, ?_, List.nodup_nil, ?_⟩
    · intro p
      simp only [List.not_mem_nil, or_self, iff_false]
      rintro ⟨n, hn, hf⟩
      exact hf (hflags n (List.getElem?_mem hn))
    · rintro p ⟨n, hn, hf⟩
      exact absurd (hflags n (List.getElem?_mem hn)) hf
  obtain ⟨st1, h1, inv1, hm1, _⟩ := push_refs_inv ref_nodes _ inv0
    (fun p hp => ⟨hclosed.1 p hp, p, hp, Relation.ReflTransGen.refl⟩)
  obtain ⟨st2, nodes, h2, inv2, hq2, hout2, mono2⟩ :=
    build_nodes_loop_inv hclosed fuel st1 [] inv1 (by simp) (by simpa using hfuel)
  refine ⟨clear_flags st2.arena nodes, nodes, ?_, ?_, ?_⟩
  · simp [build_nodes, h1, h2]
  · have := inv2.nodup; rw [hq2] at this; simpa using this
  · intro p
    have hmem : ∀ q, Marked st2.arena q ↔ q ∈ nodes := by
      intro q; rw [inv2.marked_iff, hq2]; simp
    constructor
    · intro hp
      exact inv2.reach p ((hmem p).mpr hp)
    · rintro ⟨r, hr, hpath⟩
      have hrn : r ∈ nodes := (hmem r).mp (mono2 r (hm1 r hr))
      induction hpath with
      | refl => exact hrn
      | tail _ hedge ih => exact (hmem _).mp (hout2 _ ih _ hedge)

/-- C19: on a node graph whose pointers all point into the arena and whose
flags are all 0, `build_nodes` returns, and `nodes` holds exactly the nodes
reachable from `ref_nodes` through argument edges, each once. -/
theorem build_nodes_collects_reachable (arena : List Node) (ref_nodes : List Nat)
    (hflags : ∀ n ∈ arena, n.flag = 0) (hclosed : ClosedArena arena ref_nodes) :
    ∃ arena1 nodes, build_nodes (arena.length + 1) arena ref_nodes = some (arena1, nodes) ∧
      nodes.Nodup ∧ ∀ p, p ∈ nodes ↔ Reachable arena ref_nodes p :=
  build_nodes_spec arena ref_nodes hflags hclosed (arena.length + 1) (Nat.lt_succ_self _)

theorem cyclic_arena_closed : ClosedArena cyclic_arena [0] := by
  constructor
  · intro p hp; rw [List.mem_singleton.mp hp]; decide
  · intro n hn r hr
    simp only [cyclic_arena, List.mem_cons, List.mem_singleton, List.not_mem_nil, or_false] at hn
    rcases hn with h | h | h | h <;> subst h <;>
      simp only [List.mem_cons, List.mem_singleton, List.not_mem_nil, or_false] at hr
    · subst hr; exact ⟨1, rfl, by decide⟩
    · rcases hr with h | h <;> subst h
      · exact ⟨0, rfl, by decide⟩
      · exact ⟨2, rfl, by decide⟩

theorem cyclic_arena_flags : ∀ n ∈ cyclic_arena, n.flag = 0 := by
  intro n hn
  simp only [cyclic_arena, List.mem_cons, List.mem_singleton, List.not_mem_nil, or_false] at hn
  rcases hn with h | h | h | h <;> subst h <;> rfl

theorem build_nodes_collects_reachable_witness :
    ClosedArena cyclic_arena [0] ∧
    ∃ arena1 nodes, build_nodes (cyclic_arena.length + 1) cyclic_arena [0]
        = some (arena1, nodes) ∧
      nodes.Nodup ∧ ∀ p, p ∈ nodes ↔ Reachable cyclic_arena [0] p :=
  ⟨cyclic_arena_closed,
   build_nodes_collects_reachable cyclic_arena [0] cyclic_arena_flags cyclic_arena_closed⟩

theorem cyclic_arena_nodes :
    (build_nodes 5 cyclic_arena [0]).map Prod.snd = some [0, 1, 2] := by
  rfl

/-! ## The module garbage collection -/

theorem counts_le_refl (m : List (Nat × Nat)) : CountsLe m m :=
  List.forall₂_same.mpr (fun _ _ => ⟨rfl, le_refl _⟩)

theorem counts_le_trans {m1 m2 m3 : List (Nat × Nat)} (h1 : CountsLe m1 m2)
    (h2 : CountsLe m2 m3) : CountsLe m1 m3 := by
  unfold CountsLe at *
  induction h1 generalizing m3 with
  | nil => cases h2; exact List.Forall₂.nil
  | cons hab _ ih =>
    cases h2 with
    | cons hbc hrest =>
      exact List.Forall₂.cons ⟨hab.1.trans hbc.1, hab.2.trans hbc.2⟩ (ih hrest)

theorem counts_le_mem_right {m1 m2 : List (Nat × Nat)} (h : CountsLe m1 m2)
    (e2 : Nat × Nat) (he : e2 ∈ m2) : ∃ e1 ∈ m1, e1.1 = e2.1 ∧ e1.2 ≤ e2.2 := by
  unfold CountsLe at h
  induction h with
  | nil => cases he
  | cons hab _ ih =>
    rcases List.mem_cons.mp he with h1 | h1
    · subst h1; exact ⟨_, List.mem_cons_self _ _, hab⟩
    · obtain ⟨e1, hm, hr⟩ := ih h1
      exact ⟨e1, List.mem_cons_of_mem _ hm, hr⟩

theorem counts_le_mem_left {m1 m2 : List (Nat × Nat)} (h : CountsLe m1 m2)
    (e1 : Nat × Nat) (he : e1 ∈ m1) : ∃ e2 ∈ m2, e1.1 = e2.1 ∧ e1.2 ≤ e2.2 := by
  unfold CountsLe at h
  induction h with
  | nil => cases he
  | cons hab _ ih =>
    rcases List.mem_cons.mp he with h1 | h1
    · subst h1; exact ⟨_, List.mem_cons_self _ _, hab⟩
    · obtain ⟨e2, hm, hr⟩ := ih h1
      exact ⟨e2, List.mem_cons_of_mem _ hm, hr⟩

theorem pg_contains_iff (m : List (Nat × Nat)) (p : Option Nat) :
    pg_contains m p = true ↔ ∃ e ∈ m, some e.1 = p := by
  simp [pg_contains]

theorem counts_le_contains {m1 m2 : List (Nat × Nat)} (h : CountsLe m1 m2) (p : Option Nat) :
    pg_contains m1 p = pg_contains m2 p := by
  rw [Bool.eq_iff_iff, pg_contains_iff, pg_contains_iff]
  constructor
  · rintro ⟨e, he, hp⟩
    obtain ⟨e2, hm, hk, _⟩ := counts_le_mem_left h e he
    exact ⟨e2, hm, by rw [← hk]; exact hp⟩
  · rintro ⟨e, he, hp⟩
    obtain ⟨e1, hm, hk, _⟩ := counts_le_mem_right h e he
    exact ⟨e1, hm, by rw [hk]; exact hp⟩

theorem counted_mono {m1 m2 : List (Nat × Nat)} (h : CountsLe m1 m2) (q : Nat)
    (hq : Counted q m1) : Counted q m2 := by
  intro e2 he2 hk
  obtain ⟨e1, hm, hk1, hle⟩ := counts_le_mem_right h e2 he2
  have := hq e1 hm (hk1.trans hk)
  omega

theorem pg_increment_le (m : List (Nat × Nat)) (p : Option Nat) :
    CountsLe m (pg_increment m p) := by
  unfold CountsLe pg_increment
  rw [List.forall₂_map_right_iff, List.forall₂_same]
  intro e _
  split_ifs <;> simp

theorem pg_increment_counted (m : List (Nat × Nat)) (q : Nat) :
    Counted q (pg_increment m (some q)) := by
  intro e he hk
  simp only [pg_increment, List.mem_map] at he
  obtain ⟨e0, _, h0⟩ := he
  by_cases hc : some e0.1 = some q
  · rw [if_pos hc] at h0; rw [← h0]; simp
  · rw [if_neg hc] at h0; rw [h0] at hc; exact absurd (congrArg some hk) hc

theorem count_args_le (args : List Ref) : ∀ (m : List (Nat × Nat)),
    CountsLe m (count_args m args) := by
  induction args with
  | nil => intro m; exact counts_le_refl m
  | cons r rs ih =>
    intro m
    simp only [count_args, List.foldl_cons]
    split_ifs
    · exact counts_le_trans (pg_increment_le m r.node) (ih _)
    · exact ih m

theorem count_args_counted (args : List Ref) (q : Nat) : ∀ (m : List (Nat × Nat)),
    (∃ r ∈ args, r.node = some q) → Counted q (count_args m args) := by
  induction args with
  | nil => intro m h; obtain ⟨r, hr, _⟩ := h; cases hr
  | cons r rs ih =>
    intro m h
    obtain ⟨x, hx, hxq⟩ := h
    simp only [count_args, List.foldl_cons]
    rcases List.mem_cons.mp hx with h1 | h1
    · subst h1
      rw [hxq]
      by_cases hc : pg_contains m (some q) = true
      · rw [if_pos hc]
        exact counted_mono (count_args_le rs _) q (pg_increment_counted m q)
      · rw [if_neg hc]
        refine counted_mono (count_args_le rs _) q ?_
        intro e he hk
        exact absurd ((pg_contains_iff m (some q)).mpr ⟨e, he, by rw [hk]⟩) hc
    · split_ifs
      · exact ih _ ⟨x, h1, hxq⟩
      · exact ih _ ⟨x, h1, hxq⟩

theorem gc_scan_node_le (st : GcScan) (pn : Nat × Node) :
    CountsLe st.potential_garbage (gc_scan_node st pn).potential_garbage := by
  unfold gc_scan_node
  split_ifs
  · exact counts_le_refl _
  · exact counts_le_refl _
  · exact count_args_le _ _

theorem gc_scan_le (l : List (Nat × Node)) : ∀ (st : GcScan),
    CountsLe st.potential_garbage (l.foldl gc_scan_node st).potential_garbage := by
  induction l with
  | nil => intro st; exact counts_le_refl _
  | cons x xs ih =>
    intro st
    exact counts_le_trans (gc_scan_node_le st x) (ih _)

/-- A node that the scan counts leaves a positive count on each of its
arguments. -/
theorem gc_scan_counted (l : List (Nat × Node)) (p q : Nat) (n : Node) :
    ∀ (st : GcScan), (p, n) ∈ l → pg_contains st.potential_garbage (some p) = false →
    n.kind ≠ NodeKind.GARBAGE → (∃ r ∈ n.args, r.node = some q) →
    Counted q (l.foldl gc_scan_node st).potential_garbage := by
  induction l with
  | nil => intro st h; cases h
  | cons x xs ih =>
    intro st hmem hpg hkind hargs
    rcases List.mem_cons.mp hmem with h1 | h1
    · subst h1
      refine counted_mono (gc_scan_le xs _) q ?_
      simp only [gc_scan_node, hpg, hkind, if_false, Bool.false_eq_true]
      exact count_args_counted _ q _ hargs
    · refine ih _ h1 ?_ hkind hargs
      rw [← counts_le_contains (gc_scan_node_le st x)]
      exact hpg

/-- C20 (amended): a node is put on `to_garbage`, and destroyed for its count,
only if it is potential garbage and no node of the arena that is neither
potential garbage nor `GARBAGE` takes it as an argument. -/
theorem module_gc_counts_live_references (op_arena : List Node)
    (potential_garbage : List (Nat × Nat)) (garbage : List Nat) (q : Nat) :
    q ∈ (module_gc op_arena potential_garbage garbage).to_garbage →
    pg_contains potential_garbage (some q) = true ∧
    ∀ (p : Nat) (n : Node), op_arena[p]? = some n →
      pg_contains potential_garbage (some p) = false → n.kind ≠ NodeKind.GARBAGE →
      ∀ r ∈ n.args, r.node ≠ some q := by
  intro hq
  simp only [module_gc, List.mem_map, List.mem_filter, decide_eq_true_eq] at hq
  obtain ⟨e, ⟨he, hzero⟩, hk⟩ := hq
  have hle := gc_scan_le op_arena.enum { kept := [], potential_garbage := potential_garbage }
  constructor
  · rw [counts_le_contains hle]
    exact (pg_contains_iff _ _).mpr ⟨e, he, by rw [hk]⟩
  · intro p n hp hpg hkind r hr hrq
    have hmem : (p, n) ∈ op_arena.enum := by
      rw [List.mem_iff_getElem?]
      exact ⟨p, by simp [List.enum, List.getElem?_enumFrom, hp]⟩
    have := gc_scan_counted op_arena.enum p q n _ hmem hpg hkind ⟨r, hr, hrq⟩ e he hk
    omega

/-- C20: the live call `0` keeps node `1` alive, node `1` is skipped by the
count, and node `2` is destroyed although the surviving node `1` takes it as
its argument. -/
theorem survivor_refers_to_destroyed :
    (module_gc garbage_chain [(1, 0), (2, 0)] []).destroyed = [2] ∧
    (module_gc garbage_chain [(1, 0), (2, 0)] []).op_arena = [0, 1, 2] ∧
    (garbage_chain[1]?).map Node.kind = some NodeKind.SPLICE ∧
    (garbage_chain[1]?).map Node.args = some [⟨some 2, 0⟩] := by
  refine ⟨by decide, by decide, rfl, rfl⟩

theorem module_gc_counts_live_references_witness :
    2 ∈ (module_gc garbage_chain [(1, 0), (2, 0)] []).to_garbage ∧
    (pg_contains [(1, 0), (2, 0)] (some 2) = true ∧
      ∀ (p : Nat) (n : Node), garbage_chain[p]? = some n →
        pg_contains [(1, 0), (2, 0)] (some p) = false → n.kind ≠ NodeKind.GARBAGE →
        ∀ r ∈ n.args, r.node ≠ some 2) :=
  ⟨by decide,
   module_gc_counts_live_references garbage_chain [(1, 0), (2, 0)] [] 2 (by decide)⟩

/-! ## `build_urdef` -/

theorem link_at_set_link (nodes : List Node) (l l' : LinkPtr) (c : ChainLink) :
    link_at (set_link nodes l c) l' =
      if l' = l then (link_at nodes l).map (fun _ => c) else link_at nodes l' := by
  unfold set_link link_at
  cases hn : nodes[l.node]? with
  | none =>
    by_cases h : l' = l
    · subst h; simp [hn]
    · simp [h]
  | some n =>
    have hlt : l.node < nodes.length := by
      by_contra hc
      rw [List.getElem?_eq_none (by omega)] at hn; cases hn
    by_cases h : l' = l
    · subst h
      simp only [if_true, List.getElem?_set, hlt, Option.some_bind, Option.map]
      by_cases hi : l'.index < n.links.length
      · simp [List.getElem?_set, hi, List.getElem?_eq_getElem hi]
      · simp [List.getElem?_set, hi, List.getElem?_eq_none (Nat.le_of_not_lt hi)]
    · rw [if_neg h]
      by_cases hp : l.node = l'.node
      · have hidx : l.index ≠ l'.index := by
          intro he; apply h
          cases l; cases l'; simp_all
        rw [← hp, List.getElem?_set, if_pos rfl, if_pos hlt, hn]
        simp only [Option.some_bind]
        rw [List.getElem?_set, if_neg hidx]
      · rw [List.getElem?_set, if_neg hp]

theorem type_set_link (nodes : List Node) (l : LinkPtr) (c : ChainLink) (p : Nat) :
    ((set_link nodes l c)[p]?).map Node.type = (nodes[p]?).map Node.type := by
  unfold set_link
  cases hn : nodes[l.node]? with
  | none => rfl
  | some n =>
    have hlt : l.node < nodes.length := by
      by_contra hc
      rw [List.getElem?_eq_none (by omega)] at hn; cases hn
    by_cases hp : l.node = p
    · subst hp; simp [List.getElem?_set, hlt, hn]
    · simp [List.getElem?_set, hp]

theorem length_set_link (nodes : List Node) (l : LinkPtr) (c : ChainLink) :
    (set_link nodes l c).length = nodes.length := by
  unfold set_link
  cases nodes[l.node]? <;> simp

theorem same_links_refl (nodes : List Node) : SameLinks nodes nodes :=
  ⟨fun _ => rfl, fun _ => rfl, rfl⟩

theorem same_links_get {nodes0 nodes : List Node} (h : SameLinks nodes0 nodes) (l : LinkPtr)
    (c0 : ChainLink) (h0 : link_at nodes0 l = some c0) :
    ∃ c, link_at nodes l = some c ∧ c.def_ = c0.def_ ∧ c.prev = c0.prev ∧ c.next = c0.next := by
  have := h.links l
  rw [h0] at this
  cases hc : link_at nodes l with
  | none => rw [hc] at this; cases this
  | some c =>
    rw [hc] at this
    simp only [Option.map_some', Option.some.injEq] at this
    refine ⟨c, rfl, ?_, ?_, ?_⟩
    · have h1 := congrArg ChainLink.def_ this; exact h1
    · have h1 := congrArg ChainLink.prev this; exact h1
    · have h1 := congrArg ChainLink.next this; exact h1

theorem same_links_stamp {nodes0 nodes : List Node} (h : SameLinks nodes0 nodes) (l : LinkPtr)
    (c : ChainLink) (hc : link_at nodes l = some c) (d : Ref) :
    SameLinks nodes0 (set_link nodes l { c with urdef := d }) := by
  refine ⟨?_, ?_, ?_⟩
  · intro x
    rw [link_at_set_link]
    by_cases hx : x = l
    · subst hx
      rw [if_pos rfl, ← h.links x, hc]
      rfl
    · rw [if_neg hx]; exact h.links x
  · intro p; rw [type_set_link]; exact h.types p
  · rw [length_set_link]; exact h.length

/-- The stamping loop of `build_urdef` along the rest `l :: rest` of a chain. -/
theorem stamp_urdef_chain (nodes0 : List Node) (d : Ref) (rest : List LinkPtr) :
    ∀ (l : LinkPtr) (nodes : List Node) (fuel : Nat), SameLinks nodes0 nodes →
    List.Chain (fun (a b : LinkPtr) => ∃ ca, link_at nodes0 a = some ca ∧ ca.next = some b)
      l rest →
    (∃ ct, link_at nodes0 ((l :: rest).getLast (List.cons_ne_nil _ _)) = some ct ∧
      ct.next = none) →
    rest.length < fuel →
    ∃ nodes1, stamp_urdef d fuel nodes l = some nodes1 ∧ SameLinks nodes0 nodes1 ∧
      (∀ x ∈ l :: rest, (link_at nodes1 x).map ChainLink.urdef = some d) ∧
      ∀ x, x ∉ l :: rest → link_at nodes1 x = link_at nodes x := by
  induction rest with
  | nil =>
    intro l nodes fuel hs _ hlast hfuel
    obtain ⟨ct, hct, hnext⟩ := hlast
    simp only [List.getLast_singleton] at hct
    obtain ⟨c, hc, _, _, hn⟩ := same_links_get hs l ct hct
    obtain ⟨f, rfl⟩ : ∃ f, fuel = f + 1 := ⟨fuel - 1, by omega⟩
    refine ⟨set_link nodes l { c with urdef := d }, ?_, same_links_stamp hs l c hc d, ?_, ?_⟩
    · simp [stamp_urdef, hc, hn, hnext]
    · intro x hx
      rw [List.mem_singleton] at hx
      subst hx
      rw [link_at_set_link, if_pos rfl, hc]; rfl
    · intro x hx
      rw [List.mem_singleton] at hx
      rw [link_at_set_link, if_neg hx]
  | cons b rest ih =>
    intro l nodes fuel hs hchain hlast hfuel
    obtain ⟨f, rfl⟩ : ∃ f, fuel = f + 1 := ⟨fuel - 1, by simp at hfuel; omega⟩
    rw [List.chain_cons] at hchain
    obtain ⟨⟨ca, hca, hnext⟩, hrest⟩ := hchain
    obtain ⟨c, hc, _, _, hn⟩ := same_links_get hs l ca hca
    have hs1 := same_links_stamp hs l c hc d
    have hlast1 : ∃ ct, link_at nodes0 ((b :: rest).getLast (List.cons_ne_nil _ _)) = some ct ∧
        ct.next = none := by
      simpa [List.getLast_cons] using hlast
    obtain ⟨nodes1, h1, hs2, hst, hun⟩ :=
      ih b (set_link nodes l { c with urdef := d }) f hs1 hrest hlast1
        (by simp at hfuel; omega)
    refine ⟨nodes1, ?_, hs2, ?_, ?_⟩
    · have hcn : c.next = some b := hn.trans hnext
      rw [stamp_urdef]
      simp only [hc]
      split
      · rename_i hnone; rw [hcn] at hnone; cases hnone
      · rename_i nx hnx
        rw [hcn] at hnx; cases hnx
        exact h1
    · intro x hx
      by_cases hxr : x ∈ b :: rest
      · exact hst x hxr
      · have hxl : x = l := by
          rcases List.mem_cons.mp hx with h | h
          · exact h
          · exact absurd h hxr
        subst hxl
        rw [hun x hxr, link_at_set_link, if_pos rfl, hc]; rfl
    · intro x hx
      have hxr : x ∉ b :: rest := fun h => hx (List.mem_cons_of_mem _ h)
      have hxl : x ≠ l := fun h => hx (by rw [h]; exact List.mem_cons_self _ _)
      rw [hun x hxr, link_at_set_link, if_neg hxl]

theorem chain_has_pred {R : LinkPtr → LinkPtr → Prop} (rest : List LinkPtr) :
    ∀ (h : LinkPtr), List.Chain R h rest → ∀ l ∈ rest, ∃ a, R a l := by
  induction rest with
  | nil => intro h _ l hl; cases hl
  | cons b rest ih =>
    intro h hc l hl
    rw [List.chain_cons] at hc
    rcases List.mem_cons.mp hl with h1 | h1
    · subst h1; exact ⟨h, hc.1⟩
    · exact ih b hc.2 l h1

/-- A link of a chain that has no `prev` is the head of the chain. -/
theorem is_chain_head {nodes : List Node} {ch : List LinkPtr} (hch : IsChain nodes ch)
    (l : LinkPtr) (hl : l ∈ ch) (c : ChainLink) (hc : link_at nodes l = some c)
    (hprev : c.prev = none) : ch.head? = some l := by
  cases ch with
  | nil => cases hl
  | cons h rest =>
    rcases List.mem_cons.mp hl with h1 | h1
    · subst h1; rfl
    · have hchain : List.Chain _ h rest := hch.linked
      obtain ⟨a, _, cb, hcb, hp⟩ := chain_has_pred rest h hchain l h1
      rw [hc] at hcb; cases hcb
      rw [hprev] at hp; cases hp

theorem build_urdef_link_inv {nodes0 : List Node} {chains : List (List LinkPtr)}
    (hd : ChainDecomposition nodes0 chains) (fuel : Nat)
    (hfuel : ∀ ch ∈ chains, ch.length ≤ fuel)
    (nodes : List Node) (inv : UrdefInv nodes0 chains nodes) (l : LinkPtr)
    (hl : (link_at nodes0 l).isSome) :
    ∃ nodes1, build_urdef_link fuel nodes l = some nodes1 ∧ UrdefInv nodes0 chains nodes1 ∧
      (∀ ch ∈ chains, Stamped nodes0 nodes ch → Stamped nodes0 nodes1 ch) ∧
      ∀ ch ∈ chains, ch.head? = some l → Stamped nodes0 nodes1 ch := by
  obtain ⟨c0, hc0⟩ := Option.isSome_iff_exists.mp hl
  obtain ⟨c, hc, hdef, hprev, hnext⟩ := same_links_get inv.same l c0 hc0
  by_cases hu : c.urdef.node.isSome = true
  · refine ⟨nodes, by simp [build_urdef_link, hc, hu], inv, fun _ _ h => h, ?_⟩
    intro ch hch hhead
    rcases inv.state ch hch with h1 | h1
    · obtain ⟨c1, hc1, hnull⟩ := h1 l (List.mem_of_mem_head? hhead)
      rw [hc] at hc1; cases hc1
      rw [hnull] at hu; cases hu
    · exact h1
  · by_cases hp : c.prev.isNone = true
    · have hp0 : c0.prev = none := by
        rw [← hprev]; exact Option.isNone_iff_eq_none.mp hp
      obtain ⟨ch, hch, hlch⟩ := hd.cover l hl
      have hhead := is_chain_head (hd.chain ch hch) l hlch c0 hc0 hp0
      obtain ⟨rest, rfl⟩ : ∃ rest, ch = l :: rest := by
        cases ch with
        | nil => cases hhead
        | cons h rest => simp at hhead; subst hhead; exact ⟨rest, rfl⟩
      have hchain : List.Chain (fun (a b : LinkPtr) =>
          ∃ ca, link_at nodes0 a = some ca ∧ ca.next = some b) l rest := by
        have h1 : List.Chain _ l rest := (hd.chain _ hch).linked
        exact h1.imp (fun _ _ h => h.1)
      have hlast := (hd.chain _ hch).last_next ((l :: rest).getLast (List.cons_ne_nil _ _))
        (List.getLast?_eq_getLast _ _)
      have hlen : rest.length < fuel := by
        have := hfuel _ hch
        simp only [List.length_cons] at this
        omega
      obtain ⟨nodes1, h1, hs1, hst, hun⟩ :=
        stamp_urdef_chain nodes0 c.def_ rest l nodes fuel inv.same hchain hlast hlen
      have hstamped : Stamped nodes0 nodes1 (l :: rest) := by
        intro h hh
        simp only [List.head?_cons, Option.some.injEq] at hh
        subst hh
        exact ⟨c0, hc0, fun x hx => by rw [← hdef]; exact hst x hx⟩
      have hother : ∀ ch2 ∈ chains, ch2 ≠ l :: rest → ∀ x ∈ ch2,
          link_at nodes1 x = link_at nodes x := by
        intro ch2 hch2 hne x hx
        apply hun
        intro hx1
        exact hne (hd.disjoint ch2 hch2 _ hch x hx hx1)
      refine ⟨nodes1, ?_, ⟨hs1, ?_⟩, ?_, ?_⟩
      · simp [build_urdef_link, hc, hu, hp, h1]
      · intro ch2 hch2
        by_cases hne : ch2 = l :: rest
        · rw [hne]; exact Or.inr hstamped
        · rcases inv.state ch2 hch2 with h2 | h2
          · left
            intro x hx
            rw [hother ch2 hch2 hne x hx]
            exact h2 x hx
          · right
            intro h hh
            obtain ⟨ch0, hh0, hall⟩ := h2 h hh
            exact ⟨ch0, hh0, fun x hx => by rw [hother ch2 hch2 hne x hx]; exact hall x hx⟩
      · intro ch2 hch2 h2
        by_cases hne : ch2 = l :: rest
        · rw [hne]; exact hstamped
        · intro h hh
          obtain ⟨ch0, hh0, hall⟩ := h2 h hh
          exact ⟨ch0, hh0, fun x hx => by rw [hother ch2 hch2 hne x hx]; exact hall x hx⟩
      · intro ch2 hch2 hh
        have : ch2 = l :: rest :=
          hd.disjoint ch2 hch2 _ hch l (List.mem_of_mem_head? hh) (List.mem_cons_self _ _)
        rw [this]; exact hstamped
    · refine ⟨nodes, by simp [build_urdef_link, hc, hu, hp], inv, fun _ _ h => h, ?_⟩
      intro ch hch hhead
      obtain ⟨c1, hc1, hnone⟩ := (hd.chain ch hch).head_prev l hhead
      rw [hc0] at hc1; cases hc1
      rw [← hprev] at hnone
      rw [hnone] at hp
      exact absurd rfl hp

theorem build_urdef_links_inv {nodes0 : List Node} {chains : List (List LinkPtr)}
    (hd : ChainDecomposition nodes0 chains) (fuel : Nat)
    (hfuel : ∀ ch ∈ chains, ch.length ≤ fuel) (ls : List LinkPtr) :
    ∀ (nodes : List Node), UrdefInv nodes0 chains nodes →
    (∀ l ∈ ls, (link_at nodes0 l).isSome) →
    ∃ nodes1, build_urdef_links fuel nodes ls = some nodes1 ∧ UrdefInv nodes0 chains nodes1 ∧
      (∀ ch ∈ chains, Stamped nodes0 nodes ch → Stamped nodes0 nodes1 ch) ∧
      ∀ ch ∈ chains, ∀ l ∈ ls, ch.head? = some l → Stamped nodes0 nodes1 ch := by
  induction ls with
  | nil =>
    intro nodes inv _
    exact ⟨nodes, rfl, inv, fun _ _ h => h, fun _ _ l hl => by cases hl⟩
  | cons l ls ih =>
    intro nodes inv hls
    obtain ⟨nodes1, h1, inv1, keep1, head1⟩ :=
      build_urdef_link_inv hd fuel hfuel nodes inv l (hls l (List.mem_cons_self _ _))
    obtain ⟨nodes2, h2, inv2, keep2, head2⟩ :=
      ih nodes1 inv1 (fun x hx => hls x (List.mem_cons_of_mem _ hx))
    refine ⟨nodes2, by simp [build_urdef_links, h1, h2], inv2,
      fun ch hch h => keep2 ch hch (keep1 ch hch h), ?_⟩
    intro ch hch x hx hh
    rcases List.mem_cons.mp hx with h | h
    · subst h; exact keep2 ch hch (head1 ch hch hh)
    · exact head2 ch hch x h hh

theorem build_urdef_nodes_inv {nodes0 : List Node} {chains : List (List LinkPtr)}
    (hd : ChainDecomposition nodes0 chains) (fuel : Nat)
    (hfuel : ∀ ch ∈ chains, ch.length ≤ fuel) (ps : List Nat) :
    ∀ (nodes : List Node), UrdefInv nodes0 chains nodes →
    (∀ p ∈ ps, p < nodes0.length) →
    ∃ nodes1, build_urdef_nodes fuel nodes ps = some nodes1 ∧ UrdefInv nodes0 chains nodes1 ∧
      (∀ ch ∈ chains, Stamped nodes0 nodes ch → Stamped nodes0 nodes1 ch) ∧
      ∀ ch ∈ chains, ∀ (l : LinkPtr), l.node ∈ ps → (link_at nodes0 l).isSome →
        ch.head? = some l → Stamped nodes0 nodes1 ch := by
  induction ps with
  | nil =>
    intro nodes inv _
    exact ⟨nodes, rfl, inv, fun _ _ h => h, fun _ _ l hl => by cases hl⟩
  | cons p ps ih =>
    intro nodes inv hps
    have hp : p < nodes0.length := hps p (List.mem_cons_self _ _)
    have hpn : p < nodes.length := by rw [inv.same.length]; exact hp
    have hty : (nodes[p]).type = (nodes0[p]).type := by
      have := inv.same.types p
      rw [List.getElem?_eq_getElem hpn, List.getElem?_eq_getElem hp] at this
      simpa using this
    have hshape : (nodes0[p]).links.length = (nodes0[p]).type.length :=
      hd.shape _ (List.getElem_mem _)
    have hvalid : ∀ l ∈ (List.range (nodes[p]).type.length).map (fun i => (⟨p, i⟩ : LinkPtr)),
        (link_at nodes0 l).isSome := by
      intro l hl
      simp only [List.mem_map, List.mem_range] at hl
      obtain ⟨i, hi, rfl⟩ := hl
      rw [hty, ← hshape] at hi
      simp [link_at, List.getElem?_eq_getElem hp, List.getElem?_eq_getElem hi]
    obtain ⟨nodes1, h1, inv1, keep1, head1⟩ :=
      build_urdef_links_inv hd fuel hfuel _ nodes inv hvalid
    obtain ⟨nodes2, h2, inv2, keep2, head2⟩ :=
      ih nodes1 inv1 (fun x hx => hps x (List.mem_cons_of_mem _ hx))
    refine ⟨nodes2, ?_, inv2, fun ch hch h => keep2 ch hch (keep1 ch hch h), ?_⟩
    · simp [build_urdef_nodes, build_urdef, List.getElem?_eq_getElem hpn, h1, h2]
    · intro ch hch l hl hsome hh
      rcases List.mem_cons.mp hl with h | h
      · refine keep2 ch hch (head1 ch hch l ?_ hh)
        simp only [List.mem_map, List.mem_range]
        obtain ⟨c0, hc0⟩ := Option.isSome_iff_exists.mp hsome
        refine ⟨l.index, ?_, by cases l; simp_all⟩
        rw [hty, ← hshape]
        subst h
        simp only [link_at, List.getElem?_eq_getElem hp, Option.some_bind] at hc0
        by_contra hcon
        rw [List.getElem?_eq_none (by omega)] at hc0
        cases hc0
      · exact head2 ch hch l h hsome hh

theorem build_urdef_spec (nodes : List Node) (chains : List (List LinkPtr))
    (hd : ChainDecomposition nodes chains)
    (hfresh : ∀ (l : LinkPtr) (c : ChainLink), link_at nodes l = some c → c.urdef.node = none)
    (fuel : Nat) (hfuel : ∀ ch ∈ chains, ch.length ≤ fuel) :
    ∃ nodes1, build_urdef_nodes fuel nodes (List.range nodes.length) = some nodes1 ∧
      SameLinks nodes nodes1 ∧ ∀ ch ∈ chains, Stamped nodes nodes1 ch := by
  have inv0 : UrdefInv nodes chains nodes := by
    refine ⟨same_links_refl nodes, fun ch hch => Or.inl ?_⟩
    intro l hl
    have hvalid : ∀ x ∈ ch, (link_at nodes x).isSome := by
      have hc := hd.chain ch hch
      cases ch with
      | nil => intro x hx; cases hx
      | cons h rest =>
        intro x hx
        rcases List.mem_cons.mp hx with h1 | h1
        · subst h1
          obtain ⟨c, hc1, _⟩ := hc.head_prev x rfl
          rw [hc1]; rfl
        · have hchain : List.Chain _ h rest := hc.linked
          obtain ⟨a, _, cb, hcb, _⟩ := chain_has_pred rest h hchain x h1
          rw [hcb]; rfl
    obtain ⟨c, hc⟩ := Option.isSome_iff_exists.mp (hvalid l hl)
    exact ⟨c, hc, hfresh l c hc⟩
  obtain ⟨nodes1, h1, inv1, _, head1⟩ :=
    build_urdef_nodes_inv hd fuel hfuel (List.range nodes.length) nodes inv0
      (fun p hp => List.mem_range.mp hp)
  refine ⟨nodes1, h1, inv1.same, ?_⟩
  intro ch hch h hh
  obtain ⟨c, hc, _⟩ := (hd.chain ch hch).head_prev h hh
  have hnode : h.node ∈ List.range nodes.length := by
    rw [List.mem_range]
    by_contra hcon
    simp only [link_at] at hc
    rw [List.getElem?_eq_none (by omega)] at hc
    cases hc
  exact head1 ch hch h hnode (by rw [hc]; rfl) hh h hh

/-- C12 (amended): after `build_urdef` has run over all nodes of a link graph
whose links form disjoint chains and have no `urdef` yet, every link of a chain
has the `def` of the head of its chain as its `urdef`, and nothing else has
changed. -/
theorem build_urdef_stamps_head_def (nodes : List Node) (chains : List (List LinkPtr))
    (hd : ChainDecomposition nodes chains)
    (hfresh : ∀ (l : LinkPtr) (c : ChainLink), link_at nodes l = some c → c.urdef.node = none)
    (fuel : Nat) (hfuel : ∀ ch ∈ chains, ch.length ≤ fuel) :
    ∃ nodes1, build_urdef_nodes fuel nodes (List.range nodes.length) = some nodes1 ∧
      SameLinks nodes nodes1 ∧
      ∀ ch ∈ chains, ∀ (h : LinkPtr), ch.head? = some h →
        ∃ c0, link_at nodes h = some c0 ∧
          ∀ l ∈ ch, (link_at nodes1 l).map ChainLink.urdef = some c0.def_ :=
  build_urdef_spec nodes chains hd hfresh fuel hfuel

theorem lone_constant_chains : ChainDecomposition lone_constant [[⟨0, 0⟩]] := by
  refine ⟨by decide, ?_, ?_, ?_⟩
  · intro ch hch
    simp only [List.mem_singleton] at hch
    subst hch
    refine ⟨?_, ?_, ?_, by simp⟩
    · intro h hh; cases hh; exact ⟨{}, rfl, rfl⟩
    · exact List.chain'_singleton _
    · intro t ht; cases ht; exact ⟨{}, rfl, rfl⟩
  · intro l hl
    refine ⟨[⟨0, 0⟩], List.mem_singleton.mpr rfl, ?_⟩
    obtain ⟨p, i⟩ := l
    cases p with
    | zero =>
      cases i with
      | zero => simp
      | succ i => simp [link_at, lone_constant] at hl
    | succ p => simp [link_at, lone_constant] at hl
  · intro ch1 h1 ch2 h2 _ _ _
    rw [List.mem_singleton.mp h1, List.mem_singleton.mp h2]

theorem lone_constant_fresh :
    ∀ (l : LinkPtr) (c : ChainLink), link_at lone_constant l = some c → c.urdef.node = none := by
  intro l c hc
  obtain ⟨p, i⟩ := l
  cases p with
  | zero =>
    cases i with
    | zero => simp [link_at, lone_constant] at hc; rw [← hc]
    | succ i => simp [link_at, lone_constant] at hc
  | succ p => simp [link_at, lone_constant] at hc

/-- C12: the link of a constant is a chain of its own and has no `def`, so its
`urdef` is null after `build_urdef`. -/
theorem constant_urdef_is_null :
    ChainDecomposition lone_constant [[⟨0, 0⟩]] ∧
    build_urdef_nodes 1 lone_constant (List.range lone_constant.length) = some lone_constant ∧
    (link_at lone_constant ⟨0, 0⟩).map (fun c => c.urdef.node) = some none :=
  ⟨lone_constant_chains, rfl, rfl⟩

theorem written_buffer_chains : ChainDecomposition written_buffer [[⟨0, 0⟩, ⟨1, 0⟩]] := by
  refine ⟨?_, ?_, ?_, ?_⟩
  · intro n hn
    simp only [written_buffer, List.mem_cons, List.mem_singleton, List.not_mem_nil,
      or_false] at hn
    rcases hn with h | h <;> subst h <;> rfl
  · intro ch hch
    simp only [List.mem_singleton] at hch
    subst hch
    refine ⟨?_, ?_, ?_, by simp⟩
    · intro h hh; cases hh; exact ⟨_, rfl, rfl⟩
    · refine List.chain'_cons.mpr ⟨⟨⟨_, rfl, rfl⟩, ⟨_, rfl, rfl⟩⟩, List.chain'_singleton _⟩
    · intro t ht; cases ht; exact ⟨_, rfl, rfl⟩
  · intro l hl
    refine ⟨_, List.mem_singleton.mpr rfl, ?_⟩
    obtain ⟨p, i⟩ := l
    match p, i with
    | 0, 0 => simp
    | 1, 0 => simp
    | 0, i + 1 => simp [link_at, written_buffer] at hl
    | 1, i + 1 => simp [link_at, written_buffer] at hl
    | p + 2, i => simp [link_at, written_buffer] at hl
  · intro ch1 h1 ch2 h2 _ _ _
    rw [List.mem_singleton.mp h1, List.mem_singleton.mp h2]

theorem written_buffer_fresh : ∀ (l : LinkPtr) (c : ChainLink),
    link_at written_buffer l = some c → c.urdef.node = none := by
  intro l c hc
  obtain ⟨p, i⟩ := l
  match p, i with
  | 0, 0 => simp [link_at, written_buffer] at hc; rw [← hc]
  | 1, 0 => simp [link_at, written_buffer] at hc; rw [← hc]
  | 0, i + 1 => simp [link_at, written_buffer] at hc
  | 1, i + 1 => simp [link_at, written_buffer] at hc
  | p + 2, i => simp [link_at, written_buffer] at hc

theorem build_urdef_stamps_head_def_witness :
    ChainDecomposition written_buffer [[⟨0, 0⟩, ⟨1, 0⟩]] ∧
    ∃ nodes1, build_urdef_nodes 2 written_buffer (List.range written_buffer.length)
        = some nodes1 ∧
      SameLinks written_buffer nodes1 ∧
      ∀ ch ∈ [[(⟨0, 0⟩ : LinkPtr), ⟨1, 0⟩]], ∀ (h : LinkPtr), ch.head? = some h →
        ∃ c0, link_at written_buffer h = some c0 ∧
          ∀ l ∈ ch, (link_at nodes1 l).map ChainLink.urdef = some c0.def_ :=
  ⟨written_buffer_chains,
   build_urdef_stamps_head_def written_buffer [[⟨0, 0⟩, ⟨1, 0⟩]] written_buffer_chains
     written_buffer_fresh 2 (by simp)⟩

/-- A head that has an `urdef` already is skipped, and its chain is not
stamped. -/
theorem stale_urdef_is_kept :
    (build_urdef_nodes 2 stale_head (List.range stale_head.length)).map
      (fun ns => ((link_at ns ⟨0, 0⟩).map ChainLink.urdef, (link_at ns ⟨1, 0⟩).map ChainLink.urdef)) =
      some (some ⟨some 7, 0⟩, some ⟨none, 0⟩) := by
  decide

/-! ## `RGCImpl::reify_inference` -/

theorem frame_refl (nodes : List Node) : Frame nodes nodes :=
  ⟨rfl, fun _ n h => ⟨n, h, Or.inl rfl⟩⟩

theorem frame_trans {a b c : List Node} (h1 : Frame a b) (h2 : Frame b c) : Frame a c := by
  refine ⟨h2.1.trans h1.1, ?_⟩
  intro p n hn
  obtain ⟨n1, hn1, hc1⟩ := h1.2 p n hn
  obtain ⟨n2, hn2, hc2⟩ := h2.2 p n1 hn1
  refine ⟨n2, hn2, ?_⟩
  rcases hc1 with rfl | ⟨hk, v, o, hv⟩
  · exact hc2
  · rcases hc2 with rfl | ⟨hk2, _⟩
    · exact Or.inr ⟨hk, v, o, hv⟩
    · rw [hv] at hk2; cases hk2

/-- A node that is not a placeholder is the same node in every later state. -/
theorem frame_keeps {a b : List Node} (h : Frame a b) (p : Nat) (n : Node)
    (hn : a[p]? = some n) (hk : n.kind ≠ NodeKind.PLACEHOLDER) : b[p]? = some n := by
  obtain ⟨n1, hn1, hc⟩ := h.2 p n hn
  rcases hc with rfl | ⟨hk1, _⟩
  · exact hn1
  · exact absurd hk1 hk

theorem fill_placeholder_frame (nodes : List Node) (r : Ref) (value : Nat) (owned : Bool)
    (res : List Node × Bool) (h : fill_placeholder nodes r value owned = some res) :
    Frame nodes res.1 ∧ (res.2 = false → res.1 = nodes) ∧
      ∃ p n1, r.node = some p ∧ res.1[p]? = some n1 ∧ n1.kind ≠ NodeKind.PLACEHOLDER := by
  unfold fill_placeholder at h
  cases hr : r.node with
  | none => rw [hr] at h; cases h
  | some p =>
    rw [hr] at h
    simp only at h
    cases hn : nodes[p]? with
    | none => rw [hn] at h; cases h
    | some n =>
      rw [hn] at h
      simp only at h
      have hlt : p < nodes.length := by
        by_contra hc
        rw [List.getElem?_eq_none (by omega)] at hn; cases hn
      by_cases hk : n.kind = NodeKind.PLACEHOLDER
      · rw [if_pos hk] at h
        cases h
        refine ⟨⟨by simp, ?_⟩, by simp, p,
          { n with kind := NodeKind.CONSTANT, constant_value := ConstantValue.bytes value,
                   owned := owned },
          rfl, by simp [List.getElem?_set, hlt], by simp⟩
        intro q m hm
        by_cases hq : p = q
        · subst hq
          rw [hn] at hm; cases hm
          exact ⟨_, by simp [List.getElem?_set, hlt], Or.inr ⟨hk, value, owned, rfl⟩⟩
        · exact ⟨m, by simp [List.getElem?_set, hq, hm], Or.inl rfl⟩
      · rw [if_neg hk] at h
        cases h
        exact ⟨frame_refl nodes, fun _ => rfl, p, n, rfl, hn, hk⟩

theorem count_placeholders_set (nodes : List Node) : ∀ (p : Nat) (n n1 : Node),
    nodes[p]? = some n → n.kind = NodeKind.PLACEHOLDER → n1.kind ≠ NodeKind.PLACEHOLDER →
    count_placeholders (nodes.set p n1) < count_placeholders nodes := by
  induction nodes with
  | nil => intro p n n1 h; simp at h
  | cons x xs ih =>
    intro p n n1 h hk hk1
    cases p with
    | zero =>
      simp only [List.getElem?_cons_zero, Option.some.injEq] at h
      subst h
      simp [count_placeholders, List.set, List.countP_cons, hk, hk1]
    | succ p =>
      simp only [List.getElem?_cons_succ] at h
      have := ih p n n1 h hk hk1
      simp only [count_placeholders, List.set, List.countP_cons] at this ⊢
      omega

theorem frame_count_le : ∀ (a b : List Node), Frame a b →
    count_placeholders b ≤ count_placeholders a := by
  intro a
  induction a with
  | nil =>
    intro b h
    have : b = [] := List.length_eq_zero.mp (by simpa using h.1)
    subst this; exact le_refl _
  | cons x xs ih =>
    intro b h
    cases b with
    | nil =>
      have := h.1
      simp at this
    | cons y ys =>
      have htail : Frame xs ys := by
        refine ⟨by simpa using h.1, ?_⟩
        intro p n hn
        have := h.2 (p + 1) n (by simpa using hn)
        simpa using this
      have hhead := h.2 0 x (by simp)
      simp only [List.getElem?_cons_zero, Option.some.injEq, exists_eq_left'] at hhead
      have hrec := ih ys htail
      simp only [count_placeholders, List.countP_cons] at hrec ⊢
      rcases hhead with rfl | ⟨hk, v, _, hv⟩
      · omega
      · have h1 : (y.kind == NodeKind.PLACEHOLDER) = false := by rw [hv]; rfl
        have h2 : (x.kind == NodeKind.PLACEHOLDER) = true := by rw [hk]; rfl
        simp only [h1, h2, if_true, Bool.false_eq_true, if_false]
        omega

theorem fill_placeholder_count (nodes : List Node) (r : Ref) (value : Nat) (owned : Bool)
    (res : List Node × Bool) (h : fill_placeholder nodes r value owned = some res)
    (hb : res.2 = true) : count_placeholders res.1 < count_placeholders nodes := by
  unfold fill_placeholder at h
  cases hr : r.node with
  | none => rw [hr] at h; cases h
  | some p =>
    rw [hr] at h
    simp only at h
    cases hn : nodes[p]? with
    | none => rw [hn] at h; cases h
    | some n =>
      rw [hn] at h
      simp only at h
      by_cases hk : n.kind = NodeKind.PLACEHOLDER
      · rw [if_pos hk] at h
        cases h
        exact count_placeholders_set nodes p n _ hn hk (by simp)
      · rw [if_neg hk] at h
        cases h
        cases hb

theorem placeholder_to_constant_sound (r : Ref) (value : Nat) :
    Sound (placeholder_to_constant r value) := by
  intro st st1 h
  unfold placeholder_to_constant at h
  cases hf : fill_placeholder st.nodes r value true with
  | none => rw [hf] at h; cases h
  | some res =>
    rw [hf] at h
    simp only [Option.map_some', Option.some.injEq] at h
    obtain ⟨hfr, hq, _⟩ := fill_placeholder_frame _ _ _ _ _ hf
    have hcount := fill_placeholder_count _ _ _ _ _ hf
    subst h
    refine ⟨hfr, ?_⟩
    cases hb : res.2 with
    | true => left; exact ⟨by simp [hb], fun _ => hcount hb⟩
    | false => right; simp [hb, hq hb]

theorem placeholder_to_ptr_framed (r : Ref) (value : Nat) :
    Framed (placeholder_to_ptr r value) := by
  intro st st1 h
  unfold placeholder_to_ptr at h
  cases hf : fill_placeholder st.nodes r value false with
  | none => rw [hf] at h; cases h
  | some res =>
    rw [hf] at h
    simp only [Option.map_some', Option.some.injEq] at h
    subst h
    exact (fill_placeholder_frame _ _ _ _ _ hf).1

theorem sound_framed {f : Reify → Option Reify} (h : Sound f) : Framed f :=
  fun st st1 hs => (h st st1 hs).1

theorem run_steps_framed (fs : List (Reify → Option Reify)) (h : ∀ f ∈ fs, Framed f) :
    Framed (run_steps fs) := by
  induction fs with
  | nil =>
    intro st st1 hs
    simp only [run_steps, Option.some.injEq] at hs
    subst hs; exact frame_refl _
  | cons f fs ih =>
    intro st st1 hs
    simp only [run_steps] at hs
    cases hf : f st with
    | none => rw [hf] at hs; cases hs
    | some st2 =>
      rw [hf] at hs
      exact frame_trans (h f (List.mem_cons_self _ _) st st2 hf)
        (ih (fun g hg => h g (List.mem_cons_of_mem _ hg)) st2 st1 hs)

theorem sound_comp {f g : Reify → Option Reify} (hf : Sound f) (hg : Sound g) :
    Sound (fun st => (f st).bind g) := by
  intro st st1 hs
  simp only at hs
  cases h1 : f st with
  | none => rw [h1] at hs; cases hs
  | some st2 =>
    rw [h1] at hs
    obtain ⟨fr1, q1⟩ := hf st st2 h1
    obtain ⟨fr2, q2⟩ := hg st2 st1 hs
    refine ⟨frame_trans fr1 fr2, ?_⟩
    rcases q2 with ⟨h2, hc2⟩ | ⟨h2, h3⟩
    · left
      refine ⟨h2, fun hp => ?_⟩
      rcases q1 with ⟨_, hc1⟩ | ⟨h4, h5⟩
      · exact lt_of_le_of_lt (frame_count_le _ _ fr2) (hc1 hp)
      · rw [← h4]; exact hc2 (by rw [h5]; exact hp)
    · rcases q1 with ⟨h4, hc1⟩ | ⟨h4, h5⟩
      · left
        exact ⟨by rw [h3]; exact h4, fun hp => by rw [h2]; exact hc1 hp⟩
      · right; exact ⟨h2.trans h4, h3.trans h5⟩

theorem sound_id : Sound (fun st => some st) := by
  intro st st1 hs
  cases hs
  exact ⟨frame_refl _, Or.inr ⟨rfl, rfl⟩⟩

theorem run_steps_sound (fs : List (Reify → Option Reify)) (h : ∀ f ∈ fs, Sound f) :
    Sound (run_steps fs) := by
  induction fs with
  | nil => exact sound_id
  | cons f fs ih =>
    exact sound_comp (h f (List.mem_cons_self _ _))
      (ih (fun g hg => h g (List.mem_cons_of_mem _ hg)))

/-- A statement that writes the locals only. -/
theorem sound_of_locals (f : Reify → Option Reify)
    (h : ∀ (st st1 : Reify), f st = some st1 → st1.nodes = st.nodes ∧ st1.progress = st.progress) :
    Sound f := by
  intro st st1 hs
  obtain ⟨h1, h2⟩ := h st st1 hs
  exact ⟨by rw [h1]; exact frame_refl _, Or.inr ⟨h1, h2⟩⟩

theorem fill_arg_sound (args : List Ref) (k value : Nat) : Sound (fill_arg args k value) := by
  intro st st1 hs
  unfold fill_arg at hs
  cases hr : args[k]? with
  | none => rw [hr] at hs; cases hs
  | some r =>
    rw [hr] at hs
    exact placeholder_to_constant_sound r value st st1 hs

theorem infer_samples_sound (args : List Ref) : Sound (infer_samples args) := by
  intro st st1 hs
  unfold infer_samples at hs
  cases hr : args[5]? with
  | none => rw [hr] at hs; cases hs
  | some r =>
    rw [hr] at hs
    simp only [Option.some_bind] at hs
    cases hp : is_placeholder st.nodes r with
    | none => rw [hp] at hs; cases hs
    | some ph =>
      rw [hp] at hs
      simp only [Option.some_bind] at hs
      split at hs
      · split at hs
        · cases hs; exact ⟨frame_refl _, Or.inr ⟨rfl, rfl⟩⟩
        · cases hs
      · exact placeholder_to_constant_sound r _ st st1 hs
      · cases hs; exact ⟨frame_refl _, Or.inr ⟨rfl, rfl⟩⟩

theorem infer_extent_sound (c : ReifyHelpers) (args : List Ref) :
    Sound (infer_extent c args) := by
  intro st st1 hs
  unfold infer_extent at hs
  cases hr : args[1]? with
  | none => rw [hr] at hs; cases hs
  | some r1 =>
    rw [hr] at hs
    simp only [Option.some_bind] at hs
    cases hp : is_placeholder st.nodes r1 with
    | none => rw [hp] at hs; cases hs
    | some ph1 =>
      rw [hp] at hs
      simp only [Option.some_bind] at hs
      split at hs
      · cases hs; exact ⟨frame_refl _, Or.inr ⟨rfl, rfl⟩⟩
      · cases hr2 : args[2]? with
        | none => rw [hr2] at hs; cases hs
        | some r2 =>
          rw [hr2] at hs
          simp only [Option.some_bind] at hs
          cases hp2 : is_placeholder st.nodes r2 with
          | none => rw [hp2] at hs; cases hs
          | some ph2 =>
            rw [hp2] at hs
            simp only [Option.some_bind] at hs
            split at hs
            · cases hs; exact ⟨frame_refl _, Or.inr ⟨rfl, rfl⟩⟩
            · split at hs
              · cases hs; exact ⟨frame_refl _, Or.inr ⟨rfl, rfl⟩⟩
              · cases hs; exact ⟨frame_refl _, Or.inr ⟨rfl, rfl⟩⟩
      · cases hs; exact ⟨frame_refl _, Or.inr ⟨rfl, rfl⟩⟩
      · cases hr2 : args[2]? with
        | none => rw [hr2] at hs; cases hs
        | some r2 =>
          rw [hr2] at hs
          simp only [Option.some_bind] at hs
          cases hp2 : is_placeholder st.nodes r2 with
          | none => rw [hp2] at hs; cases hs
          | some ph2 =>
            rw [hp2] at hs
            simp only [Option.some_bind] at hs
            split at hs
            · exact sound_comp (placeholder_to_constant_sound r1 _)
                (placeholder_to_constant_sound r2 _) st st1 hs
            · cases hs; exact ⟨frame_refl _, Or.inr ⟨rfl, rfl⟩⟩

theorem infer_layers_sound (c : ReifyHelpers) (args : List Ref) :
    Sound (infer_layers c args) := by
  intro st st1 hs
  unfold infer_layers at hs
  cases hr : args[7]? with
  | none => rw [hr] at hs; cases hs
  | some r =>
    rw [hr] at hs
    simp only [Option.some_bind] at hs
    cases hp : is_placeholder st.nodes r with
    | none => rw [hp] at hs; cases hs
    | some ph =>
      rw [hp] at hs
      simp only [Option.some_bind] at hs
      split at hs
      · split at hs
        · cases hs; exact ⟨frame_refl _, Or.inr ⟨rfl, rfl⟩⟩
        · cases hs; exact ⟨frame_refl _, Or.inr ⟨rfl, rfl⟩⟩
      · exact placeholder_to_constant_sound r _ st st1 hs
      · cases hs; exact ⟨frame_refl _, Or.inr ⟨rfl, rfl⟩⟩

theorem infer_attachment_sound (c : ReifyHelpers) (args : List Ref) :
    Sound (infer_attachment c args) := by
  unfold infer_attachment
  apply run_steps_sound
  intro f hf
  simp only [List.mem_cons, List.mem_singleton, List.not_mem_nil, or_false] at hf
  rcases hf with rfl | rfl | rfl | rfl | rfl
  · exact fill_arg_sound _ _ _
  · exact fill_arg_sound _ _ _
  · exact infer_samples_sound _
  · exact infer_extent_sound _ _
  · exact infer_layers_sound _ _

theorem infer_swapchain_sound (c : ReifyHelpers) (urdef : Node) :
    Sound (infer_swapchain c urdef) := by
  apply sound_of_locals
  intro st st1 hs
  unfold infer_swapchain at hs
  cases hr : urdef.args[0]? with
  | none => rw [hr] at hs; cases hs
  | some r =>
    rw [hr] at hs
    simp only [Option.some_bind] at hs
    split at hs <;> cases hs <;> exact ⟨rfl, rfl⟩

theorem infer_parm_sound (c : ReifyHelpers) (arg_ty : Ty) (parm : Ref) :
    Sound (infer_parm c arg_ty parm) := by
  intro st st1 hs
  unfold infer_parm at hs
  split at hs
  · split at hs
    · cases hs
    · split at hs
      · cases hs
      · split_ifs at hs
        · exact infer_attachment_sound c _ st st1 hs
        · exact sound_id st st1 hs
        · exact infer_swapchain_sound c _ st st1 hs
        · exact sound_id st st1 hs
  · exact sound_id st st1 hs

theorem infer_parms_sound (c : ReifyHelpers) (fn_args : List Ty) (parms : List Ref) :
    ∀ (i : Nat), Sound (infer_parms c fn_args i parms) := by
  induction parms with
  | nil => intro i; exact sound_id
  | cons parm parms ih =>
    intro i st st1 hs
    unfold infer_parms at hs
    cases ht : fn_args[i - 1]? with
    | none => rw [ht] at hs; cases hs
    | some arg_ty =>
      rw [ht] at hs
      exact sound_comp (infer_parm_sound c arg_ty parm) (ih (i + 1)) st st1 hs

theorem infer_call_sound (c : ReifyHelpers) (node : Node) : Sound (infer_call c node) := by
  intro st st1 hs
  unfold infer_call at hs
  split at hs
  · cases hs
  · exact infer_parms_sound c _ _ 1
      { st with extent := none, samples := none, layer_count := none } st1 hs
  · exact sound_id st st1 hs

theorem infer_construct_sound (node : Node) : Sound (infer_construct node) := by
  intro st st1 hs
  unfold infer_construct at hs
  split at hs
  · cases hs
  · split at hs
    · split_ifs at hs
      · refine run_steps_sound _ ?_ st st1 hs
        intro f hf
        simp only [List.mem_cons, List.mem_singleton, List.not_mem_nil, or_false] at hf
        rcases hf with rfl | rfl <;> exact fill_arg_sound _ _ _
      · exact sound_id st st1 hs
    · cases hs
  · exact sound_id st st1 hs

theorem infer_node_sound (c : ReifyHelpers) (p : Nat) : Sound (infer_node c p) := by
  intro st st1 hs
  unfold infer_node at hs
  split at hs
  · cases hs
  · split_ifs at hs
    · exact infer_call_sound c _ st st1 hs
    · exact infer_construct_sound _ st st1 hs
    · exact sound_id st st1 hs

theorem for_nodes_sound (body : Nat → Reify → Option Reify) (h : ∀ p, Sound (body p))
    (ps : List Nat) : Sound (for_nodes body ps) := by
  induction ps with
  | nil => exact sound_id
  | cons p ps ih => exact sound_comp (h p) ih

theorem for_nodes_framed (body : Nat → Reify → Option Reify) (h : ∀ p, Framed (body p))
    (ps : List Nat) : Framed (for_nodes body ps) := by
  induction ps with
  | nil =>
    intro st st1 hs
    cases hs; exact frame_refl _
  | cons p ps ih =>
    intro st st1 hs
    simp only [for_nodes] at hs
    cases h1 : body p st with
    | none => rw [h1] at hs; cases hs
    | some st2 =>
      rw [h1] at hs
      exact frame_trans (h p st st2 h1) (ih st2 st1 hs)

theorem ptr_if_framed (cond : Bool) (args : List Ref) (k value : Nat) :
    Framed (ptr_if cond args k value) := by
  intro st st1 hs
  unfold ptr_if at hs
  split_ifs at hs
  · cases hr : args[k]? with
    | none => rw [hr] at hs; cases hs
    | some r =>
      rw [hr] at hs
      exact placeholder_to_ptr_framed r value st st1 hs
  · cases hs; exact frame_refl _

theorem reify_construct_framed (c : ReifyHelpers) (node : Node) :
    Framed (reify_construct c node) := by
  intro st st1 hs
  unfold reify_construct at hs
  split at hs
  · cases hs
  · split at hs
    · refine run_steps_framed _ ?_ st st1 hs
      intro f hf
      simp only [List.mem_cons, List.mem_singleton, List.not_mem_nil, or_false] at hf
      rcases hf with rfl | rfl | rfl | rfl | rfl | rfl | rfl | rfl | rfl <;>
        exact ptr_if_framed _ _ _ _
    · cases hs
  · split at hs
    · exact ptr_if_framed _ _ _ _ st st1 hs
    · cases hs
  · cases hs; exact frame_refl _

theorem reify_node_framed (c : ReifyHelpers) (p : Nat) : Framed (reify_node c p) := by
  intro st st1 hs
  unfold reify_node at hs
  split at hs
  · cases hs
  · split_ifs at hs
    · exact reify_construct_framed c _ st st1 hs
    · cases hs; exact frame_refl _

/-- A round that ends without `progress` has changed no node, and a round that
ends with `progress` has left fewer placeholders. -/
theorem infer_round_quiet (c : ReifyHelpers) (nodes : List Node) (st : Reify)
    (h : infer_round c nodes = some st) :
    Frame nodes st.nodes ∧ (st.progress = false → st.nodes = nodes) ∧
      (st.progress = true → count_placeholders st.nodes < count_placeholders nodes) := by
  obtain ⟨hf, hq⟩ := for_nodes_sound (infer_node c) (infer_node_sound c) _ _ st h
  refine ⟨hf, fun hp => ?_, fun hp => ?_⟩
  · rcases hq with ⟨h1, _⟩ | ⟨h1, _⟩
    · rw [hp] at h1; cases h1
    · exact h1
  · rcases hq with ⟨_, h1⟩ | ⟨_, h1⟩
    · exact h1 rfl
    · rw [hp] at h1; cases h1

theorem infer_loop_spec (c : ReifyHelpers) (fuel : Nat) :
    ∀ (nodes nodes1 : List Node), infer_loop c fuel nodes = some nodes1 →
    Frame nodes nodes1 ∧
      ∃ st, infer_round c nodes1 = some st ∧ st.progress = false ∧ st.nodes = nodes1 := by
  induction fuel with
  | zero => intro nodes nodes1 h; cases h
  | succ fuel ih =>
    intro nodes nodes1 h
    unfold infer_loop at h
    cases hr : infer_round c nodes with
    | none => rw [hr] at h; cases h
    | some st =>
      rw [hr] at h
      simp only at h
      obtain ⟨hf, hq, _⟩ := infer_round_quiet c nodes st hr
      by_cases hp : st.progress = true
      · rw [if_pos hp] at h
        obtain ⟨hf2, hfix⟩ := ih st.nodes nodes1 h
        exact ⟨frame_trans hf hf2, hfix⟩
      · rw [if_neg hp] at h
        cases h
        have hp' : st.progress = false := by simpa using hp
        have hn := hq hp'
        refine ⟨hf, st, ?_, hp', rfl⟩
        rw [hn]; exact hr

theorem reify_inference_frame (c : ReifyHelpers) (fuel : Nat) (nodes nodes1 : List Node)
    (h : reify_inference c fuel nodes = some nodes1) : Frame nodes nodes1 := by
  unfold reify_inference at h
  cases h1 : for_nodes (reify_node c) (List.range nodes.length) { nodes := nodes } with
  | none => rw [h1] at h; cases h
  | some st =>
    rw [h1] at h
    exact frame_trans (for_nodes_framed _ (reify_node_framed c) _ _ st h1)
      (infer_loop_spec c fuel st.nodes nodes1 h).1

/-- With more fuel than there are placeholders, the loop `do ... while
(progress)` returns unless one of its rounds has no defined value. -/
theorem infer_loop_returns (c : ReifyHelpers) (fuel : Nat) :
    ∀ (nodes : List Node), count_placeholders nodes < fuel →
    (∀ nodes1, Frame nodes nodes1 → ∃ st, infer_round c nodes1 = some st) →
    ∃ nodes1, infer_loop c fuel nodes = some nodes1 := by
  induction fuel with
  | zero => intro nodes h; cases h
  | succ fuel ih =>
    intro nodes hfuel hdef
    obtain ⟨st, hr⟩ := hdef nodes (frame_refl nodes)
    obtain ⟨hf, _, hlt⟩ := infer_round_quiet c nodes st hr
    unfold infer_loop
    rw [hr]
    by_cases hp : st.progress = true
    · simp only [hp, if_true]
      exact ih st.nodes (by have := hlt hp; omega)
        (fun n1 h1 => hdef n1 (frame_trans hf h1))
    · simp only [hp, Bool.false_eq_true, if_false]
      exact ⟨_, rfl⟩

/-- The pass returns with one round more than there are placeholders, unless a
statement of it has no defined value. -/
theorem reify_inference_returns (c : ReifyHelpers) (nodes : List Node)
    (hfirst : ∃ st, for_nodes (reify_node c) (List.range nodes.length) { nodes := nodes }
      = some st)
    (hdef : ∀ nodes1, Frame nodes nodes1 → ∃ st, infer_round c nodes1 = some st) :
    ∃ nodes1, reify_inference c (count_placeholders nodes + 1) nodes = some nodes1 := by
  obtain ⟨st, h1⟩ := hfirst
  have hf := for_nodes_framed _ (reify_node_framed c) _ _ st h1
  unfold reify_inference
  rw [h1]
  simp only [Option.some_bind]
  have hle : count_placeholders st.nodes ≤ count_placeholders nodes := frame_count_le _ _ hf
  exact infer_loop_returns c _ st.nodes (by omega)
    (fun n1 hn1 => hdef n1 (frame_trans hf hn1))

theorem placeholder_to_ptr_settles (r : Ref) (value : Nat) :
    Settles (placeholder_to_ptr r value) := by
  intro st st1 h st2 hf
  unfold placeholder_to_ptr at h
  cases hfill : fill_placeholder st.nodes r value false with
  | none => rw [hfill] at h; cases h
  | some res =>
    rw [hfill] at h
    simp only [Option.map_some', Option.some.injEq] at h
    obtain ⟨_, _, p, n1, hp, hn1, hk⟩ := fill_placeholder_frame _ _ _ _ _ hfill
    subst h
    have hn2 : st2.nodes[p]? = some n1 := frame_keeps hf p n1 hn1 hk
    simp [placeholder_to_ptr, fill_placeholder, hp, hn2, hk]

theorem ptr_if_settles (cond : Bool) (args : List Ref) (k value : Nat) :
    Settles (ptr_if cond args k value) := by
  intro st st1 h st2 hf
  unfold ptr_if at h ⊢
  split_ifs at h ⊢
  · cases hr : args[k]? with
    | none => rw [hr] at h; cases h
    | some r =>
      rw [hr] at h
      exact placeholder_to_ptr_settles r value st st1 h st2 hf
  · rfl

theorem run_steps_settles (fs : List (Reify → Option Reify))
    (h : ∀ f ∈ fs, Settles f ∧ Framed f) : Settles (run_steps fs) := by
  induction fs with
  | nil => intro st st1 _ st2 _; rfl
  | cons f fs ih =>
    intro st st1 hs st2 hf
    simp only [run_steps] at hs ⊢
    cases h1 : f st with
    | none => rw [h1] at hs; cases hs
    | some st3 =>
      rw [h1] at hs
      have hrest : Framed (run_steps fs) :=
        run_steps_framed fs (fun g hg => (h g (List.mem_cons_of_mem _ hg)).2)
      have hf3 : Frame st3.nodes st2.nodes := frame_trans (hrest st3 st1 hs) hf
      rw [(h f (List.mem_cons_self _ _)).1 st st3 h1 st2 hf3]
      exact ih (fun g hg => h g (List.mem_cons_of_mem _ hg)) st3 st1 hs st2 hf

theorem constant_of_frame {a b : List Node} (h : Frame a b) (r : Ref) (v : ConstantValue)
    (hv : constant_of a r = some v) : constant_of b r = some v := by
  unfold constant_of node_of at hv ⊢
  cases hr : r.node with
  | none => rw [hr] at hv; cases hv
  | some p =>
    rw [hr] at hv
    simp only [Option.some_bind] at hv ⊢
    cases hn : a[p]? with
    | none => rw [hn] at hv; cases hv
    | some n =>
      rw [hn] at hv
      simp only [Option.some_bind] at hv
      by_cases hk : n.kind = NodeKind.CONSTANT
      · rw [frame_keeps h p n hn (by rw [hk]; decide)]
        exact hv
      · rw [if_neg hk] at hv; cases hv

theorem prototype_frame {a b : List Node} (h : Frame a b) (args : List Ref)
    (v : ConstantValue) (hv : (args[0]?).bind (constant_of a) = some v) :
    (args[0]?).bind (constant_of b) = some v := by
  cases hr : args[0]? with
  | none => rw [hr] at hv; cases hv
  | some r =>
    rw [hr] at hv
    exact constant_of_frame h r v hv

theorem reify_construct_settles (c : ReifyHelpers) (node : Node) :
    Settles (reify_construct c node) := by
  intro st st1 hs st2 hf
  have hfr : Frame st.nodes st2.nodes := frame_trans (reify_construct_framed c node st st1 hs) hf
  unfold reify_construct at hs ⊢
  split at hs
  · cases hs
  · split at hs
    · rename_i value hproto
      rw [prototype_frame hfr _ _ hproto]
      refine run_steps_settles _ ?_ st st1 hs st2 hf
      intro f hmem
      simp only [List.mem_cons, List.mem_singleton, List.not_mem_nil, or_false] at hmem
      rcases hmem with rfl | rfl | rfl | rfl | rfl | rfl | rfl | rfl | rfl <;>
        exact ⟨ptr_if_settles _ _ _ _, ptr_if_framed _ _ _ _⟩
    · cases hs
  · split at hs
    · rename_i value hproto
      rw [prototype_frame hfr _ _ hproto]
      exact ptr_if_settles _ _ _ _ st st1 hs st2 hf
    · cases hs
  · rfl

theorem reify_node_settles (c : ReifyHelpers) (p : Nat) : Settles (reify_node c p) := by
  intro st st1 hs st2 hf
  have hfr : Frame st.nodes st2.nodes := frame_trans (reify_node_framed c p st st1 hs) hf
  unfold reify_node at hs ⊢
  cases hn : st.nodes[p]? with
  | none => rw [hn] at hs; cases hs
  | some node =>
    rw [hn] at hs
    simp only at hs
    by_cases hk : node.kind = NodeKind.CONSTRUCT
    · rw [if_pos hk] at hs
      rw [frame_keeps hfr p node hn (by rw [hk]; decide)]
      simp only [if_pos hk]
      exact reify_construct_settles c node st st1 hs st2 hf
    · obtain ⟨n2, hn2, hc⟩ := hfr.2 p node hn
      rw [hn2]
      have hk2 : n2.kind ≠ NodeKind.CONSTRUCT := by
        rcases hc with rfl | ⟨_, v, _, hv⟩
        · exact hk
        · rw [hv]; simp
      simp only [if_neg hk2]

theorem reify_loop_settles (c : ReifyHelpers) (ps : List Nat) :
    Settles (for_nodes (reify_node c) ps) := by
  induction ps with
  | nil => intro st st1 _ st2 _; rfl
  | cons p ps ih =>
    intro st st1 hs st2 hf
    simp only [for_nodes] at hs ⊢
    cases h1 : reify_node c p st with
    | none => rw [h1] at hs; cases hs
    | some st3 =>
      rw [h1] at hs
      have hf3 : Frame st3.nodes st2.nodes :=
        frame_trans (for_nodes_framed _ (reify_node_framed c) ps st3 st1 hs) hf
      rw [reify_node_settles c p st st3 h1 st2 hf3]
      exact ih st3 st1 hs st2 hf

theorem reify_inference_fixed (c : ReifyHelpers) (fuel : Nat) (nodes nodes1 : List Node)
    (h : reify_inference c fuel nodes = some nodes1) :
    reify_inference c fuel nodes1 = some nodes1 := by
  have hframe := reify_inference_frame c fuel nodes nodes1 h
  unfold reify_inference at h ⊢
  cases h1 : for_nodes (reify_node c) (List.range nodes.length) { nodes := nodes } with
  | none => rw [h1] at h; cases h
  | some st =>
    rw [h1] at h
    simp only [Option.some_bind] at h
    obtain ⟨hf, st3, hround, hp, hn⟩ := infer_loop_spec c fuel st.nodes nodes1 h
    have h2 := reify_loop_settles c _ _ st h1 { nodes := nodes1 } hf
    rw [hframe.1, h2]
    simp only [Option.some_bind]
    cases fuel with
    | zero => cases h
    | succ fuel =>
      unfold infer_loop
      rw [hround]
      simp [hp, hn]

/-- What `placeholder_to_constant` does to the state when its argument points
to the node `n` at `p`. -/
theorem placeholder_to_constant_spec (r : Ref) (value : Nat) (st : Reify) (p : Nat) (n : Node)
    (hr : r.node = some p) (hn : st.nodes[p]? = some n) :
    ∃ st1, placeholder_to_constant r value st = some st1 ∧
      st1.extent = st.extent ∧ st1.samples = st.samples ∧ st1.layer_count = st.layer_count ∧
      (∀ q, q ≠ p → st1.nodes[q]? = st.nodes[q]?) ∧
      (n.kind = NodeKind.PLACEHOLDER → st1.nodes[p]? =
        some { n with kind := NodeKind.CONSTANT, constant_value := ConstantValue.bytes value,
                      owned := true }) ∧
      (n.kind ≠ NodeKind.PLACEHOLDER → st1.nodes = st.nodes) := by
  have hlt : p < st.nodes.length := by
    by_contra hc
    rw [List.getElem?_eq_none (by omega)] at hn; cases hn
  by_cases hk : n.kind = NodeKind.PLACEHOLDER
  · refine ⟨{ st with
        nodes := st.nodes.set p
          { n with kind := NodeKind.CONSTANT, constant_value := ConstantValue.bytes value,
                   owned := true },
        progress := true }, ?_, rfl, rfl, rfl, ?_, ?_, fun h => absurd hk h⟩
    · simp [placeholder_to_constant, fill_placeholder, hr, hn, hk]
    · intro q hq
      simp [List.getElem?_set, Ne.symm hq]
    · intro _
      simp [List.getElem?_set, hlt]
  · refine ⟨st, ?_, rfl, rfl, rfl, fun _ _ => rfl, fun h => absurd h hk, fun _ => rfl⟩
    simp [placeholder_to_constant, fill_placeholder, hr, hn, hk]

theorem arg_node_get {nodes : List Node} {args : List Ref} {k : Nat} {n : Node}
    (h : arg_node nodes args k = some n) :
    ∃ r p, args[k]? = some r ∧ r.node = some p ∧ nodes[p]? = some n := by
  unfold arg_node node_of at h
  cases hr : args[k]? with
  | none => rw [hr] at h; cases h
  | some r =>
    rw [hr] at h
    simp only [Option.some_bind] at h
    cases hp : r.node with
    | none => rw [hp] at h; cases h
    | some p =>
      rw [hp] at h
      exact ⟨r, p, rfl, hp, h⟩

theorem is_placeholder_arg {nodes : List Node} {args : List Ref} {k : Nat} {n : Node} {r : Ref}
    (hn : arg_node nodes args k = some n) (hr : args[k]? = some r) :
    is_placeholder nodes r = some (decide (n.kind = NodeKind.PLACEHOLDER)) := by
  unfold arg_node at hn
  rw [hr] at hn
  simp only [Option.some_bind] at hn
  simp [is_placeholder, hn]

theorem placeholder_of_frame {a b : List Node} (h : Frame a b) (q : Nat) (n1 : Node)
    (hn : b[q]? = some n1) (hk : n1.kind = NodeKind.PLACEHOLDER) : a[q]? = some n1 := by
  have hq : q < a.length := by
    rw [← h.1]
    exact (List.getElem?_eq_some.mp hn).1
  obtain ⟨n1', hn1', hc⟩ := h.2 q a[q] (List.getElem?_eq_getElem hq)
  rw [hn] at hn1'
  cases hn1'
  rcases hc with he | ⟨_, v, o, he⟩
  · rw [List.getElem?_eq_getElem hq, he]
  · rw [he] at hk
    cases hk

theorem node_of_placeholder_frame {a b : List Node} (h : Frame a b) (r : Ref) (n1 : Node)
    (hn : node_of b r = some n1) (hk : n1.kind = NodeKind.PLACEHOLDER) :
    node_of a r = some n1 := by
  unfold node_of at hn ⊢
  cases hr : r.node with
  | none => rw [hr] at hn; cases hn
  | some q =>
    rw [hr] at hn
    exact placeholder_of_frame h q n1 hn hk

theorem fillable_frame {a b : List Node} (h : Frame a b) (q : Nat) (n : Node)
    (hn : a[q]? = some n) (hf : Fillable n) : ∃ n1, b[q]? = some n1 ∧ Fillable n1 := by
  obtain ⟨n1, hn1, hc⟩ := h.2 q n hn
  rcases hc with he | ⟨_, v, o, he⟩
  · exact ⟨n1, hn1, he ▸ hf⟩
  · exact ⟨n1, hn1, Or.inr ⟨by rw [he], v, by rw [he]⟩⟩

theorem attachment_args_frame {a b : List Node} {args : List Ref} (h : Frame a b)
    (ha : AttachmentArgs a args) : AttachmentArgs b args := by
  constructor
  · intro k h1 h2
    obtain ⟨n, hn, hf⟩ := ha.fields k h1 h2
    obtain ⟨r, p, hr, hp, hnp⟩ := arg_node_get hn
    obtain ⟨n1, hn1, hf1⟩ := fillable_frame h p n hnp hf
    exact ⟨n1, by simp [arg_node, node_of, hr, hp, hn1], hf1⟩
  · intro k1 k2 r1 r2 n h1 h2 he hn hk
    exact ha.distinct k1 k2 r1 r2 n h1 h2 he (node_of_placeholder_frame h r1 n hn hk) hk

theorem apart_frame {a b : List Node} {args1 args2 : List Ref} (h : Frame a b)
    (ha : Apart a args1 args2) : Apart b args1 args2 := by
  intro k1 k2 r1 r2 n h1 h2 he hn hk
  exact ha k1 k2 r1 r2 n h1 h2 he (node_of_placeholder_frame h r1 n hn hk) hk

theorem writes_only_refl (args : List Ref) (nodes : List Node) : WritesOnly args nodes nodes :=
  fun _ h => absurd rfl h

theorem writes_only_trans {args : List Ref} {n0 n1 n2 : List Node}
    (h1 : WritesOnly args n0 n1) (h2 : WritesOnly args n1 n2) : WritesOnly args n0 n2 := by
  intro q hq
  by_cases hab : n1[q]? = n0[q]?
  · have hbc : n2[q]? ≠ n1[q]? := by rw [hab]; exact hq
    obtain ⟨k, r, n, hk, hr, hn, hp⟩ := h2 q hbc
    exact ⟨k, r, n, hk, hr, by rw [← hab]; exact hn, hp⟩
  · exact h1 q hab

/-- A step that has written placeholders of `args1` only has left the
arguments of a `CONSTRUCT` node apart from it as they were. -/
theorem apart_untouched {nodes nodes1 : List Node} {args1 args2 : List Ref}
    (hw : WritesOnly args1 nodes nodes1) (ha : Apart nodes args1 args2) (k : Nat) :
    arg_node nodes1 args2 k = arg_node nodes args2 k := by
  unfold arg_node node_of
  cases hr : args2[k]? with
  | none => rfl
  | some r2 =>
    simp only [Option.some_bind]
    cases hq : r2.node with
    | none => rfl
    | some q =>
      simp only [Option.some_bind]
      by_contra hne
      obtain ⟨k1, r1, n, hk1, hr1, hn, hp⟩ := hw q hne
      exact ha k1 k r1 r2 n hk1 hr (by rw [hr1, hq]) (by simp [node_of, hr1, hn]) hp

/-- The statement `placeholder_to_constant(args[k], value)` on the arguments of
an image: it writes the node of `args[k]` only, and only if it is a
placeholder. -/
theorem fill_slot {st : Reify} {args : List Ref} (ha : AttachmentArgs st.nodes args) (k : Nat)
    (hk1 : 1 ≤ k) (hk2 : k < 10) (r : Ref) (hr : args[k]? = some r) (value : Nat) :
    ∃ st1, placeholder_to_constant r value st = some st1 ∧
      st1.extent = st.extent ∧ st1.samples = st.samples ∧ st1.layer_count = st.layer_count ∧
      AttachmentArgs st1.nodes args ∧ WritesOnly args st.nodes st1.nodes ∧
      (∀ j, j ≠ k → arg_node st1.nodes args j = arg_node st.nodes args j) ∧
      (ArgIsPlaceholder st.nodes args k → ArgIsConstant st1.nodes args k value) ∧
      (¬ ArgIsPlaceholder st.nodes args k → st1.nodes = st.nodes) := by
  obtain ⟨n, hn, hfill⟩ := ha.fields k hk1 hk2
  obtain ⟨r', p, hr', hp, hnp⟩ := arg_node_get hn
  rw [hr] at hr'; cases hr'
  obtain ⟨st1, h1, he, hs, hl, hother, hph, hnph⟩ :=
    placeholder_to_constant_spec r value st p n hp hnp
  have hframe : Frame st.nodes st1.nodes := (placeholder_to_constant_sound r value st st1 h1).1
  have hj : ∀ j, j ≠ k → arg_node st1.nodes args j = arg_node st.nodes args j := by
    intro j hjk
    unfold arg_node node_of
    cases hrj : args[j]? with
    | none => rfl
    | some rj =>
      simp only [Option.some_bind]
      cases hq : rj.node with
      | none => rfl
      | some q =>
        simp only [Option.some_bind]
        by_cases hqp : q = p
        · by_cases hkind : n.kind = NodeKind.PLACEHOLDER
          · exact absurd (ha.distinct j k rj r n hrj hr (by rw [hq, hp, hqp])
              (by simp [node_of, hq, hqp, hnp]) hkind) hjk
          · rw [hnph hkind]
        · exact hother q hqp
  have hk : arg_node st1.nodes args k = st1.nodes[p]? := by
    simp [arg_node, node_of, hr, hp]
  refine ⟨st1, h1, he, hs, hl, attachment_args_frame hframe ha, ?_, hj, ?_, ?_⟩
  · intro q hq
    by_cases hqp : q = p
    · by_cases hkind : n.kind = NodeKind.PLACEHOLDER
      · exact ⟨k, r, n, hr, by rw [hp, hqp], by rw [hqp]; exact hnp, hkind⟩
      · exact absurd (by rw [hnph hkind]) hq
    · exact absurd (hother q hqp) hq
  · rintro ⟨m, hm, hkind⟩
    rw [hn] at hm; cases hm
    exact ⟨_, by rw [hk]; exact hph hkind, rfl, rfl⟩
  · intro hnot
    apply hnph
    intro hkind
    exact hnot ⟨n, hn, hkind⟩

theorem fill_arg_spec {st : Reify} {args : List Ref} (ha : AttachmentArgs st.nodes args)
    (k : Nat) (hk1 : 1 ≤ k) (hk2 : k < 10) (value : Nat) :
    ∃ st1, fill_arg args k value st = some st1 ∧
      st1.extent = st.extent ∧ st1.samples = st.samples ∧ st1.layer_count = st.layer_count ∧
      AttachmentArgs st1.nodes args ∧ WritesOnly args st.nodes st1.nodes ∧
      ∀ j, j ≠ k → arg_node st1.nodes args j = arg_node st.nodes args j := by
  obtain ⟨n, hn, _⟩ := ha.fields k hk1 hk2
  obtain ⟨r, p, hr, _, _⟩ := arg_node_get hn
  obtain ⟨st1, h1, he, hs, hl, ha1, hw, hj, _, _⟩ := fill_slot ha k hk1 hk2 r hr value
  exact ⟨st1, by simp [fill_arg, hr, h1], he, hs, hl, ha1, hw, hj⟩

theorem not_placeholder_of_constant {nodes : List Node} {args : List Ref} {k v : Nat}
    (h : ArgIsConstant nodes args k v) : ¬ ArgIsPlaceholder nodes args k := by
  rintro ⟨m, hm, hkm⟩
  obtain ⟨n, hn, hk, _⟩ := h
  rw [hn] at hm; cases hm
  rw [hk] at hkm; cases hkm

theorem infer_samples_spec {st : Reify} {args : List Ref} (ha : AttachmentArgs st.nodes args) :
    ∃ st1, infer_samples args st = some st1 ∧
      st1.extent = st.extent ∧ st1.layer_count = st.layer_count ∧
      AttachmentArgs st1.nodes args ∧ WritesOnly args st.nodes st1.nodes ∧
      (∀ j, j ≠ 5 → arg_node st1.nodes args j = arg_node st.nodes args j) ∧
      (∀ s, st.samples = some s → st1.samples = some s ∧
        (ArgIsPlaceholder st.nodes args 5 → ArgIsConstant st1.nodes args 5 s)) ∧
      (st.samples = none → ArgIsPlaceholder st.nodes args 5 → st1.samples = none) ∧
      (st.samples = none → ∀ v, ArgIsConstant st.nodes args 5 v → st1.samples = some v) := by
  obtain ⟨n, hn, hfill⟩ := ha.fields 5 (by decide) (by decide)
  obtain ⟨r, p, hr, hp, hnp⟩ := arg_node_get hn
  have hph := is_placeholder_arg hn hr
  unfold infer_samples
  rw [hr]
  simp only [Option.some_bind, hph]
  cases hsam : st.samples with
  | none =>
    by_cases hk : n.kind = NodeKind.PLACEHOLDER
    · simp only [hk, decide_True]
      refine ⟨st, rfl, rfl, rfl, ha, writes_only_refl _ _, fun _ _ => rfl,
        fun s hs => (by cases hs), fun _ _ => hsam, fun _ v hv => ?_⟩
      exact absurd ⟨n, hn, hk⟩ (not_placeholder_of_constant hv)
    · simp only [hk, decide_False]
      rcases hfill with h1 | ⟨h1, v, hv⟩
      · exact absurd h1 hk
      · have hc : constant_of st.nodes r = some (ConstantValue.bytes v) := by
          simp [constant_of, node_of, hp, hnp, h1, hv]
        rw [hc]
        refine ⟨{ st with samples := some v }, rfl, rfl, rfl, ha, writes_only_refl _ _,
          fun _ _ => rfl, fun s hs => (by cases hs), fun _ hpl => ?_, fun _ v' hv' => ?_⟩
        · obtain ⟨m, hm, hkm⟩ := hpl
          rw [hn] at hm; cases hm
          exact absurd hkm hk
        · obtain ⟨m, hm, _, hvm⟩ := hv'
          rw [hn] at hm; cases hm
          rw [hv] at hvm
          cases hvm
          rfl
  | some s =>
    by_cases hk : n.kind = NodeKind.PLACEHOLDER
    · simp only [hk, decide_True]
      obtain ⟨st1, h1, he, hs, hl, ha1, hw, hj, hfilled, _⟩ :=
        fill_slot ha 5 (by decide) (by decide) r hr s
      refine ⟨st1, h1, he, hl, ha1, hw, hj, ?_, fun h => (by cases h), fun h => by cases h⟩
      intro s' hs'
      cases hs'
      exact ⟨by rw [hs, hsam], hfilled⟩
    · simp only [hk, decide_False]
      refine ⟨st, rfl, rfl, rfl, ha, writes_only_refl _ _, fun _ _ => rfl, ?_,
        fun h => (by cases h), fun h => by cases h⟩
      intro s' hs'
      cases hs'
      refine ⟨hsam, ?_⟩
      rintro ⟨m, hm, hkm⟩
      rw [hn] at hm; cases hm
      exact absurd hkm hk

theorem constant_of_arg {nodes : List Node} {args : List Ref} {k v : Nat} {r : Ref}
    (h : ArgIsConstant nodes args k v) (hr : args[k]? = some r) :
    constant_of nodes r = some (ConstantValue.bytes v) := by
  obtain ⟨n, hn, hk, hv⟩ := h
  unfold arg_node at hn
  rw [hr] at hn
  simp only [Option.some_bind] at hn
  simp [constant_of, hn, hk, hv]

theorem infer_layers_spec (c : ReifyHelpers) (heval : EvalReads c) {st : Reify}
    {args : List Ref} (ha : AttachmentArgs st.nodes args) :
    ∃ st1, infer_layers c args st = some st1 ∧
      st1.extent = st.extent ∧ st1.samples = st.samples ∧
      AttachmentArgs st1.nodes args ∧ WritesOnly args st.nodes st1.nodes ∧
      (∀ j, j ≠ 7 → arg_node st1.nodes args j = arg_node st.nodes args j) ∧
      (∀ l, st.layer_count = some l → st1.layer_count = some l ∧
        (ArgIsPlaceholder st.nodes args 7 → ArgIsConstant st1.nodes args 7 l)) ∧
      (st.layer_count = none → ArgIsPlaceholder st.nodes args 7 → st1.layer_count = none) ∧
      (st.layer_count = none → ∀ v, ArgIsConstant st.nodes args 7 v →
        st1.layer_count = some v) := by
  obtain ⟨n, hn, hfill⟩ := ha.fields 7 (by decide) (by decide)
  obtain ⟨r, p, hr, hp, hnp⟩ := arg_node_get hn
  have hph := is_placeholder_arg hn hr
  unfold infer_layers
  rw [hr]
  simp only [Option.some_bind, hph]
  cases hlay : st.layer_count with
  | none =>
    by_cases hk : n.kind = NodeKind.PLACEHOLDER
    · simp only [hk, decide_True]
      refine ⟨st, rfl, rfl, rfl, ha, writes_only_refl _ _, fun _ _ => rfl,
        fun s hs => (by cases hs), fun _ _ => hlay, fun _ v hv => ?_⟩
      exact absurd ⟨n, hn, hk⟩ (not_placeholder_of_constant hv)
    · simp only [hk, decide_False]
      have hnopl : ¬ ArgIsPlaceholder st.nodes args 7 := by
        rintro ⟨m, hm, hkm⟩
        rw [hn] at hm; cases hm
        exact absurd hkm hk
      cases hev : c.eval st.nodes r with
      | none =>
        refine ⟨st, rfl, rfl, rfl, ha, writes_only_refl _ _, fun _ _ => rfl,
          fun s hs => (by cases hs), fun _ hpl => absurd hpl hnopl, fun _ v hv => ?_⟩
        rw [heval _ _ _ (constant_of_arg hv hr)] at hev
        cases hev
      | some e =>
        refine ⟨{ st with layer_count := some e }, rfl, rfl, rfl, ha, writes_only_refl _ _,
          fun _ _ => rfl, fun s hs => (by cases hs), fun _ hpl => absurd hpl hnopl,
          fun _ v hv => ?_⟩
        rw [heval _ _ _ (constant_of_arg hv hr)] at hev
        cases hev
        rfl
  | some l =>
    by_cases hk : n.kind = NodeKind.PLACEHOLDER
    · simp only [hk, decide_True]
      obtain ⟨st1, h1, he, hs, hl, ha1, hw, hj, hfilled, _⟩ :=
        fill_slot ha 7 (by decide) (by decide) r hr l
      refine ⟨st1, h1, he, hs, ha1, hw, hj, ?_, fun h => (by cases h), fun h => by cases h⟩
      intro l' hl'
      cases hl'
      exact ⟨by rw [hl, hlay], hfilled⟩
    · simp only [hk, decide_False]
      refine ⟨st, rfl, rfl, rfl, ha, writes_only_refl _ _, fun _ _ => rfl, ?_,
        fun h => (by cases h), fun h => by cases h⟩
      intro l' hl'
      cases hl'
      refine ⟨hlay, ?_⟩
      rintro ⟨m, hm, hkm⟩
      rw [hn] at hm; cases hm
      exact absurd hkm hk

theorem infer_extent_spec (c : ReifyHelpers) (heval : EvalReads c) {st : Reify}
    {args : List Ref} (ha : AttachmentArgs st.nodes args) :
    ∃ st1, infer_extent c args st = some st1 ∧
      st1.samples = st.samples ∧ st1.layer_count = st.layer_count ∧
      AttachmentArgs st1.nodes args ∧ WritesOnly args st.nodes st1.nodes ∧
      (∀ j, j ≠ 1 → j ≠ 2 → arg_node st1.nodes args j = arg_node st.nodes args j) ∧
      (∀ e, st.extent = some e → st1.extent = some e ∧
        (ArgIsPlaceholder st.nodes args 1 → ArgIsPlaceholder st.nodes args 2 →
          ArgIsConstant st1.nodes args 1 e.1 ∧ ArgIsConstant st1.nodes args 2 e.2)) ∧
      (st.extent = none →
        (ArgIsPlaceholder st.nodes args 1 ∨ ArgIsPlaceholder st.nodes args 2) →
        st1.extent = none) ∧
      (st.extent = none → ∀ w h, ArgIsConstant st.nodes args 1 w →
        ArgIsConstant st.nodes args 2 h → st1.extent = some (w, h)) := by
  obtain ⟨n1, hn1, _⟩ := ha.fields 1 (by decide) (by decide)
  obtain ⟨r1, p1, hr1, _, _⟩ := arg_node_get hn1
  obtain ⟨n2, hn2, _⟩ := ha.fields 2 (by decide) (by decide)
  obtain ⟨r2, p2, hr2, _, _⟩ := arg_node_get hn2
  have hph1 := is_placeholder_arg hn1 hr1
  have hph2 := is_placeholder_arg hn2 hr2
  have hpl1 : ArgIsPlaceholder st.nodes args 1 → n1.kind = NodeKind.PLACEHOLDER := by
    rintro ⟨m, hm, hkm⟩
    rw [hn1] at hm; cases hm
    exact hkm
  have hpl2 : ArgIsPlaceholder st.nodes args 2 → n2.kind = NodeKind.PLACEHOLDER := by
    rintro ⟨m, hm, hkm⟩
    rw [hn2] at hm; cases hm
    exact hkm
  unfold infer_extent
  rw [hr1]
  simp only [Option.some_bind, hph1]
  cases hext : st.extent with
  | none =>
    by_cases hk1 : n1.kind = NodeKind.PLACEHOLDER
    · simp only [hk1, decide_True]
      refine ⟨st, rfl, rfl, rfl, ha, writes_only_refl _ _, fun _ _ _ => rfl,
        fun e he => (by cases he), fun _ _ => hext, fun _ w h hw _ => ?_⟩
      exact absurd ⟨n1, hn1, hk1⟩ (not_placeholder_of_constant hw)
    · simp only [hk1, decide_False, hr2, Option.some_bind, hph2]
      by_cases hk2 : n2.kind = NodeKind.PLACEHOLDER
      · simp only [hk2, decide_True, if_true]
        refine ⟨st, rfl, rfl, rfl, ha, writes_only_refl _ _, fun _ _ _ => rfl,
          fun e he => (by cases he), fun _ _ => hext, fun _ w h _ hh => ?_⟩
        exact absurd ⟨n2, hn2, hk2⟩ (not_placeholder_of_constant hh)
      · simp only [hk2, decide_False, Bool.false_eq_true, if_false]
        have hnopl : ¬ (ArgIsPlaceholder st.nodes args 1 ∨ ArgIsPlaceholder st.nodes args 2) := by
          rintro (h | h)
          · exact hk1 (hpl1 h)
          · exact hk2 (hpl2 h)
        cases hev1 : c.eval st.nodes r1 with
        | none =>
          refine ⟨st, rfl, rfl, rfl, ha, writes_only_refl _ _, fun _ _ _ => rfl,
            fun e he => (by cases he), fun _ hpl => absurd hpl hnopl, fun _ w h hw _ => ?_⟩
          rw [heval _ _ _ (constant_of_arg hw hr1)] at hev1
          cases hev1
        | some e1 =>
          cases hev2 : c.eval st.nodes r2 with
          | none =>
            refine ⟨st, rfl, rfl, rfl, ha, writes_only_refl _ _, fun _ _ _ => rfl,
              fun e he => (by cases he), fun _ hpl => absurd hpl hnopl, fun _ w h _ hh => ?_⟩
            rw [heval _ _ _ (constant_of_arg hh hr2)] at hev2
            cases hev2
          | some e2 =>
            refine ⟨{ st with extent := some (e1, e2) }, rfl, rfl, rfl, ha,
              writes_only_refl _ _, fun _ _ _ => rfl,
              fun e he => (by cases he), fun _ hpl => absurd hpl hnopl, fun _ w h hw hh => ?_⟩
            rw [heval _ _ _ (constant_of_arg hw hr1)] at hev1
            rw [heval _ _ _ (constant_of_arg hh hr2)] at hev2
            cases hev1
            cases hev2
            rfl
  | some e =>
    by_cases hk1 : n1.kind = NodeKind.PLACEHOLDER
    · simp only [hk1, decide_True, hr2, Option.some_bind, hph2]
      by_cases hk2 : n2.kind = NodeKind.PLACEHOLDER
      · simp only [hk2, decide_True, if_true]
        obtain ⟨st1, h1, he1, hs1, hl1, ha1, hw1, hj1, hfilled1, _⟩ :=
          fill_slot ha 1 (by decide) (by decide) r1 hr1 e.1
        obtain ⟨st2, h2, he2, hs2, hl2, ha2, hw2, hj2, hfilled2, _⟩ :=
          fill_slot ha1 2 (by decide) (by decide) r2 hr2 e.2
        refine ⟨st2, by rw [h1]; exact h2, by rw [hs2, hs1], by rw [hl2, hl1], ha2,
          writes_only_trans hw1 hw2, ?_, ?_, fun h => (by cases h), fun h => by cases h⟩
        · intro j hj1' hj2'
          rw [hj2 j hj2', hj1 j hj1']
        · intro e' he'
          cases he'
          refine ⟨by rw [he2, he1, hext], fun hp1 _ => ⟨?_, ?_⟩⟩
          · obtain ⟨m, hm, hkm, hvm⟩ := hfilled1 hp1
            exact ⟨m, by rw [hj2 1 (by decide)]; exact hm, hkm, hvm⟩
          · apply hfilled2
            refine ⟨n2, ?_, hk2⟩
            rw [hj1 2 (by decide)]; exact hn2
      · simp only [hk2, decide_False, Bool.false_eq_true, if_false]
        refine ⟨st, rfl, rfl, rfl, ha, writes_only_refl _ _, fun _ _ _ => rfl, ?_,
          fun h => (by cases h), fun h => by cases h⟩
        intro e' he'
        cases he'
        exact ⟨hext, fun _ hp2 => absurd (hpl2 hp2) hk2⟩
    · simp only [hk1, decide_False]
      refine ⟨st, rfl, rfl, rfl, ha, writes_only_refl _ _, fun _ _ _ => rfl, ?_,
        fun h => (by cases h), fun h => by cases h⟩
      intro e' he'
      cases he'
      exact ⟨hext, fun hp1 _ => absurd (hpl1 hp1) hk1⟩

theorem arg_placeholder_of_eq {a b : List Node} {args : List Ref} {k : Nat}
    (h : arg_node b args k = arg_node a args k) (hp : ArgIsPlaceholder a args k) :
    ArgIsPlaceholder b args k := by
  obtain ⟨n, hn, hk⟩ := hp
  exact ⟨n, by rw [h]; exact hn, hk⟩

theorem arg_constant_of_eq {a b : List Node} {args : List Ref} {k v : Nat}
    (h : arg_node b args k = arg_node a args k) (hp : ArgIsConstant a args k v) :
    ArgIsConstant b args k v := by
  obtain ⟨n, hn, hk⟩ := hp
  exact ⟨n, by rw [h]; exact hn, hk⟩

/-- The body of the scan for one framebuffer attachment whose fields are
placeholders or constant numbers.  It returns and writes placeholders among the
fields only.  For the extent (the width and the height), the sample count and
the layer count alike: a value that the scan holds is still held afterwards and
fills the field where it is a placeholder; when the scan holds no value, a
field that is a placeholder leaves it without one, and a field that is a
constant number gives its value. -/
theorem infer_attachment_spec (c : ReifyHelpers) (heval : EvalReads c) (args : List Ref)
    (st : Reify) (ha : AttachmentArgs st.nodes args) :
    ∃ st1, infer_attachment c args st = some st1 ∧ AttachmentArgs st1.nodes args ∧
      Frame st.nodes st1.nodes ∧ WritesOnly args st.nodes st1.nodes ∧
      ((∀ e, st.extent = some e → st1.extent = some e ∧
          (ArgIsPlaceholder st.nodes args 1 → ArgIsPlaceholder st.nodes args 2 →
            ArgIsConstant st1.nodes args 1 e.1 ∧ ArgIsConstant st1.nodes args 2 e.2)) ∧
        (st.extent = none →
          (ArgIsPlaceholder st.nodes args 1 ∨ ArgIsPlaceholder st.nodes args 2) →
          st1.extent = none) ∧
        (st.extent = none → ∀ w h, ArgIsConstant st.nodes args 1 w →
          ArgIsConstant st.nodes args 2 h → st1.extent = some (w, h))) ∧
      ((∀ s, st.samples = some s → st1.samples = some s ∧
          (ArgIsPlaceholder st.nodes args 5 → ArgIsConstant st1.nodes args 5 s)) ∧
        (st.samples = none → ArgIsPlaceholder st.nodes args 5 → st1.samples = none) ∧
        (st.samples = none → ∀ v, ArgIsConstant st.nodes args 5 v → st1.samples = some v)) ∧
      ((∀ l, st.layer_count = some l → st1.layer_count = some l ∧
          (ArgIsPlaceholder st.nodes args 7 → ArgIsConstant st1.nodes args 7 l)) ∧
        (st.layer_count = none → ArgIsPlaceholder st.nodes args 7 → st1.layer_count = none) ∧
        (st.layer_count = none → ∀ v, ArgIsConstant st.nodes args 7 v →
          st1.layer_count = some v)) := by
  obtain ⟨s1, h1, he1, hs1, hl1, ha1, hw1, hj1⟩ := fill_arg_spec ha 9 (by decide) (by decide) 1
  obtain ⟨s2, h2, he2, hs2, hl2, ha2, hw2, hj2⟩ := fill_arg_spec ha1 3 (by decide) (by decide) 1
  obtain ⟨s3, h3, he3, hl3, ha3, hw3, hj3, hsam, hsam0, hsam1⟩ := infer_samples_spec ha2
  obtain ⟨s4, h4, hs4, hl4, ha4, hw4, hj4, hext, hext0, hext1⟩ := infer_extent_spec c heval ha3
  obtain ⟨s5, h5, he5, hs5, ha5, hw5, hj5, hlay, hlay0, hlay1⟩ := infer_layers_spec c heval ha4
  have hrun : infer_attachment c args st = some s5 := by
    simp [infer_attachment, run_steps, h1, h2, h3, h4, h5]
  have e1 : arg_node s3.nodes args 1 = arg_node st.nodes args 1 := by
    rw [hj3 1 (by decide), hj2 1 (by decide), hj1 1 (by decide)]
  have e2 : arg_node s3.nodes args 2 = arg_node st.nodes args 2 := by
    rw [hj3 2 (by decide), hj2 2 (by decide), hj1 2 (by decide)]
  have e5 : arg_node s2.nodes args 5 = arg_node st.nodes args 5 := by
    rw [hj2 5 (by decide), hj1 5 (by decide)]
  have e7 : arg_node s4.nodes args 7 = arg_node st.nodes args 7 := by
    rw [hj4 7 (by decide) (by decide), hj3 7 (by decide), hj2 7 (by decide), hj1 7 (by decide)]
  refine ⟨s5, hrun, ha5, (infer_attachment_sound c args st s5 hrun).1,
    writes_only_trans hw1 (writes_only_trans hw2 (writes_only_trans hw3
      (writes_only_trans hw4 hw5))), ⟨?_, ?_, ?_⟩, ⟨?_, ?_, ?_⟩, ⟨?_, ?_, ?_⟩⟩
  · intro e he
    have he3' : s3.extent = some e := by rw [he3, he2, he1, he]
    obtain ⟨hkeep, hfill⟩ := hext e he3'
    refine ⟨by rw [he5, hkeep], fun hp1 hp2 => ?_⟩
    obtain ⟨hc1, hc2⟩ := hfill (arg_placeholder_of_eq e1 hp1) (arg_placeholder_of_eq e2 hp2)
    exact ⟨arg_constant_of_eq (hj5 1 (by decide)) hc1, arg_constant_of_eq (hj5 2 (by decide)) hc2⟩
  · intro he hp
    have he3' : s3.extent = none := by rw [he3, he2, he1, he]
    rw [he5]
    apply hext0 he3'
    rcases hp with hp | hp
    · exact Or.inl (arg_placeholder_of_eq e1 hp)
    · exact Or.inr (arg_placeholder_of_eq e2 hp)
  · intro he w h hw hh
    have he3' : s3.extent = none := by rw [he3, he2, he1, he]
    rw [he5]
    exact hext1 he3' w h (arg_constant_of_eq e1 hw) (arg_constant_of_eq e2 hh)
  · intro s hs
    have hs2' : s2.samples = some s := by rw [hs2, hs1, hs]
    obtain ⟨hkeep, hfill⟩ := hsam s hs2'
    refine ⟨by rw [hs5, hs4, hkeep], fun hp => ?_⟩
    exact arg_constant_of_eq
      (by rw [hj5 5 (by decide), hj4 5 (by decide) (by decide)])
      (hfill (arg_placeholder_of_eq e5 hp))
  · intro hs hp
    have hs2' : s2.samples = none := by rw [hs2, hs1, hs]
    rw [hs5, hs4]
    exact hsam0 hs2' (arg_placeholder_of_eq e5 hp)
  · intro hs v hv
    have hs2' : s2.samples = none := by rw [hs2, hs1, hs]
    rw [hs5, hs4]
    exact hsam1 hs2' v (arg_constant_of_eq e5 hv)
  · intro l hl
    have hl4' : s4.layer_count = some l := by rw [hl4, hl3, hl2, hl1, hl]
    obtain ⟨hkeep, hfill⟩ := hlay l hl4'
    exact ⟨hkeep, fun hp => hfill (arg_placeholder_of_eq e7 hp)⟩
  · intro hl hp
    have hl4' : s4.layer_count = none := by rw [hl4, hl3, hl2, hl1, hl]
    exact hlay0 hl4' (arg_placeholder_of_eq e7 hp)
  · intro hl v hv
    have hl4' : s4.layer_count = none := by rw [hl4, hl3, hl2, hl1, hl]
    exact hlay1 hl4' v (arg_constant_of_eq e7 hv)

theorem link_at_frame {a b : List Node} (h : Frame a b) (l : LinkPtr) :
    link_at b l = link_at a l := by
  unfold link_at
  cases hn : a[l.node]? with
  | none =>
    have : b[l.node]? = none := by
      rw [List.getElem?_eq_none_iff] at hn ⊢
      rw [h.1]; exact hn
    rw [this]
  | some n =>
    obtain ⟨n1, hn1, hc⟩ := h.2 l.node n hn
    rw [hn1]
    rcases hc with he | ⟨_, v, o, he⟩
    · rw [he]
    · rw [he]
      rfl

theorem infer_parm_attachment (c : ReifyHelpers) (arg_ty : Ty) (parm : Ref) (st : Reify)
    (args : List Ref) (h : parm_case c st.nodes arg_ty parm = ParmCase.attachment args) :
    infer_parm c arg_ty parm st = infer_attachment c args st := by
  unfold parm_case at h
  unfold infer_parm
  cases arg_ty <;> try (cases h)
  rename_i T access
  simp only at h ⊢
  cases hl : parm.node.bind (fun p => link_at st.nodes ⟨p, parm.index⟩) with
  | none => rw [hl] at h; cases h
  | some link =>
    rw [hl] at h
    simp only at h ⊢
    cases hu : node_of st.nodes link.urdef with
    | none => rw [hu] at h; cases h
    | some urdef =>
      rw [hu] at h
      simp only at h ⊢
      split_ifs at h ⊢
      cases h
      rfl

theorem infer_parm_skipped (c : ReifyHelpers) (arg_ty : Ty) (parm : Ref) (st : Reify)
    (h : parm_case c st.nodes arg_ty parm = ParmCase.skipped) :
    infer_parm c arg_ty parm st = some st := by
  unfold parm_case at h
  unfold infer_parm
  cases arg_ty <;> try rfl
  rename_i T access
  simp only at h ⊢
  cases hl : parm.node.bind (fun p => link_at st.nodes ⟨p, parm.index⟩) with
  | none => rw [hl] at h; cases h
  | some link =>
    rw [hl] at h
    simp only at h ⊢
    cases hu : node_of st.nodes link.urdef with
    | none => rw [hu] at h; cases h
    | some urdef =>
      rw [hu] at h
      simp only at h ⊢
      split_ifs at h ⊢ <;> rfl

/-- The branch of a parameter that is skipped or is an attachment is the same
in every later state of the pass. -/
theorem parm_case_frame (c : ReifyHelpers) {a b : List Node} (hf : Frame a b) (arg_ty : Ty)
    (parm : Ref) :
    (∀ args, parm_case c a arg_ty parm = ParmCase.attachment args →
      parm_case c b arg_ty parm = ParmCase.attachment args) ∧
    (parm_case c a arg_ty parm = ParmCase.skipped →
      parm_case c b arg_ty parm = ParmCase.skipped) := by
  unfold parm_case
  cases arg_ty <;> try (exact ⟨fun _ h => h, fun h => h⟩)
  rename_i T access
  simp only
  have hlink : parm.node.bind (fun p => link_at b ⟨p, parm.index⟩) =
      parm.node.bind (fun p => link_at a ⟨p, parm.index⟩) := by
    cases parm.node with
    | none => rfl
    | some p => exact link_at_frame hf _
  rw [hlink]
  cases hl : parm.node.bind (fun p => link_at a ⟨p, parm.index⟩) with
  | none => exact ⟨fun _ h => h, fun h => h⟩
  | some link =>
    simp only
    cases hu : node_of a link.urdef with
    | none => exact ⟨fun _ h => (by cases h), fun h => (by cases h)⟩
    | some urdef =>
      simp only
      unfold node_of at hu ⊢
      cases hq : link.urdef.node with
      | none => rw [hq] at hu; cases hu
      | some q =>
        rw [hq] at hu
        simp only [Option.some_bind] at hu ⊢
        obtain ⟨n1, hn1, hc⟩ := hf.2 q urdef hu
        rw [hn1]
        simp only
        rcases hc with he | ⟨hk, v, o, he⟩
        · rw [he]
          exact ⟨fun _ h => h, fun h => h⟩
        · have hk1 : n1.kind = NodeKind.CONSTANT := by rw [he]
          rw [hk, hk1]
          simp

theorem infer_parms_total (c : ReifyHelpers) (fn_args : List Ty) (I : Nat → Reify → Prop) :
    ∀ (parms : List Ref) (i : Nat) (st : Reify), I i st →
      (∀ (j : Nat) (parm : Ref) (st1 : Reify), parms[j]? = some parm → I (i + j) st1 →
        ∃ ty st2, fn_args[i + j]? = some ty ∧ infer_parm c ty parm st1 = some st2 ∧
          I (i + j + 1) st2) →
      ∃ st1, infer_parms c fn_args (i + 1) parms st = some st1 ∧ I (i + parms.length) st1 := by
  intro parms
  induction parms with
  | nil =>
    intro i st h0 _
    exact ⟨st, rfl, h0⟩
  | cons parm parms ih =>
    intro i st h0 hstep
    obtain ⟨ty, st2, hty, hrun, hI⟩ := hstep 0 parm st (by simp) h0
    have hty1 : fn_args[i]? = some ty := hty
    obtain ⟨st3, hrun3, hI3⟩ := ih (i + 1) st2 hI (fun j pj s1 hpj hIj => by
      have := hstep (j + 1) pj s1 (by simpa using hpj) (by
        have e : i + (j + 1) = i + 1 + j := by omega
        rw [e]; exact hIj)
      have e : i + (j + 1) = i + 1 + j := by omega
      rw [e] at this
      exact this)
    refine ⟨st3, ?_, ?_⟩
    · simp only [infer_parms, Nat.add_sub_cancel, hty1, hrun, Option.some_bind]
      exact hrun3
    · have e : i + (parm :: parms).length = i + 1 + parms.length := by
        simp only [List.length_cons]; omega
      rw [e]; exact hI3

theorem infer_parms_append (c : ReifyHelpers) (fn_args : List Ty) (l2 : List Ref) :
    ∀ (l1 : List Ref) (i : Nat) (st : Reify),
      infer_parms c fn_args i (l1 ++ l2) st =
        (infer_parms c fn_args i l1 st).bind (infer_parms c fn_args (i + l1.length) l2) := by
  intro l1
  induction l1 with
  | nil => intro i st; rfl
  | cons parm l1 ih =>
    intro i st
    simp only [List.cons_append, infer_parms]
    cases fn_args[i - 1]? with
    | none => rfl
    | some ty =>
      simp only
      cases infer_parm c ty parm st with
      | none => rfl
      | some st1 =>
        simp only [Option.some_bind]
        have e : i + (parm :: l1).length = i + 1 + l1.length := by
          simp only [List.length_cons]; omega
        rw [e]
        exact ih (i + 1) st1

theorem attachment_at_parm {c : ReifyHelpers} {nodes : List Node} {fn_args : List Ty}
    {parms : List Ref} {i : Nat} {args : List Ref}
    (h : attachment_at c nodes fn_args parms i = some args) :
    ∃ ty parm, fn_args[i]? = some ty ∧ parms[i]? = some parm ∧
      parm_case c nodes ty parm = ParmCase.attachment args := by
  unfold attachment_at at h
  cases hty : fn_args[i]? with
  | none => rw [hty] at h; cases h
  | some ty =>
    cases hp : parms[i]? with
    | none => rw [hty, hp] at h; cases h
    | some parm =>
      rw [hty, hp] at h
      simp only at h
      cases hc : parm_case c nodes ty parm with
      | attachment a =>
        rw [hc] at h
        cases h
        exact ⟨ty, parm, rfl, rfl, hc⟩
      | swapchain u => rw [hc] at h; cases h
      | skipped => rw [hc] at h; cases h
      | dangling => rw [hc] at h; cases h

theorem skipped_not_attachment {c : ReifyHelpers} {nodes : List Node} {fn_args : List Ty}
    {parms : List Ref} {i : Nat} {args : List Ref}
    (h : attachment_at c nodes fn_args parms i = some args)
    (hs : skipped_at c nodes fn_args parms i) : False := by
  obtain ⟨ty, parm, hty, hp, hc⟩ := attachment_at_parm h
  obtain ⟨ty1, parm1, hty1, hp1, hc1⟩ := hs
  rw [hty] at hty1
  rw [hp] at hp1
  cases hty1
  cases hp1
  rw [hc] at hc1
  cases hc1

theorem take_getElem? (parms : List Ref) (b j : Nat) (parm : Ref)
    (h : (parms.take (b + 1))[j]? = some parm) : j ≤ b ∧ parms[j]? = some parm := by
  rw [List.getElem?_take] at h
  by_cases hj : j < b + 1
  · rw [if_pos hj] at h
    exact ⟨by omega, h⟩
  · rw [if_neg hj] at h
    cases h

/-- The scan of the parameters up to position `b` returns, and a property `J`
of the position and the state that every step keeps holds at its end.  When
the scan comes to an attachment, the fields of the attachment are as they were
when the scan started. -/
theorem scan_inv (c : ReifyHelpers) (heval : EvalReads c) (s : Reify) (fn_args : List Ty)
    (parms : List Ref) (b : Nat) (hs : Scanned c s.nodes fn_args parms b)
    (J : Nat → Reify → Prop) (hJ0 : J 0 s)
    (hatt : ∀ (i : Nat) (args : List Ref) (st st1 : Reify), i ≤ b →
      attachment_at c s.nodes fn_args parms i = some args → AttachmentArgs st.nodes args →
      (∀ k, arg_node st.nodes args k = arg_node s.nodes args k) → J i st →
      infer_attachment c args st = some st1 → J (i + 1) st1)
    (hskip : ∀ (i : Nat) (st : Reify), i ≤ b → skipped_at c s.nodes fn_args parms i →
      J i st → J (i + 1) st) :
    ∃ st1, infer_parms c fn_args 1 (parms.take (b + 1)) s = some st1 ∧
      Frame s.nodes st1.nodes ∧ J (b + 1) st1 := by
  have hlen : b < parms.length := by
    rcases hs.cases b (le_refl b) with ⟨_, parm, _, hp, _⟩ | ⟨args, ha, _⟩
    · exact (List.getElem?_eq_some.mp hp).1
    · obtain ⟨_, parm, _, hp, _⟩ := attachment_at_parm ha
      exact (List.getElem?_eq_some.mp hp).1
  have hmain := infer_parms_total c fn_args
    (fun i st => Frame s.nodes st.nodes ∧
      (∀ (j : Nat) (args : List Ref), i ≤ j → j ≤ b →
        attachment_at c s.nodes fn_args parms j = some args →
        ∀ k, arg_node st.nodes args k = arg_node s.nodes args k) ∧ J i st)
    (parms.take (b + 1)) 0 s ⟨frame_refl _, fun _ _ _ _ _ _ => rfl, hJ0⟩ (by
      intro j parm st hp hI
      obtain ⟨hjb, hpj⟩ := take_getElem? parms b j parm hp
      simp only [Nat.zero_add] at hI ⊢
      obtain ⟨hf, hun, hJ⟩ := hI
      rcases hs.cases j hjb with hsk | ⟨args, ha, haa⟩
      · obtain ⟨ty, parm1, hty, hp1, hc⟩ := id hsk
        rw [hpj] at hp1
        cases hp1
        have hc1 := (parm_case_frame c hf ty parm).2 hc
        refine ⟨ty, st, hty, infer_parm_skipped c ty parm st hc1, hf, ?_,
          hskip j st hjb hsk hJ⟩
        intro j1 args hj1 hj1b hat
        exact hun j1 args (by omega) hj1b hat
      · obtain ⟨ty, parm1, hty, hp1, hc⟩ := attachment_at_parm ha
        rw [hpj] at hp1
        cases hp1
        have hc1 := (parm_case_frame c hf ty parm).1 args hc
        have haa1 : AttachmentArgs st.nodes args := attachment_args_frame hf haa
        obtain ⟨st1, hrun, _, hf1, hw, _⟩ := infer_attachment_spec c heval args st haa1
        refine ⟨ty, st1, hty, ?_, frame_trans hf hf1, ?_,
          hatt j args st st1 hjb ha haa1 (hun j args (le_refl j) hjb ha) hJ hrun⟩
        · rw [infer_parm_attachment c ty parm st args hc1]
          exact hrun
        · intro j1 args1 hj1 hj1b hat k
          have hap : Apart st.nodes args args1 :=
            apart_frame hf (hs.apart j j1 args args1 hjb hj1b (by omega) ha hat)
          rw [apart_untouched hw hap k]
          exact hun j1 args1 (by omega) hj1b hat k)
  obtain ⟨st1, hrun, hf, _, hJ⟩ := hmain
  refine ⟨st1, hrun, hf, ?_⟩
  have e : 0 + (parms.take (b + 1)).length = b + 1 := by
    rw [List.length_take]
    omega
  rw [e] at hJ
  exact hJ

theorem arg_constant_frame {a b : List Node} (h : Frame a b) {args : List Ref} {k v : Nat}
    (hc : ArgIsConstant a args k v) : ArgIsConstant b args k v := by
  obtain ⟨n, hn, hk, hv⟩ := hc
  obtain ⟨r, p, hr, hp, hnp⟩ := arg_node_get hn
  refine ⟨n, ?_, hk, hv⟩
  have := frame_keeps h p n hnp (by rw [hk]; decide)
  simp [arg_node, node_of, hr, hp, this]

/-- The scan of an opaque call for one of its three locals `loc` (the extent,
the sample count, the layer count).  The attachment at position `a` is the
first whose field is known, with the value `v`; the attachment at position `b`
comes after it and its field is a placeholder.  Then the scan of the
parameters up to `b` returns, and it has filled the field of the attachment at
`b` with `v`. -/
theorem scan_channel (c : ReifyHelpers) (heval : EvalReads c) (s : Reify) (fn_args : List Ty)
    (parms : List Ref) (b : Nat) (hs : Scanned c s.nodes fn_args parms b) {α : Type}
    (loc : Reify → Option α) (known : List Node → List Ref → α → Prop)
    (unknown fillable : List Node → List Ref → Prop)
    (filled : List Node → List Ref → α → Prop)
    (hdep_known : ∀ (n1 n2 : List Node) (args : List Ref) (v : α),
      (∀ k, arg_node n1 args k = arg_node n2 args k) → known n2 args v → known n1 args v)
    (hdep_unknown : ∀ (n1 n2 : List Node) (args : List Ref),
      (∀ k, arg_node n1 args k = arg_node n2 args k) → unknown n2 args → unknown n1 args)
    (hdep_fillable : ∀ (n1 n2 : List Node) (args : List Ref),
      (∀ k, arg_node n1 args k = arg_node n2 args k) → fillable n2 args → fillable n1 args)
    (hspec : ∀ (args : List Ref) (st st1 : Reify), AttachmentArgs st.nodes args →
      infer_attachment c args st = some st1 →
      (∀ v, loc st = some v → loc st1 = some v ∧
        (fillable st.nodes args → filled st1.nodes args v)) ∧
      (loc st = none → unknown st.nodes args → loc st1 = none) ∧
      (loc st = none → ∀ v, known st.nodes args v → loc st1 = some v))
    (a : Nat) (argsA argsB : List Ref) (v : α) (hab : a < b)
    (hA : attachment_at c s.nodes fn_args parms a = some argsA)
    (hB : attachment_at c s.nodes fn_args parms b = some argsB)
    (hstart : loc s = none) (hknown : known s.nodes argsA v)
    (hunknown : ∀ (i : Nat) (args : List Ref), i < a →
      attachment_at c s.nodes fn_args parms i = some args → unknown s.nodes args)
    (hfill : fillable s.nodes argsB) :
    ∃ st1, infer_parms c fn_args 1 (parms.take (b + 1)) s = some st1 ∧
      Frame s.nodes st1.nodes ∧ filled st1.nodes argsB v := by
  obtain ⟨st1, hrun, hf, hJ⟩ := scan_inv c heval s fn_args parms b hs
    (fun i st => (i ≤ a → loc st = none) ∧ (a < i → loc st = some v) ∧
      (b < i → filled st.nodes argsB v))
    ⟨fun _ => hstart, fun h => absurd h (Nat.not_lt_zero a), fun h => absurd h (Nat.not_lt_zero b)⟩
    (by
      intro i args st st2 hib hat haa hsame ⟨h1, h2, _⟩ hrun
      obtain ⟨hkeep, hnone, hgather⟩ := hspec args st st2 haa hrun
      rcases Nat.lt_trichotomy i a with hia | hia | hia
      · have hl := hnone (h1 (by omega)) (hdep_unknown _ _ args hsame (hunknown i args hia hat))
        exact ⟨fun _ => hl, fun h => by omega, fun h => by omega⟩
      · subst hia
        rw [hA] at hat
        cases hat
        have hl := hgather (h1 (le_refl _)) v (hdep_known _ _ argsA v hsame hknown)
        exact ⟨fun h => by omega, fun _ => hl, fun h => by omega⟩
      · obtain ⟨hl, hfl⟩ := hkeep v (h2 hia)
        refine ⟨fun h => by omega, fun _ => hl, fun h => ?_⟩
        have hib' : i = b := by omega
        subst hib'
        rw [hB] at hat
        cases hat
        exact hfl (hdep_fillable _ _ argsB hsame hfill))
    (by
      intro i st hib hsk ⟨h1, h2, h3⟩
      have hia : i ≠ a := fun he => skipped_not_attachment hA (he ▸ hsk)
      have hibn : i ≠ b := fun he => skipped_not_attachment hB (he ▸ hsk)
      exact ⟨fun h => h1 (by omega), fun h => h2 (by omega), fun h => by omega⟩)
  exact ⟨st1, hrun, hf, hJ.2.2 (by omega)⟩

theorem for_nodes_append (body : Nat → Reify → Option Reify) (l2 : List Nat) :
    ∀ (l1 : List Nat) (st : Reify),
      for_nodes body (l1 ++ l2) st = (for_nodes body l1 st).bind (for_nodes body l2) := by
  intro l1
  induction l1 with
  | nil => intro st; rfl
  | cons p l1 ih =>
    intro st
    simp only [List.cons_append, for_nodes]
    cases body p st with
    | none => rfl
    | some st1 => exact ih st1

theorem range_split_at (n p : Nat) (h : p < n) :
    List.range n = List.range p ++ p :: List.range' (p + 1) (n - p - 1) := by
  obtain ⟨m, rfl⟩ : ∃ m, n = p + 1 + m := ⟨n - p - 1, by omega⟩
  have e : p + 1 + m - p - 1 = m := by omega
  rw [e, List.range_eq_range', List.range_eq_range']
  have h1 := List.range'_append 0 p (1 + m) 1
  simp only [Nat.zero_add, Nat.one_mul] at h1
  have h2 : 1 + m + p = p + 1 + m := by omega
  rw [h2] at h1
  rw [← h1]
  congr 1
  have h3 : 1 + m = m + 1 := by omega
  rw [h3, List.range'_succ]

/-- The first round of the second loop reaches the node `p` in the state
`reached`; the body for `p` returns, and every node that is not a placeholder
after it is the same node when the pass returns. -/
theorem round_reaches (c : ReifyHelpers) (fuel : Nat) (nodes out : List Node) (p : Nat)
    (first reached : Reify)
    (hfirst : for_nodes (reify_node c) (List.range nodes.length) { nodes := nodes } = some first)
    (hreached : for_nodes (infer_node c) (List.range p) { nodes := first.nodes } = some reached)
    (hp : p < nodes.length) (hrun : reify_inference c fuel nodes = some out) :
    ∃ after, infer_node c p reached = some after ∧ Frame after.nodes out := by
  have hlen : first.nodes.length = nodes.length :=
    (for_nodes_framed _ (reify_node_framed c) _ _ first hfirst).1
  unfold reify_inference at hrun
  rw [hfirst] at hrun
  simp only [Option.some_bind] at hrun
  cases fuel with
  | zero => cases hrun
  | succ fuel =>
    unfold infer_loop at hrun
    cases hr : infer_round c first.nodes with
    | none => rw [hr] at hrun; cases hrun
    | some r1 =>
      rw [hr] at hrun
      simp only at hrun
      have hout : Frame r1.nodes out := by
        by_cases hpr : r1.progress = true
        · rw [if_pos hpr] at hrun
          exact (infer_loop_spec c fuel r1.nodes out hrun).1
        · rw [if_neg hpr] at hrun
          cases hrun
          exact frame_refl _
      unfold infer_round at hr
      rw [hlen, range_split_at nodes.length p hp, for_nodes_append] at hr
      have hreached1 : for_nodes (infer_node c) (List.range p)
          { nodes := first.nodes, progress := false } = some reached := hreached
      rw [hreached1] at hr
      simp only [Option.some_bind, for_nodes] at hr
      cases ha : infer_node c p reached with
      | none => rw [ha] at hr; cases hr
      | some after =>
        rw [ha] at hr
        simp only [Option.some_bind] at hr
        have hf := (for_nodes_sound (infer_node c) (infer_node_sound c) _ after r1 hr).1
        exact ⟨after, rfl, frame_trans hf hout⟩

/-- The scan of an opaque call that the first round reaches in the state
`reached` goes through the parameters up to `b` and then through the others;
what the first part has made a constant is that constant when the pass
returns. -/
theorem scan_head_kept (c : ReifyHelpers) (fuel : Nat) (nodes out : List Node) (p : Nat)
    (first reached : Reify) (call : Node) (fn_args results : List Ty) (b : Nat) (sb : Reify)
    (hfirst : for_nodes (reify_node c) (List.range nodes.length) { nodes := nodes } = some first)
    (hreached : for_nodes (infer_node c) (List.range p) { nodes := first.nodes } = some reached)
    (hcall : reached.nodes[p]? = some call) (hkind : call.kind = NodeKind.CALL)
    (hfn : (call.args[0]?).bind (Ref.type reached.nodes) =
      some (Ty.OPAQUE_FN_TY fn_args results))
    (hhead : infer_parms c fn_args 1 (call.args.tail.take (b + 1))
      { reached with extent := none, samples := none, layer_count := none } = some sb)
    (hrun : reify_inference c fuel nodes = some out) : Frame sb.nodes out := by
  have hf1 : Frame nodes first.nodes := for_nodes_framed _ (reify_node_framed c) _ _ first hfirst
  have hf2 : Frame first.nodes reached.nodes :=
    (for_nodes_sound (infer_node c) (infer_node_sound c) _ _ reached hreached).1
  have hp : p < nodes.length := by
    rw [← hf1.1, ← hf2.1]
    exact (List.getElem?_eq_some.mp hcall).1
  obtain ⟨after, hafter, hout⟩ :=
    round_reaches c fuel nodes out p first reached hfirst hreached hp hrun
  unfold infer_node at hafter
  rw [hcall] at hafter
  simp only [hkind, if_true] at hafter
  unfold infer_call at hafter
  rw [hfn] at hafter
  simp only at hafter
  have hsplit : call.args.tail = call.args.tail.take (b + 1) ++ call.args.tail.drop (b + 1) :=
    (List.take_append_drop _ _).symm
  rw [hsplit, infer_parms_append, hhead] at hafter
  simp only [Option.some_bind] at hafter
  exact frame_trans (infer_parms_sound c fn_args _ _ sb after hafter).1 hout

/-- C16 (amended): the first round of the framebuffer inference reaches an
opaque-function `CALL` in the state `reached`, in which every parameter up to
position `b` is skipped or is a framebuffer attachment with a `CONSTRUCT`
urdef whose fields are placeholders or constant numbers, no placeholder being
two of these fields; the parameter at `b` is the attachment `B`.  If `A`, at a
position before `b`, is the first attachment whose width and height are both
constant numbers (every attachment before it has a placeholder as its width or
as its height), and the width and the height of `B` are placeholders, then the
scan of the call returns up to `b` with the width and the height of `A` in the
width and the height of `B`, and `B` has them when `reify_inference` returns.
Likewise for the sample count and for the layer count, each with the first
attachment in which it is a constant number. -/
theorem known_fields_copied (c : ReifyHelpers) (heval : EvalReads c) (fuel : Nat)
    (nodes : List Node) (p : Nat) (first reached : Reify) (call : Node)
    (fn_args results : List Ty) (b : Nat) (argsB : List Ref)
    (hfirst : for_nodes (reify_node c) (List.range nodes.length) { nodes := nodes } = some first)
    (hreached : for_nodes (infer_node c) (List.range p) { nodes := first.nodes } = some reached)
    (hcall : reached.nodes[p]? = some call) (hkind : call.kind = NodeKind.CALL)
    (hfn : (call.args[0]?).bind (Ref.type reached.nodes) =
      some (Ty.OPAQUE_FN_TY fn_args results))
    (hscan : Scanned c reached.nodes fn_args call.args.tail b)
    (hB : attachment_at c reached.nodes fn_args call.args.tail b = some argsB) :
    (∀ (a : Nat) (argsA : List Ref) (w h : Nat), a < b →
      attachment_at c reached.nodes fn_args call.args.tail a = some argsA →
      ArgIsConstant reached.nodes argsA 1 w → ArgIsConstant reached.nodes argsA 2 h →
      (∀ (i : Nat) (args : List Ref), i < a →
        attachment_at c reached.nodes fn_args call.args.tail i = some args →
        ArgIsPlaceholder reached.nodes args 1 ∨ ArgIsPlaceholder reached.nodes args 2) →
      ArgIsPlaceholder reached.nodes argsB 1 → ArgIsPlaceholder reached.nodes argsB 2 →
      (∃ sb, infer_parms c fn_args 1 (call.args.tail.take (b + 1))
          { reached with extent := none, samples := none, layer_count := none } = some sb ∧
        ArgIsConstant sb.nodes argsB 1 w ∧ ArgIsConstant sb.nodes argsB 2 h) ∧
      ∀ out, reify_inference c fuel nodes = some out →
        ArgIsConstant out argsB 1 w ∧ ArgIsConstant out argsB 2 h) ∧
    (∀ (a : Nat) (argsA : List Ref) (v : Nat), a < b →
      attachment_at c reached.nodes fn_args call.args.tail a = some argsA →
      ArgIsConstant reached.nodes argsA 5 v →
      (∀ (i : Nat) (args : List Ref), i < a →
        attachment_at c reached.nodes fn_args call.args.tail i = some args →
        ArgIsPlaceholder reached.nodes args 5) →
      ArgIsPlaceholder reached.nodes argsB 5 →
      (∃ sb, infer_parms c fn_args 1 (call.args.tail.take (b + 1))
          { reached with extent := none, samples := none, layer_count := none } = some sb ∧
        ArgIsConstant sb.nodes argsB 5 v) ∧
      ∀ out, reify_inference c fuel nodes = some out → ArgIsConstant out argsB 5 v) ∧
    (∀ (a : Nat) (argsA : List Ref) (v : Nat), a < b →
      attachment_at c reached.nodes fn_args call.args.tail a = some argsA →
      ArgIsConstant reached.nodes argsA 7 v →
      (∀ (i : Nat) (args : List Ref), i < a →
        attachment_at c reached.nodes fn_args call.args.tail i = some args →
        ArgIsPlaceholder reached.nodes args 7) →
      ArgIsPlaceholder reached.nodes argsB 7 →
      (∃ sb, infer_parms c fn_args 1 (call.args.tail.take (b + 1))
          { reached with extent := none, samples := none, layer_count := none } = some sb ∧
        ArgIsConstant sb.nodes argsB 7 v) ∧
      ∀ out, reify_inference c fuel nodes = some out → ArgIsConstant out argsB 7 v) := by
  have hkept : ∀ (sb : Reify) (out : List Node),
      infer_parms c fn_args 1 (call.args.tail.take (b + 1))
        { reached with extent := none, samples := none, layer_count := none } = some sb →
      reify_inference c fuel nodes = some out → Frame sb.nodes out :=
    fun sb out hsb hout => scan_head_kept c fuel nodes out p first reached call fn_args
      results b sb hfirst hreached hcall hkind hfn hsb hout
  have hspec : ∀ (args : List Ref) (st st1 : Reify), AttachmentArgs st.nodes args →
      infer_attachment c args st = some st1 → _ :=
    fun args st st1 haa hrun =>
      let ⟨st2, hrun2, h⟩ := infer_attachment_spec c heval args st haa
      (Option.some.inj (hrun2.symm.trans hrun)) ▸ h
  refine ⟨?_, ?_, ?_⟩
  · intro a argsA w h hab hA hw hh hun hp1 hp2
    obtain ⟨sb, hrun, _, hfilled⟩ := scan_channel c heval
      { reached with extent := none, samples := none, layer_count := none }
      fn_args call.args.tail b hscan Reify.extent
      (fun n args v => ArgIsConstant n args 1 v.1 ∧ ArgIsConstant n args 2 v.2)
      (fun n args => ArgIsPlaceholder n args 1 ∨ ArgIsPlaceholder n args 2)
      (fun n args => ArgIsPlaceholder n args 1 ∧ ArgIsPlaceholder n args 2)
      (fun n args v => ArgIsConstant n args 1 v.1 ∧ ArgIsConstant n args 2 v.2)
      (fun n1 n2 args v he hk =>
        ⟨arg_constant_of_eq (he 1) hk.1, arg_constant_of_eq (he 2) hk.2⟩)
      (fun n1 n2 args he hk => hk.elim (fun h1 => Or.inl (arg_placeholder_of_eq (he 1) h1))
        (fun h2 => Or.inr (arg_placeholder_of_eq (he 2) h2)))
      (fun n1 n2 args he hk =>
        ⟨arg_placeholder_of_eq (he 1) hk.1, arg_placeholder_of_eq (he 2) hk.2⟩)
      (fun args st st1 haa hrun =>
        ⟨fun v hv => ⟨((hspec args st st1 haa hrun).2.2.2.1.1 v hv).1,
            fun hf => ((hspec args st st1 haa hrun).2.2.2.1.1 v hv).2 hf.1 hf.2⟩,
          fun hn hu => (hspec args st st1 haa hrun).2.2.2.1.2.1 hn hu,
          fun hn v hk => (hspec args st st1 haa hrun).2.2.2.1.2.2 hn v.1 v.2 hk.1 hk.2⟩)
      a argsA argsB (w, h) hab hA hB rfl ⟨hw, hh⟩ hun ⟨hp1, hp2⟩
    refine ⟨⟨sb, hrun, hfilled.1, hfilled.2⟩, fun out hout => ?_⟩
    have hf := hkept sb out hrun hout
    exact ⟨arg_constant_frame hf hfilled.1, arg_constant_frame hf hfilled.2⟩
  · intro a argsA v hab hA hv hun hp
    obtain ⟨sb, hrun, _, hfilled⟩ := scan_channel c heval
      { reached with extent := none, samples := none, layer_count := none }
      fn_args call.args.tail b hscan Reify.samples
      (fun n args v => ArgIsConstant n args 5 v)
      (fun n args => ArgIsPlaceholder n args 5)
      (fun n args => ArgIsPlaceholder n args 5)
      (fun n args v => ArgIsConstant n args 5 v)
      (fun n1 n2 args v he hk => arg_constant_of_eq (he 5) hk)
      (fun n1 n2 args he hk => arg_placeholder_of_eq (he 5) hk)
      (fun n1 n2 args he hk => arg_placeholder_of_eq (he 5) hk)
      (fun args st st1 haa hrun => (hspec args st st1 haa hrun).2.2.2.2.1)
      a argsA argsB v hab hA hB rfl hv hun hp
    exact ⟨⟨sb, hrun, hfilled⟩, fun out hout =>
      arg_constant_frame (hkept sb out hrun hout) hfilled⟩
  · intro a argsA v hab hA hv hun hp
    obtain ⟨sb, hrun, _, hfilled⟩ := scan_channel c heval
      { reached with extent := none, samples := none, layer_count := none }
      fn_args call.args.tail b hscan Reify.layer_count
      (fun n args v => ArgIsConstant n args 7 v)
      (fun n args => ArgIsPlaceholder n args 7)
      (fun n args => ArgIsPlaceholder n args 7)
      (fun n args v => ArgIsConstant n args 7 v)
      (fun n1 n2 args v he hk => arg_constant_of_eq (he 7) hk)
      (fun n1 n2 args he hk => arg_placeholder_of_eq (he 7) hk)
      (fun n1 n2 args he hk => arg_placeholder_of_eq (he 7) hk)
      (fun args st st1 haa hrun => (hspec args st st1 haa hrun).2.2.2.2.2)
      a argsA argsB v hab hA hB rfl hv hun hp
    exact ⟨⟨sb, hrun, hfilled⟩, fun out hout =>
      arg_constant_frame (hkept sb out hrun hout) hfilled⟩

theorem colour_first_run :
    (reify_inference sample_reify 3 colour_first).map (fun ns => (kinds_and_values ns).drop 7) =
      some [(NodeKind.CONSTANT, ConstantValue.bytes 2), (NodeKind.CONSTANT, ConstantValue.bytes 2),
        (NodeKind.CONSTANT, ConstantValue.bytes 1), (NodeKind.CONSTANT, ConstantValue.bytes 2),
        (NodeKind.CONSTANT, ConstantValue.bytes 1), (NodeKind.CONSTANT, ConstantValue.bytes 0),
        (NodeKind.CONSTANT, ConstantValue.bytes 1), (NodeKind.CONSTANT, ConstantValue.bytes 0),
        (NodeKind.CONSTANT, ConstantValue.bytes 1),
        (NodeKind.CONSTRUCT, ConstantValue.unset), (NodeKind.CALL, ConstantValue.unset)] := by
  rfl

theorem depth_first_run :
    (reify_inference sample_reify 3 depth_first).map (fun ns => (kinds_and_values ns).drop 7) =
      some [(NodeKind.PLACEHOLDER, ConstantValue.unset), (NodeKind.PLACEHOLDER, ConstantValue.unset),
        (NodeKind.CONSTANT, ConstantValue.bytes 1), (NodeKind.CONSTANT, ConstantValue.bytes 2),
        (NodeKind.PLACEHOLDER, ConstantValue.unset), (NodeKind.CONSTANT, ConstantValue.bytes 0),
        (NodeKind.PLACEHOLDER, ConstantValue.unset), (NodeKind.CONSTANT, ConstantValue.bytes 0),
        (NodeKind.CONSTANT, ConstantValue.bytes 1),
        (NodeKind.CONSTRUCT, ConstantValue.unset), (NodeKind.CALL, ConstantValue.unset)] := by
  rfl

theorem distinct_of_nodup (args : List Ref) (h : (args.map Ref.node).Nodup) :
    ∀ (k1 k2 : Nat) (r1 r2 : Ref), args[k1]? = some r1 → args[k2]? = some r2 →
      r1.node = r2.node → k1 = k2 := by
  intro k1 k2 r1 r2 h1 h2 he
  obtain ⟨hk1, e1⟩ := List.getElem?_eq_some.mp h1
  obtain ⟨hk2, e2⟩ := List.getElem?_eq_some.mp h2
  have hl1 : k1 < (args.map Ref.node).length := by simpa using hk1
  have hl2 : k2 < (args.map Ref.node).length := by simpa using hk2
  have : (args.map Ref.node)[k1] = (args.map Ref.node)[k2] := by
    simp only [List.getElem_map, e1, e2, he]
  exact (List.Nodup.getElem_inj_iff h).mp this

/-- Counterexample to C16: the depth image comes before the colour image among
the arguments of the call; the colour image has the constant width and height
2, the width (node 7) and the height (node 8) of the depth image are
placeholders before `reify_inference` and still placeholders after it. -/
theorem depth_first_not_inferred :
    kind_of depth_first 7 = some NodeKind.PLACEHOLDER ∧
    kind_of depth_first 8 = some NodeKind.PLACEHOLDER ∧
    sample_reify.eval depth_first ⟨some 3, 0⟩ = some 2 ∧
    (reify_inference sample_reify 3 depth_first).map (fun ns => (kind_of ns 7, kind_of ns 8)) =
      some (some NodeKind.PLACEHOLDER, some NodeKind.PLACEHOLDER) :=
  ⟨rfl, rfl, rfl, rfl⟩

theorem sample_reify_reads : EvalReads sample_reify := by
  intro nodes r v h
  simp [sample_reify, h]

theorem colour_args_constants (k : Nat) (r : Ref) (n : Node) (hr : colour_args[k]? = some r)
    (hn : node_of colour_first_reached r = some n) : n.kind ≠ NodeKind.PLACEHOLDER := by
  have hk : k < 10 := (List.getElem?_eq_some.mp hr).1
  interval_cases k <;> cases hr <;> cases hn <;> decide

theorem colour_args_known : AttachmentArgs colour_first_reached colour_args := by
  constructor
  · intro k h1 h2
    interval_cases k <;> exact ⟨_, rfl, Or.inr ⟨rfl, _, rfl⟩⟩
  · intro k1 k2 r1 r2 n h1 _ _ hn hk
    exact absurd hk (colour_args_constants k1 r1 n h1 hn)

theorem depth_args_declared : AttachmentArgs colour_first_reached depth_args := by
  constructor
  · intro k h1 h2
    interval_cases k <;>
      first
        | exact ⟨_, rfl, Or.inl rfl⟩
        | exact ⟨_, rfl, Or.inr ⟨rfl, _, rfl⟩⟩
  · intro k1 k2 r1 r2 n h1 h2 he _ _
    exact distinct_of_nodup depth_args (by decide) k1 k2 r1 r2 h1 h2 he

theorem apart_of_disjoint (nodes : List Node) (args1 args2 : List Ref)
    (h : ∀ r1 ∈ args1, ∀ r2 ∈ args2, r1.node ≠ r2.node) : Apart nodes args1 args2 := by
  intro k1 k2 r1 r2 n h1 h2 he _ _
  exact h r1 (List.getElem?_mem h1) r2 (List.getElem?_mem h2) he

theorem colour_first_scanned :
    Scanned sample_reify colour_first_reached [Ty.IMBUED_TY Ty.IMAGE 1, Ty.IMBUED_TY Ty.IMAGE 1]
      colour_first_call.args.tail 1 := by
  constructor
  · intro i hi
    interval_cases i
    · exact Or.inr ⟨colour_args, rfl, colour_args_known⟩
    · exact Or.inr ⟨depth_args, rfl, depth_args_declared⟩
  · intro i j args1 args2 hi hj hij h1 h2
    interval_cases i <;> interval_cases j
    · exact absurd rfl hij
    · cases h1
      cases h2
      exact apart_of_disjoint _ _ _ (by decide)
    · cases h1
      cases h2
      exact apart_of_disjoint _ _ _ (by decide)
    · exact absurd rfl hij

/-- Witness of C16 on the render pass of the test, with the colour image
before the depth image: the width and the height (2 and 2), the sample count
(1) and the layer count (1) of the colour image are those of the depth image
when `reify_inference` has returned. -/
theorem known_fields_copied_witness :
    ArgIsConstant colour_first_reached colour_args 1 2 ∧
    ArgIsPlaceholder colour_first_reached depth_args 1 ∧
    ∃ out, reify_inference sample_reify 3 colour_first = some out ∧
      (ArgIsConstant out depth_args 1 2 ∧ ArgIsConstant out depth_args 2 2) ∧
      ArgIsConstant out depth_args 5 1 ∧ ArgIsConstant out depth_args 7 1 :=
  ⟨⟨_, rfl, rfl, rfl⟩, ⟨_, rfl, rfl⟩, _, rfl,
   ((known_fields_copied sample_reify sample_reify_reads 3 colour_first 17
      { nodes := colour_first_declared } { nodes := colour_first_reached, progress := true }
      colour_first_call [Ty.IMBUED_TY Ty.IMAGE 1, Ty.IMBUED_TY Ty.IMAGE 1] [] 1 depth_args
      rfl rfl rfl rfl rfl colour_first_scanned rfl).1 0 colour_args 2 2 (by decide) rfl
      ⟨_, rfl, rfl, rfl⟩ ⟨_, rfl, rfl, rfl⟩ (fun i _ hi => absurd hi (Nat.not_lt_zero i))
      ⟨_, rfl, rfl⟩ ⟨_, rfl, rfl⟩).2 _ rfl,
   ((known_fields_copied sample_reify sample_reify_reads 3 colour_first 17
      { nodes := colour_first_declared } { nodes := colour_first_reached, progress := true }
      colour_first_call [Ty.IMBUED_TY Ty.IMAGE 1, Ty.IMBUED_TY Ty.IMAGE 1] [] 1 depth_args
      rfl rfl rfl rfl rfl colour_first_scanned rfl).2.1 0 colour_args 1 (by decide) rfl
      ⟨_, rfl, rfl, rfl⟩ (fun i _ hi => absurd hi (Nat.not_lt_zero i)) ⟨_, rfl, rfl⟩).2 _ rfl,
   ((known_fields_copied sample_reify sample_reify_reads 3 colour_first 17
      { nodes := colour_first_declared } { nodes := colour_first_reached, progress := true }
      colour_first_call [Ty.IMBUED_TY Ty.IMAGE 1, Ty.IMBUED_TY Ty.IMAGE 1] [] 1 depth_args
      rfl rfl rfl rfl rfl colour_first_scanned rfl).2.2 0 colour_args 1 (by decide) rfl
      ⟨_, rfl, rfl, rfl⟩ (fun i _ hi => absurd hi (Nat.not_lt_zero i)) ⟨_, rfl, rfl⟩).2 _ rfl⟩

/-- C17: a second run of `reify_inference` on the nodes that a first run has
returned returns the same nodes. -/
theorem reify_inference_idempotent (c : ReifyHelpers) (fuel : Nat) (nodes nodes1 : List Node)
    (h : reify_inference c fuel nodes = some nodes1) :
    reify_inference c fuel nodes1 = some nodes1 :=
  reify_inference_fixed c fuel nodes nodes1 h

theorem reify_inference_idempotent_witness :
    ∃ nodes1, reify_inference sample_reify 3 colour_first = some nodes1 ∧
      reify_inference sample_reify 3 nodes1 = some nodes1 :=
  ⟨_, rfl, reify_inference_idempotent sample_reify 3 colour_first _ rfl⟩

/-- C18: `reify_inference` leaves every node that is not a `PLACEHOLDER` as it
is, and a `PLACEHOLDER` stays as it is or becomes a `CONSTANT` with a value. -/
theorem reify_inference_fills_placeholders_only (c : ReifyHelpers) (fuel : Nat)
    (nodes nodes1 : List Node) (h : reify_inference c fuel nodes = some nodes1) :
    Frame nodes nodes1 ∧
    ∀ (p : Nat) (n : Node), nodes[p]? = some n → n.kind ≠ NodeKind.PLACEHOLDER →
      nodes1[p]? = some n :=
  ⟨reify_inference_frame c fuel nodes nodes1 h,
   fun p n hn hk => frame_keeps (reify_inference_frame c fuel nodes nodes1 h) p n hn hk⟩

theorem reify_inference_fills_placeholders_only_witness :
    ∃ nodes1, reify_inference sample_reify 3 depth_first = some nodes1 ∧
      Frame depth_first nodes1 ∧
      ∀ (p : Nat) (n : Node), depth_first[p]? = some n → n.kind ≠ NodeKind.PLACEHOLDER →
        nodes1[p]? = some n :=
  ⟨_, rfl, reify_inference_fills_placeholders_only sample_reify 3 depth_first _ rfl⟩

/-! ## `process_node_links` and `RGCImpl::build_links` -/

theorem getElem?_set_link (nodes : List Node) (l : LinkPtr) (c : ChainLink) (q : Nat) :
    (set_link nodes l c)[q]? =
      (nodes[q]?).map (fun n => if q = l.node then { n with links := n.links.set l.index c }
        else n) := by
  unfold set_link
  cases hn : nodes[l.node]? with
  | none =>
    simp only
    by_cases hq : q = l.node
    · subst hq; simp [hn]
    · simp [hq]
  | some n =>
    simp only
    have hlt : l.node < nodes.length := by
      by_contra hc
      rw [List.getElem?_eq_none (by omega)] at hn; cases hn
    by_cases hq : q = l.node
    · subst hq; simp [List.getElem?_set, hlt, hn]
    · rw [List.getElem?_set, if_neg (Ne.symm hq)]
      cases nodes[q]? <;> simp [hq]

theorem getElem?_set_arg (nodes : List Node) (p i : Nat) (r : Ref) (q : Nat) :
    (set_arg nodes p i r)[q]? =
      (nodes[q]?).map (fun n => if q = p then { n with args := n.args.set i r } else n) := by
  unfold set_arg
  cases hn : nodes[p]? with
  | none =>
    simp only
    by_cases hq : q = p
    · subst hq; simp [hn]
    · simp [hq]
  | some n =>
    simp only
    have hlt : p < nodes.length := by
      by_contra hc
      rw [List.getElem?_eq_none (by omega)] at hn; cases hn
    by_cases hq : q = p
    · subst hq; simp [List.getElem?_set, hlt, hn]
    · rw [List.getElem?_set, if_neg (Ne.symm hq)]
      cases nodes[q]? <;> simp [hq]

theorem link_at_set_arg (nodes : List Node) (p i : Nat) (r : Ref) (l : LinkPtr) :
    link_at (set_arg nodes p i r) l = link_at nodes l := by
  unfold link_at
  rw [getElem?_set_arg]
  cases nodes[l.node]? with
  | none => rfl
  | some n =>
    simp only [Option.map_some', Option.some_bind]
    split_ifs <;> rfl

theorem length_set_arg (nodes : List Node) (p i : Nat) (r : Ref) :
    (set_arg nodes p i r).length = nodes.length := by
  unfold set_arg
  cases nodes[p]? <;> simp

theorem shaped_refl (p : Nat) (nodes : List Node) : Shaped p nodes nodes :=
  ⟨rfl, fun _ n h => ⟨n, h, rfl, rfl, rfl, fun _ => rfl⟩⟩

theorem shaped_trans {p : Nat} {a b c : List Node} (h1 : Shaped p a b) (h2 : Shaped p b c) :
    Shaped p a c := by
  refine ⟨h2.1.trans h1.1, ?_⟩
  intro q n hn
  obtain ⟨n1, hn1, hk1, ht1, hl1, ha1⟩ := h1.2 q n hn
  obtain ⟨n2, hn2, hk2, ht2, hl2, ha2⟩ := h2.2 q n1 hn1
  exact ⟨n2, hn2, hk2.trans hk1, ht2.trans ht1, hl2.trans hl1,
    fun hq => (ha2 hq).trans (ha1 hq)⟩

theorem same_topo_refl (nodes : List Node) : SameTopo nodes nodes :=
  fun _ => ⟨rfl, rfl⟩

theorem same_topo_trans {a b c : List Node} (h1 : SameTopo a b) (h2 : SameTopo b c) :
    SameTopo a c :=
  fun l => ⟨(h2 l).1.trans (h1 l).1, (h2 l).2.trans (h1 l).2⟩

theorem shaped_set_link (p : Nat) (nodes : List Node) (l : LinkPtr) (c : ChainLink) :
    Shaped p nodes (set_link nodes l c) := by
  refine ⟨length_set_link nodes l c, ?_⟩
  intro q n hn
  rw [getElem?_set_link, hn]
  simp only [Option.map_some']
  split_ifs
  · exact ⟨_, rfl, rfl, rfl, rfl, fun _ => rfl⟩
  · exact ⟨_, rfl, rfl, rfl, rfl, fun _ => rfl⟩

theorem shaped_set_arg (p i : Nat) (nodes : List Node) (r : Ref) :
    Shaped p nodes (set_arg nodes p i r) := by
  refine ⟨length_set_arg nodes p i r, ?_⟩
  intro q n hn
  rw [getElem?_set_arg, hn]
  simp only [Option.map_some']
  split_ifs with hq
  · exact ⟨_, rfl, rfl, rfl, by simp, fun h => absurd hq h⟩
  · exact ⟨_, rfl, rfl, rfl, rfl, fun _ => rfl⟩

theorem same_topo_set_arg (nodes : List Node) (p i : Nat) (r : Ref) :
    SameTopo nodes (set_arg nodes p i r) := by
  intro l
  simp [next_of, prev_of, link_at_set_arg]

/-- Writing a link without touching its `next` and `prev`. -/
theorem same_topo_set_link (nodes : List Node) (l : LinkPtr) (c c1 : ChainLink)
    (hc : link_at nodes l = some c) (hn : c1.next = c.next) (hp : c1.prev = c.prev) :
    SameTopo nodes (set_link nodes l c1) := by
  intro x
  unfold next_of prev_of
  rw [link_at_set_link]
  by_cases hx : x = l
  · subst hx
    simp [hc, hn, hp]
  · simp [hx]

theorem steady_refl (p : Nat) (nodes : List Node) : Steady p nodes nodes :=
  ⟨shaped_refl p nodes, same_topo_refl nodes⟩

theorem steady_trans {p : Nat} {a b c : List Node} (h1 : Steady p a b) (h2 : Steady p b c) :
    Steady p a c :=
  ⟨shaped_trans h1.1 h2.1, same_topo_trans h1.2 h2.2⟩

theorem steady_set_link (p : Nat) (nodes : List Node) (l : LinkPtr) (c c1 : ChainLink)
    (hc : link_at nodes l = some c) (hn : c1.next = c.next) (hp : c1.prev = c.prev) :
    Steady p nodes (set_link nodes l c1) :=
  ⟨shaped_set_link p nodes l c1, same_topo_set_link nodes l c c1 hc hn hp⟩

theorem steady_set_arg (p i : Nat) (nodes : List Node) (r : Ref) :
    Steady p nodes (set_arg nodes p i r) :=
  ⟨shaped_set_arg p i nodes r, same_topo_set_arg nodes p i r⟩

theorem steady_op_bind {p : Nat} {f g : LinkState → Option LinkState} (hf : SteadyOp p f)
    (hg : SteadyOp p g) : SteadyOp p (fun st => (f st).bind g) := by
  intro st st1 h
  simp only at h
  cases h1 : f st with
  | none => rw [h1] at h; cases h
  | some st2 =>
    rw [h1] at h
    exact steady_trans (hf st st2 h1) (hg st2 st1 h)

theorem steady_op_id (p : Nat) : SteadyOp p (fun st => some st) := by
  intro st st1 h; cases h; exact steady_refl p _

theorem steady_op_check (p : Nat) (b : Bool) : SteadyOp p (fun st => some (st.check b)) := by
  intro st st1 h; cases h; exact steady_refl p _

theorem for_each_steady {p : Nat} {body : Nat → LinkState → Option LinkState}
    (h : ∀ i, SteadyOp p (body i)) (is : List Nat) : SteadyOp p (for_each body is) := by
  induction is with
  | nil => exact steady_op_id p
  | cons i is ih => exact steady_op_bind (h i) ih

theorem set_def_steady (p node i : Nat) : SteadyOp p (set_def node i) := by
  intro st st1 h
  unfold set_def at h
  cases hl : link_at st.nodes ⟨node, i⟩ with
  | none => rw [hl] at h; cases h
  | some link =>
    rw [hl] at h
    simp only [Option.map_some', Option.some.injEq] at h
    subst h
    exact steady_set_link p _ _ link _ hl rfl rfl

theorem construct_undef_steady (p node i : Nat) : SteadyOp p (construct_undef node i) := by
  intro st st1 h
  unfold construct_undef at h
  cases hparm : (st.nodes[node]?).bind (fun n => n.args[i]?) with
  | none => rw [hparm] at h; cases h
  | some parm =>
    rw [hparm] at h
    simp only [Option.some_bind] at h
    cases hl : ref_link parm with
    | none => rw [hl] at h; cases h
    | some l =>
      rw [hl] at h
      simp only [Option.some_bind] at h
      cases hlink : link_at st.nodes l with
      | none => rw [hlink] at h; cases h
      | some link =>
        rw [hlink] at h
        simp only [Option.map_some', Option.some.injEq] at h
        subst h
        exact steady_set_link p _ _ link _ hlink rfl rfl

theorem slice_child_steady (p : Nat) (do_ssa : Bool) (node : Nat) :
    SteadyOp p (slice_child do_ssa node) := by
  intro st st1 h
  unfold slice_child at h
  cases hparm : (st.nodes[node]?).bind (fun n => n.args[0]?) with
  | none => rw [hparm] at h; cases h
  | some parm =>
    rw [hparm] at h
    simp only [Option.some_bind] at h
    cases hpn : node_of st.nodes parm with
    | none => rw [hpn] at h; cases h
    | some pn =>
      rw [hpn] at h
      simp only [Option.some_bind] at h
      split_ifs at h
      · cases h; exact steady_refl p _
      · cases hl : ref_link parm with
        | none => rw [hl] at h; cases h
        | some l =>
          rw [hl] at h
          simp only [Option.some_bind] at h
          cases hlink : link_at st.nodes l with
          | none => rw [hlink] at h; cases h
          | some link =>
            rw [hlink] at h
            simp only [Option.map_some', Option.some.injEq] at h
            subst h
            exact steady_set_link p _ _ link _ hlink rfl rfl

theorem rewrite_parm_steady (fuel node i : Nat) (l : LinkPtr) (st : LinkState)
    (res : LinkState × Ref) (h : rewrite_parm fuel node i l st = some res) :
    Steady node st.nodes res.1.nodes := by
  unfold rewrite_parm at h
  cases hw : walk_writes fuel st.nodes l with
  | none => rw [hw] at h; cases h
  | some last =>
    rw [hw] at h
    simp only [Option.some_bind] at h
    cases hl : link_at st.nodes last with
    | none => rw [hl] at h; cases h
    | some lastlink =>
      rw [hl] at h
      simp only [Option.map_some', Option.some.injEq] at h
      subst h
      exact steady_set_arg node i _ _


theorem write_undef_steady (p node i : Nat) (res : LinkState × Ref) (st1 : LinkState)
    (h : write_undef node i res = some st1) : Steady p res.1.nodes st1.nodes := by
  unfold write_undef at h
  cases hl : ref_link res.2 with
  | none => rw [hl] at h; cases h
  | some l =>
    rw [hl] at h
    simp only [Option.some_bind] at h
    cases hlink : link_at res.1.nodes l with
    | none => rw [hlink] at h; cases h
    | some link =>
      rw [hlink] at h
      simp only [Option.map_some', Option.some.injEq] at h
      subst h
      exact steady_set_link p _ _ link _ hlink rfl rfl

theorem append_read_steady (p node i : Nat) (res : LinkState × Ref) (st1 : LinkState)
    (h : append_read node i res = some st1) : Steady p res.1.nodes st1.nodes := by
  unfold append_read at h
  cases hl : ref_link res.2 with
  | none => rw [hl] at h; cases h
  | some l =>
    rw [hl] at h
    simp only [Option.some_bind] at h
    cases hlink : link_at res.1.nodes l with
    | none => rw [hlink] at h; cases h
    | some link =>
      rw [hlink] at h
      simp only [Option.map_some', Option.some.injEq] at h
      subst h
      exact steady_set_link p _ _ link _ hlink rfl rfl

theorem add_write_steady (do_ssa : Bool) (fuel node i : Nat) :
    SteadyOp node (add_write do_ssa fuel node i) := by
  intro st st1 h
  unfold add_write at h
  cases hparm : (st.nodes[node]?).bind (fun n => n.args[i]?) with
  | none => rw [hparm] at h; cases h
  | some parm =>
    rw [hparm] at h
    simp only [Option.some_bind] at h
    cases hpn : node_of st.nodes parm with
    | none => rw [hpn] at h; cases h
    | some pn =>
      rw [hpn] at h
      simp only [Option.some_bind] at h
      split_ifs at h
      · cases h; exact steady_refl node _
      · cases hl : ref_link parm with
        | none => rw [hl] at h; cases h
        | some l =>
          rw [hl] at h
          simp only [Option.some_bind] at h
          cases hlink : link_at st.nodes l with
          | none => rw [hlink] at h; cases h
          | some link =>
            rw [hlink] at h
            simp only [Option.some_bind] at h
            split at h
            · exact write_undef_steady node node i _ st1 h
            · rename_i old _
              cases hres : rewrite_parm fuel node i l
                  (((st.check (pn.kind != NodeKind.GARBAGE)).check do_ssa).check
                    (after_write st.nodes node old)) with
              | none => rw [hres] at h; cases h
              | some res =>
                rw [hres] at h
                simp only [Option.some_bind] at h
                have hs := rewrite_parm_steady fuel node i l _ res hres
                exact steady_trans hs (write_undef_steady node node i res st1 h)

theorem read_parm_steady (do_ssa : Bool) (fuel node i : Nat) (l : LinkPtr) (link : ChainLink)
    (parm : Ref) (st : LinkState) (res : LinkState × Ref)
    (h : read_parm do_ssa fuel node i l link parm st = some res) :
    Steady node st.nodes res.1.nodes := by
  unfold read_parm at h
  split at h
  · cases h; exact steady_refl node _
  · rename_i old _
    cases hb : before_read st.nodes node old with
    | none => rw [hb] at h; cases h
    | some b =>
      rw [hb] at h
      simp only [Option.some_bind] at h
      split_ifs at h
      · have hs := rewrite_parm_steady fuel node i l _ res h
        exact hs
      · cases h; exact steady_refl node _

theorem add_read_steady (do_ssa : Bool) (fuel node i : Nat) :
    SteadyOp node (add_read do_ssa fuel node i) := by
  intro st st1 h
  unfold add_read at h
  cases hparm : (st.nodes[node]?).bind (fun n => n.args[i]?) with
  | none => rw [hparm] at h; cases h
  | some parm =>
    rw [hparm] at h
    simp only [Option.some_bind] at h
    cases hpn : node_of st.nodes parm with
    | none => rw [hpn] at h; cases h
    | some pn =>
      rw [hpn] at h
      simp only [Option.some_bind] at h
      split_ifs at h
      · cases h; exact steady_refl node _
      · cases hl : ref_link parm with
        | none => rw [hl] at h; cases h
        | some l =>
          rw [hl] at h
          simp only [Option.some_bind] at h
          cases hlink : link_at st.nodes l with
          | none => rw [hlink] at h; cases h
          | some link =>
            rw [hlink] at h
            simp only [Option.some_bind] at h
            cases hres : read_parm do_ssa fuel node i l link parm
                (st.check (pn.kind != NodeKind.GARBAGE)) with
            | none => rw [hres] at h; cases h
            | some res =>
              rw [hres] at h
              simp only [Option.some_bind] at h
              have hs := read_parm_steady do_ssa fuel node i l link parm _ res hres
              exact steady_trans hs (append_read_steady node node i res st1 h)

/-- The pointers after `a->next = b; b->prev = a`. -/
theorem link_next_prev_topo (a b : LinkPtr) (nodes nodes1 : List Node)
    (h : link_next_prev a b nodes = some nodes1) :
    (∀ l, next_of nodes1 l = if l = a then some b else next_of nodes l) ∧
    (∀ l, prev_of nodes1 l = if l = b then some a else prev_of nodes l) ∧
    ∀ p, Shaped p nodes nodes1 := by
  unfold link_next_prev at h
  cases hla : link_at nodes a with
  | none => rw [hla] at h; cases h
  | some la =>
    rw [hla] at h
    simp only [Option.some_bind] at h
    cases hlb : link_at (set_link nodes a { la with next := some b }) b with
    | none => rw [hlb] at h; cases h
    | some lb =>
      rw [hlb] at h
      simp only [Option.map_some', Option.some.injEq] at h
      subst h
      have hlb' := hlb
      rw [link_at_set_link] at hlb'
      refine ⟨?_, ?_, fun p => shaped_trans (shaped_set_link p _ _ _) (shaped_set_link p _ _ _)⟩
      · intro l
        unfold next_of
        rw [link_at_set_link]
        by_cases h1 : l = b
        · subst h1
          rw [if_pos rfl, hlb]
          simp only [Option.map_some', Option.some_bind]
          by_cases h2 : l = a
          · subst h2
            rw [if_pos rfl, hla] at hlb'
            simp only [Option.map_some', Option.some.injEq] at hlb'
            rw [if_pos rfl, ← hlb']
          · rw [if_neg h2] at hlb'
            rw [if_neg h2, hlb']
            rfl
        · rw [if_neg h1, link_at_set_link]
          by_cases h2 : l = a
          · subst h2; simp [hla]
          · simp [h2]
      · intro l
        unfold prev_of
        rw [link_at_set_link]
        by_cases h1 : l = b
        · subst h1
          simp [hlb]
        · rw [if_neg h1, if_neg h1, link_at_set_link]
          by_cases h2 : l = a
          · subst h2; simp [hla]
          · simp [h2]

/-- Linking a result that no `next` pointer goes to yet keeps the invariant. -/
theorem link_next_prev_inv {nodes0 : List Node} {done : LinkPtr → Prop} {nodes nodes1 : List Node}
    (a b : LinkPtr) (hJ : NextInv nodes0 done nodes) (hb : ¬ done b)
    (h : link_next_prev a b nodes = some nodes1) :
    NextInv nodes0 (fun n => done n ∨ n = b) nodes1 := by
  obtain ⟨hnext, hprev, _⟩ := link_next_prev_topo a b nodes nodes1 h
  intro l n hl
  rw [hnext] at hl
  by_cases h1 : l = a
  · rw [if_pos h1] at hl
    cases hl
    exact ⟨Or.inr rfl, Or.inl (by rw [hprev, if_pos rfl, h1])⟩
  · rw [if_neg h1] at hl
    obtain ⟨hd, hp⟩ := hJ l n hl
    have hnb : n ≠ b := fun he => hb (he ▸ hd)
    exact ⟨Or.inl hd, by rw [hprev, if_neg hnb]; exact hp⟩

theorem next_inv_mono {nodes0 : List Node} {done done1 : LinkPtr → Prop} {nodes : List Node}
    (hJ : NextInv nodes0 done nodes) (h : ∀ n, done n → done1 n) :
    NextInv nodes0 done1 nodes :=
  fun l n hl => ⟨h n (hJ l n hl).1, (hJ l n hl).2⟩

theorem next_inv_topo {nodes0 : List Node} {done : LinkPtr → Prop} {nodes nodes1 : List Node}
    (hJ : NextInv nodes0 done nodes) (h : SameTopo nodes nodes1) :
    NextInv nodes0 done nodes1 := by
  intro l n hl
  rw [(h l).1] at hl
  obtain ⟨hd, hp⟩ := hJ l n hl
  exact ⟨hd, by rw [(h n).2]; exact hp⟩

theorem back_inv_topo {nodes nodes1 : List Node} (hJ : BackInv nodes)
    (h : SameTopo nodes nodes1) : BackInv nodes1 := by
  intro l p hl
  rw [(h l).2] at hl
  obtain ⟨n, hn⟩ := hJ l p hl
  exact ⟨n, by rw [(h p).1]; exact hn⟩

/-- Linking a result keeps every `prev` pointer answered by some `next`. -/
theorem link_next_prev_back {nodes nodes1 : List Node} (a b : LinkPtr) (hJ : BackInv nodes)
    (h : link_next_prev a b nodes = some nodes1) : BackInv nodes1 := by
  obtain ⟨hnext, hprev, _⟩ := link_next_prev_topo a b nodes nodes1 h
  intro l p hl
  rw [hprev] at hl
  rw [hnext]
  by_cases hpa : p = a
  · exact ⟨b, by rw [if_pos hpa]⟩
  · rw [if_neg hpa]
    by_cases hlb : l = b
    · rw [if_pos hlb] at hl
      cases hl
      exact absurd rfl hpa
    · rw [if_neg hlb] at hl
      exact hJ l p hl

theorem same_shape_steady {nodes0 nodes nodes1 : List Node} {p : Nat}
    (hs : SameShape nodes0 nodes) (h : Shaped p nodes nodes1)
    (hp : ∀ n0, nodes0[p]? = some n0 → n0.kind ≠ NodeKind.CONSTRUCT) :
    SameShape nodes0 nodes1 := by
  refine ⟨h.1.trans hs.1, ?_⟩
  intro q n1 hn1
  have hq : q < nodes.length := by
    rw [← h.1]
    by_contra hc
    rw [List.getElem?_eq_none (by omega)] at hn1; cases hn1
  obtain ⟨n1', hn1', hk, ht, _, ha⟩ := h.2 q nodes[q] (List.getElem?_eq_getElem hq)
  rw [hn1] at hn1'; cases hn1'
  obtain ⟨n0, hn0, hk0, ht0, ha0⟩ := hs.2 q nodes[q] (List.getElem?_eq_getElem hq)
  refine ⟨n0, hn0, hk.trans hk0, ht.trans ht0, ?_⟩
  intro hc
  have hqp : q ≠ p := by
    intro he; subst he
    exact hp n0 hn0 hc
  rw [ha hqp]; exact ha0 hc

theorem link_inv_steady {nodes0 nodes nodes1 : List Node} {done : LinkPtr → Prop} {p : Nat}
    (hi : LinkInv nodes0 done nodes) (h : Steady p nodes nodes1)
    (hp : ∀ n0, nodes0[p]? = some n0 → n0.kind ≠ NodeKind.CONSTRUCT) :
    LinkInv nodes0 done nodes1 :=
  ⟨next_inv_topo hi.next h.2, same_shape_steady hi.shape h.1 hp, back_inv_topo hi.back h.2⟩

theorem link_inv_mono {nodes0 nodes : List Node} {done done1 : LinkPtr → Prop}
    (hi : LinkInv nodes0 done nodes) (h : ∀ n, done n → done1 n) :
    LinkInv nodes0 done1 nodes :=
  ⟨next_inv_mono hi.next h, hi.shape, hi.back⟩

theorem out_of_range_kind (nodes0 : List Node) :
    ∀ n0, nodes0[nodes0.length]? = some n0 → n0.kind ≠ NodeKind.CONSTRUCT := by
  intro n0 h
  rw [List.getElem?_eq_none (le_refl _)] at h; cases h

/-- A step that writes no argument at all keeps the invariant. -/
theorem link_inv_fixed {nodes0 nodes nodes1 : List Node} {done : LinkPtr → Prop}
    (hi : LinkInv nodes0 done nodes) (h : ∀ p, Steady p nodes nodes1) :
    LinkInv nodes0 done nodes1 :=
  link_inv_steady hi (h nodes0.length) (out_of_range_kind nodes0)

theorem add_result_inv {nodes0 : List Node} {done : LinkPtr → Prop} (do_ssa : Bool)
    (node j ref_idx : Nat) (st st1 : LinkState) (hi : LinkInv nodes0 done st.nodes)
    (hd : ¬ done ⟨node, j⟩) (h : add_result do_ssa node j ref_idx st = some st1) :
    LinkInv nodes0 (fun n => done n ∨ n = ⟨node, j⟩) st1.nodes := by
  unfold add_result at h
  cases h1 : set_def node j st with
  | none => rw [h1] at h; cases h
  | some s1 =>
    rw [h1] at h
    simp only [Option.some_bind] at h
    have hi1 : LinkInv nodes0 done s1.nodes :=
      link_inv_fixed hi (fun p => set_def_steady p node j st s1 h1)
    cases hsrc : (s1.nodes[node]?).bind (fun n => n.args[ref_idx]?) with
    | none => rw [hsrc] at h; cases h
    | some src =>
      rw [hsrc] at h
      simp only [Option.some_bind] at h
      cases hsn : node_of s1.nodes src with
      | none => rw [hsn] at h; cases h
      | some sn =>
        rw [hsn] at h
        simp only [Option.some_bind] at h
        split_ifs at h
        · cases h
          exact link_inv_mono hi1 (fun n hn => Or.inl hn)
        · cases hl : ref_link src with
          | none => rw [hl] at h; cases h
          | some s =>
            rw [hl] at h
            simp only [Option.some_bind] at h
            cases hlp : link_next_prev s ⟨node, j⟩ s1.nodes with
            | none => rw [hlp] at h; cases h
            | some nodes2 =>
              rw [hlp] at h
              simp only [Option.map_some', Option.some.injEq] at h
              subst h
              refine ⟨link_next_prev_inv s ⟨node, j⟩ hi1.next hd hlp, ?_,
                link_next_prev_back s ⟨node, j⟩ hi1.back hlp⟩
              exact same_shape_steady hi1.shape
                ((link_next_prev_topo s ⟨node, j⟩ _ _ hlp).2.2 nodes0.length)
                (out_of_range_kind nodes0)

theorem converge_head_inv {nodes0 : List Node} {done : LinkPtr → Prop}
    (node : Nat) (st st1 : LinkState) (hi : LinkInv nodes0 done st.nodes)
    (hd : ¬ done ⟨node, 0⟩) (h : converge_head node st = some st1) :
    LinkInv nodes0 (fun n => done n ∨ n = ⟨node, 0⟩) st1.nodes := by
  unfold converge_head at h
  cases hparm : (st.nodes[node]?).bind (fun n => n.args[0]?) with
  | none => rw [hparm] at h; cases h
  | some parm =>
    rw [hparm] at h
    simp only [Option.some_bind] at h
    cases hl : ref_link parm with
    | none => rw [hl] at h; cases h
    | some s =>
      rw [hl] at h
      simp only [Option.some_bind] at h
      cases hlp : link_next_prev s ⟨node, 0⟩ st.nodes with
      | none => rw [hlp] at h; cases h
      | some nodes2 =>
        rw [hlp] at h
        simp only [Option.map_some', Option.some.injEq] at h
        subst h
        refine ⟨link_next_prev_inv s ⟨node, 0⟩ hi.next hd hlp, ?_,
          link_next_prev_back s ⟨node, 0⟩ hi.back hlp⟩
        exact same_shape_steady hi.shape
          ((link_next_prev_topo s ⟨node, 0⟩ _ _ hlp).2.2 nodes0.length)
          (out_of_range_kind nodes0)

theorem construct_next_inv {nodes0 : List Node} {done : LinkPtr → Prop}
    (node i : Nat) (st st1 : LinkState) (hi : LinkInv nodes0 done st.nodes)
    (n0 : Node) (hn0 : nodes0[node]? = some n0) (hk : n0.kind = NodeKind.CONSTRUCT)
    (ht : ∃ t, n0.type.head? = some t ∧ is_array_ty t = true) (hi1 : 1 ≤ i)
    (h : construct_next node i st = some st1) :
    LinkInv nodes0 (fun n => done n ∨ n = ⟨node, 0⟩) st1.nodes := by
  unfold construct_next at h
  cases hparm : (st.nodes[node]?).bind (fun n => n.args[i]?) with
  | none => rw [hparm] at h; cases h
  | some parm =>
    rw [hparm] at h
    simp only [Option.some_bind] at h
    cases hl : ref_link parm with
    | none => rw [hl] at h; cases h
    | some l =>
      rw [hl] at h
      simp only [Option.some_bind] at h
      cases hlink : link_at st.nodes l with
      | none => rw [hlink] at h; cases h
      | some link =>
        rw [hlink] at h
        simp only [Option.map_some', Option.some.injEq] at h
        subst h
        have harg : n0.args[i]? = some parm := by
          cases hn : st.nodes[node]? with
          | none => rw [hn] at hparm; cases hparm
          | some n =>
            rw [hn] at hparm
            simp only [Option.some_bind] at hparm
            obtain ⟨n0', hn0', _, _, ha⟩ := hi.shape.2 node n hn
            rw [hn0] at hn0'; cases hn0'
            rw [← ha hk]; exact hparm
        have hnext : ∀ x, next_of (set_link st.nodes l { link with next := some ⟨node, 0⟩ }) x =
            if x = l then some ⟨node, 0⟩ else next_of st.nodes x := by
          intro x
          unfold next_of
          rw [link_at_set_link]
          by_cases hx : x = l
          · subst hx; simp [hlink]
          · simp [hx]
        have hprev : ∀ x, prev_of (set_link st.nodes l { link with next := some ⟨node, 0⟩ }) x =
            prev_of st.nodes x := by
          intro x
          unfold prev_of
          rw [link_at_set_link]
          by_cases hx : x = l
          · subst hx; simp [hlink]
          · simp [hx]
        refine ⟨?_, same_shape_steady hi.shape (shaped_set_link nodes0.length _ _ _)
          (out_of_range_kind nodes0), ?_⟩
        swap
        · intro x q hx
          rw [hprev] at hx
          rw [hnext]
          by_cases hql : q = l
          · exact ⟨⟨node, 0⟩, by rw [if_pos hql]⟩
          · rw [if_neg hql]
            exact hi.back x q hx
        intro x n hx
        rw [hnext] at hx
        by_cases hxl : x = l
        · rw [if_pos hxl] at hx
          cases hx
          refine ⟨Or.inr rfl, Or.inr ⟨rfl, n0, hn0, hk, ht, i, parm, hi1, harg, ?_⟩⟩
          rw [hxl]; exact hl
        · rw [if_neg hxl] at hx
          obtain ⟨hd, hp⟩ := hi.next x n hx
          exact ⟨Or.inl hd, by rw [hprev]; exact hp⟩

theorem for_each_mem_inv {σ : Type} (body : Nat → σ → Option σ) (I : σ → Prop) (is : List Nat)
    (hstep : ∀ i ∈ is, ∀ s s1, I s → body i s = some s1 → I s1) :
    ∀ (st st1 : σ), I st → for_each body is st = some st1 → I st1 := by
  induction is with
  | nil => intro st st1 h0 h; cases h; exact h0
  | cons i is ih =>
    intro st st1 h0 h
    simp only [for_each] at h
    cases h1 : body i st with
    | none => rw [h1] at h; cases h
    | some s1 =>
      rw [h1] at h
      exact ih (fun k hk => hstep k (List.mem_cons_of_mem _ hk)) s1 st1
        (hstep i (List.mem_cons_self _ _) st s1 h0 h1) h

theorem for_each_range'_inv {σ : Type} (body : Nat → σ → Option σ) (I : Nat → σ → Prop)
    (m : Nat) : ∀ (a : Nat) (st st1 : σ),
    (∀ j s s1, a ≤ j → j < a + m → I j s → body j s = some s1 → I (j + 1) s1) →
    I a st → for_each body (List.range' a m) st = some st1 → I (a + m) st1 := by
  induction m with
  | zero => intro a st st1 _ h0 h; cases h; exact h0
  | succ m ih =>
    intro a st st1 hstep h0 h
    rw [List.range'_succ] at h
    simp only [for_each] at h
    cases h1 : body a st with
    | none => rw [h1] at h; cases h
    | some s1 =>
      rw [h1] at h
      have := ih (a + 1) s1 st1
        (fun j s s' hj1 hj2 => hstep j s s' (by omega) (by omega))
        (hstep a st s1 (le_refl _) (by omega) h0 h1) h
      rw [show a + (m + 1) = a + 1 + m by omega]
      exact this

theorem for_each_range_inv {σ : Type} (body : Nat → σ → Option σ) (I : Nat → σ → Prop)
    (m : Nat) (st st1 : σ)
    (hstep : ∀ j s s1, j < m → I j s → body j s = some s1 → I (j + 1) s1)
    (h0 : I 0 st) (h : for_each body (List.range m) st = some st1) : I m st1 := by
  rw [List.range_eq_range'] at h
  have := for_each_range'_inv body I m 0 st st1
    (fun j s s1 _ hj => hstep j s s1 (by omega)) h0 h
  simpa using this

theorem link_call_parm_steady (h : LinkHelpers) (do_ssa : Bool) (fuel node : Nat)
    (fn_args : List Ty) (first_parm i : Nat) :
    SteadyOp node (link_call_parm h do_ssa fuel node fn_args first_parm i) := by
  intro st st1 hs
  unfold link_call_parm at hs
  split at hs
  · cases hs
  · rename_i access _
    cases h1 : (if h.is_write_access access || access == h.eConsume then
        add_write do_ssa fuel node i st else some st) with
    | none => rw [h1] at hs; cases hs
    | some s1 =>
      rw [h1] at hs
      simp only [Option.some_bind] at hs
      have hs1 : Steady node st.nodes s1.nodes := by
        split_ifs at h1
        · exact add_write_steady do_ssa fuel node i st s1 h1
        · cases h1; exact steady_refl node _
      have hs2 : Steady node s1.nodes st1.nodes := by
        split_ifs at hs
        · exact add_read_steady do_ssa fuel node i s1 st1 hs
        · cases hs; exact steady_refl node _
      exact steady_trans hs1 hs2
  · cases hs; exact steady_refl node _

theorem done_up_to_fresh (proc : Nat → Prop) (p j : Nat) (hp : ¬ proc p) :
    ¬ DoneUpTo proc p j ⟨p, j⟩ := by
  rintro (h | ⟨_, h⟩)
  · exact hp h
  · exact absurd h (lt_irrefl j)

theorem done_up_to_succ (proc : Nat → Prop) (p j : Nat) (n : LinkPtr)
    (h : DoneUpTo proc p j n ∨ n = ⟨p, j⟩) : DoneUpTo proc p (j + 1) n := by
  rcases h with (h | ⟨h1, h2⟩) | h
  · exact Or.inl h
  · exact Or.inr ⟨h1, by omega⟩
  · subst h; exact Or.inr ⟨rfl, by simp⟩

theorem done_up_to_zero (proc : Nat → Prop) (p : Nat) (n : LinkPtr) (h : proc n.node) :
    DoneUpTo proc p 0 n := Or.inl h

theorem done_up_to_end (proc : Nat → Prop) (p j : Nat) (n : LinkPtr)
    (h : DoneUpTo proc p j n) : proc n.node ∨ n.node = p := by
  rcases h with h | ⟨h, _⟩
  · exact Or.inl h
  · exact Or.inr h

/-- The invariant of `build_links` across `process_node_links` for a node `p`
that has not been processed yet. -/
theorem process_node_links_inv {nodes0 : List Node} {proc : Nat → Prop} (h : LinkHelpers)
    (do_ssa : Bool) (fuel p : Nat) (st st1 : LinkState)
    (hi : LinkInv nodes0 (fun n => proc n.node) st.nodes) (hp : ¬ proc p)
    (hrun : process_node_links h do_ssa fuel p st = some st1) :
    LinkInv nodes0 (fun n => proc n.node ∨ n.node = p) st1.nodes := by
  unfold process_node_links at hrun
  cases hn : st.nodes[p]? with
  | none => rw [hn] at hrun; cases hrun
  | some n =>
    rw [hn] at hrun
    simp only at hrun
    obtain ⟨n0, hn0, hk0, ht0, ha0⟩ := hi.shape.2 p n hn
    have hweak : ∀ {nodes : List Node}, LinkInv nodes0 (fun n => proc n.node) nodes →
        LinkInv nodes0 (fun n => proc n.node ∨ n.node = p) nodes :=
      fun hx => link_inv_mono hx (fun _ hd => Or.inl hd)
    have hnc : n.kind ≠ NodeKind.CONSTRUCT →
        ∀ m0, nodes0[p]? = some m0 → m0.kind ≠ NodeKind.CONSTRUCT := by
      intro hne m0 hm0
      rw [hn0] at hm0; cases hm0
      rw [← hk0]; exact hne
    cases hk : n.kind with
    | PLACEHOLDER => rw [hk] at hrun; cases hrun; exact hweak hi
    | CONSTANT => rw [hk] at hrun; cases hrun; exact hweak hi
    | MATH_BINARY => rw [hk] at hrun; cases hrun; exact hweak hi
    | GARBAGE => rw [hk] at hrun; cases hrun; exact hweak hi
    | CLEAR => rw [hk] at hrun; cases hrun; exact hweak hi
    | EXTRACT =>
      rw [hk] at hrun
      exact hweak (link_inv_fixed hi (fun q => set_def_steady q p 0 st st1 hrun))
    | ACQUIRE_NEXT_IMAGE =>
      rw [hk] at hrun
      exact hweak (link_inv_fixed hi (fun q => set_def_steady q p 0 st st1 hrun))
    | SLICE =>
      rw [hk] at hrun
      simp only [link_slice] at hrun
      have hop : SteadyOp p (link_slice do_ssa fuel p) := by
        unfold link_slice
        exact steady_op_bind (add_write_steady do_ssa fuel p 0)
          (steady_op_bind (set_def_steady p p 0)
            (steady_op_bind (set_def_steady p p 1) (slice_child_steady p do_ssa p)))
      exact hweak (link_inv_steady hi (hop st st1 (by simpa [link_slice] using hrun))
        (hnc (by rw [hk]; decide)))
    | CONSTRUCT =>
      rw [hk] at hrun
      simp only [link_construct] at hrun
      cases h1 : set_def p 0 st with
      | none => rw [h1] at hrun; cases hrun
      | some s1 =>
        rw [h1] at hrun
        simp only [Option.some_bind] at hrun
        have hi1 := link_inv_fixed hi (fun q => set_def_steady q p 0 st s1 h1)
        cases h2 : for_each (construct_undef p) (List.range n.args.length) s1 with
        | none => rw [h2] at hrun; cases hrun
        | some s2 =>
          rw [h2] at hrun
          simp only [Option.some_bind] at hrun
          have hi2 := link_inv_fixed hi1
            (fun q => for_each_steady (fun i => construct_undef_steady q p i) _ s1 s2 h2)
          cases hty : n.type.head? with
          | none => rw [hty] at hrun; cases hrun
          | some t =>
            rw [hty] at hrun
            simp only at hrun
            by_cases harr : is_array_ty t = true
            · rw [if_pos harr] at hrun
              have hgoal : LinkInv nodes0 (fun x => proc x.node ∨ x = ⟨p, 0⟩) st1.nodes := by
                refine for_each_mem_inv (construct_next p)
                  (fun s => LinkInv nodes0 (fun x => proc x.node ∨ x = ⟨p, 0⟩) s.nodes) _ ?_
                  s2 st1 (link_inv_mono hi2 (fun _ hd => Or.inl hd)) hrun
                intro i hmem s s' hI hbody
                have hi1' : 1 ≤ i := (List.mem_range'_1.mp hmem).1
                have := construct_next_inv p i s s' hI n0 hn0 (by rw [← hk0, hk])
                  ⟨t, by rw [← ht0]; exact hty, harr⟩ hi1' hbody
                exact link_inv_mono this (fun x hx => by
                  rcases hx with hx | hx
                  · exact hx
                  · exact Or.inr hx)
              exact link_inv_mono hgoal (fun x hx => by
                rcases hx with hx | hx
                · exact Or.inl hx
                · exact Or.inr (by rw [hx]))
            · rw [if_neg harr] at hrun
              cases hrun
              exact hweak hi2
    | SPLICE =>
      rw [hk] at hrun
      simp only at hrun
      have hfin := for_each_range_inv (link_splice_result do_ssa fuel p n)
        (fun j s => LinkInv nodes0 (DoneUpTo proc p j) s.nodes) n.type.length st st1 ?_
        (link_inv_mono hi (fun x hx => done_up_to_zero proc p x hx)) hrun
      · exact link_inv_mono hfin (fun x hx => done_up_to_end proc p _ x hx)
      · intro j s s' _ hI hbody
        unfold link_splice_result at hbody
        split_ifs at hbody
        · cases hw : add_write do_ssa fuel p j s with
          | none => rw [hw] at hbody; cases hbody
          | some s2 =>
            rw [hw] at hbody
            simp only [Option.some_bind] at hbody
            have hI2 := link_inv_steady hI (add_write_steady do_ssa fuel p j s s2 hw)
              (hnc (by rw [hk]; decide))
            have := add_result_inv do_ssa p j j s2 s' hI2 (done_up_to_fresh proc p j hp) hbody
            exact link_inv_mono this (fun x hx => done_up_to_succ proc p j x hx)
        · have := link_inv_fixed hI (fun q => set_def_steady q p j s s' hbody)
          exact link_inv_mono this (fun x hx => done_up_to_succ proc p j x (Or.inl hx))
    | CONVERGE =>
      rw [hk] at hrun
      simp only at hrun
      cases h1 : set_def p 0 st with
      | none => rw [h1] at hrun; cases hrun
      | some s1 =>
        rw [h1] at hrun
        simp only [Option.some_bind] at hrun
        have hi1 := link_inv_fixed hi (fun q => set_def_steady q p 0 st s1 h1)
        cases h2 : converge_head p s1 with
        | none => rw [h2] at hrun; cases hrun
        | some s2 =>
          rw [h2] at hrun
          simp only [Option.some_bind] at hrun
          have hi2 := converge_head_inv p s1 s2 hi1 (fun hd => hp hd) h2
          have hop : SteadyOp p (for_each (link_diverged do_ssa fuel p n)
              (List.range n.args.length)) := by
            apply for_each_steady
            intro i s s' hb
            unfold link_diverged at hb
            split at hb
            · cases hb
            · exact add_write_steady do_ssa fuel p i s s' hb
            · exact add_read_steady do_ssa fuel p i s s' hb
          have hi3 := link_inv_steady hi2 (hop s2 st1 hrun) (hnc (by rw [hk]; decide))
          exact link_inv_mono hi3 (fun x hx => by
            rcases hx with hx | hx
            · exact Or.inl hx
            · exact Or.inr (by rw [hx]))
    | CALL =>
      rw [hk] at hrun
      simp only [link_call] at hrun
      have hresults : ∀ (s : LinkState), LinkInv nodes0 (fun x => proc x.node) s.nodes →
          for_each (link_call_result do_ssa p n.type) (List.range n.type.length) s = some st1 →
          LinkInv nodes0 (fun x => proc x.node ∨ x.node = p) st1.nodes := by
        intro s hIs hr
        have hfin := for_each_range_inv (link_call_result do_ssa p n.type)
          (fun j s => LinkInv nodes0 (DoneUpTo proc p j) s.nodes) n.type.length s st1 ?_
          (link_inv_mono hIs (fun x hx => done_up_to_zero proc p x hx)) hr
        · exact link_inv_mono hfin (fun x hx => done_up_to_end proc p _ x hx)
        · intro j s2 s' _ hI hbody
          unfold link_call_result at hbody
          split at hbody
          · have := add_result_inv do_ssa p j _ s2 s' hI (done_up_to_fresh proc p j hp) hbody
            exact link_inv_mono this (fun x hx => done_up_to_succ proc p j x hx)
          · cases hbody
      split at hrun
      · rename_i fn_args _ _
        cases h1 : for_each (link_call_parm h do_ssa fuel p fn_args 1)
            (List.range' 1 (n.args.length - 1)) st with
        | none => rw [h1] at hrun; cases hrun
        | some s1 =>
          rw [h1] at hrun
          simp only [Option.some_bind] at hrun
          have hi1 := link_inv_steady hi
            (for_each_steady (fun i => link_call_parm_steady h do_ssa fuel p fn_args 1 i) _
              st s1 h1) (hnc (by rw [hk]; decide))
          exact hresults s1 hi1 hrun
      · rename_i fn_args _ _
        cases h1 : for_each (link_call_parm h do_ssa fuel p fn_args 4)
            (List.range' 4 (n.args.length - 4)) st with
        | none => rw [h1] at hrun; cases hrun
        | some s1 =>
          rw [h1] at hrun
          simp only [Option.some_bind] at hrun
          have hi1 := link_inv_steady hi
            (for_each_steady (fun i => link_call_parm_steady h do_ssa fuel p fn_args 4 i) _
              st s1 h1) (hnc (by rw [hk]; decide))
          exact hresults s1 hi1 hrun
      · cases hrun

theorem same_links_trans {a b c : List Node} (h1 : SameLinks a b) (h2 : SameLinks b c) :
    SameLinks a c :=
  ⟨fun l => (h2.links l).trans (h1.links l), fun p => (h2.types p).trans (h1.types p),
    h2.length.trans h1.length⟩

theorem stamp_urdef_same_links (d : Ref) (fuel : Nat) :
    ∀ (nodes nodes1 : List Node) (l : LinkPtr), stamp_urdef d fuel nodes l = some nodes1 →
    SameLinks nodes nodes1 := by
  induction fuel with
  | zero => intro nodes nodes1 l h; cases h
  | succ fuel ih =>
    intro nodes nodes1 l h
    unfold stamp_urdef at h
    cases hc : link_at nodes l with
    | none => rw [hc] at h; cases h
    | some c =>
      rw [hc] at h
      simp only at h
      have hs := same_links_stamp (same_links_refl nodes) l c hc d
      split at h
      · cases h; exact hs
      · exact same_links_trans hs (ih _ _ _ h)

theorem build_urdef_link_same_links (fuel : Nat) (nodes nodes1 : List Node) (l : LinkPtr)
    (h : build_urdef_link fuel nodes l = some nodes1) : SameLinks nodes nodes1 := by
  unfold build_urdef_link at h
  split at h
  · cases h
  · split_ifs at h
    · cases h; exact same_links_refl _
    · exact stamp_urdef_same_links _ _ _ _ _ h
    · cases h; exact same_links_refl _

theorem build_urdef_links_same_links (fuel : Nat) (ls : List LinkPtr) :
    ∀ (nodes nodes1 : List Node), build_urdef_links fuel nodes ls = some nodes1 →
    SameLinks nodes nodes1 := by
  induction ls with
  | nil => intro nodes nodes1 h; cases h; exact same_links_refl _
  | cons l ls ih =>
    intro nodes nodes1 h
    simp only [build_urdef_links] at h
    cases h1 : build_urdef_link fuel nodes l with
    | none => rw [h1] at h; cases h
    | some ns =>
      rw [h1] at h
      exact same_links_trans (build_urdef_link_same_links fuel nodes ns l h1) (ih ns nodes1 h)

theorem build_urdef_nodes_same_links (fuel : Nat) (ps : List Nat) :
    ∀ (nodes nodes1 : List Node), build_urdef_nodes fuel nodes ps = some nodes1 →
    SameLinks nodes nodes1 := by
  induction ps with
  | nil => intro nodes nodes1 h; cases h; exact same_links_refl _
  | cons p ps ih =>
    intro nodes nodes1 h
    simp only [build_urdef_nodes] at h
    cases h1 : build_urdef fuel nodes p with
    | none => rw [h1] at h; cases h
    | some ns =>
      rw [h1] at h
      refine same_links_trans ?_ (ih ns nodes1 h)
      unfold build_urdef at h1
      split at h1
      · cases h1
      · exact build_urdef_links_same_links fuel _ nodes ns h1

theorem same_links_topo {a b : List Node} (h : SameLinks a b) : SameTopo a b := by
  intro l
  have := h.links l
  unfold next_of prev_of
  cases ha : link_at a l with
  | none =>
    rw [ha] at this
    cases hb : link_at b l with
    | none => exact ⟨rfl, rfl⟩
    | some cb => rw [hb] at this; cases this
  | some ca =>
    rw [ha] at this
    cases hb : link_at b l with
    | none => rw [hb] at this; cases this
    | some cb =>
      rw [hb] at this
      simp only [Option.map_some', Option.some.injEq] at this
      have h1 := congrArg ChainLink.next this
      have h2 := congrArg ChainLink.prev this
      exact ⟨h1, h2⟩

theorem link_at_allocate (nodes : List Node) (l : LinkPtr) (c : ChainLink)
    (h : link_at (allocate_links nodes) l = some c) : c = {} := by
  unfold link_at allocate_links at h
  rw [List.getElem?_map] at h
  cases hn : nodes[l.node]? with
  | none => rw [hn] at h; cases h
  | some n =>
    rw [hn] at h
    simp only [Option.map_some', Option.some_bind] at h
    have := List.getElem?_mem h
    exact (List.eq_of_mem_replicate this)

theorem allocate_links_inv (nodes : List Node) :
    LinkInv nodes (fun n => n.node < 0) (allocate_links nodes) := by
  refine ⟨?_, ?_, ?_⟩
  rotate_left
  rotate_left
  · intro l p h
    unfold prev_of at h
    cases hc : link_at (allocate_links nodes) l with
    | none => rw [hc] at h; cases h
    | some c =>
      rw [hc] at h
      rw [link_at_allocate nodes l c hc] at h
      cases h
  · intro l n h
    unfold next_of at h
    cases hc : link_at (allocate_links nodes) l with
    | none => rw [hc] at h; cases h
    | some c =>
      rw [hc] at h
      rw [link_at_allocate nodes l c hc] at h
      cases h
  · refine ⟨by simp [allocate_links], ?_⟩
    intro q n hn
    unfold allocate_links at hn
    rw [List.getElem?_map] at hn
    cases hq : nodes[q]? with
    | none => rw [hq] at hn; cases hn
    | some n0 =>
      rw [hq] at hn
      simp only [Option.map_some', Option.some.injEq] at hn
      subst hn
      exact ⟨n0, rfl, rfl, rfl, fun _ => rfl⟩

/-- The loop of `build_links` over the working set keeps the invariant. -/
theorem process_all_inv (h : LinkHelpers) (do_ssa : Bool) (fuel : Nat) (nodes : List Node)
    (st : LinkState)
    (hrun : for_each (process_node_links h do_ssa fuel) (List.range nodes.length)
      { nodes := allocate_links nodes } = some st) :
    LinkInv nodes (fun n => n.node < nodes.length) st.nodes := by
  refine for_each_range_inv (process_node_links h do_ssa fuel)
    (fun k s => LinkInv nodes (fun n => n.node < k) s.nodes) nodes.length _ st ?_
    (allocate_links_inv nodes) hrun
  intro k s s1 _ hI hbody
  have := @process_node_links_inv nodes (fun q => q < k) h do_ssa fuel k s s1 hI
    (lt_irrefl k) hbody
  exact link_inv_mono this (fun x hx => by
    rcases hx with hx | hx
    · exact Nat.lt_succ_of_lt hx
    · rw [hx]; exact Nat.lt_succ_self k)

/-- The pointers `next` and `prev` of a link under the invariants of the loop. -/
theorem link_inv_pointers {nodes0 nodes : List Node} {done : LinkPtr → Prop}
    (hi : NextInv nodes0 done nodes ∧ BackInv nodes) (l : LinkPtr) :
    (∀ n, next_of nodes l = some n → prev_of nodes n = some l ∨ ArrayElement nodes0 l n) ∧
    (∀ p, prev_of nodes l = some p →
      ∃ x, next_of nodes p = some x ∧
        (x = l ∨ (x ≠ l ∧ prev_of nodes x = some p) ∨ ArrayElement nodes0 p x)) := by
  refine ⟨fun n hn => (hi.1 l n hn).2, ?_⟩
  intro p hp
  obtain ⟨x, hx⟩ := hi.2 l p hp
  refine ⟨x, hx, ?_⟩
  by_cases hxl : x = l
  · exact Or.inl hxl
  · rcases (hi.1 p x hx).2 with h | h
    · exact Or.inr (Or.inl ⟨hxl, h⟩)
    · exact Or.inr (Or.inr h)

theorem build_links_inv (h : LinkHelpers) (fuel : Nat) (nodes : List Node)
    (st : LinkState) (hrun : build_links h fuel nodes = some st) :
    NextInv nodes (fun n => n.node < nodes.length) st.nodes ∧ BackInv st.nodes := by
  unfold build_links at hrun
  cases h1 : for_each (process_node_links h false fuel) (List.range nodes.length)
      { nodes := allocate_links nodes } with
  | none => rw [h1] at hrun; cases hrun
  | some s1 =>
    rw [h1] at hrun
    simp only [Option.some_bind] at hrun
    cases h2 : build_urdef_nodes fuel s1.nodes (List.range nodes.length) with
    | none => rw [h2] at hrun; cases hrun
    | some ns =>
      rw [h2] at hrun
      simp only [Option.map_some', Option.some.injEq] at hrun
      subst hrun
      have hinv := process_all_inv h false fuel nodes s1 h1
      have htopo := same_links_topo (build_urdef_nodes_same_links fuel _ _ _ h2)
      exact ⟨next_inv_topo hinv.next htopo, back_inv_topo hinv.back htopo⟩

/-- After `build_links` the link that a `prev` pointer goes to has a `next`
pointer: to the link the `prev` comes from, or to another link with the same
`prev`, or, from an element of an array, to the link of the array. -/
theorem build_links_prev_has_next (h : LinkHelpers) (fuel : Nat) (nodes : List Node)
    (st : LinkState) (hrun : build_links h fuel nodes = some st) (l p : LinkPtr)
    (hp : prev_of st.nodes l = some p) :
    ∃ x, next_of st.nodes p = some x ∧
      (x = l ∨ (x ≠ l ∧ prev_of st.nodes x = some p) ∨ ArrayElement nodes p x) :=
  (link_inv_pointers (build_links_inv h fuel nodes st hrun) l).2 p hp

/-- C11 (amended): after `RGCImpl::build_links` has returned, every link `l`
satisfies: the link that its `next` pointer goes to has `l` as its `prev`,
unless `l` is the link of an element of an array and the pointer goes to the
link of the `CONSTRUCT` node of the array; and the link `p` that its `prev`
pointer goes to has `l` as its `next`, when no other link has `p` as its `prev`
and `p` is not the link of an element of an array. -/
theorem build_links_next_prev (h : LinkHelpers) (fuel : Nat) (nodes : List Node)
    (st : LinkState) (hrun : build_links h fuel nodes = some st) (l : LinkPtr) :
    (∀ n, next_of st.nodes l = some n →
      prev_of st.nodes n = some l ∨ ArrayElement nodes l n) ∧
    (∀ p, prev_of st.nodes l = some p →
      (∀ l1, prev_of st.nodes l1 = some p → l1 = l) →
      (∀ n, ¬ ArrayElement nodes p n) →
      next_of st.nodes p = some l) := by
  obtain ⟨hnext, hprev⟩ := link_inv_pointers (build_links_inv h fuel nodes st hrun) l
  refine ⟨hnext, ?_⟩
  intro p hp hone harr
  obtain ⟨x, hx, hcase⟩ := hprev p hp
  rcases hcase with h1 | ⟨h1, h2⟩ | h1
  · rw [hx, h1]
  · exact absurd (hone x h2) h1
  · exact absurd h1 (harr x)

/-- Counterexample to C11: the link of an element of an array has the link of
the array as its `next`, and the link of the array has no `prev`. -/
theorem array_element_next_without_prev :
    (build_links sample_link_helpers 3 array_of_two).map
      (fun st => (next_of st.nodes ⟨3, 0⟩, prev_of st.nodes ⟨5, 0⟩)) =
      some (some ⟨5, 0⟩, none) := by
  decide

/-- The pointers of `written_once` after `build_links`: the only `prev` pointer
is that of the result of the call, and it goes to the link of the buffer. -/
theorem written_once_prev (l1 : LinkPtr)
    (h : ((build_links sample_link_helpers 3 written_once).bind
      (fun st => prev_of st.nodes l1)) = some ⟨1, 0⟩) : l1 = ⟨3, 0⟩ := by
  obtain ⟨n, i⟩ := l1
  rcases n with _ | _ | _ | _ | n
  · rcases i with _ | i
    · exact absurd h (by decide)
    · exact Option.noConfusion h
  · rcases i with _ | i
    · exact absurd h (by decide)
    · exact Option.noConfusion h
  · rcases i with _ | i
    · exact absurd h (by decide)
    · exact Option.noConfusion h
  · rcases i with _ | i
    · rfl
    · exact Option.noConfusion h
  · exact Option.noConfusion h

theorem written_once_no_array (p n : LinkPtr) : ¬ ArrayElement written_once p n := by
  rintro ⟨_, c, hc, hk, ⟨t, ht, harr⟩, _⟩
  obtain ⟨q, j⟩ := n
  rcases q with _ | _ | _ | _ | q
  · cases hc; cases hk
  · cases hc; cases ht; cases harr
  · cases hc; cases hk
  · cases hc; cases hk
  · cases hc

/-- Witness of C11 on `written_once`: the result of the call has the link of
the buffer as its `prev`, and that link has the result as its `next`. -/
theorem build_links_next_prev_witness :
    ∃ st, build_links sample_link_helpers 3 written_once = some st ∧
      prev_of st.nodes ⟨3, 0⟩ = some ⟨1, 0⟩ ∧ next_of st.nodes ⟨1, 0⟩ = some ⟨3, 0⟩ :=
  ⟨_, rfl, rfl,
   (build_links_next_prev sample_link_helpers 3 written_once _ rfl ⟨3, 0⟩).2 ⟨1, 0⟩ rfl
     (fun l1 h => written_once_prev l1 h) (written_once_no_array ⟨1, 0⟩)⟩

/-- Two links with one `prev`: after `build_links` on `read_twice`, where two
calls return the buffer they read, and on `returned_twice`, where one call
returns its argument twice, no assertion of the link builder has failed, and
the assertion `link.prev->next == &link` of `collect_chains` is false; on
`written_once` it holds. -/
theorem shared_prev_fails_collect_chains :
    (build_links sample_link_helpers 3 read_twice).map
        (fun st => (st.asserts_hold, (collect_chains_pass st.nodes).asserts_hold)) =
      some (true, false) ∧
    (build_links sample_link_helpers 8 returned_twice).map
        (fun st => (st.asserts_hold, (collect_chains_pass st.nodes).asserts_hold)) =
      some (true, false) ∧
    (build_links sample_link_helpers 3 written_once).map
        (fun st => (st.asserts_hold, (collect_chains_pass st.nodes).asserts_hold)) =
      some (true, true) := by
  refine ⟨by decide, by decide, by decide⟩

/-- Two calls that return the buffer they read: the second call takes the
`next` of the link of the buffer, and the result of the first call keeps that
link as its `prev`; no assertion of the link builder fails. -/
theorem second_reader_takes_next :
    (build_links sample_link_helpers 3 read_twice).map
      (fun st => (next_of st.nodes ⟨1, 0⟩, prev_of st.nodes ⟨3, 0⟩, prev_of st.nodes ⟨4, 0⟩,
        st.asserts_hold)) =
      some (some ⟨4, 0⟩, some ⟨1, 0⟩, some ⟨1, 0⟩, true) := by
  decide

/-! ## `add_write` in SSA mode -/

/-- On a chain without slices `walk_writes` ends at the last link. -/
theorem walk_writes_chain (nodes : List Node) (rest : List LinkPtr) :
    ∀ (l : LinkPtr) (fuel : Nat), SliceFreeChain nodes (l :: rest) → rest.length < fuel →
    walk_writes fuel nodes l = some ((l :: rest).getLast (List.cons_ne_nil _ _)) := by
  induction rest with
  | nil =>
    intro l fuel hch hfuel
    obtain ⟨f, rfl⟩ : ∃ f, fuel = f + 1 := ⟨fuel - 1, by omega⟩
    obtain ⟨c, hc, hs, hcc⟩ := hch.plain l (List.mem_singleton.mpr rfl)
    have hn : c.next = none := by
      have := hch.last_next l rfl
      simpa [next_of, hc] using this
    simp [walk_writes, hc, hs, hn, hcc]
  | cons b rest ih =>
    intro l fuel hch hfuel
    obtain ⟨f, rfl⟩ : ∃ f, fuel = f + 1 := ⟨fuel - 1, by omega⟩
    obtain ⟨c, hc, hs, hcc⟩ := hch.plain l (List.mem_cons_self _ _)
    have hlb : next_of nodes l = some b := (List.chain'_cons.mp hch.linked).1
    have hn : c.next = some b := by simpa [next_of, hc] using hlb
    have hch' : SliceFreeChain nodes (b :: rest) :=
      ⟨(List.chain'_cons.mp hch.linked).2,
       fun x hx => hch.plain x (List.mem_cons_of_mem _ hx),
       fun t ht => hch.last_next t (by rw [List.getLast?_cons_cons]; exact ht)⟩
    obtain ⟨cb, hcb, hsb, hccb⟩ := hch'.plain b (List.mem_cons_self _ _)
    rw [List.getLast_cons (List.cons_ne_nil _ _)]
    cases rest with
    | nil =>
      have hnb : cb.next = none := by
        have := hch'.last_next b rfl
        simpa [next_of, hcb] using this
      simp [walk_writes, hc, hs, hn, hcb, hnb, hccb]
    | cons d rest =>
      have hbd : next_of nodes b = some d := (List.chain'_cons.mp hch'.linked).1
      have hnb : cb.next = some d := by simpa [next_of, hcb] using hbd
      have := ih b f hch' (by simp at hfuel ⊢; omega)
      simp only [walk_writes, hc, hs, hn, hcb, hnb, Option.some_bind, Option.getD_some,
        Option.isSome_some, Bool.true_or, if_true, Bool.false_eq_true, if_false]
      exact this

/-- In SSA mode, when the argument `i` of `node` is written,
its link `l0` has the undef `w1` already, and the chain from `l0` has no slices
and ends at a link without an undef that is the link of its own `def`, then
`add_write` sets the argument to that `def`, makes `node` the undef of the
last link, and leaves every other link as it is, `l0` with its undef `w1`
included; no assertion fails. -/
theorem add_write_rewrites_to_chain_end (fuel node i : Nat) (st : LinkState) (parm : Ref)
    (pn : Node) (l0 last : LinkPtr) (rest : List LinkPtr) (link0 lastlink : ChainLink) (w1 : Nat)
    (hparm : (st.nodes[node]?).bind (fun n => n.args[i]?) = some parm)
    (hpn : node_of st.nodes parm = some pn) (hgarbage : pn.kind ≠ NodeKind.GARBAGE)
    (hl0 : ref_link parm = some l0)
    (hlink0 : link_at st.nodes l0 = some link0) (hw1 : link0.undef.node = some w1)
    (hafter : after_write st.nodes node w1 = true)
    (hchain : SliceFreeChain st.nodes (l0 :: rest)) (hfuel : rest.length < fuel)
    (hlast : (l0 :: rest).getLast (List.cons_ne_nil _ _) = last)
    (hlastlink : link_at st.nodes last = some lastlink)
    (hundef : lastlink.undef.node = none)
    (hdef : lastlink.def_ = ⟨some last.node, last.index⟩) :
    ∃ st1, add_write true fuel node i st = some st1 ∧
      (st1.nodes[node]?).bind (fun n => n.args[i]?) = some lastlink.def_ ∧
      link_at st1.nodes l0 = some link0 ∧
      link_at st1.nodes last = some { lastlink with undef := ⟨some node, i⟩ } ∧
      (∀ l, l ≠ last → link_at st1.nodes l = link_at st.nodes l) ∧
      st1.asserts_hold = st.asserts_hold := by
  have hwalk := walk_writes_chain st.nodes rest l0 fuel hchain hfuel
  rw [hlast] at hwalk
  have hne : l0 ≠ last := by
    intro he
    rw [he, hlastlink] at hlink0
    cases hlink0
    rw [hundef] at hw1; cases hw1
  have hlinks : pn.links.isEmpty = false := by
    unfold ref_link at hl0
    unfold node_of at hpn
    cases hp : parm.node with
    | none => rw [hp] at hl0; cases hl0
    | some p =>
      rw [hp] at hl0 hpn
      simp only [Option.map_some', Option.some.injEq] at hl0
      simp only [Option.some_bind] at hpn
      subst hl0
      simp only [link_at, hpn, Option.some_bind] at hlink0
      cases hls : pn.links with
      | nil => rw [hls] at hlink0; cases hlink0
      | cons _ _ => rfl
  have hreflast : ref_link lastlink.def_ = some last := by
    rw [hdef]; rfl
  let nodes1 := set_arg st.nodes node i lastlink.def_
  have hl1 : link_at nodes1 last = some lastlink := by
    rw [link_at_set_arg]; exact hlastlink
  refine ⟨{ nodes := set_link nodes1 last { lastlink with undef := ⟨some node, i⟩ },
            asserts_hold := st.asserts_hold }, ?_, ?_, ?_, ?_, ?_, rfl⟩
  · have hg : (pn.kind != NodeKind.GARBAGE) = true := by
      simpa using hgarbage
    simp only [add_write, hparm, hpn, hlinks, hl0, hlink0, hw1, Option.some_bind,
      Bool.false_eq_true, if_false, rewrite_parm, LinkState.check, hwalk, hlastlink,
      Option.map_some', write_undef, hreflast, hl1, hundef, hafter, hg]
    simp [nodes1]
  · show ((set_link nodes1 last _)[node]?).bind (fun n => n.args[i]?) = some lastlink.def_
    rw [getElem?_set_link]
    simp only [nodes1, getElem?_set_arg]
    cases hn : st.nodes[node]? with
    | none => rw [hn] at hparm; cases hparm
    | some n =>
      rw [hn] at hparm
      simp only [Option.some_bind] at hparm
      obtain ⟨hi, _⟩ := List.getElem?_eq_some.mp hparm
      simp only [Option.map_some', if_true, Option.some_bind]
      split_ifs <;> simp [List.getElem?_set, hi]
  · show link_at (set_link nodes1 last _) l0 = some link0
    rw [link_at_set_link, if_neg hne, link_at_set_arg]
    exact hlink0
  · show link_at (set_link nodes1 last _) last = _
    rw [link_at_set_link, if_pos rfl, hl1]
    rfl
  · intro l hl
    show link_at (set_link nodes1 last _) l = _
    rw [link_at_set_link, if_neg hl, link_at_set_arg]

/-- The state `ssa_after_first` is what the link builder has made of
`ssa_conversion` after four nodes. -/
theorem ssa_after_first_run :
    (for_each (process_node_links sample_link_helpers true 8) (List.range 4)
      { nodes := allocate_links ssa_conversion }).map
        (fun st => (links_of st.nodes, args_of st.nodes, st.asserts_hold)) =
      some (links_of ssa_after_first, args_of ssa_after_first, true) := by
  decide

theorem ssa_after_first_chain : SliceFreeChain ssa_after_first [⟨1, 0⟩, ⟨3, 0⟩] := by
  refine ⟨?_, ?_, ?_⟩
  · exact List.chain'_cons.mpr ⟨rfl, List.chain'_singleton _⟩
  · intro l hl
    simp only [List.mem_cons, List.mem_singleton, List.not_mem_nil, or_false] at hl
    rcases hl with rfl | rfl
    · exact ⟨declared_link, rfl, rfl, rfl⟩
    · exact ⟨first_result_link, rfl, rfl, rfl⟩
  · intro t ht
    cases ht
    rfl

/-- C13: the buffer declared at 1 is consumed by the call 3, which has no
result, so its link stays the last of its chain; when the call 4 consumes it
too, `assert(!link->undef)` fails and `add_write` replaces the undef 3 of the
link by 4. -/
theorem second_consumer_replaces_first :
    (for_each (process_node_links sample_link_helpers true 8) (List.range 4)
      { nodes := allocate_links consumed_twice }).map
        (fun st => ((link_at st.nodes ⟨1, 0⟩).map ChainLink.undef, st.asserts_hold)) =
      some (some ⟨some 3, 1⟩, true) ∧
    (build_links_ssa sample_link_helpers 8 consumed_twice (List.range 5)).map
        (fun st => ((link_at st.nodes ⟨1, 0⟩).map ChainLink.undef, st.asserts_hold)) =
      some (some ⟨some 4, 1⟩, false) := by
  constructor
  · decide
  · decide

theorem add_write_rewrites_to_chain_end_witness :
    SliceFreeChain ssa_after_first [⟨1, 0⟩, ⟨3, 0⟩] ∧
    ∃ st1, add_write true 2 4 1 { nodes := ssa_after_first } = some st1 ∧
      (st1.nodes[4]?).bind (fun n => n.args[1]?) = some first_result_link.def_ ∧
      link_at st1.nodes ⟨1, 0⟩ = some declared_link ∧
      link_at st1.nodes ⟨3, 0⟩ = some { first_result_link with undef := ⟨some 4, 1⟩ } ∧
      (∀ l, l ≠ ⟨3, 0⟩ → link_at st1.nodes l = link_at ssa_after_first l) ∧
      st1.asserts_hold = true :=
  ⟨ssa_after_first_chain,
   add_write_rewrites_to_chain_end 2 4 1 { nodes := ssa_after_first } ⟨some 1, 0⟩
     { kind := NodeKind.CONSTRUCT, type := [Ty.BUFFER], args := [⟨some 0, 0⟩], index := 1,
       links := [declared_link] }
     ⟨1, 0⟩ ⟨3, 0⟩ [⟨3, 0⟩] declared_link first_result_link 3
     rfl rfl (by decide) rfl rfl rfl rfl ssa_after_first_chain (by decide) rfl rfl rfl rfl⟩

/-! ## `Compiler::rewrite` and the elimination of splices -/

/-- C15: the call 3 takes the result of the splice 2 and, after it, the result
of the splice 1, so `build_nodes` puts the splice 1 before the splice 2 and
`rewrite` calls `replace(1 -> 0)` before `replace(2 -> 1)`; the second call
does not find the first, the argument of the call becomes the result of the
splice 1, and the splice 1, which has no access, domain `eAny` and no signal,
is in `nodes` after the second `build_nodes`. -/
theorem chained_splice_survives :
    (rewrite_and_build_nodes sample_rewrite sample_domains 6
        (splice_of_splice [⟨some 2, 0⟩, ⟨some 1, 0⟩]) [3]).map
      (fun r => (r.2, (r.1[1]?).map (inert_splice sample_rewrite sample_domains))) =
      some ([3, 0, 1, 4], some true) := by
  decide

/-- With the two arguments of the call in the other order `rewrite` comes to
the splice 2 first, and both splices are gone from `nodes`. -/
theorem chained_splice_eliminated :
    (rewrite_and_build_nodes sample_rewrite sample_domains 6
        (splice_of_splice [⟨some 1, 0⟩, ⟨some 2, 0⟩]) [3]).map Prod.snd = some [3, 0, 4] := by
  decide

/-! ## The order of `build_nodes`, and its flags -/

theorem flags_only_refl (A0 : List Node) : FlagsOnly A0 A0 :=
  ⟨rfl, fun _ n h => ⟨n, h, rfl⟩⟩

theorem flags_only_set {A0 arena : List Node} (h : FlagsOnly A0 arena) (p : Nat) (n : Node)
    (hn : arena[p]? = some n) (f : Nat) :
    FlagsOnly A0 (arena.set p { n with flag := f }) := by
  refine ⟨by simp [h.1], ?_⟩
  intro q m hm
  by_cases hpq : p = q
  · subst hpq
    have hlt : p < arena.length := by
      by_contra hc
      rw [List.getElem?_eq_none (by omega)] at hn; cases hn
    simp only [List.getElem?_set, if_true, hlt] at hm
    cases hm
    exact h.2 p n hn
  · simp only [List.getElem?_set, hpq, if_false] at hm
    exact h.2 q m hm

theorem flags_only_args {A0 arena : List Node} (h : FlagsOnly A0 arena) (p : Nat) (n : Node)
    (hn : arena[p]? = some n) : ∃ n0 : Node, A0[p]? = some n0 ∧ n.args = n0.args := by
  obtain ⟨n0, h0, he⟩ := h.2 p n hn
  exact ⟨n0, h0, by rw [← he]⟩

theorem mark_push_frame {A0 : List Node} {st st1 : MarkState} (arg : Option Nat)
    (h : mark_push st arg = some st1) (hf : FlagsOnly A0 st.arena) :
    FlagsOnly A0 st1.arena ∧
      ∀ x ∈ st1.work_queue, x ∈ st.work_queue ∨ arg = some x := by
  cases arg with
  | none => simp [mark_push] at h
  | some p =>
    simp only [mark_push] at h
    cases hn : st.arena[p]? with
    | none => simp [hn] at h
    | some n =>
      simp only [hn] at h
      split at h
      · cases h
        refine ⟨flags_only_set hf p n hn 1, ?_⟩
        intro x hx
        rcases List.mem_cons.mp hx with hx | hx
        · exact Or.inr (by rw [hx])
        · exact Or.inl hx
      · cases h
        exact ⟨hf, fun x hx => Or.inl hx⟩

theorem push_args_frame {A0 : List Node} (rs : List Ref) :
    ∀ (st st1 : MarkState), push_args st rs = some st1 → FlagsOnly A0 st.arena →
    FlagsOnly A0 st1.arena ∧
      ∀ x ∈ st1.work_queue, x ∈ st.work_queue ∨ ∃ r ∈ rs, r.node = some x := by
  induction rs with
  | nil =>
    intro st st1 h hf
    simp only [push_args, Option.some.injEq] at h
    subst h
    exact ⟨hf, fun x hx => Or.inl hx⟩
  | cons r rs ih =>
    intro st st1 h hf
    simp only [push_args] at h
    cases h1 : mark_push st r.node with
    | none => simp [h1] at h
    | some st0 =>
      simp only [h1, Option.some_bind] at h
      obtain ⟨hf0, hq0⟩ := mark_push_frame r.node h1 hf
      obtain ⟨hf1, hq1⟩ := ih st0 st1 h hf0
      refine ⟨hf1, ?_⟩
      intro x hx
      rcases hq1 x hx with hx | ⟨r1, hr1, hx⟩
      · rcases hq0 x hx with hx | hx
        · exact Or.inl hx
        · exact Or.inr ⟨r, List.mem_cons_self _ _, hx⟩
      · exact Or.inr ⟨r1, List.mem_cons_of_mem _ hr1, hx⟩

theorem push_refs_frame {A0 : List Node} (ps : List Nat) :
    ∀ (st st1 : MarkState), push_refs st ps = some st1 → FlagsOnly A0 st.arena →
    FlagsOnly A0 st1.arena ∧ ∀ x ∈ st1.work_queue, x ∈ st.work_queue ∨ x ∈ ps := by
  induction ps with
  | nil =>
    intro st st1 h hf
    simp only [push_refs, Option.some.injEq] at h
    subst h
    exact ⟨hf, fun x hx => Or.inl hx⟩
  | cons p ps ih =>
    intro st st1 h hf
    simp only [push_refs] at h
    cases h1 : mark_push st (some p) with
    | none => simp [h1] at h
    | some st0 =>
      simp only [h1, Option.some_bind] at h
      obtain ⟨hf0, hq0⟩ := mark_push_frame (some p) h1 hf
      obtain ⟨hf1, hq1⟩ := ih st0 st1 h hf0
      refine ⟨hf1, ?_⟩
      intro x hx
      rcases hq1 x hx with hx | hx
      · rcases hq0 x hx with hx | hx
        · exact Or.inl hx
        · cases hx; exact Or.inr (List.mem_cons_self _ _)
      · exact Or.inr (List.mem_cons_of_mem _ hx)

/-- The loop of `build_nodes` stores a node when it is popped: after the node
that pushed it. -/
theorem build_nodes_loop_order {A0 : List Node} {refs : List Nat} (fuel : Nat) :
    ∀ (st : MarkState) (out : List Nat) (st1 : MarkState) (nodes : List Nat),
    build_nodes_loop fuel st out = some (st1, nodes) → OrderInv A0 refs st out →
    OrderInv A0 refs st1 nodes := by
  induction fuel with
  | zero => intro st out st1 nodes h; simp [build_nodes_loop] at h
  | succ fuel ih =>
    intro st out st1 nodes h inv
    simp only [build_nodes_loop] at h
    cases hq : st.work_queue with
    | nil =>
      simp only [hq, Option.some.injEq, Prod.mk.injEq] at h
      obtain ⟨h1, h2⟩ := h
      subst h1; subst h2
      exact inv
    | cons p queue =>
      simp only [hq] at h
      cases hn : st.arena[p]? with
      | none => simp [hn] at h
      | some n =>
        simp only [hn] at h
        cases h1 : push_args { st with work_queue := queue } n.args with
        | none => simp [h1] at h
        | some st0 =>
          simp only [h1, Option.some_bind] at h
          obtain ⟨hf0, hq0⟩ := push_args_frame n.args _ st0 h1 inv.frame
          obtain ⟨n0, hn0, hargs⟩ := flags_only_args inv.frame p n hn
          have hp : p ∈ refs ∨ ∃ q ∈ out, ArgEdge A0 q p :=
            inv.queue p (by rw [hq]; exact List.mem_cons_self _ _)
          refine ih st0 (out ++ [p]) st1 nodes h ⟨hf0, ?_, ?_⟩
          · intro x hx
            rcases hq0 x hx with hx | ⟨r, hr, hx⟩
            · rcases inv.queue x (by rw [hq]; exact List.mem_cons_of_mem _ hx) with h2 | h2
              · exact Or.inl h2
              · obtain ⟨q, hq1, he⟩ := h2
                exact Or.inr ⟨q, List.mem_append_left _ hq1, he⟩
            · refine Or.inr ⟨p, by simp, n0, hn0, r, ?_, hx⟩
              rw [← hargs]; exact hr
          · intro i x hx
            by_cases hi : i < out.length
            · rw [List.getElem?_append_left hi] at hx
              rcases inv.order i x hx with h2 | ⟨j, q, hj, hq1, he⟩
              · exact Or.inl h2
              · refine Or.inr ⟨j, q, hj, ?_, he⟩
                rw [List.getElem?_append_left (by omega)]; exact hq1
            · have hi1 : i = out.length := by
                by_contra hc
                rw [List.getElem?_eq_none (by simp; omega)] at hx
                cases hx
              subst hi1
              simp only [List.getElem?_concat_length, Option.some.injEq] at hx
              subst hx
              rcases hp with h2 | ⟨q, hq1, he⟩
              · exact Or.inl h2
              · obtain ⟨j, hj, hjq⟩ := List.getElem_of_mem hq1
                refine Or.inr ⟨j, q, hj, ?_, he⟩
                rw [List.getElem?_append_left hj, List.getElem?_eq_getElem hj, hjq]

/-- Whenever `build_nodes` returns, every node of `nodes` that is not one of
`ref_nodes` stands after a node that takes it as an argument. -/
theorem build_nodes_order (fuel : Nat) (arena : List Node) (ref_nodes : List Nat)
    (arena1 : List Node) (nodes : List Nat)
    (h : build_nodes fuel arena ref_nodes = some (arena1, nodes)) :
    ∀ (i p : Nat), nodes[i]? = some p →
      p ∈ ref_nodes ∨ ∃ j q, j < i ∧ nodes[j]? = some q ∧ ArgEdge arena q p := by
  simp only [build_nodes] at h
  cases h1 : push_refs { arena := arena, work_queue := [] } ref_nodes with
  | none => simp [h1] at h
  | some st =>
    simp only [h1, Option.some_bind] at h
    cases h2 : build_nodes_loop fuel st [] with
    | none => simp [h2] at h
    | some r =>
      obtain ⟨st2, out⟩ := r
      simp only [h2, Option.map_some', Option.some.injEq, Prod.mk.injEq] at h
      obtain ⟨_, hout⟩ := h
      subst hout
      obtain ⟨hf, hq⟩ := push_refs_frame ref_nodes _ st h1 (flags_only_refl arena)
      have inv : OrderInv arena ref_nodes st [] := by
        refine ⟨hf, ?_, ?_⟩
        · intro p hp
          rcases hq p hp with h3 | h3
          · simp at h3
          · exact Or.inl h3
        · intro i p hp; simp at hp
      exact (build_nodes_loop_order fuel st [] st2 out h2 inv).order

/-- C21: on a node graph whose pointers all point into the arena and whose
flags are all 0, `build_nodes` returns, and every node of `nodes` that is not
one of `ref_nodes` stands after a node that takes it as an argument (the node
is stored when it is popped, its arguments are popped later). -/
theorem build_nodes_parent_first (arena : List Node) (ref_nodes : List Nat)
    (hflags : ∀ n ∈ arena, n.flag = 0) (hclosed : ClosedArena arena ref_nodes) :
    ∃ arena1 nodes, build_nodes (arena.length + 1) arena ref_nodes = some (arena1, nodes) ∧
      ∀ (i p : Nat), nodes[i]? = some p →
        p ∈ ref_nodes ∨ ∃ j q, j < i ∧ nodes[j]? = some q ∧ ArgEdge arena q p := by
  obtain ⟨arena1, nodes, h, _, _⟩ :=
    build_nodes_spec arena ref_nodes hflags hclosed (arena.length + 1) (Nat.lt_succ_self _)
  exact ⟨arena1, nodes, h, build_nodes_order _ arena ref_nodes arena1 nodes h⟩

/-- The call 0 takes the construct 1 as its argument, and `build_nodes` stores
the call before the construct. -/
theorem node_before_its_argument :
    (build_nodes 3 call_of_construct [0]).map Prod.snd = some [0, 1] ∧
      ArgEdge call_of_construct 0 1 :=
  ⟨rfl, ⟨_, rfl, ⟨some 1, 0⟩, List.mem_cons_self _ _, rfl⟩⟩

theorem build_nodes_parent_first_witness :
    ClosedArena cyclic_arena [0] ∧
    ∃ arena1 nodes, build_nodes (cyclic_arena.length + 1) cyclic_arena [0]
        = some (arena1, nodes) ∧
      ∀ (i p : Nat), nodes[i]? = some p →
        p ∈ [0] ∨ ∃ j q, j < i ∧ nodes[j]? = some q ∧ ArgEdge cyclic_arena q p :=
  ⟨cyclic_arena_closed,
   build_nodes_parent_first cyclic_arena [0] cyclic_arena_flags cyclic_arena_closed⟩

theorem clear_flags_spec {A0 : List Node} (nodes : List Nat) :
    ∀ (arena : List Node), FlagsOnly A0 arena →
    FlagsOnly A0 (clear_flags arena nodes) ∧
      ∀ (p : Nat) (n : Node), (clear_flags arena nodes)[p]? = some n →
        n.flag = 0 ∨ (p ∉ nodes ∧ ∃ m : Node, arena[p]? = some m ∧ m.flag = n.flag) := by
  induction nodes with
  | nil =>
    intro arena hf
    exact ⟨hf, fun p n hn => Or.inr ⟨by simp, n, hn, rfl⟩⟩
  | cons q qs ih =>
    intro arena hf
    have hstep : clear_flags arena (q :: qs) =
        clear_flags (match arena[q]? with
          | some n => arena.set q { n with flag := 0 }
          | none => arena) qs := rfl
    rw [hstep]
    cases hq : arena[q]? with
    | none =>
      simp only []
      obtain ⟨hf1, h1⟩ := ih arena hf
      refine ⟨hf1, ?_⟩
      intro p n hn
      rcases h1 p n hn with h2 | ⟨h2, m, hm, hmf⟩
      · exact Or.inl h2
      · refine Or.inr ⟨?_, m, hm, hmf⟩
        intro hmem
        rcases List.mem_cons.mp hmem with h3 | h3
        · subst h3; rw [hq] at hm; cases hm
        · exact h2 h3
    | some nq =>
      simp only []
      obtain ⟨hf1, h1⟩ := ih _ (flags_only_set hf q nq hq 0)
      refine ⟨hf1, ?_⟩
      intro p n hn
      rcases h1 p n hn with h2 | ⟨h2, m, hm, hmf⟩
      · exact Or.inl h2
      · by_cases hpq : q = p
        · subst hpq
          have hlt : q < arena.length := by
            by_contra hc
            rw [List.getElem?_eq_none (by omega)] at hq; cases hq
          simp only [List.getElem?_set, if_true, hlt] at hm
          cases hm
          exact Or.inl hmf.symm
        · simp only [List.getElem?_set, hpq, if_false] at hm
          refine Or.inr ⟨?_, m, hm, hmf⟩
          intro hmem
          rcases List.mem_cons.mp hmem with h3 | h3
          · exact hpq h3.symm
          · exact h2 h3

theorem node_flag_eta (n n0 : Node) (h : { n with flag := n0.flag } = n0)
    (hf : n.flag = n0.flag) : n = n0 := by
  rw [← h, ← hf]

/-- On a closed arena with all flags 0 the traversal returns the arena as it
found it. -/
theorem traversal_restores (arena : List Node) (ref_nodes : List Nat)
    (hflags : ∀ n ∈ arena, n.flag = 0) (hclosed : ClosedArena arena ref_nodes) :
    ∃ nodes, build_nodes (arena.length + 1) arena ref_nodes = some (arena, nodes) := by
  have inv0 : MarkInv arena ref_nodes { arena := arena, work_queue := [] } [] := by
    refine ⟨rfl, fun p n h => ⟨n, h, rfl⟩, ?_, List.nodup_nil, ?_⟩
    · intro p
      simp only [List.not_mem_nil, or_self, iff_false]
      rintro ⟨n, hn, hf⟩
      exact hf (hflags n (List.getElem?_mem hn))
    · rintro p ⟨n, hn, hf⟩
      exact absurd (hflags n (List.getElem?_mem hn)) hf
  obtain ⟨st1, h1, inv1, _, _⟩ := push_refs_inv ref_nodes _ inv0
    (fun p hp => ⟨hclosed.1 p hp, p, hp, Relation.ReflTransGen.refl⟩)
  obtain ⟨st2, nodes, h2, inv2, hq2, _, _⟩ :=
    build_nodes_loop_inv hclosed (arena.length + 1) st1 [] inv1 (by simp) (by simp)
  have hf1 : FlagsOnly arena st1.arena :=
    (push_refs_frame ref_nodes _ st1 h1 (flags_only_refl arena)).1
  have hinv : OrderInv arena ref_nodes st1 [] :=
    ⟨hf1, fun p hp => by
        rcases (push_refs_frame ref_nodes _ st1 h1 (flags_only_refl arena)).2 p hp with h3 | h3
        · simp at h3
        · exact Or.inl h3,
      fun i p hp => by simp at hp⟩
  have hf2 : FlagsOnly arena st2.arena :=
    (build_nodes_loop_order _ st1 [] st2 nodes h2 hinv).frame
  obtain ⟨hf3, hz⟩ := clear_flags_spec nodes st2.arena hf2
  refine ⟨nodes, ?_⟩
  have heq : clear_flags st2.arena nodes = arena := by
    apply List.ext_getElem?
    intro p
    cases hp : (clear_flags st2.arena nodes)[p]? with
    | none =>
      have : arena.length ≤ p := by
        rw [← hf3.1]
        by_contra hc
        rw [List.getElem?_eq_getElem (by omega)] at hp; cases hp
      rw [List.getElem?_eq_none this]
    | some n =>
      obtain ⟨n0, h0, he⟩ := hf3.2 p n hp
      have hn0 : n0.flag = 0 := hflags n0 (List.getElem?_mem h0)
      have hnf : n.flag = 0 := by
        rcases hz p n hp with h3 | ⟨h3, m, hm, hmf⟩
        · exact h3
        · by_contra hc
          have hmk : Marked st2.arena p := ⟨m, hm, by rw [hmf]; exact hc⟩
          have := (inv2.marked_iff p).mp hmk
          rw [hq2] at this
          simp only [List.not_mem_nil, false_or] at this
          exact h3 this
      rw [h0, node_flag_eta n n0 he (by rw [hnf, hn0])]
  simp only [build_nodes, h1, h2, Option.some_bind, Option.map_some', heq]

/-- C22: when every flag is 0 on entry (and every pointer points into the
arena), `build_nodes` and `collect_dependents` return, and the arena they leave
is the arena they found: every flag is 0 again and no other field of a node
has changed. -/
theorem traversal_restores_flags (arena : List Node) (ref_nodes : List Nat)
    (hflags : ∀ n ∈ arena, n.flag = 0) (hclosed : ClosedArena arena ref_nodes) :
    ∃ nodes, build_nodes (arena.length + 1) arena ref_nodes = some (arena, nodes) ∧
      collect_dependents (arena.length + 1) arena ref_nodes = some (arena, nodes) := by
  obtain ⟨nodes, h⟩ := traversal_restores arena ref_nodes hflags hclosed
  exact ⟨nodes, h, h⟩

theorem traversal_restores_flags_witness :
    ClosedArena cyclic_arena [0] ∧
    ∃ nodes, build_nodes (cyclic_arena.length + 1) cyclic_arena [0]
        = some (cyclic_arena, nodes) ∧
      collect_dependents (cyclic_arena.length + 1) cyclic_arena [0]
        = some (cyclic_arena, nodes) :=
  ⟨cyclic_arena_closed,
   traversal_restores_flags cyclic_arena [0] cyclic_arena_flags cyclic_arena_closed⟩

/-! ## `propagate_domain`: the rule table -/

theorem set_domain_eq (st : InferState) (item : Nat) (it : ScheduledItem) (d : Nat)
    (hit : st.scheduled_execables[item]? = some it) :
    set_domain st item d =
      { scheduled_execables := st.scheduled_execables.set item { it with scheduled_domain := d }
        last_domain := st.last_domain } := by
  simp only [set_domain, hit]

/-- C23: the rule table of `propagate_domain`.  A null pointer and a node
without `scheduled_item` change nothing.  For a node with a scheduled item: a
domain other than `eAny` is kept and becomes `last_domain`; a domain `eAny`
leaves `last_domain` as it is, and the item gets `last_domain` when that is
concrete and the node has no scheduling information, the intersection of
`last_domain` and `required_domains` when both are at hand and the intersection
is not empty, `required_domains` when it is empty, and is unchanged when
neither is at hand. -/
theorem propagate_domain_rules (c : DomainFlagBits) (nodes : List Node) (st : InferState)
    (p : Nat) (n : Node) (hn : nodes[p]? = some n) :
    propagate_domain c nodes st none = st ∧
    (n.scheduled_item = none → propagate_domain c nodes st (some p) = st) ∧
    ∀ (item : Nat) (it : ScheduledItem), n.scheduled_item = some item →
      st.scheduled_execables[item]? = some it →
      (it.scheduled_domain ≠ c.eAny →
        propagate_domain c nodes st (some p) =
          { scheduled_execables := st.scheduled_execables
            last_domain := it.scheduled_domain }) ∧
      (it.scheduled_domain = c.eAny →
        (propagate_domain c nodes st (some p)).last_domain = st.last_domain ∧
        (is_concrete c st.last_domain → n.scheduling_info = none →
          (propagate_domain c nodes st (some p)).scheduled_execables =
            st.scheduled_execables.set item { it with scheduled_domain := st.last_domain }) ∧
        (∀ required_domains, is_concrete c st.last_domain →
          n.scheduling_info = some required_domains →
          st.last_domain &&& required_domains ≠ 0 →
          (propagate_domain c nodes st (some p)).scheduled_execables =
            st.scheduled_execables.set item
              { it with scheduled_domain := st.last_domain &&& required_domains }) ∧
        (∀ required_domains, is_concrete c st.last_domain →
          n.scheduling_info = some required_domains →
          st.last_domain &&& required_domains = 0 →
          (propagate_domain c nodes st (some p)).scheduled_execables =
            st.scheduled_execables.set item { it with scheduled_domain := required_domains }) ∧
        (¬ is_concrete c st.last_domain → n.scheduling_info = none →
          propagate_domain c nodes st (some p) = st)) := by
  refine ⟨rfl, ?_, ?_⟩
  · intro hnone
    simp only [propagate_domain, Option.bind, hn, hnone]
  · intro item it hitem hit
    constructor
    · intro hany
      simp only [propagate_domain, Option.bind, hn, hitem, hit, if_neg hany]
    · intro hany
      have hcases : propagate_domain c nodes st (some p) =
          if is_concrete c st.last_domain ∧ n.scheduling_info = none then
            set_domain st item st.last_domain
          else if (st.last_domain = c.eDevice ∨ st.last_domain = c.eAny) ∧
              n.scheduling_info ≠ none then
            set_domain st item (pick_first_domain (n.scheduling_info.getD 0))
          else if is_concrete c st.last_domain ∧ n.scheduling_info ≠ none then
            if st.last_domain &&& n.scheduling_info.getD 0 = 0 then
              set_domain st item (pick_first_domain (n.scheduling_info.getD 0))
            else
              set_domain st item (st.last_domain &&& n.scheduling_info.getD 0)
          else st := by
        simp only [propagate_domain, Option.bind, hn, hitem, hit, if_pos hany, is_concrete]
      refine ⟨?_, ?_, ?_, ?_, ?_⟩
      · rw [hcases]
        repeat' split
        all_goals rfl
      · intro hc hs
        rw [hcases, if_pos ⟨hc, hs⟩, set_domain_eq st item it _ hit]
      · intro required_domains hc hs hne
        have hs1 : n.scheduling_info ≠ none := by rw [hs]; exact Option.some_ne_none _
        have h1 : ¬ (is_concrete c st.last_domain ∧ n.scheduling_info = none) :=
          fun h => hs1 h.2
        have h2 : ¬ ((st.last_domain = c.eDevice ∨ st.last_domain = c.eAny) ∧
            n.scheduling_info ≠ none) := by
          rintro ⟨h | h, _⟩
          · exact hc.1 h
          · exact hc.2 h
        rw [hcases, if_neg h1, if_neg h2, if_pos ⟨hc, hs1⟩, hs]
        simp only [Option.getD_some]
        rw [if_neg hne, set_domain_eq st item it _ hit]
      · intro required_domains hc hs he
        have hs1 : n.scheduling_info ≠ none := by rw [hs]; exact Option.some_ne_none _
        have h1 : ¬ (is_concrete c st.last_domain ∧ n.scheduling_info = none) :=
          fun h => hs1 h.2
        have h2 : ¬ ((st.last_domain = c.eDevice ∨ st.last_domain = c.eAny) ∧
            n.scheduling_info ≠ none) := by
          rintro ⟨h | h, _⟩
          · exact hc.1 h
          · exact hc.2 h
        rw [hcases, if_neg h1, if_neg h2, if_pos ⟨hc, hs1⟩, hs]
        simp only [Option.getD_some]
        rw [if_pos he, set_domain_eq st item it _ hit]
        rfl
      · intro hc hs
        have h1 : ¬ (is_concrete c st.last_domain ∧ n.scheduling_info = none) :=
          fun h => hc h.1
        have h2 : ¬ ((st.last_domain = c.eDevice ∨ st.last_domain = c.eAny) ∧
            n.scheduling_info ≠ none) := fun h => h.2 hs
        have h3 : ¬ (is_concrete c st.last_domain ∧ n.scheduling_info ≠ none) :=
          fun h => hc h.1
        rw [hcases, if_neg h1, if_neg h2, if_neg h3]

/-- Witness of C23 on the call of `two_queue_pass`, not yet scheduled, with the
transfer queue as `last_domain`: the call gets the intersection, the transfer
queue. -/
theorem propagate_domain_rules_witness :
    two_queue_pass[1]? = some
      { kind := NodeKind.CALL
        args := [⟨none, 0⟩, ⟨some 0, 0⟩]
        scheduled_item := some 0
        scheduling_info := some 24
        links := [{ def_ := ⟨some 1, 0⟩, prev := some ⟨0, 0⟩ }] } ∧
    (propagate_domain sample_domains two_queue_pass ⟨[⟨1, 31⟩], 16⟩ (some 1)).scheduled_execables
      = [⟨1, 16⟩] :=
  ⟨rfl,
   ((propagate_domain_rules sample_domains two_queue_pass ⟨[⟨1, 31⟩], 16⟩ 1 _ rfl).2.2
      0 ⟨1, 31⟩ rfl rfl).2 rfl |>.2.2.1 24 (by decide) rfl (by decide)⟩

/-- The function `pick_first_domain` returns the whole mask. -/
theorem pick_first_domain_eq (f : Nat) : pick_first_domain f = f := rfl

/-- C24: the call of `two_queue_pass` requires the transfer or the compute
queue (mask 24 = 16 | 8) and is met with no concrete `last_domain`.
`propagate_domain` gives it the whole mask as scheduled domain, which is
neither of the two queue bits; `queue_inference` ends with that domain, and
`pass_partitioning` then pushes the pass twice and puts it both into the
transfer span (element 0) and into the compute span (element 1). -/
theorem required_mask_taken_whole :
    (propagate_domain sample_domains two_queue_pass ⟨[⟨1, 31⟩], 28⟩ (some 1)).scheduled_execables
      = [⟨1, 24⟩] ∧
    (24 &&& sample_domains.eTransferQueue ≠ 0 ∧ 24 &&& sample_domains.eComputeQueue ≠ 0 ∧
      24 ≠ sample_domains.eTransferQueue ∧ 24 ≠ sample_domains.eComputeQueue) ∧
    queue_inference sample_domains 2 two_queue_pass [⟨0, 0⟩] [⟨1, 31⟩] = some [⟨1, 24⟩] ∧
    (∀ grow : Nat → Nat,
      (pass_partitioning grow sample_domains [⟨1, 24⟩] fresh_vector).partitioned_execables.data
        = [0, 0] ∧
      ((pass_partitioning grow sample_domains [⟨1, 24⟩] fresh_vector).transfer_passes.offset = 0 ∧
        (pass_partitioning grow sample_domains [⟨1, 24⟩] fresh_vector).transfer_passes.size = 1) ∧
      ((pass_partitioning grow sample_domains [⟨1, 24⟩] fresh_vector).compute_passes.offset = 1 ∧
        (pass_partitioning grow sample_domains [⟨1, 24⟩] fresh_vector).compute_passes.size = 1)) := by
  refine ⟨by decide, by decide, by decide, fun grow => ⟨rfl, ⟨rfl, rfl⟩, ⟨rfl, rfl⟩⟩⟩

/-! ## `Replacer::replace`: the two searches -/

theorem ptr_lt_trans (a b c : Option Nat) (h1 : ptr_lt a b = true) (h2 : ptr_lt b c = true) :
    ptr_lt a c = true := by
  cases a <;> cases b <;> cases c <;> simp_all [ptr_lt]
  omega

theorem ptr_lt_asymm (a b : Option Nat) (h1 : ptr_lt a b = true) : ptr_lt b a = false := by
  cases a <;> cases b <;> simp_all [ptr_lt]
  omega

theorem ptr_lt_ne (a b : Option Nat) (h1 : ptr_lt a b = true) : a ≠ b := by
  intro h; subst h; rw [ptr_lt_irrefl] at h1; cases h1

theorem ref_lt_trans (a b c : Ref) (h1 : Ref.lt a b = true) (h2 : Ref.lt b c = true) :
    Ref.lt a c = true := by
  simp only [Ref.lt, Bool.or_eq_true, Bool.and_eq_true, beq_iff_eq, decide_eq_true_eq] at *
  rcases h1 with h1 | ⟨h1, h1i⟩
  · rcases h2 with h2 | ⟨h2, _⟩
    · exact Or.inl (ptr_lt_trans _ _ _ h1 h2)
    · rw [← h2]; exact Or.inl h1
  · rcases h2 with h2 | ⟨h2, h2i⟩
    · rw [h1]; exact Or.inl h2
    · exact Or.inr ⟨h1.trans h2, by omega⟩

theorem ref_lt_asymm (a b : Ref) (h1 : Ref.lt a b = true) : Ref.lt b a = false := by
  cases h : Ref.lt b a with
  | false => rfl
  | true =>
    have := ref_lt_trans a b a h1 h
    rw [ref_lt_irrefl] at this; cases this

/-- Two `Ref`s of which neither is below the other are equal. -/
theorem ref_lt_connected (a b : Ref) (h1 : Ref.lt a b = false) (h2 : Ref.lt b a = false) :
    a = b := by
  obtain ⟨an, ai⟩ := a
  obtain ⟨bn, bi⟩ := b
  simp only [Ref.lt, Bool.or_eq_false_iff, Bool.and_eq_false_iff, beq_eq_false_iff_ne,
    decide_eq_false_iff_not] at h1 h2
  have hn : an = bn := by
    cases an <;> cases bn <;> simp_all [ptr_lt]
    omega
  subst hn
  have hi : ai = bi := by
    rcases h1.2 with h | h
    · exact absurd rfl h
    · rcases h2.2 with h3 | h3
      · exact absurd rfl h3
      · omega
  rw [hi]

theorem take_upper_bound (replaces : List Replace) (key : Ref) :
    replaces.take (upper_bound replaces key) =
      replaces.takeWhile (fun a => !(Ref.lt key a.needle)) ∧
    replaces.drop (upper_bound replaces key) =
      replaces.dropWhile (fun a => !(Ref.lt key a.needle)) := by
  unfold upper_bound
  induction replaces with
  | nil => simp
  | cons x xs ih =>
    by_cases hx : Ref.lt key x.needle = true
    · simp [List.takeWhile, List.dropWhile, hx]
    · simp only [Bool.not_eq_true] at hx
      simp only [List.takeWhile_cons, List.dropWhile_cons, hx, Bool.not_false, if_true,
        List.length_cons, List.take_succ_cons, List.drop_succ_cons]
      exact ⟨by rw [ih.1], ih.2⟩

/-- The sorted insert of `Replacer::replace` keeps the list sorted by needle. -/
theorem insert_sorted_by_needle (replaces : List Replace) (e : Replace)
    (hs : SortedByNeedle replaces) :
    SortedByNeedle (replaces.take (upper_bound replaces e.needle) ++
      e :: replaces.drop (upper_bound replaces e.needle)) := by
  rw [(take_upper_bound replaces e.needle).1, (take_upper_bound replaces e.needle).2]
  unfold SortedByNeedle at *
  induction replaces with
  | nil => simp
  | cons x xs ih =>
    rw [List.pairwise_cons] at hs
    by_cases hx : Ref.lt e.needle x.needle = true
    · simp only [List.takeWhile_cons, List.dropWhile_cons, hx, Bool.not_true,
        Bool.false_eq_true, if_false, List.nil_append]
      rw [List.pairwise_cons, List.pairwise_cons]
      refine ⟨?_, hs⟩
      intro y hy
      rcases List.mem_cons.mp hy with h | h
      · rw [h]; exact ref_lt_asymm _ _ hx
      · cases hlt : Ref.lt y.needle e.needle with
        | false => rfl
        | true =>
          have := ref_lt_trans _ _ _ hlt hx
          rw [hs.1 y h] at this; cases this
    · simp only [Bool.not_eq_true] at hx
      simp only [List.takeWhile_cons, List.dropWhile_cons, hx, Bool.not_false, if_true,
        List.cons_append]
      rw [List.pairwise_cons]
      refine ⟨?_, ih hs.2⟩
      intro y hy
      rcases List.mem_append.mp hy with h | h
      · exact hs.1 y ((List.takeWhile_sublist _).subset h)
      · rcases List.mem_cons.mp h with h | h
        · rw [h]; exact hx
        · exact hs.1 y ((List.dropWhile_sublist _).subset h)

theorem retarget_needle (needle value : Ref) (e : Replace) :
    (retarget needle value e).needle = e.needle := by
  unfold retarget; split <;> rfl

theorem map_retarget_fixed (needle value : Ref) (l : List Replace)
    (h : ∀ e ∈ l, (!(e.value == needle)) = true) : l.map (retarget needle value) = l := by
  induction l with
  | nil => rfl
  | cons x xs ih =>
    have hx := h x (List.mem_cons_self _ _)
    simp only [Bool.not_eq_true', beq_eq_false_iff_ne, ne_eq] at hx
    simp only [List.map_cons, retarget, if_neg hx]
    rw [ih (fun e he => h e (List.mem_cons_of_mem _ he))]

/-- The loop of `Replacer::replace` from an entry whose value is the needle:
it gives the new value to every later entry whose value is the needle, and it
ends within as many rounds as there are entries left. -/
theorem extend_chains_spec (needle value2 : Ref) (hne : value2 ≠ needle) (fuel : Nat) :
    ∀ (pre suf : List Replace), suf.length < fuel →
    (∀ a ∈ suf.head?, a.value = needle) →
    extend_chains needle value2 fuel (pre ++ suf) pre.length =
      some (pre ++ suf.map (retarget needle value2)) := by
  induction fuel with
  | zero => intro pre suf h; omega
  | succ fuel ih =>
    intro pre suf hfuel hhead
    cases suf with
    | nil => simp [extend_chains]
    | cons a rest =>
      have ha : a.value = needle := hhead a (by simp)
      have hget : (pre ++ a :: rest)[pre.length]? = some a := by
        rw [List.getElem?_append_right (le_refl _)]; simp
      have hset : (pre ++ a :: rest).set pre.length { a with value := value2 } =
          pre ++ { a with value := value2 } :: rest := by
        rw [List.set_append_right _ _ (le_refl _)]; simp
      have hp : (!(({ a with value := value2 } : Replace).value == needle)) = true := by
        simp only [Bool.not_eq_true', beq_eq_false_iff_ne, ne_eq]; exact hne
      have hfind : find_value (pre ++ { a with value := value2 } :: rest) pre.length needle =
          (pre ++ { a with value := value2 } ::
            rest.takeWhile (fun e => !(e.value == needle))).length := by
        unfold find_value
        rw [List.drop_append_of_le_length (le_refl _), List.drop_length, List.nil_append,
          List.takeWhile_cons, if_pos hp]
        simp only [List.length_append, List.length_cons]
      simp only [extend_chains, hget, hset, hfind]
      have hsplit : pre ++ { a with value := value2 } :: rest =
          (pre ++ { a with value := value2 } ::
            rest.takeWhile (fun e => !(e.value == needle))) ++
          rest.dropWhile (fun e => !(e.value == needle)) := by
        rw [List.append_assoc, List.cons_append, List.takeWhile_append_dropWhile]
      rw [hsplit, ih _ _ (by
          have := (List.dropWhile_sublist (fun (e : Replace) => !(e.value == needle))
            (l := rest)).length_le
          simp only [List.length_cons] at hfuel
          omega) (by
          intro x hx
          have hx1 : (rest.dropWhile (fun e => !(e.value == needle))).head? = some x := hx
          have := List.head?_dropWhile_not (fun (e : Replace) => !(e.value == needle)) rest
          rw [hx1] at this
          simpa using this)]
      congr 1
      rw [List.append_assoc, List.cons_append]
      congr 1
      rw [List.map_cons]
      have h1 : retarget needle value2 a = { a with value := value2 } := by
        simp only [retarget, if_pos ha]
      rw [h1]
      congr 1
      conv_rhs => rw [← List.takeWhile_append_dropWhile (fun (e : Replace) => !(e.value == needle)) rest]
      rw [List.map_append, map_retarget_fixed needle value2
        (rest.takeWhile (fun e => !(e.value == needle)))
        (fun e he => by have h2 := List.mem_takeWhile_imp he; exact h2)]

/-- The whole search of the needle among the values, from the first hit on. -/
theorem extend_chains_all (needle value2 : Ref) (hne : value2 ≠ needle)
    (replaces : List Replace) :
    extend_chains needle value2 (replaces.length + 1) replaces (find_value replaces 0 needle) =
      some (replaces.map (retarget needle value2)) := by
  have hsplit := List.takeWhile_append_dropWhile (fun (e : Replace) => !(e.value == needle))
    replaces
  have hfind : find_value replaces 0 needle =
      (replaces.takeWhile (fun e => !(e.value == needle))).length := by
    simp [find_value]
  rw [hfind]
  have key := extend_chains_spec needle value2 hne (replaces.length + 1)
    (replaces.takeWhile (fun e => !(e.value == needle)))
    (replaces.dropWhile (fun e => !(e.value == needle)))
    (by
      have := (List.dropWhile_sublist (fun (e : Replace) => !(e.value == needle))
        (l := replaces)).length_le
      omega)
    (by
      intro x hx
      have hx1 : (replaces.dropWhile (fun e => !(e.value == needle))).head? = some x := hx
      have := List.head?_dropWhile_not (fun (e : Replace) => !(e.value == needle)) replaces
      rw [hx1] at this
      simpa using this)
  rw [hsplit] at key
  rw [key]
  congr 1
  conv_rhs => rw [← hsplit]
  rw [List.map_append, map_retarget_fixed needle value2
    (replaces.takeWhile (fun e => !(e.value == needle)))
    (fun e he => by have h2 := List.mem_takeWhile_imp he; exact h2)]

/-- What `Replacer::replace(needle, value)` does, for `value != needle`: the
search of `value` among the needles finds nothing, every entry whose value is
`needle` gets `value`, and the entry `needle -> value` is inserted at its place
in the order of the needles. -/
theorem replace_spec (replaces : List Replace) (needle value : Ref) (hne : value ≠ needle) :
    Replacer.replace (replaces.length + 1) replaces needle value =
      some ((replaces.map (retarget needle value)).take
          (upper_bound (replaces.map (retarget needle value)) needle) ++
        { needle := needle, value := value } ::
          (replaces.map (retarget needle value)).drop
            (upper_bound (replaces.map (retarget needle value)) needle)) := by
  unfold Replacer.replace
  simp only [chain_end_eq]
  rw [extend_chains_all needle value hne replaces]
  rfl

theorem sorted_map_retarget (replaces : List Replace) (needle value : Ref)
    (hs : SortedByNeedle replaces) : SortedByNeedle (replaces.map (retarget needle value)) := by
  unfold SortedByNeedle at *
  rw [List.pairwise_map]
  simpa only [retarget_needle] using hs

theorem insert_perm (l : List Replace) (k : Nat) (e : Replace) :
    (l.take k ++ e :: l.drop k).Perm (e :: l) := by
  have h1 : (l.take k ++ e :: l.drop k).Perm (e :: (l.take k ++ l.drop k)) :=
    List.perm_middle
  rw [List.take_append_drop] at h1
  exact h1

/-- C29: `replace(b, c)` with `b != c` on a list that is sorted by needle
returns (fuel: one round per entry, and one), and the list it leaves holds the
entry `b -> c` and, for every entry `e` that was there, the entry `e` with the
value `c` if its value was `b` and `e` itself if not, and nothing else; so an
entry `a -> b` has become `a -> c`.  The list is sorted by needle again. -/
theorem replace_retargets_values (replaces : List Replace) (b c : Ref) (hbc : b ≠ c)
    (hs : SortedByNeedle replaces) :
    ∃ replaces1, Replacer.replace (replaces.length + 1) replaces b c = some replaces1 ∧
      SortedByNeedle replaces1 ∧
      replaces1.Perm ({ needle := b, value := c } :: replaces.map (retarget b c)) ∧
      (∀ a, ({ needle := a, value := b } : Replace) ∈ replaces →
        ({ needle := a, value := c } : Replace) ∈ replaces1) ∧
      (∀ e ∈ replaces, e.value ≠ b → e ∈ replaces1) ∧
      ({ needle := b, value := c } : Replace) ∈ replaces1 := by
  refine ⟨_, replace_spec replaces b c (Ne.symm hbc), ?_, insert_perm _ _ _, ?_, ?_, ?_⟩
  · exact insert_sorted_by_needle _ { needle := b, value := c }
      (sorted_map_retarget replaces b c hs)
  · intro a ha
    refine (insert_perm _ _ _).mem_iff.mpr (List.mem_cons_of_mem _ ?_)
    refine List.mem_map.mpr ⟨_, ha, ?_⟩
    simp [retarget]
  · intro e he hv
    refine (insert_perm _ _ _).mem_iff.mpr (List.mem_cons_of_mem _ ?_)
    refine List.mem_map.mpr ⟨e, he, ?_⟩
    simp [retarget, hv]
  · exact (insert_perm _ _ _).mem_iff.mpr (List.mem_cons_self _ _)

theorem replace_retargets_values_witness :
    SortedByNeedle [⟨ref_a, ref_b⟩] ∧
    ∃ replaces1, Replacer.replace 2 [⟨ref_a, ref_b⟩] ref_b ref_c = some replaces1 ∧
      SortedByNeedle replaces1 ∧
      replaces1.Perm ({ needle := ref_b, value := ref_c } ::
        [⟨ref_a, ref_b⟩].map (retarget ref_b ref_c)) ∧
      (∀ a, ({ needle := a, value := ref_b } : Replace) ∈ [(⟨ref_a, ref_b⟩ : Replace)] →
        ({ needle := a, value := ref_c } : Replace) ∈ replaces1) ∧
      (∀ e ∈ [(⟨ref_a, ref_b⟩ : Replace)], e.value ≠ ref_b → e ∈ replaces1) ∧
      ({ needle := ref_b, value := ref_c } : Replace) ∈ replaces1 :=
  ⟨List.pairwise_singleton _ _,
   replace_retargets_values [⟨ref_a, ref_b⟩] ref_b ref_c (by decide)
     (List.pairwise_singleton _ _)⟩

/-- C28: on the list that holds `b -> c`, the call `replace(a, b)` (`a`, `b`,
`c` pairwise distinct) adds the entry `a -> b`: the list it leaves holds
`a -> b` and `b -> c` and nothing else, and no entry `a -> c`. -/
theorem replace_misses_chain_end (a b c : Ref) (hab : a ≠ b) (hac : a ≠ c) (hbc : b ≠ c) :
    ∃ replaces, Replacer.replace 2 [⟨b, c⟩] a b = some replaces ∧
      replaces.Perm [⟨a, b⟩, ⟨b, c⟩] ∧ ({ needle := a, value := c } : Replace) ∉ replaces := by
  have h := replace_spec [⟨b, c⟩] a b (Ne.symm hab)
  have hmap : [(⟨b, c⟩ : Replace)].map (retarget a b) = [⟨b, c⟩] := by
    simp [retarget, Ne.symm hac]
  rw [hmap] at h
  refine ⟨_, h, insert_perm _ _ _, ?_⟩
  intro hmem
  have := (insert_perm _ _ _).mem_iff.mp hmem
  simp only [List.mem_cons, Replace.mk.injEq, List.mem_singleton, List.not_mem_nil,
    or_false] at this
  rcases this with ⟨_, h1⟩ | ⟨h1, _⟩
  · exact hbc h1.symm
  · exact hab h1

theorem replace_misses_chain_end_witness :
    ∃ replaces, Replacer.replace 2 [⟨ref_b, ref_c⟩] ref_a ref_b = some replaces ∧
      replaces.Perm [⟨ref_a, ref_b⟩, ⟨ref_b, ref_c⟩] ∧
      ({ needle := ref_a, value := ref_c } : Replace) ∉ replaces :=
  replace_misses_chain_end ref_a ref_b ref_c (by decide) (by decide) (by decide)

/-! ## The substitution pass of `Compiler::rewrite` -/

theorem rewrite_eq_substitute (h : RewriteHelpers) (c : DomainFlagBits) (fuel : Nat)
    (arena : List Node) (nodes : List Nat) :
    rewrite h c fuel arena nodes =
      (collect_replaces h c fuel arena nodes []).map
        (fun replaces => substitute_args replaces arena nodes) := rfl

/-- The order of the `Ref`s is negatively transitive. -/
theorem ref_lt_neg_trans (a b c : Ref) (h1 : Ref.lt b a = false) (h2 : Ref.lt c b = false) :
    Ref.lt c a = false := by
  cases h : Ref.lt c a with
  | false => rfl
  | true =>
    cases hab : Ref.lt a b with
    | true =>
      have := ref_lt_trans c a b h hab
      rw [h2] at this; cases this
    | false =>
      have he := ref_lt_connected a b hab h1
      subst he
      rw [h2] at h; cases h

theorem insert_sorted_perm (a : ArgSlot) (l : List ArgSlot) :
    (insert_sorted a l).Perm (a :: l) := by
  induction l with
  | nil => exact List.Perm.refl _
  | cons b bs ih =>
    unfold insert_sorted
    split
    · exact ((List.Perm.cons b ih).trans (List.Perm.swap a b bs))
    · exact List.Perm.refl _

theorem insert_sorted_sorted (a : ArgSlot) (l : List ArgSlot) (hs : SortedArgs l) :
    SortedArgs (insert_sorted a l) := by
  unfold SortedArgs at *
  induction l with
  | nil => simp [insert_sorted]
  | cons b bs ih =>
    rw [List.pairwise_cons] at hs
    unfold insert_sorted
    split
    · rename_i hlt
      rw [List.pairwise_cons]
      refine ⟨?_, ih hs.2⟩
      intro y hy
      rcases List.mem_cons.mp ((insert_sorted_perm a bs).mem_iff.mp hy) with h | h
      · rw [h]; exact ref_lt_asymm _ _ hlt
      · exact hs.1 y h
    · rename_i hlt
      simp only [Bool.not_eq_true] at hlt
      rw [List.pairwise_cons, List.pairwise_cons]
      refine ⟨?_, hs⟩
      intro y hy
      rcases List.mem_cons.mp hy with h | h
      · rw [h]; exact hlt
      · exact ref_lt_neg_trans _ _ _ hlt (hs.1 y h)

theorem sort_args_perm (l : List ArgSlot) : (sort_args l).Perm l := by
  induction l with
  | nil => exact List.Perm.refl _
  | cons a l ih =>
    exact (insert_sorted_perm a (sort_args l)).trans (List.Perm.cons a ih)

theorem sort_args_sorted (l : List ArgSlot) : SortedArgs (sort_args l) := by
  induction l with
  | nil => exact List.Pairwise.nil
  | cons a l ih => exact insert_sorted_sorted a (sort_args l) ih

/-- After the loop `while (**arg_it < replace.needle)` no argument is below
the needle. -/
theorem sorted_dropWhile_lt (n : Ref) (l : List ArgSlot) (hs : SortedArgs l) :
    ∀ y ∈ l.dropWhile (fun a => Ref.lt a.value n), Ref.lt y.value n = false := by
  unfold SortedArgs at hs
  induction l with
  | nil => intro y hy; simp at hy
  | cons x xs ih =>
    rw [List.pairwise_cons] at hs
    intro y hy
    by_cases hx : Ref.lt x.value n = true
    · rw [List.dropWhile_cons, if_pos hx] at hy
      exact ih hs.2 y hy
    · rw [List.dropWhile_cons, if_neg hx] at hy
      simp only [Bool.not_eq_true] at hx
      rcases List.mem_cons.mp hy with h | h
      · rw [h]; exact hx
      · exact ref_lt_neg_trans _ _ _ hx (hs.1 y h)

/-- After the loop `while (**arg_it == replace.needle)` no argument is the
needle. -/
theorem sorted_dropWhile_eq (n : Ref) (l : List ArgSlot) (hs : SortedArgs l)
    (hge : ∀ y ∈ l, Ref.lt y.value n = false) :
    ∀ y ∈ l.dropWhile (fun a => a.value == n), y.value ≠ n := by
  unfold SortedArgs at hs
  induction l with
  | nil => intro y hy; simp at hy
  | cons x xs ih =>
    rw [List.pairwise_cons] at hs
    intro y hy
    by_cases hx : (x.value == n) = true
    · rw [List.dropWhile_cons, if_pos hx] at hy
      exact ih hs.2 (fun z hz => hge z (List.mem_cons_of_mem _ hz)) y hy
    · rw [List.dropWhile_cons, if_neg hx] at hy
      simp only [beq_iff_eq] at hx
      have hnx : Ref.lt n x.value = true := by
        cases h : Ref.lt n x.value with
        | true => rfl
        | false =>
          exact absurd (ref_lt_connected _ _ (hge x (List.mem_cons_self _ _)) h) hx
      rcases List.mem_cons.mp hy with h | h
      · rw [h]; exact hx
      · intro he
        have := hs.1 y h
        rw [he, hnx] at this; cases this

theorem sorted_args_sublist {l1 l2 : List ArgSlot} (h : l1.Sublist l2) (hs : SortedArgs l2) :
    SortedArgs l1 :=
  List.Pairwise.sublist h hs

/-- The assignments of the loop over `replaces`: an argument slot is assigned
exactly when the `Ref` it holds is the needle of an entry, and then it gets the
value of the first such entry.  Both lists are sorted by the same order. -/
theorem substitutions_spec (replaces : List Replace) (hs : SortedByNeedle replaces) :
    ∀ (args : List ArgSlot), SortedArgs args → ∀ (w : ArgSlot × Ref),
    w ∈ substitutions replaces args ↔
      w.1 ∈ args ∧ ∃ e, replaces.find? (fun e => e.needle == w.1.value) = some e ∧
        w.2 = e.value := by
  unfold SortedByNeedle at hs
  induction replaces with
  | nil =>
    intro args _ w
    simp [substitutions]
  | cons r rs ih =>
    rw [List.pairwise_cons] at hs
    intro args hargs w
    have hA := List.takeWhile_append_dropWhile (fun (a : ArgSlot) => Ref.lt a.value r.needle) args
    have hD := List.takeWhile_append_dropWhile (fun (a : ArgSlot) => a.value == r.needle)
      (args.dropWhile (fun a => Ref.lt a.value r.needle))
    have hDs : SortedArgs (args.dropWhile (fun a => Ref.lt a.value r.needle)) :=
      sorted_args_sublist (List.dropWhile_sublist _) hargs
    have hCs : SortedArgs ((args.dropWhile (fun a => Ref.lt a.value r.needle)).dropWhile
        (fun a => a.value == r.needle)) :=
      sorted_args_sublist (List.dropWhile_sublist _) hDs
    have hCne := sorted_dropWhile_eq r.needle _ hDs (sorted_dropWhile_lt r.needle args hargs)
    have hCsub : ∀ y ∈ (args.dropWhile (fun a => Ref.lt a.value r.needle)).dropWhile
        (fun a => a.value == r.needle), y ∈ args :=
      fun y hy => (List.dropWhile_sublist _).subset ((List.dropWhile_sublist _).subset hy)
    simp only [substitutions, List.mem_append, List.mem_map]
    constructor
    · rintro (⟨a, ha, rfl⟩ | hw)
      · have hav : (a.value == r.needle) = true := by
          have h2 := List.mem_takeWhile_imp ha; exact h2
        refine ⟨(List.dropWhile_sublist _).subset ((List.takeWhile_sublist _).subset ha),
          r, ?_, rfl⟩
        simp only [beq_iff_eq] at hav
        simp [List.find?_cons, hav]
      · obtain ⟨hmem, e, he, hv⟩ := (ih hs.2 _ hCs w).mp hw
        refine ⟨hCsub _ hmem, e, ?_, hv⟩
        have hne : ¬ (r.needle == w.1.value) = true := by
          simp only [beq_iff_eq]
          exact fun h => hCne _ hmem h.symm
        rw [List.find?_cons, show (r.needle == w.1.value) = false from by
          simpa using hne]
        exact he
    · rintro ⟨hmem, e, he, hv⟩
      rw [← hA, List.mem_append] at hmem
      rcases hmem with hmem | hmem
      · exfalso
        have hlt : Ref.lt w.1.value r.needle = true := by
          have h2 := List.mem_takeWhile_imp hmem; exact h2
        have hen : e.needle = w.1.value := by
          have := List.find?_some he
          simpa using this
        have hemem := List.mem_of_find?_eq_some he
        rcases List.mem_cons.mp hemem with h | h
        · rw [h] at hen
          rw [← hen, ref_lt_irrefl] at hlt; cases hlt
        · have := hs.1 e h
          rw [hen, hlt] at this; cases this
      · rw [← hD, List.mem_append] at hmem
        rcases hmem with hmem | hmem
        · left
          have hav : (w.1.value == r.needle) = true := by
            have h2 := List.mem_takeWhile_imp hmem; exact h2
          simp only [beq_iff_eq] at hav
          have : e = r := by
            simp only [List.find?_cons, hav, beq_self_eq_true, Option.some.injEq] at he
            exact he.symm
          subst this
          exact ⟨w.1, hmem, Prod.ext rfl hv.symm⟩
        · right
          refine (ih hs.2 _ hCs w).mpr ⟨hmem, e, ?_, hv⟩
          have hne : (r.needle == w.1.value) = false := by
            simp only [beq_eq_false_iff_ne, ne_eq]
            exact fun h => hCne _ hmem h.symm
          rw [List.find?_cons, hne] at he
          exact he

theorem mem_collect_args (arena : List Node) (nodes : List Nat) (s : ArgSlot) :
    s ∈ collect_args arena nodes ↔
      s.node ∈ nodes ∧ ∃ n : Node, arena[s.node]? = some n ∧ n.args[s.pos]? = some s.value := by
  unfold collect_args
  rw [List.mem_flatMap]
  constructor
  · rintro ⟨p, hp, hs⟩
    cases hn : arena[p]? with
    | none => simp [hn] at hs
    | some n =>
      simp only [hn, List.mem_map, Prod.exists] at hs
      obtain ⟨i, x, hix, rfl⟩ := hs
      exact ⟨hp, n, hn, List.mk_mem_enum_iff_getElem?.mp hix⟩
  · rintro ⟨hp, n, hn, hx⟩
    refine ⟨s.node, hp, ?_⟩
    simp only [hn, List.mem_map, Prod.exists]
    exact ⟨s.pos, s.value, List.mk_mem_enum_iff_getElem?.mpr hx, rfl⟩

/-- The assignments through the argument pointers, node by node. -/
theorem foldl_set_arg (W : List (ArgSlot × Ref)) :
    ∀ (arena : List Node) (p : Nat),
    (W.foldl (fun a w => set_arg a w.1.node w.1.pos w.2) arena)[p]? =
      (arena[p]?).map (fun n => { n with
        args := (W.foldl (fun l w => if w.1.node = p then l.set w.1.pos w.2 else l) n.args) }) := by
  induction W with
  | nil =>
    intro arena p
    rw [List.foldl_nil]
    cases arena[p]? <;> rfl
  | cons w W ih =>
    intro arena p
    rw [List.foldl_cons, ih, getElem?_set_arg]
    cases arena[p]? with
    | none => rfl
    | some n =>
      simp only [Option.map_some', Option.some.injEq, List.foldl_cons]
      by_cases hp : p = w.1.node
      · subst hp
        simp only [if_true]
      · simp only [if_neg hp, if_neg (Ne.symm hp)]

/-- The assignments to the arguments of one node, when all assignments to one
position carry the same value `g` of the position. -/
theorem foldl_set_get (p : Nat) (g : Nat → Ref) (W : List (ArgSlot × Ref))
    (hW : ∀ w ∈ W, w.1.node = p → w.2 = g w.1.pos) :
    ∀ (l : List Ref) (i : Nat),
    (W.foldl (fun l w => if w.1.node = p then l.set w.1.pos w.2 else l) l)[i]? =
      (l[i]?).map (fun x =>
        if W.any (fun w => decide (w.1.node = p) && decide (w.1.pos = i)) = true then g i
        else x) := by
  induction W with
  | nil =>
    intro l i
    simp
  | cons w W ih =>
    intro l i
    rw [List.foldl_cons, ih (fun x hx => hW x (List.mem_cons_of_mem _ hx))]
    by_cases hn : w.1.node = p
    · by_cases hi : w.1.pos = i
      · have hv := hW w (List.mem_cons_self _ _) hn
        rw [if_pos hn, hi, List.getElem?_set]
        simp only [List.any_cons, hn, hi, decide_True, Bool.and_self, Bool.true_or, if_true]
        by_cases hlt : i < l.length
        · rw [List.getElem?_eq_getElem hlt]
          simp only [if_pos hlt, Option.map_some', Option.some.injEq]
          rw [hv, hi]; split <;> rfl
        · rw [List.getElem?_eq_none (by omega)]
          simp [hlt]
      · rw [if_pos hn, List.getElem?_set_ne hi]
        simp only [List.any_cons, hi, decide_False, Bool.and_false, Bool.false_or]
    · rw [if_neg hn]
      simp only [List.any_cons, hn, decide_False, Bool.false_and, Bool.false_or]

theorem replaced_of_find (replaces : List Replace) (r : Ref) (e : Replace)
    (h : replaces.find? (fun e => e.needle == r) = some e) : replaced replaces r = e.value := by
  simp only [replaced, h]

/-- C30: for a replacement list that is sorted by needle and a list `nodes` of
pairwise distinct nodes, the substitution pass of `rewrite` leaves the arena as
long as it was, and every node of it as it was but for its arguments; a node of
`nodes` has every argument `r` replaced by the value of the (first) replacement
whose needle is `r`, and kept if `r` is no needle, so it has as many arguments
as before, in the same positions; a node outside `nodes` keeps its arguments. -/
theorem substitute_args_spec (replaces : List Replace) (arena : List Node) (nodes : List Nat)
    (hs : SortedByNeedle replaces) (_hnodes : nodes.Nodup) :
    (substitute_args replaces arena nodes).length = arena.length ∧
    ∀ (p : Nat) (n : Node), arena[p]? = some n →
      (substitute_args replaces arena nodes)[p]? =
        some { n with args :=
          if p ∈ nodes then n.args.map (replaced replaces) else n.args } := by
  constructor
  · unfold substitute_args
    generalize substitutions replaces (sort_args (collect_args arena nodes)) = W
    induction W generalizing arena with
    | nil => rfl
    | cons w W ih => rw [List.foldl_cons, ih, length_set_arg]
  · intro p n hn
    unfold substitute_args
    rw [foldl_set_arg, hn, Option.map_some']
    have hspec := substitutions_spec replaces hs (sort_args (collect_args arena nodes))
      (sort_args_sorted _)
    have hmem : ∀ s, s ∈ sort_args (collect_args arena nodes) ↔
        s.node ∈ nodes ∧ ∃ m : Node, arena[s.node]? = some m ∧
          m.args[s.pos]? = some s.value := fun s =>
      ((sort_args_perm _).mem_iff).trans (mem_collect_args arena nodes s)
    obtain ⟨g, hg⟩ : ∃ g : Nat → Ref, ∀ i x, n.args[i]? = some x → g i = replaced replaces x :=
      ⟨fun i => match n.args[i]? with
        | some x => replaced replaces x
        | none => ⟨none, 0⟩, fun i x hx => by simp only [hx]⟩
    have hW : ∀ w ∈ substitutions replaces (sort_args (collect_args arena nodes)),
        w.1.node = p → w.2 = g w.1.pos := by
      intro w hw hp
      obtain ⟨h1, e, he, hv⟩ := (hspec w).mp hw
      obtain ⟨_, m, hm, hx⟩ := (hmem w.1).mp h1
      rw [hp, hn] at hm
      cases hm
      rw [hg _ _ hx, hv, replaced_of_find replaces _ e he]
    congr 1
    have hargs : List.foldl (fun l (w : ArgSlot × Ref) =>
          if w.1.node = p then l.set w.1.pos w.2 else l) n.args
          (substitutions replaces (sort_args (collect_args arena nodes))) =
        if p ∈ nodes then n.args.map (replaced replaces) else n.args := by
      apply List.ext_getElem?
      intro i
      rw [foldl_set_get p g _ hW]
      cases hx : n.args[i]? with
      | none =>
        rw [Option.map_none']
        symm
        by_cases hp : p ∈ nodes
        · rw [if_pos hp, List.getElem?_map, hx]; rfl
        · rw [if_neg hp, hx]
      | some x =>
        simp only [Option.map_some']
        by_cases hp : p ∈ nodes
        · rw [if_pos hp, List.getElem?_map, hx, Option.map_some']
          congr 1
          split
          · exact hg i x hx
          · rename_i hany
            cases hf : replaces.find? (fun e => e.needle == x) with
            | none => simp only [replaced, hf]
            | some e =>
              exfalso
              apply hany
              rw [List.any_eq_true]
              refine ⟨(⟨p, i, x⟩, e.value), ?_, by simp⟩
              exact (hspec _).mpr ⟨(hmem _).mpr ⟨hp, n, hn, hx⟩, e, hf, rfl⟩
        · rw [if_neg hp, hx]
          congr 1
          split
          · rename_i hany
            exfalso
            rw [List.any_eq_true] at hany
            obtain ⟨w, hw, hwp⟩ := hany
            simp only [Bool.and_eq_true, decide_eq_true_eq] at hwp
            obtain ⟨h1, _⟩ := (hspec w).mp hw
            have := ((hmem w.1).mp h1).1
            rw [hwp.1] at this
            exact hp this
          · rfl
    rw [hargs]

theorem sorted_splice_replaces :
    SortedByNeedle [⟨⟨some 1, 0⟩, ⟨some 0, 0⟩⟩, ⟨⟨some 2, 0⟩, ⟨some 1, 0⟩⟩] := by
  unfold SortedByNeedle
  simp [Ref.lt, ptr_lt]

theorem substitute_args_spec_witness :
    SortedByNeedle [⟨⟨some 1, 0⟩, ⟨some 0, 0⟩⟩, ⟨⟨some 2, 0⟩, ⟨some 1, 0⟩⟩] ∧
    [3, 1, 0, 2, 4].Nodup ∧
    (substitute_args [⟨⟨some 1, 0⟩, ⟨some 0, 0⟩⟩, ⟨⟨some 2, 0⟩, ⟨some 1, 0⟩⟩]
        (splice_of_splice [⟨some 2, 0⟩, ⟨some 1, 0⟩]) [3, 1, 0, 2, 4]).length =
      (splice_of_splice [⟨some 2, 0⟩, ⟨some 1, 0⟩]).length ∧
    ∀ (p : Nat) (n : Node), (splice_of_splice [⟨some 2, 0⟩, ⟨some 1, 0⟩])[p]? = some n →
      (substitute_args [⟨⟨some 1, 0⟩, ⟨some 0, 0⟩⟩, ⟨⟨some 2, 0⟩, ⟨some 1, 0⟩⟩]
          (splice_of_splice [⟨some 2, 0⟩, ⟨some 1, 0⟩]) [3, 1, 0, 2, 4])[p]? =
        some { n with args :=
          if p ∈ [3, 1, 0, 2, 4] then
            n.args.map (replaced [⟨⟨some 1, 0⟩, ⟨some 0, 0⟩⟩, ⟨⟨some 2, 0⟩, ⟨some 1, 0⟩⟩])
          else n.args } :=
  ⟨sorted_splice_replaces, by decide,
   substitute_args_spec [⟨⟨some 1, 0⟩, ⟨some 0, 0⟩⟩, ⟨⟨some 2, 0⟩, ⟨some 1, 0⟩⟩]
     (splice_of_splice [⟨some 2, 0⟩, ⟨some 1, 0⟩]) [3, 1, 0, 2, 4] sorted_splice_replaces
     (by decide)⟩

/-- The arguments of the call of `splice_of_splice` after the substitution:
the result of the splice 2 has become the result of the splice 1, the result of
the splice 1 the buffer. -/
theorem substitute_args_run :
    ((substitute_args [⟨⟨some 1, 0⟩, ⟨some 0, 0⟩⟩, ⟨⟨some 2, 0⟩, ⟨some 1, 0⟩⟩]
        (splice_of_splice [⟨some 2, 0⟩, ⟨some 1, 0⟩]) [3, 1, 0, 2, 4])[3]?).map Node.args =
      some [⟨some 4, 0⟩, ⟨some 1, 0⟩, ⟨some 0, 0⟩] := by
  decide

/-- The loop of `Replacer::replace` writes values only. -/
theorem extend_chains_needles (needle value2 : Ref) (fuel : Nat) :
    ∀ (replaces : List Replace) (iit : Nat) (replaces1 : List Replace),
    extend_chains needle value2 fuel replaces iit = some replaces1 →
    replaces1.map Replace.needle = replaces.map Replace.needle := by
  induction fuel with
  | zero => intro replaces iit replaces1 h; simp [extend_chains] at h
  | succ fuel ih =>
    intro replaces iit replaces1 h
    simp only [extend_chains] at h
    cases ha : replaces[iit]? with
    | none =>
      simp only [ha, Option.some.injEq] at h
      rw [h]
    | some a =>
      simp only [ha] at h
      rw [ih _ _ _ h]
      apply List.ext_getElem?
      intro j
      simp only [List.getElem?_map, List.getElem?_set]
      by_cases hj : iit = j
      · subst hj
        have hlt : iit < replaces.length := by
          by_contra hc
          rw [List.getElem?_eq_none (by omega)] at ha; cases ha
        simp [hlt, ha]
      · simp [hj]

theorem sorted_of_needles {l1 l2 : List Replace}
    (h : l1.map Replace.needle = l2.map Replace.needle) (hs : SortedByNeedle l2) :
    SortedByNeedle l1 := by
  unfold SortedByNeedle at *
  have h2 : (l2.map Replace.needle).Pairwise (fun x y => Ref.lt y x = false) :=
    List.pairwise_map.mpr hs
  rw [← h] at h2
  exact List.pairwise_map.mp h2

/-- The comment "we keep replaces sorted by needle": every `replace` that
returns leaves the list sorted. -/
theorem replace_sorted (fuel : Nat) (replaces : List Replace) (needle value : Ref)
    (replaces1 : List Replace) (hs : SortedByNeedle replaces)
    (h : Replacer.replace fuel replaces needle value = some replaces1) :
    SortedByNeedle replaces1 := by
  unfold Replacer.replace at h
  simp only [chain_end_eq] at h
  cases he : extend_chains needle value fuel replaces (find_value replaces 0 needle) with
  | none => simp [he] at h
  | some r1 =>
    simp only [he, Option.map_some', Option.some.injEq] at h
    rw [← h]
    exact insert_sorted_by_needle r1 { needle := needle, value := value }
      (sorted_of_needles (extend_chains_needles _ _ _ _ _ _ he) hs)

theorem replace_calls_sorted (fuel : Nat) (calls : List (Ref × Ref)) :
    ∀ (replaces replaces1 : List Replace), SortedByNeedle replaces →
    replace_calls fuel replaces calls = some replaces1 → SortedByNeedle replaces1 := by
  induction calls with
  | nil =>
    intro replaces replaces1 hs h
    simp only [replace_calls, Option.some.injEq] at h
    rw [← h]; exact hs
  | cons c calls ih =>
    intro replaces replaces1 hs h
    obtain ⟨needle, value⟩ := c
    simp only [replace_calls] at h
    cases h1 : Replacer.replace fuel replaces needle value with
    | none => simp [h1] at h
    | some r =>
      simp only [h1, Option.some_bind] at h
      exact ih r replaces1 (replace_sorted fuel replaces needle value r hs h1) h

theorem collect_replaces_sorted (h : RewriteHelpers) (c : DomainFlagBits) (fuel : Nat)
    (arena : List Node) (nodes : List Nat) :
    ∀ (replaces replaces1 : List Replace), SortedByNeedle replaces →
    collect_replaces h c fuel arena nodes replaces = some replaces1 →
    SortedByNeedle replaces1 := by
  induction nodes with
  | nil =>
    intro replaces replaces1 hs hr
    simp only [collect_replaces, Option.some.injEq] at hr
    rw [← hr]; exact hs
  | cons p ps ih =>
    intro replaces replaces1 hs hr
    simp only [collect_replaces] at hr
    cases h1 : rewrite_pred h c fuel arena p replaces with
    | none => simp [h1] at hr
    | some r =>
      simp only [h1, Option.some_bind] at hr
      refine ih r replaces1 ?_ hr
      unfold rewrite_pred at h1
      cases hn : arena[p]? with
      | none => simp [hn] at h1
      | some n =>
        simp only [hn] at h1
        split at h1
        · exact replace_calls_sorted fuel _ replaces r hs h1
        · exact replace_calls_sorted fuel _ replaces r hs h1
        · cases h1; exact hs

/-- The list that the predicate of `compile` leaves is sorted by needle, and
`rewrite` ends with the substitution pass on that list. -/
theorem rewrite_substitutes (h : RewriteHelpers) (c : DomainFlagBits) (fuel : Nat)
    (arena : List Node) (nodes : List Nat) (arena1 : List Node)
    (hr : rewrite h c fuel arena nodes = some arena1) :
    ∃ replaces, collect_replaces h c fuel arena nodes [] = some replaces ∧
      SortedByNeedle replaces ∧ arena1 = substitute_args replaces arena nodes := by
  rw [rewrite_eq_substitute] at hr
  cases h1 : collect_replaces h c fuel arena nodes [] with
  | none => simp [h1] at hr
  | some replaces =>
    simp only [h1, Option.map_some', Option.some.injEq] at hr
    exact ⟨replaces, rfl,
      collect_replaces_sorted h c fuel arena nodes [] replaces List.Pairwise.nil h1, hr.symm⟩

/-! ## `RGCImpl::build_sync`: the `SPLICE` case -/

/-- A loop whose body returns on every state that satisfies the invariant,
returns. -/
theorem for_each_range_total {σ : Type} (body : Nat → σ → Option σ) (I : Nat → σ → Prop)
    (m : Nat) :
    ∀ (a : Nat) (st : σ),
    (∀ j s, a ≤ j → j < a + m → I j s → ∃ s1, body j s = some s1 ∧ I (j + 1) s1) →
    I a st → ∃ st1, for_each body (List.range' a m) st = some st1 ∧ I (a + m) st1 := by
  induction m with
  | zero => intro a st _ h0; exact ⟨st, rfl, h0⟩
  | succ m ih =>
    intro a st hstep h0
    obtain ⟨s1, h1, hI1⟩ := hstep a st (le_refl _) (by omega) h0
    obtain ⟨st1, h2, hI2⟩ := ih (a + 1) s1
      (fun j s hj1 hj2 => hstep j s (by omega) (by omega)) hI1
    refine ⟨st1, ?_, ?_⟩
    · rw [List.range'_succ]
      simp only [for_each, h1, Option.some_bind]
      exact h2
    · rw [show a + (m + 1) = a + 1 + m by omega]
      exact hI2

theorem strip_set_link (nodes : List Node) (l : LinkPtr) (c : ChainLink) (q : Nat) :
    ((set_link nodes l c)[q]?).map strip_links = (nodes[q]?).map strip_links := by
  rw [getElem?_set_link]
  cases nodes[q]? with
  | none => rfl
  | some n =>
    simp only [Option.map_some', Option.some.injEq]
    split <;> rfl

theorem strip_get {a b : List Node} (h : ∀ q : Nat, (a[q]?).map strip_links = (b[q]?).map strip_links)
    (q : Nat) (n : Node) (hn : b[q]? = some n) :
    ∃ n1, a[q]? = some n1 ∧ n1.args = n.args ∧ n1.dst_access = n.dst_access ∧
      n1.scheduled_item = n.scheduled_item ∧ n1.kind = n.kind := by
  have := h q
  rw [hn] at this
  cases ha : a[q]? with
  | none => rw [ha] at this; cases this
  | some n1 =>
    rw [ha] at this
    simp only [Option.map_some', Option.some.injEq] at this
    refine ⟨n1, rfl, ?_, ?_, ?_, ?_⟩
    · exact (congrArg Node.args this :)
    · exact (congrArg Node.dst_access this :)
    · exact (congrArg Node.scheduled_item this :)
    · exact (congrArg Node.kind this :)

theorem domain_of_strip {a b : List Node}
    (h : ∀ q : Nat, (a[q]?).map strip_links = (b[q]?).map strip_links)
    (items : List ScheduledItem) (q : Nat) : domain_of a items q = domain_of b items q := by
  unfold domain_of
  have := h q
  cases ha : a[q]? with
  | none =>
    rw [ha] at this
    cases hb : b[q]? with
    | none => rfl
    | some n => rw [hb] at this; cases this
  | some n1 =>
    rw [ha] at this
    cases hb : b[q]? with
    | none => rw [hb] at this; cases this
    | some n =>
      rw [hb] at this
      simp only [Option.map_some', Option.some.injEq] at this
      have h2 : n1.scheduled_item = n.scheduled_item := (congrArg Node.scheduled_item this :)
      simp only [Option.some_bind, h2]

theorem source_links_succ (n : Node) (k : Nat) (parm : Ref) (hk : n.args[k]? = some parm)
    (l : LinkPtr) :
    source_links n (k + 1) l = (source_links n k l || (ref_link parm == some l)) := by
  unfold source_links
  rw [List.take_succ, hk]
  simp [List.any_append]

theorem source_links_all (n : Node) (l : LinkPtr) :
    source_links n n.args.length l = true ↔ ∃ parm ∈ n.args, ref_link parm = some l := by
  unfold source_links
  rw [List.take_length, List.any_eq_true]
  constructor
  · rintro ⟨parm, hp, he⟩
    exact ⟨parm, hp, by simpa using he⟩
  · rintro ⟨parm, hp, he⟩
    exact ⟨parm, hp, by simpa using he⟩

/-- The invariant of the loop over the sources of the splice `n`: the
assertions and the nodes but for their links are as in `st`, and a link is as
in `st` but for `undef_sync`, which has the value of `splice_undef_sync` if the
link belongs to one of the first `k` sources. -/
def SpliceInv (h : SyncHelpers) (items : List ScheduledItem) (st : LinkState) (n : Node)
    (k : Nat) (s : LinkState) : Prop :=
  s.asserts_hold = st.asserts_hold ∧
  (∀ q : Nat, (s.nodes[q]?).map strip_links = (st.nodes[q]?).map strip_links) ∧
  ∀ l, link_at s.nodes l = (link_at st.nodes l).map (fun (c : ChainLink) =>
    if source_links n k l = true then
      { c with undef_sync := splice_undef_sync h items st.nodes n l c.undef_sync }
    else c)

theorem sync_splice_src_step (h : SyncHelpers) (items : List ScheduledItem) (st : LinkState)
    (p : Nat) (n : Node) (hn : st.nodes[p]? = some n)
    (hsched : ∃ k node_si, n.scheduled_item = some k ∧ items[k]? = some node_si)
    (hlinks : ∀ parm ∈ n.args, ∃ l link, ref_link parm = some l ∧
      link_at st.nodes l = some link)
    (hitems : ∀ (q : Nat) (m : Node) (k : Nat), st.nodes[q]? = some m →
      m.scheduled_item = some k → k < items.length)
    (j : Nat) (s : LinkState) (hj : j < n.args.length)
    (inv : SpliceInv h items st n j s) :
    ∃ s1, sync_splice_src h items p j s = some s1 ∧ SpliceInv h items st n (j + 1) s1 := by
  obtain ⟨hassert, hstrip, hlink⟩ := inv
  obtain ⟨n1, hn1, hargs, hdst, hsi, _⟩ := strip_get hstrip p n hn
  have hparm : n.args[j]? = some n.args[j] := List.getElem?_eq_getElem hj
  obtain ⟨l, link, hl, hlk⟩ := hlinks _ (List.getElem_mem hj)
  have hcur := hlink l
  rw [hlk, Option.map_some'] at hcur
  obtain ⟨k, node_si, hk, hnsi⟩ := hsched
  -- the value that the step is to leave
  have hdone : ∀ (s1 : LinkState) (v : Option ResourceUse),
      s1.asserts_hold = s.asserts_hold →
      (∀ c, link_at s.nodes l = some c →
        s1.nodes = set_link s.nodes l { c with undef_sync := v } ∨
        (s1.nodes = s.nodes ∧ c.undef_sync = v)) →
      (∀ old, (old = link.undef_sync ∨
          old = splice_undef_sync h items st.nodes n l link.undef_sync) →
        splice_undef_sync h items st.nodes n l link.undef_sync = v ∨
        (splice_undef_sync h items st.nodes n l link.undef_sync = link.undef_sync ∧
          v = old)) →
      SpliceInv h items st n (j + 1) s1 := by
    intro s1 v ha hnodes hv
    refine ⟨ha.trans hassert, ?_, ?_⟩
    · intro q
      rcases hnodes _ hcur with h1 | ⟨h1, _⟩
      · rw [h1, strip_set_link]; exact hstrip q
      · rw [h1]; exact hstrip q
    · intro l1
      rw [source_links_succ n j _ hparm l1, hl]
      by_cases hl1 : l1 = l
      · subst hl1
        simp only [beq_self_eq_true, Bool.or_true, if_true]
        rw [hlk, Option.map_some']
        by_cases hsrc : source_links n j l1 = true
        · rw [if_pos hsrc] at hcur
          rcases hnodes _ hcur with h1 | ⟨h1, h2⟩
          · rw [h1, link_at_set_link, if_pos rfl, hcur, Option.map_some']
            rcases hv _ (Or.inr rfl) with h3 | ⟨h3, h4⟩
            · rw [h3]
            · rw [h4]
          · rw [h1, hcur]
        · rw [if_neg hsrc] at hcur
          rcases hnodes _ hcur with h1 | ⟨h1, h2⟩
          · rw [h1, link_at_set_link, if_pos rfl, hcur, Option.map_some']
            rcases hv _ (Or.inl rfl) with h3 | ⟨h3, h4⟩
            · rw [h3]
            · rw [h3, h4]
          · rw [h1, hcur]
            rcases hv _ (Or.inl rfl) with h3 | ⟨h3, h4⟩
            · rw [h3, ← h2]
            · rw [h3]
      · have hne : (some l == some l1) = false := by
          simp only [beq_eq_false_iff_ne, ne_eq, Option.some.injEq]
          exact fun h2 => hl1 h2.symm
        rw [hne, Bool.or_false]
        rcases hnodes _ hcur with h1 | ⟨h1, _⟩
        · rw [h1, link_at_set_link, if_neg hl1]; exact hlink l1
        · rw [h1]; exact hlink l1
  have hcur_some : ∃ c, link_at s.nodes l = some c ∧
      (c.undef_sync = link.undef_sync ∨
        c.undef_sync = splice_undef_sync h items st.nodes n l link.undef_sync) := by
    refine ⟨_, hcur, ?_⟩
    split
    · exact Or.inr rfl
    · exact Or.inl rfl
  obtain ⟨c, hc, hcu⟩ := hcur_some
  have hbind : (n1.args[j]?).bind ref_link = some l := by
    rw [hargs, hparm]; exact hl
  unfold sync_splice_src
  simp only [hn1, hbind, hdst]
  by_cases hd : n.dst_access ≠ h.eNone
  · rw [if_pos hd, hc, Option.map_some']
    refine ⟨_, rfl, hdone _ (some (h.to_use n.dst_access)) rfl ?_ ?_⟩
    · intro c1 hc1
      rw [hc] at hc1; cases hc1
      exact Or.inl rfl
    · intro old _
      left
      simp only [splice_undef_sync, if_pos hd]
  · rw [if_neg hd]
    -- the node of the source
    have hsrc_node : ∃ m, st.nodes[l.node]? = some m := by
      unfold link_at at hlk
      cases hm : st.nodes[l.node]? with
      | none => rw [hm] at hlk; cases hlk
      | some m => exact ⟨m, rfl⟩
    obtain ⟨m, hm⟩ := hsrc_node
    obtain ⟨m1, hm1, _, _, hmsi, _⟩ := strip_get hstrip l.node m hm
    simp only [hm1]
    have hdn : n.scheduled_item.bind (fun k => (items[k]?).map ScheduledItem.scheduled_domain)
        = some node_si.scheduled_domain := by
      rw [hk]; simp only [Option.some_bind, hnsi, Option.map_some']
    cases hmk : m.scheduled_item with
    | none =>
      rw [hmsi, hmk]
      refine ⟨s, rfl, hdone s c.undef_sync rfl ?_ ?_⟩
      · intro c1 hc1
        rw [hc] at hc1; cases hc1
        exact Or.inr ⟨rfl, rfl⟩
      · intro old hold
        have hspec : splice_undef_sync h items st.nodes n l link.undef_sync =
            link.undef_sync := by
          simp only [splice_undef_sync, if_neg hd, domain_of, hm, Option.some_bind, hmk,
            Option.none_bind]
        rcases hcu with h1 | h1
        · exact Or.inl (by rw [hspec, h1])
        · exact Or.inl h1.symm
    | some mk =>
      rw [hmsi, hmk]
      have hlt := hitems l.node m mk hm hmk
      have hpsi : items[mk]? = some items[mk] := List.getElem?_eq_getElem hlt
      have hnb : n1.scheduled_item.bind (fun k => items[k]?) = some node_si := by
        rw [hsi, hk]; exact hnsi
      simp only [hpsi, hnb]
      have hdom : domain_of st.nodes items l.node = some (items[mk]).scheduled_domain := by
        simp only [domain_of, hm, Option.some_bind, hmk, hpsi, Option.map_some']
      by_cases hdiff : (items[mk]).scheduled_domain ≠ node_si.scheduled_domain
      · rw [if_pos hdiff, hc, Option.map_some']
        refine ⟨_, rfl, hdone _ (some (h.to_use h.eMemoryRW)) rfl ?_ ?_⟩
        · intro c1 hc1
          rw [hc] at hc1; cases hc1
          exact Or.inl rfl
        · intro old _
          left
          simp only [splice_undef_sync, if_neg hd, hdom, hdn, if_pos hdiff]
      · rw [if_neg hdiff]
        refine ⟨s, rfl, hdone s c.undef_sync rfl ?_ ?_⟩
        · intro c1 hc1
          rw [hc] at hc1; cases hc1
          exact Or.inr ⟨rfl, rfl⟩
        · intro old hold
          have hspec : splice_undef_sync h items st.nodes n l link.undef_sync =
              link.undef_sync := by
            simp only [splice_undef_sync, if_neg hd, hdom, hdn, if_neg hdiff]
          rcases hcu with h1 | h1
          · exact Or.inl (by rw [hspec, h1])
          · exact Or.inl h1.symm

/-- C26: when `build_sync` comes to a scheduled `SPLICE` whose sources have
links, the `SPLICE` case returns, and it leaves every link as it was but for
the `undef_sync` of the links of the sources, which is `to_use(dst_access)` if
the splice has a destination access, otherwise `to_use(eMemoryRW)` if the node
of the source has a scheduled item with another domain than the splice, and
otherwise the value it had; nothing else in the nodes has changed, and no
assertion was made. -/
theorem sync_splice_sets_undef_sync (h : SyncHelpers) (items : List ScheduledItem)
    (st : LinkState) (p : Nat) (n : Node) (hn : st.nodes[p]? = some n)
    (hk : n.kind = NodeKind.SPLICE)
    (hsched : ∃ k node_si, n.scheduled_item = some k ∧ items[k]? = some node_si)
    (hlinks : ∀ parm ∈ n.args, ∃ l link, ref_link parm = some l ∧
      link_at st.nodes l = some link)
    (hitems : ∀ (q : Nat) (m : Node) (k : Nat), st.nodes[q]? = some m →
      m.scheduled_item = some k → k < items.length) :
    ∃ st1, sync_node h items p st = some st1 ∧ st1.asserts_hold = st.asserts_hold ∧
      (∀ parm ∈ n.args, ∀ l link, ref_link parm = some l → link_at st.nodes l = some link →
        link_at st1.nodes l = some { link with
          undef_sync := splice_undef_sync h items st.nodes n l link.undef_sync }) ∧
      (∀ l, (∀ parm ∈ n.args, ref_link parm ≠ some l) →
        link_at st1.nodes l = link_at st.nodes l) ∧
      ∀ q : Nat, (st1.nodes[q]?).map strip_links = (st.nodes[q]?).map strip_links := by
  have h0 : SpliceInv h items st n 0 st := by
    refine ⟨rfl, fun _ => rfl, ?_⟩
    intro l
    cases link_at st.nodes l with
    | none => rfl
    | some c => simp [source_links]
  obtain ⟨st1, hrun, hinv⟩ := for_each_range_total (sync_splice_src h items p)
    (SpliceInv h items st n) n.args.length 0 st
    (fun j s _ hj hI =>
      sync_splice_src_step h items st p n hn hsched hlinks hitems j s (by omega) hI) h0
  rw [Nat.zero_add] at hinv
  obtain ⟨hassert, hstrip, hlink⟩ := hinv
  refine ⟨st1, ?_, hassert, ?_, ?_, hstrip⟩
  · simp only [sync_node, kind_of, hn, Option.map_some', hk, sync_splice]
    rw [List.range_eq_range']
    exact hrun
  · intro parm hparm l link hl hlk
    rw [hlink l, hlk, Option.map_some',
      if_pos ((source_links_all n l).mpr ⟨parm, hparm, hl⟩)]
  · intro l hl
    rw [hlink l]
    have hf : ¬ source_links n n.args.length l = true := by
      rw [source_links_all]
      rintro ⟨parm, hparm, he⟩
      exact hl parm hparm he
    cases link_at st.nodes l with
    | none => rfl
    | some c => rw [Option.map_some', if_neg hf]

/-- Witness of C26 on `cross_queue_splice`: the splice 2 is on the graphics
queue, its source is the result of the call 1 on the transfer queue, and the
link of the source gets `to_use(eMemoryRW)`. -/
theorem sync_splice_sets_undef_sync_witness :
    (cross_queue_splice[2]? = some
      { kind := NodeKind.SPLICE, type := [Ty.BUFFER]
        args := [⟨some 1, 0⟩]
        scheduled_item := some 1
        links := [{ def_ := ⟨some 2, 0⟩, prev := some ⟨1, 0⟩ }] }) ∧
    ∃ st1, sync_node sample_sync [⟨1, 16⟩, ⟨2, 4⟩] 2 { nodes := cross_queue_splice } = some st1 ∧
      (link_at st1.nodes ⟨1, 0⟩).bind ChainLink.undef_sync =
        some (sample_sync.to_use sample_sync.eMemoryRW) := by
  refine ⟨rfl, ?_⟩
  obtain ⟨st1, h1, _, h2, _, _⟩ := sync_splice_sets_undef_sync sample_sync [⟨1, 16⟩, ⟨2, 4⟩]
    { nodes := cross_queue_splice } 2 _ (rfl : cross_queue_splice[2]? = some _) rfl
    ⟨1, ⟨2, 4⟩, rfl, rfl⟩
    (by
      intro parm hparm
      have hp : parm = ⟨some 1, 0⟩ := List.mem_singleton.mp hparm
      subst hp
      exact ⟨⟨1, 0⟩, _, rfl, rfl⟩)
    (by
      intro q m k hq hm
      match q with
      | 0 => simp only [cross_queue_splice, List.getElem?_cons_zero, Option.some.injEq] at hq
             subst hq; cases hm
      | 1 => simp only [cross_queue_splice, List.getElem?_cons_succ, List.getElem?_cons_zero,
               Option.some.injEq] at hq
             subst hq; cases hm; decide
      | 2 => simp only [cross_queue_splice, List.getElem?_cons_succ, List.getElem?_cons_zero,
               Option.some.injEq] at hq
             subst hq; cases hm; decide
      | 3 => simp only [cross_queue_splice, List.getElem?_cons_succ, List.getElem?_cons_zero,
               Option.some.injEq] at hq
             subst hq; cases hm
      | q + 4 => simp [cross_queue_splice] at hq)
  refine ⟨st1, h1, ?_⟩
  rw [h2 ⟨some 1, 0⟩ (List.mem_singleton.mpr rfl) ⟨1, 0⟩ _ rfl rfl]
  rfl

/-! ## `validate_read_undefined` on an array -/

/-- An array-typed `CONSTRUCT` whose link has no undef passes the check,
whatever its reads. -/
theorem array_without_undef_passes (nodes : List Node) (fuel p : Nat) (node : Node)
    (T : Ty) (count : Nat) (link : ChainLink) (hn : nodes[p]? = some node)
    (hk : node.kind = NodeKind.CONSTRUCT) (hty : node.type.head? = some (Ty.ARRAY_TY T count))
    (hl : node.links.head? = some link) (hu : link.undef.node = none) :
    check_read_undefined nodes fuel p = some Result.expected_value := by
  simp [check_read_undefined, hn, hk, hty, hl, is_array_ty, hu]

/-- An array-typed `CONSTRUCT` whose link has reads and an undef does not pass:
the check falls through to the loop over the splices, which does not move, and
the reads of the array are reported. -/
theorem array_with_undef_reported (nodes : List Node) (fuel p : Nat) (node : Node)
    (T : Ty) (count : Nat) (link : ChainLink) (hn : nodes[p]? = some node)
    (hk : node.kind = NodeKind.CONSTRUCT) (hty : node.type.head? = some (Ty.ARRAY_TY T count))
    (hl : node.links.head? = some link) (hu : link.undef.node ≠ none)
    (hr : link.reads ≠ []) :
    check_read_undefined nodes (fuel + 1) p = some (read_undefined_error link) := by
  have hfl : first_link nodes p = some link := by simp [first_link, hn, hl]
  have hlen : link.reads.length ≠ 0 := fun h => hr (List.length_eq_zero.mp h)
  have hun : unravel_splices nodes (fuel + 1) p = some p := by
    simp only [unravel_splices, hfl]
    cases hu1 : link.undef.node with
    | none => exact absurd hu1 hu
    | some u => simp [hlen]
  have hpos : link.reads.length > 0 := Nat.pos_of_ne_zero hlen
  simp [check_read_undefined, hn, hk, hty, hl, is_array_ty, hu, hun, hfl, hpos]

/-- C27: the array of `array_read true` (node 5, of type `ARRAY_TY`) is read
by the call 7 and written by the call 9.  After `build_links` its link has the
read and the undef, and `validate_read_undefined` returns the error, naming the
call 7; the loop body returns the error at the array and at no other node.
Without the write (`array_read false`) the pass returns no error. -/
theorem array_read_reported :
    (link_and_validate (array_read true)).map Prod.snd =
      some (Result.expected_error (some 7) read_undefined_message) ∧
    (link_and_validate (array_read true)).map
        (fun r => r.1.map (fun (l : ChainLink) => (l.reads, l.undef))) =
      some [([⟨some 7, 1⟩], ⟨some 9, 1⟩)] ∧
    link_and_check (array_read true) =
      some [some Result.expected_value, some Result.expected_value,
        some Result.expected_value, some Result.expected_value, some Result.expected_value,
        some (Result.expected_error (some 7) read_undefined_message),
        some Result.expected_value, some Result.expected_value, some Result.expected_value,
        some Result.expected_value] ∧
    ((array_read true)[5]?).map (fun n => (n.kind, n.type.map is_array_ty)) =
      some (NodeKind.CONSTRUCT, [true]) ∧
    (link_and_validate (array_read false)).map Prod.snd = some Result.expected_value := by
  refine ⟨by decide, by decide, by decide, by decide, by decide⟩

/-! ## `RGCImpl::build_sync`: the use of a read group -/

/-- C25: the buffer 4 of `mixed_read_group` is read by a call of an opaque
function (argument 4, declared access 4) and by a call of a shader function
(argument 4, declared access 8), so the group use of the specification has the
access 4 | 8 = 12.  `build_sync` comes to the opaque call first and looks the
shader read up with `first_parm` 1, three parameters too far (access 1): the
`read_sync` has the access 4 | 1 = 5.  With the shader call first, the opaque
read is looked up with `first_parm` 4, three parameters too early (access 16),
and the `read_sync` has the access 16 | 8 = 24.  No assertion fails. -/
theorem read_sync_depends_on_first_reader :
    declared_access mixed_read_group ⟨some 2, 4⟩ = some 4 ∧
    declared_access mixed_read_group ⟨some 3, 4⟩ = some 8 ∧
    group_use sample_sync mixed_read_group [⟨some 2, 4⟩, ⟨some 3, 4⟩] = (12, 3072) ∧
    read_sync_of (build_sync sample_sync [] mixed_read_group) ⟨4, 0⟩ =
      some { stages := 1280, access := 5, layout := ImageLayout.eGeneral } ∧
    read_sync_of (build_sync_from sample_sync [] [0, 1, 3, 2, 4, 5, 6, 7]
        { nodes := mixed_read_group }) ⟨4, 0⟩ =
      some { stages := 6144, access := 24, layout := ImageLayout.eReadOnlyOptimalKHR } ∧
    (build_sync sample_sync [] mixed_read_group).map LinkState.asserts_hold = some true ∧
    (build_sync_from sample_sync [] [0, 1, 3, 2, 4, 5, 6, 7]
        { nodes := mixed_read_group }).map LinkState.asserts_hold = some true := by
  refine ⟨by decide, by decide, by decide, by decide, by decide, by decide, by decide⟩

theorem group_use_eq (h : SyncHelpers) (nodes : List Node) (reads : List Ref) :
    group_use h nodes reads = (call_readers nodes reads).foldl (group_use_step h nodes) (0, 0) :=
  rfl

theorem same_signatures_set_arg (nodes : List Node) (p i : Nat) (hi : 1 ≤ i) (r : Ref) :
    SameSignatures (set_arg nodes p i r) nodes := by
  intro q
  rw [getElem?_set_arg]
  cases nodes[q]? with
  | none => rfl
  | some n =>
    simp only [Option.map_some', Option.some.injEq]
    split
    · cases hargs : n.args with
      | nil => simp
      | cons x xs =>
        obtain ⟨k, rfl⟩ : ∃ k, i = k + 1 := ⟨i - 1, by omega⟩
        simp
    · rfl

theorem same_signatures_trans {a b c : List Node} (h1 : SameSignatures a b)
    (h2 : SameSignatures b c) : SameSignatures a c :=
  fun q => (h1 q).trans (h2 q)

theorem same_signatures_get {a b : List Node} (hs : SameSignatures a b) (q : Nat) (n : Node)
    (hn : a[q]? = some n) :
    ∃ m, b[q]? = some m ∧ m.kind = n.kind ∧ m.type = n.type ∧ m.args.head? = n.args.head? := by
  have := hs q
  rw [hn] at this
  cases hb : b[q]? with
  | none => rw [hb] at this; cases this
  | some m =>
    rw [hb] at this
    simp only [Option.map_some', Option.some.injEq, Prod.mk.injEq] at this
    exact ⟨m, rfl, this.1.symm, this.2.1.symm, this.2.2.symm⟩

theorem ref_type_same {a b : List Node} (hs : SameSignatures a b) (r : Ref) :
    Ref.type a r = Ref.type b r := by
  unfold Ref.type
  cases hr : r.node with
  | none => rfl
  | some q =>
    simp only [Option.some_bind]
    cases ha : a[q]? with
    | none =>
      have := hs q
      rw [ha] at this
      cases hb : b[q]? with
      | none => rfl
      | some m => rw [hb] at this; cases this
    | some n =>
      obtain ⟨m, hm, _, ht, _⟩ := same_signatures_get hs q n ha
      rw [hm]
      simp only [Option.some_bind, ht]

theorem read_lookup_same {a b : List Node} (hs : SameSignatures a b) (first_parm : Nat)
    (r : Ref) : read_lookup a first_parm r = read_lookup b first_parm r := by
  unfold read_lookup
  cases hr : r.node with
  | none => rfl
  | some q =>
    simp only [Option.some_bind]
    cases ha : a[q]? with
    | none =>
      have := hs q
      rw [ha] at this
      cases hb : b[q]? with
      | none => rfl
      | some m => rw [hb] at this; cases this
    | some n =>
      obtain ⟨m, hm, hk, _, hh⟩ := same_signatures_get hs q n ha
      rw [hm]
      simp only [hk, hh]
      cases n.args.head? with
      | none => rfl
      | some f => simp only [Option.some_bind, ref_type_same hs f]

/-- A read that is looked up with an access is made by a call of a function,
and the access is the imbued access of the parameter `r.index - first_parm`. -/
theorem read_lookup_access (nodes : List Node) (first_parm : Nat) (r : Ref) (a : Access)
    (ha : read_lookup nodes first_parm r = ReadLookup.access a) :
    ∃ (q : Nat) (n : Node) (sig : Nat × List Ty), r.node = some q ∧ nodes[q]? = some n ∧
      n.kind = NodeKind.CALL ∧ reader_signature nodes r = some sig ∧
      imbued_access sig.2 first_parm r.index = ReadLookup.access a := by
  unfold read_lookup at ha
  cases hr : r.node with
  | none => rw [hr] at ha; cases ha
  | some q =>
    rw [hr] at ha
    simp only [Option.some_bind] at ha
    cases hn : nodes[q]? with
    | none => rw [hn] at ha; cases ha
    | some n =>
      rw [hn] at ha
      simp only at ha
      cases hk : n.kind <;> rw [hk] at ha <;> simp only [reduceCtorEq] at ha
      cases hh : n.args.head? with
      | none => rw [hh] at ha; cases ha
      | some f =>
        rw [hh] at ha
        simp only [Option.some_bind] at ha
        cases ht : Ref.type nodes f with
        | none => rw [ht] at ha; cases ha
        | some ty =>
          rw [ht] at ha
          have hsig : ∀ sig, fn_signature ty = some sig → reader_signature nodes r = some sig := by
            intro sig hs
            simp only [reader_signature, hr, Option.some_bind, hn, hh, ht, hs]
          cases ty <;> simp only [reduceCtorEq] at ha
          · rename_i args rets
            exact ⟨q, n, (1, args), rfl, hn, hk, hsig _ rfl, ha⟩
          · rename_i args rets
            exact ⟨q, n, (4, args), rfl, hn, hk, hsig _ rfl, ha⟩

/-- A read that is passed over is made by a `CONVERGE`. -/
theorem read_lookup_skipped (nodes : List Node) (first_parm : Nat) (r : Ref)
    (ha : read_lookup nodes first_parm r = ReadLookup.skipped) :
    r.node.bind (kind_of nodes) = some NodeKind.CONVERGE := by
  unfold read_lookup at ha
  cases hr : r.node with
  | none => rw [hr] at ha; cases ha
  | some q =>
    rw [hr] at ha
    simp only [Option.some_bind] at ha
    cases hn : nodes[q]? with
    | none => rw [hn] at ha; cases ha
    | some n =>
      rw [hn] at ha
      simp only at ha
      simp only [Option.some_bind, kind_of, hn, Option.map_some', Option.some.injEq]
      cases hk : n.kind <;> rw [hk] at ha <;> simp only [reduceCtorEq] at ha
      exfalso
      cases hh : n.args.head? with
      | none => rw [hh] at ha; cases ha
      | some f =>
        rw [hh] at ha
        simp only [Option.some_bind] at ha
        cases ht : Ref.type nodes f with
        | none => rw [ht] at ha; cases ha
        | some ty =>
          rw [ht] at ha
          cases ty <;> simp only [reduceCtorEq] at ha
          all_goals
            unfold imbued_access at ha
            split at ha
            · cases ha
            · split at ha <;> cases ha

/-- A read that the loop of `build_sync` looks up with the `first_parm` of the
reader's own function is looked up with the access that the reader's signature
declares; a read that is passed over is not made by a `CALL`. -/
theorem read_lookup_declared (nodes : List Node) (first_parm : Nat) (r : Ref) :
    (∀ a, read_lookup nodes first_parm r = ReadLookup.access a →
      call_readers nodes [r] = [r] ∧
      ((reader_signature nodes r).map Prod.fst = some first_parm →
        declared_access nodes r = some a)) ∧
    (read_lookup nodes first_parm r = ReadLookup.skipped → call_readers nodes [r] = []) := by
  constructor
  · intro a ha
    obtain ⟨q, n, sig, hr, hn, hk, hsig, hacc⟩ := read_lookup_access nodes first_parm r a ha
    constructor
    · simp [call_readers, hr, kind_of, hn, hk]
    · intro hfp
      rw [hsig] at hfp
      simp only [Option.map_some', Option.some.injEq] at hfp
      simp only [declared_access, hsig, Option.some_bind, hfp]
      unfold imbued_access at hacc
      split at hacc
      · cases hacc
      · rename_i hlt
        rw [if_neg hlt]
        split at hacc
        · cases hacc
          rfl
        · cases hacc
  · intro ha
    have := read_lookup_skipped nodes first_parm r ha
    simp [call_readers, this]

/-- The loop over a read group all of whose `CALL` readers are calls of
functions with the `first_parm` of the call that is being synchronised: access
and stages are or-ed over the `CALL` readers, each with the access that its own
signature declares. -/
theorem merge_read_group_uniform (h : SyncHelpers) (node i first_parm : Nat) (hi : 1 ≤ i)
    (nodes : List Node) (reads : List Ref) :
    ∀ (s s1 : MergedUse), merge_read_group h node i first_parm reads s = some s1 →
    SameSignatures s.nodes nodes →
    (∀ r ∈ call_readers nodes reads,
      (reader_signature nodes r).map Prod.fst = some first_parm) →
    SameSignatures s1.nodes nodes ∧
    (s1.dst_use.access, s1.dst_use.stages) =
      (call_readers nodes reads).foldl (group_use_step h nodes)
        (s.dst_use.access, s.dst_use.stages) := by
  induction reads with
  | nil =>
    intro s s1 hrun hs _
    simp only [merge_read_group, Option.some.injEq] at hrun
    subst hrun
    exact ⟨hs, rfl⟩
  | cons r rest ih =>
    intro s s1 hrun hs huni
    simp only [merge_read_group] at hrun
    cases h1 : merge_read h node i first_parm s r with
    | none => rw [h1] at hrun; cases hrun
    | some s0 =>
      rw [h1] at hrun
      simp only [Option.some_bind] at hrun
      have hsplit : call_readers nodes (r :: rest) =
          call_readers nodes [r] ++ call_readers nodes rest := by
        unfold call_readers
        rw [← List.filter_append]; rfl
      have huni1 : ∀ x ∈ call_readers nodes rest,
          (reader_signature nodes x).map Prod.fst = some first_parm := by
        intro x hx
        exact huni x (by rw [hsplit]; exact List.mem_append_right _ hx)
      obtain ⟨hacc, hskip⟩ := read_lookup_declared nodes first_parm r
      unfold merge_read at h1
      rw [read_lookup_same hs] at h1
      cases hl : read_lookup nodes first_parm r with
      | skipped =>
        rw [hl] at h1
        simp only [Option.some.injEq] at h1
        subst h1
        rw [hsplit, hskip hl, List.nil_append]
        exact ih s s1 hrun hs huni1
      | assert_failed => rw [hl] at h1; cases h1
      | access a =>
        rw [hl] at h1
        simp only at h1
        split at h1
        · cases h1
        · rename_i parm _
          simp only [Option.some.injEq] at h1
          subst h1
          obtain ⟨hone, hdecl⟩ := hacc a hl
          have hd := hdecl (huni r (by
            rw [hsplit, hone]; exact List.mem_append_left _ (List.mem_singleton.mpr rfl)))
          obtain ⟨hs1, hres⟩ := ih _ s1 hrun
            (same_signatures_trans (same_signatures_set_arg s.nodes node i hi parm) hs) huni1
          refine ⟨hs1, ?_⟩
          rw [hres, hsplit, hone, List.singleton_append, List.foldl_cons]
          simp only [group_use_step, hd]

theorem same_signatures_refl (nodes : List Node) : SameSignatures nodes nodes :=
  fun _ => rfl

/-- When the `CALL` readers of a link are all calls of functions with the
`first_parm` of the call that `build_sync` is at (all opaque, or all shader
functions), the `read_sync` that the call installs has the access and the
stages of the group use of the specification. -/
theorem read_sync_uniform_group (h : SyncHelpers) (node first_parm : Nat) (args : List Ty)
    (i : Nat) (st st1 : LinkState) (l : LinkPtr) (link : ChainLink) (T : Ty) (access : Access)
    (hi : 1 ≤ i) (harg : args[i - first_parm]? = some (Ty.IMBUED_TY T access))
    (hw : h.access.is_write_access access = false)
    (hl : ((st.nodes[node]?).bind (fun (n : Node) => n.args[i]?)).bind ref_link = some l)
    (hlk : link_at st.nodes l = some link) (hrs : link.read_sync = none)
    (huni : ∀ r ∈ call_readers st.nodes link.reads,
      (reader_signature st.nodes r).map Prod.fst = some first_parm)
    (hrun : sync_call_parm h node first_parm args i st = some st1) :
    ∃ u, (link_at st1.nodes l).bind ChainLink.read_sync = some u ∧
      (u.access, u.stages) = group_use h st.nodes link.reads := by
  unfold sync_call_parm at hrun
  simp only [harg, hl, hlk, hw, Bool.false_eq_true, if_false, hrs, Option.isNone_none,
    if_true] at hrun
  cases hm : merge_read_group h node i first_parm link.reads
      { nodes := st.nodes, dst_use := { layout := ImageLayout.eReadOnlyOptimalKHR },
        needs := ⟨false, false, false⟩ } with
  | none => rw [hm] at hrun; cases hrun
  | some s =>
    rw [hm] at hrun
    simp only [Option.some_bind] at hrun
    cases hl1 : link_at s.nodes l with
    | none => rw [hl1] at hrun; cases hrun
    | some link1 =>
      rw [hl1] at hrun
      simp only [Option.map_some', Option.some.injEq] at hrun
      subst hrun
      obtain ⟨_, hres⟩ := merge_read_group_uniform h node i first_parm hi st.nodes link.reads
        _ s hm (same_signatures_refl _) huni
      refine ⟨merged_use s, ?_, ?_⟩
      · simp only [link_at_set_link, if_true, hl1, Option.map_some', Option.some_bind]
      · rw [group_use_eq, ← hres]
        rfl

/-! ## `Replacer::replace`: termination and the order of the needles -/

/-- The loop of `Replacer::replace` ends within as many rounds as the list has
entries, with any fuel above that. -/
theorem extend_chains_fuel (needle value2 : Ref) (hne : value2 ≠ needle)
    (replaces : List Replace) (fuel : Nat) (hfuel : replaces.length < fuel) :
    extend_chains needle value2 fuel replaces (find_value replaces 0 needle) =
      some (replaces.map (retarget needle value2)) := by
  have hsplit := List.takeWhile_append_dropWhile (fun (e : Replace) => !(e.value == needle))
    replaces
  have hfind : find_value replaces 0 needle =
      (replaces.takeWhile (fun e => !(e.value == needle))).length := by
    simp [find_value]
  rw [hfind]
  have key := extend_chains_spec needle value2 hne fuel
    (replaces.takeWhile (fun e => !(e.value == needle)))
    (replaces.dropWhile (fun e => !(e.value == needle)))
    (by
      have := (List.dropWhile_sublist (fun (e : Replace) => !(e.value == needle))
        (l := replaces)).length_le
      omega)
    (by
      intro x hx
      have hx1 : (replaces.dropWhile (fun e => !(e.value == needle))).head? = some x := hx
      have := List.head?_dropWhile_not (fun (e : Replace) => !(e.value == needle)) replaces
      rw [hx1] at this
      simpa using this)
  rw [hsplit] at key
  rw [key]
  congr 1
  conv_rhs => rw [← hsplit]
  rw [List.map_append, map_retarget_fixed needle value2
    (replaces.takeWhile (fun e => !(e.value == needle)))
    (fun e he => by have h2 := List.mem_takeWhile_imp he; exact h2)]

/-- C40: `Replacer::replace(needle, value)` with `needle != value` returns on
every list, within one round of its loop per entry (any fuel above the length
of the list is enough); the list it leaves has one entry more, and it is
sorted by needle if the list was. -/
theorem replace_terminates_sorted (replaces : List Replace) (needle value : Ref)
    (hne : needle ≠ value) (fuel : Nat) (hfuel : replaces.length < fuel) :
    ∃ replaces1, Replacer.replace fuel replaces needle value = some replaces1 ∧
      replaces1.length = replaces.length + 1 ∧
      (SortedByNeedle replaces → SortedByNeedle replaces1) := by
  refine ⟨(replaces.map (retarget needle value)).take
          (upper_bound (replaces.map (retarget needle value)) needle) ++
        { needle := needle, value := value } ::
          (replaces.map (retarget needle value)).drop
            (upper_bound (replaces.map (retarget needle value)) needle), ?_, ?_, ?_⟩
  · unfold Replacer.replace
    simp only [chain_end_eq]
    rw [extend_chains_fuel needle value (Ne.symm hne) replaces fuel hfuel]
    rfl
  · rw [(insert_perm _ _ _).length_eq]
    simp
  · intro hs
    exact insert_sorted_by_needle _ { needle := needle, value := value }
      (sorted_map_retarget replaces needle value hs)

theorem replace_terminates_sorted_witness :
    ref_b ≠ ref_c ∧ [(⟨ref_a, ref_b⟩ : Replace)].length < 2 ∧
    ∃ replaces1, Replacer.replace 2 [⟨ref_a, ref_b⟩] ref_b ref_c = some replaces1 ∧
      replaces1.length = [(⟨ref_a, ref_b⟩ : Replace)].length + 1 ∧
      (SortedByNeedle [⟨ref_a, ref_b⟩] → SortedByNeedle replaces1) :=
  ⟨by decide, by decide,
   replace_terminates_sorted [⟨ref_a, ref_b⟩] ref_b ref_c (by decide) 2 (by decide)⟩

/-! ## `Compiler::queue_inference`: two chains -/

/-- The state in which `queue_inference` finds the two chains: both calls are
scheduled items at `eAny`, and `collect_chains` yields the two heads. -/
theorem two_chains_scheduled :
    (schedule_intra_queue sample_domains (two_chains sample_domains) []).scheduled_execables =
      [⟨3, 31⟩, ⟨1, 31⟩] ∧
    (schedule_intra_queue sample_domains (two_chains sample_domains) []).nodes.map
      Node.scheduled_item = [none, some 1, none, some 0] ∧
    collect_chains (schedule_intra_queue sample_domains (two_chains sample_domains) []).nodes =
      [⟨0, 0⟩, ⟨2, 0⟩] := by
  decide

/-- C38: the domain of a pass depends on the chains visited before its own.
The chains of `two_chains` name disjoint sets of nodes ({0, 1} and {2, 3}), and
the two lists of heads are permutations of each other.  With the chain of `a`
visited first, the call `wb` of the other chain, which requires nothing, ends
on the transfer queue, the domain of `wa`: the forward sweep enters the chain
of `b` with `last_domain` as the chain of `a` left it.  With the chain of `b`
visited first, `wb` ends on the graphics queue, by the fix-up. -/
theorem forward_sweep_carries_domain :
    chain_nodes (schedule_intra_queue sample_domains (two_chains sample_domains) []).nodes 4
      (some ⟨0, 0⟩) = [0, 1, 1] ∧
    chain_nodes (schedule_intra_queue sample_domains (two_chains sample_domains) []).nodes 4
      (some ⟨2, 0⟩) = [2, 3, 3] ∧
    List.Perm [(⟨0, 0⟩ : LinkPtr), ⟨2, 0⟩] [⟨2, 0⟩, ⟨0, 0⟩] ∧
    (queue_inference sample_domains 4
      (schedule_intra_queue sample_domains (two_chains sample_domains) []).nodes
      [⟨0, 0⟩, ⟨2, 0⟩] [⟨3, 31⟩, ⟨1, 31⟩]).bind (fun items =>
        domain_of (schedule_intra_queue sample_domains (two_chains sample_domains) []).nodes
          items 3) = some sample_domains.eTransferQueue ∧
    (queue_inference sample_domains 4
      (schedule_intra_queue sample_domains (two_chains sample_domains) []).nodes
      [⟨2, 0⟩, ⟨0, 0⟩] [⟨3, 31⟩, ⟨1, 31⟩]).bind (fun items =>
        domain_of (schedule_intra_queue sample_domains (two_chains sample_domains) []).nodes
          items 3) = some sample_domains.eGraphicsQueue ∧
    (forward_inference sample_domains
      (schedule_intra_queue sample_domains (two_chains sample_domains) []).nodes 4
      [⟨0, 0⟩] ⟨[⟨3, 31⟩, ⟨1, 31⟩], sample_domains.eDevice⟩).map InferState.last_domain =
        some sample_domains.eTransferQueue :=
  ⟨by decide, by decide, List.Perm.swap _ _ _, by decide, by decide, by decide⟩

/-! ## `Compiler::queue_inference`: the sweeps after the fix-up -/

/-- Whether a forward chain loop ends does not depend on the domains. -/
theorem forward_chain_returns (c : DomainFlagBits) (nodes : List Node) (fuel : Nat)
    (p : Option LinkPtr) (st st1 st2 : InferState)
    (hr : forward_chain c nodes fuel p st = some st1) :
    ∃ st3, forward_chain c nodes fuel p st2 = some st3 := by
  induction fuel generalizing p st st2 with
  | zero =>
    cases p with
    | none => exact ⟨st2, rfl⟩
    | some q => simp [forward_chain] at hr
  | succ fuel ih =>
    cases p with
    | none => exact ⟨st2, rfl⟩
    | some q =>
      simp only [forward_chain] at hr ⊢
      cases hl : link_at nodes q with
      | none => rw [hl] at hr; cases hr
      | some chain =>
        rw [hl] at hr
        simp only at hr ⊢
        exact ih chain.next _ _ hr

/-- Whether a backward chain loop ends does not depend on the domains. -/
theorem backward_chain_returns (c : DomainFlagBits) (nodes : List Node) (fuel : Nat)
    (p : Option LinkPtr) (st st1 st2 : InferState)
    (hr : backward_chain c nodes fuel p st = some st1) :
    ∃ st3, backward_chain c nodes fuel p st2 = some st3 := by
  induction fuel generalizing p st st2 with
  | zero =>
    cases p with
    | none => exact ⟨st2, rfl⟩
    | some q => simp [backward_chain] at hr
  | succ fuel ih =>
    cases p with
    | none => exact ⟨st2, rfl⟩
    | some q =>
      simp only [backward_chain] at hr ⊢
      cases hl : link_at nodes q with
      | none => rw [hl] at hr; cases hr
      | some chain =>
        rw [hl] at hr
        simp only at hr ⊢
        exact ih chain.prev _ _ hr

/-- A forward sweep that returns from one state returns from every state. -/
theorem forward_inference_returns (c : DomainFlagBits) (nodes : List Node) (fuel : Nat)
    (chains : List LinkPtr) (st st1 st2 : InferState)
    (hr : forward_inference c nodes fuel chains st = some st1) :
    ∃ st3, forward_inference c nodes fuel chains st2 = some st3 := by
  induction chains generalizing st st2 with
  | nil => exact ⟨st2, rfl⟩
  | cons head rest ih =>
    simp only [forward_inference] at hr ⊢
    cases hf : forward_chain c nodes fuel (some head) st with
    | none => rw [hf] at hr; cases hr
    | some s =>
      rw [hf] at hr
      simp only at hr
      obtain ⟨s3, hs3⟩ := forward_chain_returns c nodes fuel (some head) st s st2 hf
      rw [hs3]
      exact ih s _ hr

/-- A backward sweep that returns from one state returns from every state. -/
theorem backward_inference_returns (c : DomainFlagBits) (nodes : List Node) (fuel : Nat)
    (chains : List LinkPtr) (st st1 st2 : InferState)
    (hr : backward_inference c nodes fuel chains st = some st1) :
    ∃ st3, backward_inference c nodes fuel chains st2 = some st3 := by
  induction chains generalizing st st2 with
  | nil => exact ⟨st2, rfl⟩
  | cons head rest ih =>
    simp only [backward_inference] at hr ⊢
    cases hw : wind_chain nodes fuel head with
    | none => rw [hw] at hr; cases hr
    | some tail =>
      rw [hw] at hr
      simp only at hr ⊢
      cases hb : backward_chain c nodes fuel (some tail) { st with last_domain := c.eDevice } with
      | none => rw [hb] at hr; cases hr
      | some s =>
        rw [hb] at hr
        simp only at hr
        obtain ⟨s3, hs3⟩ := backward_chain_returns c nodes fuel (some tail) _ s
          { st2 with last_domain := c.eDevice } hb
        rw [hs3]
        exact ih s _ hr

/-- C37: the sweeps after the fix-up change no domain.  When the first forward
and backward sweeps return, leaving the state `s2`, the fix-up leaves no item
at `eAny`, the second forward sweep and the second backward sweep return as
well, and after each of them `scheduled_execables` is what the fix-up loop
produced.  `eGraphicsQueue` is an enumerator other than `eAny`. -/
theorem second_sweeps_change_nothing (c : DomainFlagBits) (fuel : Nat) (nodes : List Node)
    (chains : List LinkPtr) (st0 s1 s2 : InferState)
    (hG1 : c.eGraphicsQueue ≠ c.eAny)
    (h1 : forward_inference c nodes fuel chains st0 = some s1)
    (h2 : backward_inference c nodes fuel chains s1 = some s2) :
    (∀ it ∈ fixup_domains c s2.scheduled_execables, it.scheduled_domain ≠ c.eAny) ∧
    ∃ s3 s4,
      forward_inference c nodes fuel chains
        { s2 with scheduled_execables := fixup_domains c s2.scheduled_execables } = some s3 ∧
      backward_inference c nodes fuel chains s3 = some s4 ∧
      s3.scheduled_execables = fixup_domains c s2.scheduled_execables ∧
      s4.scheduled_execables = fixup_domains c s2.scheduled_execables := by
  have hset : ∀ it ∈ fixup_domains c s2.scheduled_execables,
      it.scheduled_domain ≠ c.eAny := by
    intro it hit
    unfold fixup_domains at hit
    rw [List.mem_map] at hit
    obtain ⟨p, _, rfl⟩ := hit
    split_ifs with h
    · exact hG1
    · exact fun a => h (Or.inr a)
  obtain ⟨s3, h3⟩ := forward_inference_returns c nodes fuel chains st0 s1
    { s2 with scheduled_execables := fixup_domains c s2.scheduled_execables } h1
  obtain ⟨s4, h4⟩ := backward_inference_returns c nodes fuel chains s1 s2 s3 h2
  have e3 := forward_inference_of_settled c nodes fuel chains _ s3 hset h3
  have e4 := backward_inference_of_settled c nodes fuel chains s3 s4 (by rw [e3]; exact hset) h4
  exact ⟨hset, s3, s4, h3, h4, e3, by rw [e4, e3]⟩

theorem second_sweeps_change_nothing_witness :
    sample_domains.eGraphicsQueue ≠ sample_domains.eAny ∧
    forward_inference sample_domains
      (schedule_intra_queue sample_domains (two_chains sample_domains) []).nodes 4
      [⟨2, 0⟩, ⟨0, 0⟩] ⟨[⟨3, 31⟩, ⟨1, 31⟩], 28⟩ = some ⟨[⟨3, 31⟩, ⟨1, 16⟩], 16⟩ ∧
    backward_inference sample_domains
      (schedule_intra_queue sample_domains (two_chains sample_domains) []).nodes 4
      [⟨2, 0⟩, ⟨0, 0⟩] ⟨[⟨3, 31⟩, ⟨1, 16⟩], 16⟩ = some ⟨[⟨3, 31⟩, ⟨1, 16⟩], 16⟩ ∧
    (∀ it ∈ fixup_domains sample_domains [⟨3, 31⟩, ⟨1, 16⟩],
      it.scheduled_domain ≠ sample_domains.eAny) ∧
    ∃ s3 s4,
      forward_inference sample_domains
        (schedule_intra_queue sample_domains (two_chains sample_domains) []).nodes 4
        [⟨2, 0⟩, ⟨0, 0⟩] ⟨fixup_domains sample_domains [⟨3, 31⟩, ⟨1, 16⟩], 16⟩ = some s3 ∧
      backward_inference sample_domains
        (schedule_intra_queue sample_domains (two_chains sample_domains) []).nodes 4
        [⟨2, 0⟩, ⟨0, 0⟩] s3 = some s4 ∧
      s3.scheduled_execables = fixup_domains sample_domains [⟨3, 31⟩, ⟨1, 16⟩] ∧
      s4.scheduled_execables = fixup_domains sample_domains [⟨3, 31⟩, ⟨1, 16⟩] :=
  ⟨by decide, by rfl, by rfl,
   second_sweeps_change_nothing sample_domains 4
     (schedule_intra_queue sample_domains (two_chains sample_domains) []).nodes
     [⟨2, 0⟩, ⟨0, 0⟩] ⟨[⟨3, 31⟩, ⟨1, 31⟩], 28⟩ ⟨[⟨3, 31⟩, ⟨1, 16⟩], 16⟩
     ⟨[⟨3, 31⟩, ⟨1, 16⟩], 16⟩ (by decide) (by rfl) (by rfl)⟩

/-! ## `walk_writes`: the assertion on the last link -/

/-- C39: `assert(!link->undef)` of `walk_writes` fails on a chain that SSA mode
builds.  In `written_twice` the call 5 writes the buffer `b` (node 3) and no
result of the call aliases it, so the link of `b` stays the only link of its
chain, with the call 5 as its undef; up to there every assertion holds.  When
the call 7 writes `b`, `walk_writes` ends at that link without inserting a
`CONVERGE` (the chain has no slice), and the link has an undef: the assertion
is false, and the pass goes on to overwrite the undef. -/
theorem walk_writes_assertion_fails :
    (for_each (process_node_links sample_link_helpers true 8) (List.range 7)
      { nodes := allocate_links written_twice }).bind (fun st =>
        (link_at st.nodes ⟨3, 0⟩).map (fun link =>
          (link.undef, link.next, link.child_chains, undef_is_slice st.nodes link,
            walk_writes 8 st.nodes ⟨3, 0⟩, st.asserts_hold))) =
      some (⟨some 5, 2⟩, none, [], some false, some ⟨3, 0⟩, true) ∧
    (for_each (process_node_links sample_link_helpers true 8) (List.range 7)
      { nodes := allocate_links written_twice }).bind (fun st =>
        (rewrite_parm 8 7 1 ⟨3, 0⟩ st).map (fun res => res.1.asserts_hold)) = some false ∧
    (build_links_ssa sample_link_helpers 8 written_twice (List.range 8)).map
        (fun st => ((link_at st.nodes ⟨3, 0⟩).map ChainLink.undef, st.asserts_hold)) =
      some (some ⟨some 7, 1⟩, false) := by
  refine ⟨?_, ?_, ?_⟩
  · rfl
  · decide
  · decide

/-! ## `Subrange::Image` -/

/-- C32: the `Subrange::Image` that the passes build for a `SLICE` does not
hold the constants of the slice in the like-named members.  The initialiser
lists `base_level, level_count, base_layer, layer_count`, the struct declares
`base_layer, base_level, layer_count, level_count`: the member `base_layer`
gets the constant `base_level`, `base_level` gets `level_count`, `layer_count`
gets `base_layer`, and `level_count` gets `layer_count`.  For the slice of
`sliced_image`, with the constants 1, 2, 3, 4, the member `base_level` is 2. -/
theorem slice_range_members_shifted (base_level level_count base_layer layer_count : Nat) :
    (slice_range base_level level_count base_layer layer_count).base_layer = base_level ∧
    (slice_range base_level level_count base_layer layer_count).base_level = level_count ∧
    (slice_range base_level level_count base_layer layer_count).layer_count = base_layer ∧
    (slice_range base_level level_count base_layer layer_count).level_count = layer_count ∧
    (sliced_image[5]?).bind (range_of_slice sliced_image) =
      some { base_layer := 1, base_level := 2, layer_count := 3, level_count := 4 } ∧
    ((sliced_image[5]?).bind (range_of_slice sliced_image)).map SubrangeImage.base_level ≠
      some 1 :=
  ⟨rfl, rfl, rfl, rfl, by decide, by decide⟩

/-! ## The `SLICE` case of the rewrite predicate -/

theorem prev_chain_tail {io : SubrangeImage → SubrangeImage → Option SubrangeImage}
    {arena : List Node} {our : SubrangeImage} {l b : LinkPtr} {rest : List LinkPtr}
    (h : PrevChain io arena our (l :: b :: rest)) : PrevChain io arena our (b :: rest) :=
  ⟨(List.chain'_cons.mp h.linked).2,
   fun x hx => h.tested x (List.mem_cons_of_mem _ hx),
   fun t ht => h.head t (by rw [List.getLast?_cons_cons]; exact ht)⟩

theorem not_covered_of_false {io : SubrangeImage → SubrangeImage → Option SubrangeImage}
    {arena : List Node} {our : SubrangeImage} {l : LinkPtr} {link : ChainLink}
    (hl : link_at arena l = some link) (hc : slice_covers io arena our link = some false) :
    ¬ covered_at io arena our l := by
  rintro ⟨link1, h1, h2⟩
  rw [hl] at h1
  cases h1
  rw [hc] at h2
  cases h2

/-- The loop of the `SLICE` case on a chain: it ends, either by its `break`
at a link where the test holds, or at the head of the chain after the test has
failed at every link before the head. -/
theorem bridge_walk_spec (io : SubrangeImage → SubrangeImage → Option SubrangeImage)
    (arena : List Node) (our : SubrangeImage) (rest : List LinkPtr) :
    ∀ (l : LinkPtr) (fuel : Nat), PrevChain io arena our (l :: rest) → rest.length < fuel →
    ∃ res, bridge_walk io arena our fuel l = some res ∧
      ((res.1 = true ∧ res.2 ∈ l :: rest ∧ covered_at io arena our res.2) ∨
       (res.1 = false ∧ res.2 = (l :: rest).getLast (List.cons_ne_nil _ _) ∧
        ∀ t ∈ (l :: rest).dropLast, ¬ covered_at io arena our t)) := by
  induction rest with
  | nil =>
    intro l fuel hch hfuel
    obtain ⟨f, rfl⟩ : ∃ f, fuel = f + 1 := ⟨fuel - 1, by omega⟩
    obtain ⟨link, covered, hl, hc⟩ := hch.tested l (List.mem_singleton.mpr rfl)
    have hp : link.prev = none := by
      have := hch.head l rfl
      simpa [prev_of, hl] using this
    cases covered with
    | true =>
      exact ⟨(true, l), by simp [bridge_walk, hl, hc],
        Or.inl ⟨rfl, List.mem_singleton.mpr rfl, link, hl, hc⟩⟩
    | false =>
      exact ⟨(false, l), by simp [bridge_walk, hl, hc, hp],
        Or.inr ⟨rfl, rfl, by simp⟩⟩
  | cons b rest ih =>
    intro l fuel hch hfuel
    obtain ⟨f, rfl⟩ : ∃ f, fuel = f + 1 := ⟨fuel - 1, by omega⟩
    obtain ⟨link, covered, hl, hc⟩ := hch.tested l (List.mem_cons_self _ _)
    have hlb : prev_of arena l = some b := (List.chain'_cons.mp hch.linked).1
    have hp : link.prev = some b := by simpa [prev_of, hl] using hlb
    have hch1 := prev_chain_tail hch
    obtain ⟨linkb, coveredb, hlb1, hcb⟩ := hch1.tested b (List.mem_cons_self _ _)
    cases covered with
    | true =>
      exact ⟨(true, l), by simp [bridge_walk, hl, hc],
        Or.inl ⟨rfl, List.mem_cons_self _ _, link, hl, hc⟩⟩
    | false =>
      have hnl : ¬ covered_at io arena our l := not_covered_of_false hl hc
      cases hpb : linkb.prev with
      | none =>
        have hrest : rest = [] := by
          cases rest with
          | nil => rfl
          | cons d rest =>
            have hbd : prev_of arena b = some d := (List.chain'_cons.mp hch1.linked).1
            simp [prev_of, hlb1, hpb] at hbd
        subst hrest
        refine ⟨(false, b), by simp [bridge_walk, hl, hc, hp, hlb1, hpb], Or.inr ⟨rfl, rfl, ?_⟩⟩
        intro t ht
        simp only [List.dropLast_cons₂, List.dropLast_single, List.mem_singleton] at ht
        subst ht
        exact hnl
      | some d =>
        obtain ⟨res, hres, hspec⟩ := ih b f hch1 (by simp at hfuel ⊢; omega)
        refine ⟨res, by simp [bridge_walk, hl, hc, hp, hlb1, hpb, hres], ?_⟩
        rcases hspec with ⟨h1, h2, h3⟩ | ⟨h1, h2, h3⟩
        · exact Or.inl ⟨h1, List.mem_cons_of_mem _ h2, h3⟩
        · refine Or.inr ⟨h1, ?_, ?_⟩
          · rw [List.getLast_cons (List.cons_ne_nil _ _)]
            exact h2
          · intro t ht
            rw [List.dropLast_cons₂] at ht
            rcases List.mem_cons.mp ht with rfl | ht1
            · exact hnl
            · exact h3 t ht1

/-- C31: the `SLICE` case of the rewrite predicate, for the `SLICE` node at
`p` with the range `our` and the source image `image`, on a chain `l :: rest`
that leads from the link of the image over `prev` to the head.  The case
returns; it calls `replace(first(node), image)` and `replace(nth(node, 1),
image)`, and nothing else, when at some link of the chain the def is a `SLICE`
whose range, intersected with `our`, is `our`; it makes no call when there is
no such link.  The predicate with this case hands these calls to the
`Replacer`. -/
theorem slice_bridged_iff_covered (io : SubrangeImage → SubrangeImage → Option SubrangeImage)
    (fuel : Nat) (arena : List Node) (p : Nat) (n : Node) (our : SubrangeImage) (image : Ref)
    (l : LinkPtr) (rest : List LinkPtr)
    (hn : arena[p]? = some n) (hkind : n.kind = NodeKind.SLICE)
    (hour : range_of_slice arena n = some our)
    (himage : n.args[0]? = some image) (hl : ref_link image = some l)
    (hch : PrevChain io arena our (l :: rest)) (hfuel : rest.length < fuel) :
    ∃ calls, slice_bridge io fuel arena p = some calls ∧
      (∀ (eNone : Access) (c : DomainFlagBits) (rfuel : Nat) (replaces : List Replace),
        rewrite_pred (bridging_helpers eNone io fuel) c rfuel arena p replaces =
          replace_calls rfuel replaces calls) ∧
      ((∃ t ∈ l :: rest, covered_at io arena our t) →
        ((⟨some p, 0⟩ : Ref), image) ∈ calls ∧ ((⟨some p, 1⟩ : Ref), image) ∈ calls) ∧
      ((¬ ∃ t ∈ l :: rest, covered_at io arena our t) → calls = []) ∧
      (∀ call ∈ calls, call = ((⟨some p, 0⟩ : Ref), image) ∨
        call = ((⟨some p, 1⟩ : Ref), image)) := by
  obtain ⟨res, hres, hspec⟩ := bridge_walk_spec io arena our rest l fuel hch hfuel
  have hmem : res.2 ∈ l :: rest := by
    rcases hspec with ⟨_, h2, _⟩ | ⟨_, h2, _⟩
    · exact h2
    · rw [h2]; exact List.getLast_mem _
  obtain ⟨link, covered, hlink, hcov⟩ := hch.tested res.2 hmem
  have hrun : slice_bridge io fuel arena p = some
      ((if res.1 then [((⟨some p, 0⟩ : Ref), image), (⟨some p, 1⟩, image)] else []) ++
       (if covered then [((⟨some p, 0⟩ : Ref), image), (⟨some p, 1⟩, image)] else [])) := by
    simp [slice_bridge, hn, hour, himage, hl, hres, hlink, hcov]
  refine ⟨_, hrun, ?_, ?_, ?_, ?_⟩
  · intro eNone c rfuel replaces
    simp only [rewrite_pred, hn, hkind, bridging_helpers, hrun, Option.getD_some]
  · rintro ⟨t, ht, htc⟩
    have hc : covered = true := by
      rcases hspec with ⟨_, _, ⟨link1, h3, h4⟩⟩ | ⟨_, h2, h3⟩
      · rw [hlink] at h3
        cases h3
        rw [hcov] at h4
        exact Option.some.inj h4
      · cases covered with
        | true => rfl
        | false =>
          exfalso
          have hlast : t = (l :: rest).getLast (List.cons_ne_nil _ _) := by
            by_contra hne
            have : t ∈ (l :: rest).dropLast := by
              have hsplit := List.dropLast_append_getLast (List.cons_ne_nil l rest)
              rw [← hsplit] at ht
              rcases List.mem_append.mp ht with h | h
              · exact h
              · exact absurd (List.mem_singleton.mp h) hne
            exact h3 t this htc
          rw [← h2] at hlast
          subst hlast
          exact not_covered_of_false hlink hcov htc
    rw [hc]
    simp
  · intro hno
    have h1 : res.1 = false := by
      rcases hspec with ⟨_, h2, h3⟩ | ⟨h1, _, _⟩
      · exact absurd ⟨res.2, h2, h3⟩ hno
      · exact h1
    have h2 : covered = false := by
      cases covered with
      | false => rfl
      | true => exact absurd ⟨res.2, hmem, link, hlink, hcov⟩ hno
    rw [h1, h2]
    rfl
  · intro call hcall
    rcases List.mem_append.mp hcall with h | h
    · split at h
      · simpa using h
      · cases h
    · split at h
      · simpa using h
      · cases h

theorem nested_slices_chain :
    PrevChain sample_intersect nested_slices (slice_range 1 1 1 1) [⟨3, 0⟩, ⟨2, 0⟩] := by
  refine ⟨?_, ?_, ?_⟩
  · exact List.chain'_cons.mpr ⟨rfl, List.chain'_singleton _⟩
  · intro l hl
    simp only [List.mem_cons, List.mem_singleton, List.not_mem_nil, or_false] at hl
    rcases hl with rfl | rfl
    · exact ⟨_, false, rfl, rfl⟩
    · exact ⟨_, true, rfl, rfl⟩
  · intro t ht
    cases ht
    rfl

theorem slice_bridged_iff_covered_witness :
    PrevChain sample_intersect nested_slices (slice_range 1 1 1 1) [⟨3, 0⟩, ⟨2, 0⟩] ∧
    slice_bridge sample_intersect 2 nested_slices 4 =
      some [(⟨some 4, 0⟩, ⟨some 3, 0⟩), (⟨some 4, 1⟩, ⟨some 3, 0⟩)] ∧
    ∃ calls, slice_bridge sample_intersect 2 nested_slices 4 = some calls ∧
      (∀ (eNone : Access) (c : DomainFlagBits) (rfuel : Nat) (replaces : List Replace),
        rewrite_pred (bridging_helpers eNone sample_intersect 2) c rfuel nested_slices 4
            replaces = replace_calls rfuel replaces calls) ∧
      ((∃ t ∈ [(⟨3, 0⟩ : LinkPtr), ⟨2, 0⟩],
          covered_at sample_intersect nested_slices (slice_range 1 1 1 1) t) →
        ((⟨some 4, 0⟩ : Ref), (⟨some 3, 0⟩ : Ref)) ∈ calls ∧
        ((⟨some 4, 1⟩ : Ref), (⟨some 3, 0⟩ : Ref)) ∈ calls) ∧
      ((¬ ∃ t ∈ [(⟨3, 0⟩ : LinkPtr), ⟨2, 0⟩],
          covered_at sample_intersect nested_slices (slice_range 1 1 1 1) t) → calls = []) ∧
      (∀ call ∈ calls, call = ((⟨some 4, 0⟩ : Ref), (⟨some 3, 0⟩ : Ref)) ∨
        call = ((⟨some 4, 1⟩ : Ref), (⟨some 3, 0⟩ : Ref))) :=
  ⟨nested_slices_chain, by decide,
   slice_bridged_iff_covered sample_intersect 2 nested_slices 4
     { kind := NodeKind.SLICE, type := [Ty.IMAGE, Ty.IMAGE],
       args := [⟨some 3, 0⟩, ⟨some 1, 0⟩, ⟨some 1, 0⟩, ⟨some 1, 0⟩, ⟨some 1, 0⟩],
       links := [{ def_ := ⟨some 4, 0⟩ }, { def_ := ⟨some 4, 1⟩ }] }
     (slice_range 1 1 1 1) ⟨some 3, 0⟩ ⟨3, 0⟩ [⟨2, 0⟩] rfl rfl rfl rfl rfl
     nested_slices_chain (by decide)⟩

/-- When the test holds at a link inside the loop, the loop ends by `break`
and the test after the loop holds at the same link: the two `replace` calls
are made twice.  When the image of the slice was not sliced before, no call
is made. -/
theorem slice_bridge_runs :
    slice_bridge sample_intersect 2 slice_of_slice 3 =
      some [(⟨some 3, 0⟩, ⟨some 2, 0⟩), (⟨some 3, 1⟩, ⟨some 2, 0⟩),
            (⟨some 3, 0⟩, ⟨some 2, 0⟩), (⟨some 3, 1⟩, ⟨some 2, 0⟩)] ∧
    slice_bridge sample_intersect 2 slice_of_slice 2 = some [] := by
  constructor <;> decide

/-! ## `add_read` and `add_write`: the link that registers the argument -/

/-- On a chain without slices `walk_writes` ends at the last link, and the
argument becomes the def of that link. -/
theorem rewrite_parm_chain (fuel node i : Nat) (st : LinkState) (l0 last : LinkPtr)
    (rest : List LinkPtr) (lastlink : ChainLink)
    (hchain : SliceFreeChain st.nodes (l0 :: rest)) (hfuel : rest.length < fuel)
    (hlast : (l0 :: rest).getLast (List.cons_ne_nil _ _) = last)
    (hlastlink : link_at st.nodes last = some lastlink) :
    rewrite_parm fuel node i l0 st =
      some ({ nodes := set_arg st.nodes node i lastlink.def_,
              asserts_hold := st.asserts_hold && lastlink.undef.node.isNone }, lastlink.def_) := by
  have hwalk := walk_writes_chain st.nodes rest l0 fuel hchain hfuel
  rw [hlast] at hwalk
  simp only [rewrite_parm, hwalk, hlastlink, Option.some_bind, Option.map_some']

/-- A node whose link exists has links. -/
theorem links_of_link_at {nodes : List Node} {parm : Ref} {pn : Node} {l0 : LinkPtr}
    {link0 : ChainLink} (hpn : node_of nodes parm = some pn) (hl0 : ref_link parm = some l0)
    (hlink0 : link_at nodes l0 = some link0) : pn.links.isEmpty = false := by
  unfold ref_link at hl0
  unfold node_of at hpn
  cases hp : parm.node with
  | none => rw [hp] at hl0; cases hl0
  | some p =>
    rw [hp] at hl0 hpn
    simp only [Option.map_some', Option.some.injEq] at hl0
    simp only [Option.some_bind] at hpn
    subst hl0
    simp only [link_at, hpn, Option.some_bind] at hlink0
    cases hls : pn.links with
    | nil => rw [hls] at hlink0; cases hlink0
    | cons _ _ => rfl

/-- The argument `i` of `node` after `set_arg`. -/
theorem arg_at_set_arg (nodes : List Node) (node i : Nat) (r parm : Ref)
    (hparm : arg_at nodes node i = some parm) : arg_at (set_arg nodes node i r) node i = some r := by
  unfold arg_at at hparm ⊢
  rw [getElem?_set_arg]
  cases hn : nodes[node]? with
  | none => rw [hn] at hparm; cases hparm
  | some n =>
    rw [hn] at hparm
    simp only [Option.some_bind] at hparm
    obtain ⟨hi, _⟩ := List.getElem?_eq_some.mp hparm
    simp [List.getElem?_set, hi]

/-- The arguments are not touched by `set_link`. -/
theorem arg_at_set_link (nodes : List Node) (l : LinkPtr) (c : ChainLink) (node i : Nat) :
    arg_at (set_link nodes l c) node i = arg_at nodes node i := by
  unfold arg_at
  rw [getElem?_set_link]
  cases nodes[node]? with
  | none => rfl
  | some n =>
    simp only [Option.map_some', Option.some_bind]
    split_ifs <;> rfl

/-- The read of an argument whose link has no earlier write: the read is
appended to the reads of that link. -/
theorem add_read_kept (do_ssa : Bool) (fuel node i : Nat) (st : LinkState) (parm : Ref)
    (pn : Node) (l0 : LinkPtr) (link0 : ChainLink)
    (hparm : arg_at st.nodes node i = some parm)
    (hpn : node_of st.nodes parm = some pn) (hl0 : ref_link parm = some l0)
    (hlink0 : link_at st.nodes l0 = some link0)
    (hb : read_moves st.nodes node link0 = some false) :
    add_read do_ssa fuel node i st = some
      { nodes := set_link st.nodes l0
          { link0 with reads := link0.reads ++ [(⟨some node, i⟩ : Ref)] },
        asserts_hold := st.asserts_hold && (pn.kind != NodeKind.GARBAGE) } := by
  have hlinks := links_of_link_at hpn hl0 hlink0
  unfold arg_at at hparm
  unfold read_moves at hb
  cases hu : link0.undef.node with
  | none =>
    simp only [add_read, hparm, hpn, hlinks, hl0, hlink0, read_parm, hu, append_read,
      LinkState.check, Option.some_bind, Bool.false_eq_true, if_false, Option.map_some']
  | some old =>
    rw [hu] at hb
    simp only at hb
    simp only [add_read, hparm, hpn, hlinks, hl0, hlink0, read_parm, hu, hb, append_read,
      LinkState.check, Option.some_bind, Bool.false_eq_true, if_false, Option.map_some']

/-- The read of an argument that was written earlier, on a chain without
slices: the argument becomes the def of the last link of the chain, and the
read is appended to the reads of that link. -/
theorem add_read_moved (do_ssa : Bool) (fuel node i : Nat) (st : LinkState) (parm : Ref)
    (pn : Node) (l0 last : LinkPtr) (rest : List LinkPtr) (link0 lastlink : ChainLink)
    (hparm : arg_at st.nodes node i = some parm)
    (hpn : node_of st.nodes parm = some pn) (hl0 : ref_link parm = some l0)
    (hlink0 : link_at st.nodes l0 = some link0)
    (hb : read_moves st.nodes node link0 = some true)
    (hchain : SliceFreeChain st.nodes (l0 :: rest)) (hfuel : rest.length < fuel)
    (hlast : (l0 :: rest).getLast (List.cons_ne_nil _ _) = last)
    (hlastlink : link_at st.nodes last = some lastlink)
    (hdef : lastlink.def_ = ⟨some last.node, last.index⟩) :
    add_read do_ssa fuel node i st = some
      { nodes := set_link (set_arg st.nodes node i lastlink.def_) last
          { lastlink with reads := lastlink.reads ++ [(⟨some node, i⟩ : Ref)] },
        asserts_hold := ((st.asserts_hold && (pn.kind != NodeKind.GARBAGE)) && do_ssa) &&
          lastlink.undef.node.isNone } := by
  have hlinks := links_of_link_at hpn hl0 hlink0
  have hreflast : ref_link lastlink.def_ = some last := by rw [hdef]; rfl
  have hl1 : link_at (set_arg st.nodes node i lastlink.def_) last = some lastlink := by
    rw [link_at_set_arg]; exact hlastlink
  unfold arg_at at hparm
  unfold read_moves at hb
  cases hu : link0.undef.node with
  | none => rw [hu] at hb; cases hb
  | some old =>
    rw [hu] at hb
    simp only at hb
    have hrw := rewrite_parm_chain fuel node i
      { nodes := st.nodes,
        asserts_hold := (st.asserts_hold && (pn.kind != NodeKind.GARBAGE)) && do_ssa }
      l0 last rest lastlink hchain hfuel hlast hlastlink
    simp only [add_read, hparm, hpn, hlinks, hl0, hlink0, read_parm, hu, hb, Option.some_bind,
      Bool.false_eq_true, if_false, if_true, LinkState.check, hrw, append_read, hreflast, hl1,
      Option.map_some']

/-- What one assignment through a `ChainLink*` leaves: the new link at `tgt`,
every other link as it was. -/
theorem set_link_lands (nodes nodes1 : List Node) (tgt : LinkPtr) (link_t new_link : ChainLink)
    (hsame : ∀ (l : LinkPtr), link_at nodes1 l = link_at nodes l)
    (ht : link_at nodes tgt = some link_t) :
    link_at (set_link nodes1 tgt new_link) tgt = some new_link ∧
    ∀ (l : LinkPtr), l ≠ tgt → link_at (set_link nodes1 tgt new_link) l = link_at nodes l := by
  constructor
  · rw [link_at_set_link, if_pos rfl, hsame, ht]
    rfl
  · intro l hl
    rw [link_at_set_link, if_neg hl, hsame]

/-- C36: `add_read` in SSA mode, for the argument `i` of the node `n` whose
link `l0` has the node `o` as its undef already, on a chain without slices
from `l0` to the link `last`, which is the link of its own def.  `add_read`
returns.  When the index of `n` is greater than the index of `o`, the
argument is rewritten to the def of the last link and the read is appended to
the reads of the last link; every other link stays as it is.  When the index
of `n` is not greater, the argument stays and the read is appended to the
reads of `l0`; every other link stays as it is. -/
theorem add_read_retargets (fuel node i : Nat) (st : LinkState) (parm : Ref)
    (pn n o : Node) (l0 last : LinkPtr) (rest : List LinkPtr) (link0 lastlink : ChainLink)
    (w1 : Nat)
    (hparm : arg_at st.nodes node i = some parm)
    (hpn : node_of st.nodes parm = some pn) (hl0 : ref_link parm = some l0)
    (hlink0 : link_at st.nodes l0 = some link0) (hw1 : link0.undef.node = some w1)
    (hn : st.nodes[node]? = some n) (ho : st.nodes[w1]? = some o)
    (hchain : SliceFreeChain st.nodes (l0 :: rest)) (hfuel : rest.length < fuel)
    (hlast : (l0 :: rest).getLast (List.cons_ne_nil _ _) = last)
    (hlastlink : link_at st.nodes last = some lastlink)
    (hdef : lastlink.def_ = ⟨some last.node, last.index⟩) :
    ∃ st1, add_read true fuel node i st = some st1 ∧
      (o.index < n.index →
        arg_at st1.nodes node i = some lastlink.def_ ∧
        link_at st1.nodes last =
          some { lastlink with reads := lastlink.reads ++ [(⟨some node, i⟩ : Ref)] } ∧
        ∀ (l : LinkPtr), l ≠ last → link_at st1.nodes l = link_at st.nodes l) ∧
      (¬ o.index < n.index →
        arg_at st1.nodes node i = some parm ∧
        link_at st1.nodes l0 =
          some { link0 with reads := link0.reads ++ [(⟨some node, i⟩ : Ref)] } ∧
        ∀ (l : LinkPtr), l ≠ l0 → link_at st1.nodes l = link_at st.nodes l) := by
  have hmoves : read_moves st.nodes node link0 = some (decide (o.index < n.index)) := by
    simp only [read_moves, hw1, before_read, hn, ho]
  by_cases hlt : o.index < n.index
  · rw [decide_eq_true hlt] at hmoves
    have hrun := add_read_moved true fuel node i st parm pn l0 last rest link0 lastlink
      hparm hpn hl0 hlink0 hmoves hchain hfuel hlast hlastlink hdef
    have hlands := set_link_lands st.nodes (set_arg st.nodes node i lastlink.def_) last lastlink
      { lastlink with reads := lastlink.reads ++ [(⟨some node, i⟩ : Ref)] }
      (fun l => link_at_set_arg st.nodes node i lastlink.def_ l) hlastlink
    refine ⟨_, hrun, fun _ => ⟨?_, hlands.1, hlands.2⟩, fun h => absurd hlt h⟩
    show arg_at (set_link _ _ _) node i = _
    rw [arg_at_set_link]
    exact arg_at_set_arg st.nodes node i lastlink.def_ parm hparm
  · rw [decide_eq_false hlt] at hmoves
    have hrun := add_read_kept true fuel node i st parm pn l0 link0 hparm hpn hl0 hlink0 hmoves
    have hlands := set_link_lands st.nodes st.nodes l0 link0
      { link0 with reads := link0.reads ++ [(⟨some node, i⟩ : Ref)] } (fun _ => rfl) hlink0
    refine ⟨_, hrun, fun h => absurd h hlt, fun _ => ⟨?_, hlands.1, hlands.2⟩⟩
    show arg_at (set_link _ _ _) node i = _
    rw [arg_at_set_link]
    exact hparm

theorem add_read_retargets_witness :
    SliceFreeChain ssa_after_first [⟨1, 0⟩, ⟨3, 0⟩] ∧
    ∃ st1, add_read true 2 6 1 { nodes := ssa_after_first } = some st1 ∧
      ((3 : Nat) < 6 →
        arg_at st1.nodes 6 1 = some first_result_link.def_ ∧
        link_at st1.nodes ⟨3, 0⟩ =
          some { first_result_link with
            reads := first_result_link.reads ++ [(⟨some 6, 1⟩ : Ref)] } ∧
        ∀ (l : LinkPtr), l ≠ ⟨3, 0⟩ → link_at st1.nodes l = link_at ssa_after_first l) ∧
      (¬ (3 : Nat) < 6 →
        arg_at st1.nodes 6 1 = some ⟨some 1, 0⟩ ∧
        link_at st1.nodes ⟨1, 0⟩ =
          some { declared_link with reads := declared_link.reads ++ [(⟨some 6, 1⟩ : Ref)] } ∧
        ∀ (l : LinkPtr), l ≠ ⟨1, 0⟩ → link_at st1.nodes l = link_at ssa_after_first l) :=
  ⟨ssa_after_first_chain,
   add_read_retargets 2 6 1 { nodes := ssa_after_first } ⟨some 1, 0⟩
     { kind := NodeKind.CONSTRUCT, type := [Ty.BUFFER], args := [⟨some 0, 0⟩], index := 1,
       links := [declared_link] }
     { kind := NodeKind.CALL, type := [Ty.ALIASED_TY Ty.BUFFER 1],
       args := [⟨some 5, 0⟩, ⟨some 1, 0⟩], index := 6, links := [{}] }
     { kind := NodeKind.CALL, type := [Ty.ALIASED_TY Ty.BUFFER 1],
       args := [⟨some 2, 0⟩, ⟨some 1, 0⟩], index := 3, links := [first_result_link] }
     ⟨1, 0⟩ ⟨3, 0⟩ [⟨3, 0⟩] declared_link first_result_link 3
     rfl rfl rfl rfl rfl rfl rfl ssa_after_first_chain (by decide) rfl rfl rfl⟩

/-- The test "conversion to SSA": the read of the call 6, which names the
declared buffer, ends on the link of the result of the second write. -/
theorem ssa_conversion_read :
    (build_links_ssa sample_link_helpers 8 ssa_conversion (List.range 7)).map
        (fun st => (arg_at st.nodes 6 1, (link_at st.nodes ⟨4, 0⟩).map ChainLink.reads,
          (link_at st.nodes ⟨1, 0⟩).map ChainLink.reads, st.asserts_hold)) =
      some (some ⟨some 4, 0⟩, some [⟨some 6, 1⟩], some [], true) := by
  decide

/-! ## The `CALL` case of `process_node_links`: the parameters -/

/-- What `add_result(node, k, src)` does when the link `s` of `src` exists and
lies in another node: the link of the result gets its def and `s` as its
`prev`, the link `s` gets the link of the result as its `next`, every other
link stays, and so do the type, the arguments and the number of links of every
node. -/
theorem add_result_spec (do_ssa : Bool) (node k r : Nat) (st : LinkState) (n : Node)
    (src : Ref) (s : LinkPtr) (c0 cs : ChainLink)
    (hn : st.nodes[node]? = some n) (hc0 : link_at st.nodes ⟨node, k⟩ = some c0)
    (hsrc : n.args[r]? = some src) (hs : ref_link src = some s) (hne : s.node ≠ node)
    (hcs : link_at st.nodes s = some cs) :
    ∃ st1, add_result do_ssa node k r st = some st1 ∧
      st1.asserts_hold = st.asserts_hold ∧
      link_at st1.nodes ⟨node, k⟩ =
        some { c0 with def_ := ⟨some node, k⟩, prev := some s } ∧
      link_at st1.nodes s = some { cs with next := some ⟨node, k⟩ } ∧
      (∀ (l : LinkPtr), l ≠ ⟨node, k⟩ → l ≠ s → link_at st1.nodes l = link_at st.nodes l) ∧
      (∀ (q : Nat) (m : Node), st.nodes[q]? = some m →
        ∃ m1, st1.nodes[q]? = some m1 ∧ m1.args = m.args ∧ m1.type = m.type ∧
          m1.links.length = m.links.length) := by
  have hsk : s ≠ ⟨node, k⟩ := by
    intro he; apply hne; rw [he]
  have hks : (⟨node, k⟩ : LinkPtr) ≠ s := fun he => hsk he.symm
  obtain ⟨p, hp⟩ : ∃ p, src.node = some p := by
    unfold ref_link at hs
    cases hsn : src.node with
    | none => rw [hsn] at hs; cases hs
    | some p => exact ⟨p, rfl⟩
  have hsp : s = ⟨p, src.index⟩ := by
    unfold ref_link at hs
    rw [hp] at hs
    simp only [Option.map_some', Option.some.injEq] at hs
    exact hs.symm
  have hpne : p ≠ node := by
    intro he; apply hne; rw [hsp]; exact he
  obtain ⟨pn, hpn, hpl⟩ : ∃ pn, st.nodes[p]? = some pn ∧ pn.links[src.index]? = some cs := by
    rw [hsp] at hcs
    unfold link_at at hcs
    cases hq : st.nodes[p]? with
    | none => rw [hq] at hcs; cases hcs
    | some pn =>
      rw [hq] at hcs
      exact ⟨pn, rfl, hcs⟩
  have hpnl : pn.links.isEmpty = false := by
    cases hls : pn.links with
    | nil => rw [hls] at hpl; cases hpl
    | cons _ _ => rfl
  let nodes1 := set_link st.nodes ⟨node, k⟩ { c0 with def_ := ⟨some node, k⟩ }
  have h1n : (nodes1[node]?).bind (fun n => n.args[r]?) = some src := by
    show ((set_link _ _ _)[node]?).bind _ = _
    rw [getElem?_set_link, hn]
    simpa using hsrc
  have h1p : nodes1[p]? = some pn := by
    show (set_link _ _ _)[p]? = _
    rw [getElem?_set_link, hpn]
    simp [hpne]
  have h1s : link_at nodes1 s = some cs := by
    show link_at (set_link _ _ _) s = _
    rw [link_at_set_link, if_neg hsk]
    exact hcs
  let nodes2 := set_link nodes1 s { cs with next := some ⟨node, k⟩ }
  have h2k : link_at nodes2 ⟨node, k⟩ = some { c0 with def_ := ⟨some node, k⟩ } := by
    show link_at (set_link _ _ _) _ = _
    rw [link_at_set_link, if_neg hks]
    show link_at (set_link _ _ _) _ = _
    rw [link_at_set_link, if_pos rfl, hc0]
    rfl
  let nodes3 := set_link nodes2 ⟨node, k⟩ { c0 with def_ := ⟨some node, k⟩, prev := some s }
  refine ⟨{ nodes := nodes3, asserts_hold := st.asserts_hold }, ?_, rfl, ?_, ?_, ?_, ?_⟩
  · simp only [add_result, set_def, hc0, Option.map_some', Option.some_bind]
    show ((nodes1[node]?).bind (fun n => n.args[r]?)).bind _ = _
    rw [h1n]
    simp only [Option.some_bind]
    have hno : node_of nodes1 src = some pn := by
      unfold node_of
      rw [hp]
      exact h1p
    rw [hno]
    simp only [Option.some_bind, hpnl, Bool.false_eq_true, if_false, hs, link_next_prev]
    rw [h1s]
    simp only [Option.some_bind]
    have h2k1 : link_at (set_link (set_link st.nodes ⟨node, k⟩ { c0 with def_ := ⟨some node, k⟩ })
        s { cs with next := some ⟨node, k⟩ }) ⟨node, k⟩ =
        some { c0 with def_ := ⟨some node, k⟩ } := h2k
    rw [h2k1]
    rfl
  · show link_at (set_link _ _ _) _ = _
    rw [link_at_set_link, if_pos rfl, h2k]
    rfl
  · show link_at (set_link _ _ _) _ = _
    rw [link_at_set_link, if_neg hsk]
    show link_at (set_link _ _ _) _ = _
    rw [link_at_set_link, if_pos rfl, h1s]
    rfl
  · intro l hl1 hl2
    show link_at (set_link _ _ _) _ = _
    rw [link_at_set_link, if_neg hl1]
    show link_at (set_link _ _ _) _ = _
    rw [link_at_set_link, if_neg hl2]
    show link_at (set_link _ _ _) _ = _
    rw [link_at_set_link, if_neg hl1]
  · intro q m hm
    show ∃ m1, (set_link (set_link (set_link _ _ _) _ _) _ _)[q]? = some m1 ∧ _
    rw [getElem?_set_link, getElem?_set_link, getElem?_set_link, hm]
    simp only [Option.map_some']
    refine ⟨_, rfl, ?_, ?_, ?_⟩ <;> (split_ifs <;> simp)

/-- What `aliased_link` unfolds to. -/
theorem aliased_link_eq {n : Node} {k : Nat} {t : LinkPtr} (h : aliased_link n k = some t) :
    ∃ T r src, n.type[k]? = some (Ty.ALIASED_TY T r) ∧ n.args[r]? = some src ∧
      ref_link src = some t := by
  unfold aliased_link at h
  split at h
  · rename_i T r hty
    cases hsrc : n.args[r]? with
    | none => rw [hsrc] at h; cases h
    | some src =>
      rw [hsrc] at h
      exact ⟨T, r, src, hty, hsrc, h⟩
  · cases h

theorem results_step (do_ssa : Bool) (node : Nat) (n : Node) (asserts : Bool)
    (hlinks : n.links.length = n.type.length)
    (halias : ∀ (k : Nat), k < n.type.length →
      ∃ t, aliased_link n k = some t ∧ t.node ≠ node)
    (j : Nat) (s : LinkState) (hj : j < n.type.length) (hI : ResultsInv node n asserts j s) :
    ∃ s1, link_call_result do_ssa node n.type j s = some s1 ∧
      ResultsInv node n asserts (j + 1) s1 := by
  obtain ⟨hA, ⟨n1, hn1, hargs, htype, hlen⟩, hex, hmain⟩ := hI
  obtain ⟨tj, htj, htjn⟩ := halias j hj
  obtain ⟨T, r, src, hty, hsrc, href⟩ := aliased_link_eq htj
  obtain ⟨cs, hcs⟩ := hex j tj hj htj
  have hjl : j < n1.links.length := by rw [hlen, hlinks]; exact hj
  have hc0 : link_at s.nodes ⟨node, j⟩ = some (n1.links.get ⟨j, hjl⟩) := by
    simp only [link_at, hn1, Option.some_bind]
    exact List.getElem?_eq_getElem hjl
  obtain ⟨s1, hrun, hA1, hk1, hs1, hother, hframe⟩ :=
    add_result_spec do_ssa node j r s n1 src tj _ cs hn1 hc0 (by rw [hargs]; exact hsrc)
      href htjn hcs
  refine ⟨s1, ?_, ?_, ?_, ?_, ?_⟩
  · simp only [link_call_result, hty]
    exact hrun
  · rw [hA1, hA]
  · obtain ⟨m1, hm1, ha, ht, hl⟩ := hframe node n1 hn1
    exact ⟨m1, hm1, ha.trans hargs, ht.trans htype, hl.trans hlen⟩
  · intro k t hk ht
    by_cases h1 : t = ⟨node, j⟩
    · rw [h1]; exact ⟨_, hk1⟩
    · by_cases h2 : t = tj
      · rw [h2]; exact ⟨_, hs1⟩
      · rw [hother t h1 h2]
        exact hex k t hk ht
  · intro k t hk ht
    by_cases hkj : k = j
    · subst hkj
      have htt : t = tj := by
        rw [htj] at ht
        exact (Option.some.inj ht).symm
      subst htt
      refine ⟨⟨_, hk1, rfl, rfl⟩, fun _ => ?_⟩
      simp only [next_of, hs1, Option.some_bind]
    · have hklt : k < j := by omega
      obtain ⟨t1, ht1, ht1n⟩ := halias k (by omega)
      have htn : t.node ≠ node := by
        rw [ht1] at ht
        cases ht
        exact ht1n
      have hkne : (⟨node, k⟩ : LinkPtr) ≠ ⟨node, j⟩ := by
        intro he
        apply hkj
        exact congrArg LinkPtr.index he
      have hktj : (⟨node, k⟩ : LinkPtr) ≠ tj := by
        intro he
        apply htjn
        rw [← he]
      have htk : t ≠ ⟨node, j⟩ := by
        intro he
        apply htn
        rw [he]
      obtain ⟨hlink, hnext⟩ := hmain k t hklt ht
      refine ⟨?_, fun hlater => ?_⟩
      · rw [hother _ hkne hktj]
        exact hlink
      · have httj : t ≠ tj := by
          intro he
          apply hlater j hklt (by omega)
          rw [he]
          exact htj
        simp only [next_of]
        rw [hother t htk httj]
        exact hnext (fun k1 hk1 hk1j => hlater k1 hk1 (by omega))

/-- The loop over the results of a `CALL`, entered in the state
that the loop over the parameters has left, for a call whose results are all
of type `ALIASED_TY` and alias arguments whose links exist and lie in other
nodes.  The loop returns and no assertion fails in it.  For every result `k`,
aliasing the argument with the link `t`: the link of the result has the def
`(node, k)` and the `prev` `t`; and `next` of `t` is the link of the result
`k` when no later result of the call aliases an argument with the same link
`t`. -/
theorem call_results_linked (do_ssa : Bool) (node : Nat) (n : Node) (st : LinkState)
    (hn : st.nodes[node]? = some n) (hlinks : n.links.length = n.type.length)
    (halias : ∀ (k : Nat), k < n.type.length →
      ∃ t c, aliased_link n k = some t ∧ t.node ≠ node ∧ link_at st.nodes t = some c) :
    ∃ st1,
      for_each (link_call_result do_ssa node n.type) (List.range n.type.length) st =
        some st1 ∧
      st1.asserts_hold = st.asserts_hold ∧
      ∀ (k : Nat) (t : LinkPtr), k < n.type.length → aliased_link n k = some t →
        (∃ c, link_at st1.nodes ⟨node, k⟩ = some c ∧ c.def_ = ⟨some node, k⟩ ∧
          c.prev = some t) ∧
        ((∀ (k1 : Nat), k < k1 → k1 < n.type.length → aliased_link n k1 ≠ some t) →
          next_of st1.nodes t = some ⟨node, k⟩) := by
  have halias1 : ∀ (k : Nat), k < n.type.length →
      ∃ t, aliased_link n k = some t ∧ t.node ≠ node := by
    intro k hk
    obtain ⟨t, _, h1, h2, _⟩ := halias k hk
    exact ⟨t, h1, h2⟩
  have h0 : ResultsInv node n st.asserts_hold 0 st := by
    refine ⟨rfl, ⟨n, hn, rfl, rfl, rfl⟩, ?_, ?_⟩
    · intro k t hk ht
      obtain ⟨t1, c, h1, _, h3⟩ := halias k hk
      rw [h1] at ht
      cases ht
      exact ⟨c, h3⟩
    · intro k t hk
      omega
  obtain ⟨st1, hrun, hI⟩ := for_each_range_total (link_call_result do_ssa node n.type)
    (ResultsInv node n st.asserts_hold) n.type.length 0 st
    (fun j s _ hj hIj => results_step do_ssa node n st.asserts_hold hlinks halias1 j s
      (by omega) hIj) h0
  rw [← List.range_eq_range'] at hrun
  obtain ⟨hA, _, _, hmain⟩ := hI
  refine ⟨st1, hrun, hA, ?_⟩
  intro k t hk ht
  obtain ⟨h1, h2⟩ := hmain k t (by omega) ht
  exact ⟨h1, fun hlater => h2 (fun k1 hk1 hk1m => hlater k1 hk1 (by omega))⟩

/-- C35 (amended): the loop over the results of a `CALL`, entered in the state
that the loop over the parameters has left, for a call whose results are all of
type `ALIASED_TY` and alias arguments whose links exist and lie in other nodes.
The loop returns and no assertion fails in it.  For every result `k`, aliasing
the argument with the link `t`: the link of the result has the def `(node, k)`
and the `prev` `t`; and `next` of `t` is the link of the result `k` when no
other result of the call aliases an argument with the same link `t`. -/
theorem call_results_continue_arguments (do_ssa : Bool) (node : Nat) (n : Node)
    (st : LinkState)
    (hn : st.nodes[node]? = some n) (hlinks : n.links.length = n.type.length)
    (halias : ∀ (k : Nat), k < n.type.length →
      ∃ t c, aliased_link n k = some t ∧ t.node ≠ node ∧ link_at st.nodes t = some c) :
    ∃ st1,
      for_each (link_call_result do_ssa node n.type) (List.range n.type.length) st =
        some st1 ∧
      st1.asserts_hold = st.asserts_hold ∧
      ∀ (k : Nat) (t : LinkPtr), k < n.type.length → aliased_link n k = some t →
        (∃ c, link_at st1.nodes ⟨node, k⟩ = some c ∧ c.def_ = ⟨some node, k⟩ ∧
          c.prev = some t) ∧
        ((∀ (k1 : Nat), k1 ≠ k → k1 < n.type.length → aliased_link n k1 ≠ some t) →
          next_of st1.nodes t = some ⟨node, k⟩) := by
  obtain ⟨st1, hrun, hA, hmain⟩ := call_results_linked do_ssa node n st hn hlinks halias
  refine ⟨st1, hrun, hA, ?_⟩
  intro k t hk ht
  obtain ⟨h1, h2⟩ := hmain k t hk ht
  exact ⟨h1, fun hother => h2 (fun k1 hk1 hlt => hother k1 (by omega) hlt)⟩

/-- Counterexample to C35.  In `unlinked_argument` the node of the aliased
argument, the declared buffer at 1, has no links.  In SSA mode
`process_node_links` handles the call 3 without a failed assertion; the
argument is still the buffer, and the link of the result has its def and no
`prev`. -/
theorem result_of_unlinked_argument :
    (process_node_links sample_link_helpers true 8 3 { nodes := unlinked_argument }).map
        (fun st => (arg_at st.nodes 3 1, (st.nodes[1]?).map Node.links,
          link_at st.nodes ⟨3, 0⟩, st.asserts_hold)) =
      some (some ⟨some 1, 0⟩, some [], some { def_ := ⟨some 3, 0⟩ }, true) := by
  decide

/-- Witness of C35 on the call of `written_once`. -/
theorem call_results_continue_arguments_witness :
    (allocate_links written_once)[3]? = some single_result_call ∧
    ∃ st1,
      for_each (link_call_result false 3 single_result_call.type)
          (List.range single_result_call.type.length)
          { nodes := allocate_links written_once } = some st1 ∧
      st1.asserts_hold = true ∧
      ∀ (k : Nat) (t : LinkPtr), k < single_result_call.type.length →
        aliased_link single_result_call k = some t →
        (∃ c, link_at st1.nodes ⟨3, k⟩ = some c ∧ c.def_ = ⟨some 3, k⟩ ∧ c.prev = some t) ∧
        ((∀ (k1 : Nat), k1 ≠ k → k1 < single_result_call.type.length →
            aliased_link single_result_call k1 ≠ some t) →
          next_of st1.nodes t = some ⟨3, k⟩) :=
  ⟨rfl,
   call_results_continue_arguments false 3 single_result_call
     { nodes := allocate_links written_once } rfl rfl
     (fun k hk => by
       have hk1 : k < 1 := hk
       interval_cases k
       exact ⟨⟨1, 0⟩, {}, rfl, by decide, rfl⟩)⟩

/-! ## The first loop of `reify_inference` -/

theorem for_nodes_eq_for_each (body : Nat → Reify → Option Reify) (ps : List Nat) (st : Reify) :
    for_nodes body ps st = for_each body ps st := by
  induction ps generalizing st with
  | nil => rfl
  | cons p ps ih =>
    simp only [for_nodes, for_each]
    cases body p st with
    | none => rfl
    | some s => exact ih s

theorem mem_field_users (nodes : List Node) (q p k : Nat) (node : Node) (r : Ref)
    (hp : nodes[p]? = some node) (hkind : node.kind = NodeKind.CONSTRUCT) (hk : 1 ≤ k)
    (hr : node.args[k]? = some r) (hq : r.node = some q) : (p, k) ∈ field_users nodes q := by
  have hlt : p < nodes.length := (List.getElem?_eq_some.mp hp).1
  have hklt : k < node.args.length := (List.getElem?_eq_some.mp hr).1
  unfold field_users
  rw [List.mem_flatMap]
  refine ⟨p, List.mem_range.mpr hlt, ?_⟩
  rw [hp]
  simp only [hkind, if_true, List.mem_map, List.mem_filter, List.mem_range]
  refine ⟨k, ⟨hklt, ?_⟩, rfl⟩
  simp [hk, hr, hq]

/-- The statements of `reify_construct`, read from the table of the fields. -/
theorem reify_construct_eq (c : ReifyHelpers) (node : Node) (st : Reify) :
    reify_construct c node st =
      (construct_fields c st.nodes node).bind (fun fs =>
        run_steps (fs.map (field_step node.args)) st) := by
  unfold reify_construct construct_fields
  cases node.type.head? with
  | none => rfl
  | some t =>
    cases t with
    | IMAGE =>
      simp only
      cases (node.args[0]?).bind (constant_of st.nodes) with
      | none => rfl
      | some v => cases v <;> rfl
    | BUFFER =>
      simp only
      cases (node.args[0]?).bind (constant_of st.nodes) with
      | none => rfl
      | some v =>
        cases v with
        | buffer value =>
          simp only [Option.some_bind, buffer_fields, List.map_cons, List.map_nil, run_steps,
            field_step]
          cases ptr_if (decide (value.size ≠ 4294967295)) node.args 1 value.size st <;> rfl
        | _ => rfl
    | _ => rfl

/-- A statement on another node leaves the node `q`. -/
theorem field_step_other (args : List Ref) (f : Bool × Nat × Nat) (q : Nat) (st st1 : Reify)
    (h : field_step args f st = some st1)
    (hne : ∀ (r : Ref), args[f.2.1]? = some r → r.node ≠ some q) :
    st1.nodes[q]? = st.nodes[q]? := by
  unfold field_step ptr_if at h
  split_ifs at h
  · cases hr : args[f.2.1]? with
    | none => rw [hr] at h; cases h
    | some r =>
      rw [hr] at h
      simp only [Option.some_bind, placeholder_to_ptr, fill_placeholder] at h
      have hrq := hne r hr
      cases hp : r.node with
      | none => rw [hp] at h; cases h
      | some p =>
        rw [hp] at h hrq
        have hpq : p ≠ q := fun he => hrq (by rw [he])
        simp only at h
        cases hn : st.nodes[p]? with
        | none => rw [hn] at h; cases h
        | some n =>
          rw [hn] at h
          simp only at h
          split_ifs at h
          · simp only [Option.map_some', Option.some.injEq] at h
            rw [← h]
            simp only
            rw [List.getElem?_set, if_neg hpq]
          · simp only [Option.map_some', Option.some.injEq] at h
            rw [← h]
  · cases h
    rfl

/-- A statement on the placeholder `q`: with its test, the node becomes a
constant that is not owned and holds the value of the member; without, the
node stays. -/
theorem field_step_here (args : List Ref) (f : Bool × Nat × Nat) (q : Nat) (n : Node) (r : Ref)
    (st st1 : Reify) (h : field_step args f st = some st1)
    (hr : args[f.2.1]? = some r) (hq : r.node = some q) (hn : st.nodes[q]? = some n)
    (hph : n.kind = NodeKind.PLACEHOLDER) :
    st1.nodes[q]? = some (if f.1 then pointed_constant n f.2.2 else n) := by
  have hlt : q < st.nodes.length := (List.getElem?_eq_some.mp hn).1
  unfold field_step ptr_if at h
  split_ifs at h with hc
  · rw [hr] at h
    simp only [Option.some_bind, placeholder_to_ptr, fill_placeholder, hq, hn, hph, if_true,
      Option.map_some', Option.some.injEq] at h
    rw [← h, if_pos hc]
    simp only
    rw [List.getElem?_set, if_pos rfl, if_pos hlt]
    rfl
  · cases h
    rw [hn, if_neg hc]

/-- Statements on other nodes leave the node `q`. -/
theorem run_fields_other (args : List Ref) (q : Nat) (fs : List (Bool × Nat × Nat)) :
    ∀ (st st1 : Reify), run_steps (fs.map (field_step args)) st = some st1 →
    (∀ f ∈ fs, ∀ (r : Ref), args[f.2.1]? = some r → r.node ≠ some q) →
    st1.nodes[q]? = st.nodes[q]? := by
  induction fs with
  | nil =>
    intro st st1 h _
    cases h
    rfl
  | cons g gs ih =>
    intro st st1 h hne
    simp only [List.map_cons, run_steps] at h
    cases hg : field_step args g st with
    | none => rw [hg] at h; cases h
    | some s =>
      rw [hg] at h
      simp only [Option.some_bind] at h
      rw [ih s st1 h (fun f hf => hne f (List.mem_cons_of_mem _ hf)),
        field_step_other args g q st s hg (hne g (List.mem_cons_self _ _))]

/-- The statements of one construct, one of which is on the placeholder `q`
and no other. -/
theorem run_fields_here (args : List Ref) (q : Nat) (n : Node) (f : Bool × Nat × Nat) (r : Ref)
    (hr : args[f.2.1]? = some r) (hq : r.node = some q)
    (hph : n.kind = NodeKind.PLACEHOLDER) (fs : List (Bool × Nat × Nat)) :
    ∀ (st st1 : Reify), run_steps (fs.map (field_step args)) st = some st1 →
    f ∈ fs → (fs.map (fun g => g.2.1)).Nodup →
    (∀ g ∈ fs, g.2.1 ≠ f.2.1 → ∀ (r1 : Ref), args[g.2.1]? = some r1 → r1.node ≠ some q) →
    st.nodes[q]? = some n →
    st1.nodes[q]? = some (if f.1 then pointed_constant n f.2.2 else n) := by
  induction fs with
  | nil => intro st st1 _ hf; cases hf
  | cons g gs ih =>
    intro st st1 h hf hnd hne hn
    simp only [List.map_cons, run_steps] at h
    rw [List.map_cons, List.nodup_cons] at hnd
    cases hg : field_step args g st with
    | none => rw [hg] at h; cases h
    | some s =>
      rw [hg] at h
      simp only [Option.some_bind] at h
      rcases List.mem_cons.mp hf with rfl | hfgs
      · rw [run_fields_other args q gs s st1 h ?_]
        · exact field_step_here args f q n r st s hg hr hq hn hph
        · intro g hgm r1 hr1
          refine hne g (List.mem_cons_of_mem _ hgm) ?_ r1 hr1
          intro he
          apply hnd.1
          rw [← he]
          exact List.mem_map.mpr ⟨g, hgm, rfl⟩
      · have hgf : g.2.1 ≠ f.2.1 := by
          intro he
          apply hnd.1
          rw [he]
          exact List.mem_map.mpr ⟨f, hfgs, rfl⟩
        refine ih s st1 h hfgs hnd.2 (fun g1 hg1 => hne g1 (List.mem_cons_of_mem _ hg1)) ?_
        rw [field_step_other args g q st s hg (hne g (List.mem_cons_self _ _) hgf)]
        exact hn

/-- The positions of the table of a construct are distinct and from 1 on. -/
theorem construct_fields_positions (c : ReifyHelpers) (nodes : List Node) (node : Node)
    (fs : List (Bool × Nat × Nat)) (h : construct_fields c nodes node = some fs) :
    (fs.map (fun g => g.2.1)).Nodup ∧ ∀ g ∈ fs, 1 ≤ g.2.1 := by
  unfold construct_fields at h
  split at h
  · cases h
  · split at h
    · cases h
      refine ⟨by simp [image_fields], ?_⟩
      intro g hg
      simp only [image_fields, List.mem_cons, List.mem_singleton, List.not_mem_nil,
        or_false] at hg
      rcases hg with rfl | rfl | rfl | rfl | rfl | rfl | rfl | rfl | rfl <;> simp
    · cases h
  · split at h
    · cases h
      refine ⟨by simp [buffer_fields], ?_⟩
      intro g hg
      simp only [buffer_fields, List.mem_singleton] at hg
      subst hg
      simp
    · cases h
  · cases h
    exact ⟨by simp, fun g hg => by cases hg⟩

/-- The prototype of a construct is a constant, which the pass keeps: the
table of the construct is the same in every later state. -/
theorem construct_fields_frame (c : ReifyHelpers) (nodes nodes1 : List Node) (node : Node)
    (fs : List (Bool × Nat × Nat)) (hfr : Frame nodes nodes1)
    (h : construct_fields c nodes node = some fs) :
    construct_fields c nodes1 node = some fs := by
  have hconst : ∀ (v : ConstantValue),
      (node.args[0]?).bind (constant_of nodes) = some v →
      (node.args[0]?).bind (constant_of nodes1) = some v := by
    intro v hv
    cases hr : node.args[0]? with
    | none => rw [hr] at hv; cases hv
    | some r =>
      rw [hr] at hv
      simp only [Option.some_bind] at hv ⊢
      unfold constant_of node_of at hv ⊢
      cases hp : r.node with
      | none => rw [hp] at hv; cases hv
      | some p =>
        rw [hp] at hv
        simp only [Option.some_bind] at hv ⊢
        cases hm : nodes[p]? with
        | none => rw [hm] at hv; cases hv
        | some m =>
          rw [hm] at hv
          simp only [Option.some_bind] at hv
          split_ifs at hv with hk
          rw [frame_keeps hfr p m hm (by rw [hk]; decide)]
          simp only [Option.some_bind, if_pos hk]
          exact hv
  unfold construct_fields at h ⊢
  cases ht : node.type.head? with
  | none => rw [ht] at h; cases h
  | some t =>
    rw [ht] at h
    cases t with
    | IMAGE =>
      simp only at h ⊢
      cases hv : (node.args[0]?).bind (constant_of nodes) with
      | none => rw [hv] at h; cases h
      | some v =>
        rw [hconst v hv]
        rw [hv] at h
        exact h
    | BUFFER =>
      simp only at h ⊢
      cases hv : (node.args[0]?).bind (constant_of nodes) with
      | none => rw [hv] at h; cases h
      | some v =>
        rw [hconst v hv]
        rw [hv] at h
        exact h
    | _ => exact h

/-- The visit of another node leaves the placeholder `q`, when the only
argument of a construct that refers to `q` is the argument `k` of the node at
`p`. -/
theorem reify_node_other (c : ReifyHelpers) (nodes : List Node) (p k q p1 : Nat)
    (huniq : ∀ u ∈ field_users nodes q, u = (p, k))
    (st st1 : Reify) (hfr : Frame nodes st.nodes) (hne : p1 ≠ p)
    (h : reify_node c p1 st = some st1) : st1.nodes[q]? = st.nodes[q]? := by
  unfold reify_node at h
  cases hn1 : st.nodes[p1]? with
  | none => rw [hn1] at h; cases h
  | some node1 =>
    rw [hn1] at h
    simp only at h
    split_ifs at h with hk
    · have hlt : p1 < nodes.length := by
        rw [← hfr.1]
        exact (List.getElem?_eq_some.mp hn1).1
      obtain ⟨m, hm⟩ : ∃ m, nodes[p1]? = some m := ⟨_, List.getElem?_eq_getElem hlt⟩
      have hmn : m = node1 := by
        obtain ⟨n1, hn1', hc⟩ := hfr.2 p1 m hm
        rw [hn1] at hn1'
        cases hn1'
        rcases hc with rfl | ⟨_, v, o, hv⟩
        · rfl
        · rw [hv] at hk
          cases hk
      subst hmn
      rw [reify_construct_eq] at h
      cases hfs : construct_fields c st.nodes m with
      | none => rw [hfs] at h; cases h
      | some fs =>
        rw [hfs] at h
        simp only [Option.some_bind] at h
        refine run_fields_other m.args q fs st st1 h ?_
        intro f hf r hr hq
        have hpos := (construct_fields_positions c st.nodes m fs hfs).2 f hf
        have hmem := mem_field_users nodes q p1 f.2.1 m r hm hk hpos hr hq
        have := huniq _ hmem
        exact hne (congrArg Prod.fst this)
    · cases h
      rfl

/-- The visit of the construct at `p` settles the placeholder `q` behind its
argument `k`. -/
theorem reify_node_here (c : ReifyHelpers) (nodes : List Node) (p q : Nat) (node n : Node)
    (fs : List (Bool × Nat × Nat)) (f : Bool × Nat × Nat) (r : Ref)
    (hp : nodes[p]? = some node) (hkind : node.kind = NodeKind.CONSTRUCT)
    (hfs : construct_fields c nodes node = some fs) (hf : f ∈ fs)
    (hr : node.args[f.2.1]? = some r) (hq : r.node = some q)
    (hph : n.kind = NodeKind.PLACEHOLDER)
    (huniq : ∀ u ∈ field_users nodes q, u = (p, f.2.1))
    (st st1 : Reify) (hfr : Frame nodes st.nodes) (hn : st.nodes[q]? = some n)
    (h : reify_node c p st = some st1) :
    st1.nodes[q]? = some (if f.1 then pointed_constant n f.2.2 else n) := by
  unfold reify_node at h
  rw [frame_keeps hfr p node hp (by rw [hkind]; decide)] at h
  simp only [if_pos hkind] at h
  rw [reify_construct_eq, construct_fields_frame c nodes st.nodes node fs hfr hfs] at h
  simp only [Option.some_bind] at h
  obtain ⟨hnd, hpos⟩ := construct_fields_positions c nodes node fs hfs
  refine run_fields_here node.args q n f r hr hq hph fs st st1 h hf hnd ?_ hn
  intro g hg hgf r1 hr1 hq1
  have hmem := mem_field_users nodes q p g.2.1 node r1 hp hkind (hpos g hg) hr1 hq1
  have := huniq _ hmem
  exact hgf (congrArg Prod.snd this)

/-- C33 (amended): the first loop of `reify_inference` on `nodes`, for the
`CONSTRUCT` node at `p` of an image or a buffer, an entry `f` of its table
(the test on a member of the prototype, the position of the argument, the
value of the member), and the placeholder `q` behind that argument, when no
other argument from 1 on of any `CONSTRUCT` refers to `q`.  After the loop,
`q` is a constant that is not owned and holds the value of the member when
the member passes its test (extent component above 0, format not
`eUndefined`, sample count not `eInfer`, layer and level members not the
`REMAINING` value, size not `~0u`), and `q` is the placeholder it was when the
member does not. -/
theorem first_loop_fills_fields (c : ReifyHelpers) (nodes : List Node) (st1 : Reify)
    (p q : Nat) (node n : Node) (fs : List (Bool × Nat × Nat)) (f : Bool × Nat × Nat) (r : Ref)
    (hrun : for_nodes (reify_node c) (List.range nodes.length) { nodes := nodes } = some st1)
    (hp : nodes[p]? = some node) (hkind : node.kind = NodeKind.CONSTRUCT)
    (hfs : construct_fields c nodes node = some fs) (hf : f ∈ fs)
    (hr : node.args[f.2.1]? = some r) (hq : r.node = some q)
    (hn : nodes[q]? = some n) (hph : n.kind = NodeKind.PLACEHOLDER)
    (huniq : ∀ u ∈ field_users nodes q, u = (p, f.2.1)) :
    st1.nodes[q]? = some (if f.1 then pointed_constant n f.2.2 else n) := by
  rw [for_nodes_eq_for_each] at hrun
  have hplt : p < nodes.length := (List.getElem?_eq_some.mp hp).1
  have key := for_each_range_inv (reify_node c)
    (fun j s => Frame nodes s.nodes ∧ (j ≤ p → s.nodes[q]? = some n) ∧
      (p < j → s.nodes[q]? = some (if f.1 then pointed_constant n f.2.2 else n)))
    nodes.length { nodes := nodes } st1
    (fun j s s1 _ hI hbody => by
      obtain ⟨hfr, hbefore, hafter⟩ := hI
      have hfr1 : Frame nodes s1.nodes := frame_trans hfr (reify_node_framed c j s s1 hbody)
      refine ⟨hfr1, ?_, ?_⟩
      · intro hle
        rw [reify_node_other c nodes p f.2.1 q j huniq s s1 hfr (by omega) hbody]
        exact hbefore (by omega)
      · intro hlt
        by_cases hjp : j = p
        · subst hjp
          exact reify_node_here c nodes j q node n fs f r hp hkind hfs hf hr hq hph huniq
            s s1 hfr (hbefore (le_refl _)) hbody
        · rw [reify_node_other c nodes p f.2.1 q j huniq s s1 hfr hjp hbody]
          exact hafter (by omega))
    ⟨frame_refl nodes, fun _ => hn, fun h => by omega⟩ hrun
  exact key.2.2 hplt

/-- Counterexample to C33: the two images of `shared_width` share the
placeholder of their width.  The prototype of the second image (node 4) has
no width, and its width argument was a placeholder; after the first loop that
argument is a constant with the width 5 of the first image, not a
placeholder. -/
theorem shared_placeholder_filled :
    construct_fields sample_reify shared_width
        { kind := NodeKind.CONSTRUCT, type := [Ty.IMAGE],
          args := [⟨some 1, 0⟩, ⟨some 2, 0⟩, ⟨some 5, 0⟩, ⟨some 5, 0⟩, ⟨some 5, 0⟩,
            ⟨some 5, 0⟩, ⟨some 5, 0⟩, ⟨some 5, 0⟩, ⟨some 5, 0⟩, ⟨some 5, 0⟩] } =
      some [(false, 1, 0), (false, 2, 0), (false, 3, 0), (false, 4, 0), (false, 5, 0),
        (false, 6, 4294967295), (false, 7, 4294967295), (false, 8, 4294967295),
        (false, 9, 4294967295)] ∧
    ((shared_width[4]?).bind (fun node => node.args[1]?)).bind (node_of shared_width) =
      some { kind := NodeKind.PLACEHOLDER } ∧
    (for_nodes (reify_node sample_reify) (List.range shared_width.length)
        { nodes := shared_width }).map (fun st =>
          (((shared_width[4]?).bind (fun node => node.args[1]?)).bind (node_of st.nodes)).map
            (fun n => (n.kind, n.constant_value, n.owned))) =
      some (some (NodeKind.CONSTANT, ConstantValue.bytes 5, false)) ∧
    field_users shared_width 2 = [(3, 1), (4, 1)] := by
  refine ⟨by decide, by rfl, by rfl, by decide⟩

theorem first_loop_fills_fields_witness :
    (∃ st1, for_nodes (reify_node sample_reify) (List.range depth_first.length)
      { nodes := depth_first } = some st1 ∧
      st1.nodes[10]? = some (if (true, 4, 2).1
        then pointed_constant { kind := NodeKind.PLACEHOLDER } (true, 4, 2).2.2
        else { kind := NodeKind.PLACEHOLDER })) ∧
    field_users depth_first 10 = [(16, 4)] :=
  ⟨⟨_, rfl, first_loop_fills_fields sample_reify depth_first _ 16 10
      { kind := NodeKind.CONSTRUCT, type := [Ty.IMAGE],
        links := [{ def_ := ⟨some 16, 0⟩, urdef := ⟨some 16, 0⟩ }], args := depth_args }
      { kind := NodeKind.PLACEHOLDER }
      (image_fields sample_reify
        { format := 2, sample_count := 0, base_layer := 4294967295, layer_count := 4294967295,
          base_level := 4294967295, level_count := 4294967295 })
      (true, 4, 2) ⟨some 10, 0⟩ rfl rfl rfl rfl (by decide) rfl rfl rfl rfl (by decide)⟩,
   by decide⟩

end Vuk
